import Mathlib

/-!
# ZDRay collision core: a shallow embedding of `src/lightmap/collision.cpp`

The development embeds the bounding-volume hierarchy of `collision.cpp`:
the builder (`TriangleMeshShape` constructor and `subdivide`), the ray
kernels (`intersect_triangle_ray`, `IntersectionTest::ray_aabb`) and the ray
query drivers (`find_any_hit`, `find_first_hit`).

Conventions of the embedding.

* `float` is modelled by the exact rationals `ℚ`; `FLT_EPSILON` is `2⁻²³`.
  Rounding, infinities and NaN are outside the model.
* `int` / `unsigned int` values are `Int` / `Nat`.  Every integer the builder
  computes is bounded by `2 * num_elements`, itself an `int`, so no
  wrap-around is modelled.
* The vertex and element buffers are raw pointers in the source.  They are
  lists here, and a read outside a list yields zero; the theorems assume valid
  indices wherever the source needs them.
* Reads of the node array are checked: a read outside the array is the error
  `Fault.nodeIndex`.  Recursive drivers carry a recursion budget; running out
  of it is the error `Fault.fuel`.
* `collision.h` and the vector maths header are not among the sources.  What
  the code needs from them is either modelled from the specification (marked
  in the doc comment) or taken as a parameter (`mkRay`, `length`).
-/

namespace ZDRay

/-! ## Vectors -/

/-- Three floats `x`, `y`, `z`. -/
structure vec3 where
  x : ℚ
  y : ℚ
  z : ℚ
deriving DecidableEq

/-- Four floats `x`, `y`, `z`, `w`. -/
structure vec4 where
  x : ℚ
  y : ℚ
  z : ℚ
  w : ℚ
deriving DecidableEq

/-- Modelled from the spec: the value of a default-constructed `vec3`
(`vec3 median;` in `subdivide` is accumulated into without an explicit
initialiser; the spec describes the result as the centroid mean). -/
def vec3.zero : vec3 := ⟨0, 0, 0⟩

/-- Modelled from the spec: componentwise `operator+` of the maths header. -/
def vec3.add (a b : vec3) : vec3 := ⟨a.x + b.x, a.y + b.y, a.z + b.z⟩

/-- Modelled from the spec: componentwise `operator-` of the maths header. -/
def vec3.sub (a b : vec3) : vec3 := ⟨a.x - b.x, a.y - b.y, a.z - b.z⟩

/-- Modelled from the spec: `operator*(vec3, float)` of the maths header. -/
def vec3.scale (a : vec3) (f : ℚ) : vec3 := ⟨a.x * f, a.y * f, a.z * f⟩

/-- Modelled from the spec: `operator/=(vec3, float)` of the maths header. -/
def vec3.divide (a : vec3) (f : ℚ) : vec3 := ⟨a.x / f, a.y / f, a.z / f⟩

instance : Add vec3 := ⟨vec3.add⟩

instance : Sub vec3 := ⟨vec3.sub⟩

instance : HMul vec3 ℚ vec3 := ⟨vec3.scale⟩

/-- Modelled from the spec: dot product of two 3-vectors. -/
def dot (a b : vec3) : ℚ := a.x * b.x + a.y * b.y + a.z * b.z

/-- Modelled from the spec: cross product of two 3-vectors. -/
def cross (a b : vec3) : vec3 :=
  ⟨a.y * b.z - a.z * b.y, a.z * b.x - a.x * b.z, a.x * b.y - a.y * b.x⟩

/-- Modelled from the spec: the constructor `vec4(vec3, float)`. -/
def vec4.ofVec3 (a : vec3) (w : ℚ) : vec4 := ⟨a.x, a.y, a.z, w⟩

/-- Modelled from the spec: dot product of two 4-vectors. -/
def dot4 (a b : vec4) : ℚ := a.x * b.x + a.y * b.y + a.z * b.z + a.w * b.w

/-- The constant `FLT_EPSILON` of `<cfloat>`, `2⁻²³`. -/
def FLT_EPSILON : ℚ := 1 / 8388608

/-! ## Data model -/

/-- Modelled from the spec: `CollisionBBox` keeps `min`, `max` and the derived
`Center`, `Extents`. -/
structure CollisionBBox where
  min : vec3
  max : vec3
  Center : vec3
  Extents : vec3
deriving DecidableEq

/-- Modelled from the spec: the constructor `CollisionBBox(min, max)` with
`center = (min+max)/2` and `extents = (max-min)/2`. -/
def CollisionBBox.ofMinMax (mn mx : vec3) : CollisionBBox :=
  { min := mn, max := mx, Center := (mn + mx) * (1 / 2 : ℚ), Extents := (mx - mn) * (1 / 2 : ℚ) }

/-- Modelled from the spec: a node of the hierarchy (`aabb`, `left`, `right`,
`element_index`). -/
structure Node where
  aabb : CollisionBBox
  left : Int
  right : Int
  element_index : Int
deriving DecidableEq

/-- Modelled from the spec: the leaf constructor `Node(min, max, element_index)`;
the child indices keep the absent value `-1`. -/
def Node.leaf (mn mx : vec3) (element_index : Int) : Node :=
  { aabb := CollisionBBox.ofMinMax mn mx, left := -1, right := -1, element_index := element_index }

/-- Modelled from the spec: the internal constructor `Node(min, max, left, right)`;
`element_index` is `-1`. -/
def Node.inner (mn mx : vec3) (left right : Int) : Node :=
  { aabb := CollisionBBox.ofMinMax mn mx, left := left, right := right, element_index := -1 }

/-- Modelled from the spec: the ray in box form, with the segment end points and
the precomputed `c`, `w`, `v`. -/
structure RayBBox where
  start : vec3
  end_ : vec3
  c : vec3
  w : vec3
  v : vec3
deriving DecidableEq

/-- Modelled from the spec: the `RayBBox` constructor as section 3 words it,
`c = (start+end)/2`, `w = end - start`, `v = (|w.x|, |w.y|, |w.z|)/2`. -/
def RayBBox.ofSpec (ray_start ray_end : vec3) : RayBBox :=
  let w := ray_end - ray_start
  { start := ray_start, end_ := ray_end, c := (ray_start + ray_end) * (1 / 2 : ℚ), w := w,
    v := ⟨|w.x| / 2, |w.y| / 2, |w.z| / 2⟩ }

/-- Modelled from the spec: `TraceHit`, default-constructed as the no-hit
sentinel (`fraction = 1.0`, `triangle = -1`). -/
structure TraceHit where
  fraction : ℚ := 1
  triangle : Int := -1
  b : ℚ := 0
  c : ℚ := 0
deriving DecidableEq

/-- Ways in which a run of the model leaves the defined behaviour of the code. -/
inductive Fault where
  | nodeIndex (a : Int)
  | uninitialised
  | fuel
deriving DecidableEq

/-- The members of `TriangleMeshShape`. -/
structure TriangleMeshShape where
  vertices : List vec3
  num_vertices : Int
  elements : List Nat
  num_elements : Int
  nodes : List Node
  root : Int
deriving DecidableEq

/-- The read `shape->nodes[a]`; outside the array it is a fault. -/
def TriangleMeshShape.node (shape : TriangleMeshShape) (a : Int) : Except Fault Node :=
  if 0 ≤ a then
    match shape.nodes.get? a.toNat with
    | some n => .ok n
    | none => .error (Fault.nodeIndex a)
  else .error (Fault.nodeIndex a)

/-- The read `vertices[elements[k]]`. -/
def vertexAt (vertices : List vec3) (elements : List Nat) (k : Nat) : vec3 :=
  vertices.getD (elements.getD k 0) vec3.zero

/-! ## Builder -/

/-- One step of the inner vertex loop of `subdivide` (lines 611-617): fold a
vertex into the running `min` and `max`. -/
def growBounds (mm : vec3 × vec3) (vertex : vec3) : vec3 × vec3 :=
  (⟨min mm.1.x vertex.x, min mm.1.y vertex.y, min mm.1.z vertex.z⟩,
   ⟨max mm.2.x vertex.x, max mm.2.y vertex.y, max mm.2.z vertex.z⟩)

/-- The body of the outer loop of the bounds pass (lines 606-620) for one
triangle: its three vertices go into `min`/`max`, its centroid into `median`. -/
def boundsStep (vertices : List vec3) (elements : List Nat) (centroids : List vec3)
    (acc : (vec3 × vec3) × vec3) (triangle : Nat) : (vec3 × vec3) × vec3 :=
  let element_index := triangle * 3
  let mm := (List.range 3).foldl
    (fun mm j => growBounds mm (vertexAt vertices elements (element_index + j))) acc.1
  (mm, acc.2 + centroids.getD triangle vec3.zero)

/-- The bounds pass of `subdivide` (lines 600-622): `min`, `max` over all
vertices of the triangles, and `median`, the mean of their centroids. -/
def subdivide_bounds (vertices : List vec3) (elements : List Nat) (centroids : List vec3)
    (triangles : List Nat) : (vec3 × vec3) × vec3 :=
  let first := vertexAt vertices elements (triangles.headD 0 * 3)
  let acc := triangles.foldl (boundsStep vertices elements centroids) ((first, first), vec3.zero)
  (acc.1, acc.2.divide (triangles.length : ℚ))

/-- Insertion of an axis into an already ordered list, before the first axis
that is not longer. -/
def insertAxis (axis_lengths : Nat → ℚ) (a : Nat) : List Nat → List Nat
  | [] => [a]
  | b :: rest =>
    if axis_lengths b > axis_lengths a then b :: insertAxis axis_lengths a rest
    else a :: b :: rest

/-- The call `std::sort(axis_order, axis_order + 3, ...)` with the comparator
`axis_lengths[a] > axis_lengths[b]` (line 639).  The order of equally long axes
is not fixed by `std::sort`; the model sorts by insertion, as the standard
libraries do on three elements. -/
def sortAxes (axis_lengths : Nat → ℚ) (axis_order : List Nat) : List Nat :=
  axis_order.foldr (insertAxis axis_lengths) []

/-- The `switch` of lines 647-653: the unit vector of an axis number. -/
def axisVector (a : Nat) : vec3 :=
  match a with
  | 1 => ⟨0, 1, 0⟩
  | 2 => ⟨0, 0, 1⟩
  | _ => ⟨1, 0, 0⟩

/-- The value `side` of line 664 for one triangle. -/
def splitSide (centroids : List vec3) (plane : vec4) (triangle : Nat) : ℚ :=
  dot4 (vec4.ofVec3 (centroids.getD triangle vec3.zero) 1) plane

/-- One partition pass (lines 657-675).  The first component is what the loop
leaves in `work_buffer[0 .. left_count)`, the second what it leaves in
`work_buffer[num_triangles .. num_triangles + right_count)`. -/
def splitPass (centroids : List vec3) (median : vec3) (triangles : List Nat) (a : Nat) :
    List Nat × List Nat :=
  let axis := axisVector a
  let plane := vec4.ofVec3 axis (-(dot median axis))
  (triangles.filter (fun t => decide (splitSide centroids plane t ≥ 0)),
   triangles.filter (fun t => !decide (splitSide centroids plane t ≥ 0)))

/-- The attempt loop (lines 644-679) over the remaining axes: stop at the first
pass whose two sides are both non-empty, otherwise keep the last pass. -/
def splitAttempts (centroids : List vec3) (median : vec3) (triangles : List Nat) :
    List Nat → List Nat × List Nat → List Nat × List Nat
  | [], last => last
  | a :: rest, _ =>
    let s := splitPass centroids median triangles a
    if s.1.length ≠ 0 ∧ s.2.length ≠ 0 then s
    else splitAttempts centroids median triangles rest s

/-- Lines 630-694 of `subdivide`: the contents of `triangles[0 .. left_count)` and
of `triangles[left_count .. num_triangles)` when the children are built. -/
def subdivide_split (centroids : List vec3) (mn mx median : vec3) (triangles : List Nat) :
    List Nat × List Nat :=
  let axis_lengths : Nat → ℚ := fun a =>
    match a with
    | 0 => mx.x - mn.x
    | 1 => mx.y - mn.y
    | _ => mx.z - mn.z
  let axis_order := sortAxes axis_lengths [0, 1, 2]
  let s := splitAttempts centroids median triangles axis_order ([], [])
  if s.1.length = 0 ∨ s.2.length = 0 then
    let left_count := triangles.length / 2
    (triangles.take left_count, triangles.drop left_count)
  else s

/-- `TriangleMeshShape::subdivide` (lines 594-706).  The node array is passed
through explicitly; the result is the new node array and the returned index.
`triangles` is the sub-array the call works on: the two recursive calls work on
disjoint parts of it and the caller never reads it again, so it is passed by
value.  `fuel` bounds the recursion depth. -/
def subdivide (vertices : List vec3) (elements : List Nat) (centroids : List vec3) :
    Nat → List Node → List Nat → Except Fault (List Node × Int)
  | _, nodes, [] => .ok (nodes, -1)
  | 0, _, _ :: _ => .error Fault.fuel
  | fuel + 1, nodes, t0 :: ts =>
    let triangles := t0 :: ts
    let b := subdivide_bounds vertices elements centroids triangles
    let mn := b.1.1
    let mx := b.1.2
    let median := b.2
    if triangles.length = 1 then
      let nodes1 := nodes ++ [Node.leaf mn mx ((t0 * 3 : Nat) : Int)]
      .ok (nodes1, (nodes1.length : Int) - 1)
    else
      let s := subdivide_split centroids mn mx median triangles
      match (if s.1.length > 0 then subdivide vertices elements centroids fuel nodes s.1
             else .ok (nodes, -1)) with
      | .error e => .error e
      | .ok (nodesL, left_index) =>
        match (if s.2.length > 0 then subdivide vertices elements centroids fuel nodesL s.2
               else .ok (nodesL, -1)) with
        | .error e => .error e
        | .ok (nodesR, right_index) =>
          let nodes2 := nodesR ++ [Node.inner mn mx left_index right_index]
          .ok (nodes2, (nodes2.length : Int) - 1)

/-- The centroid of triangle `i` (line 47). -/
def centroidOf (vertices : List vec3) (elements : List Nat) (i : Nat) : vec3 :=
  let element_index := i * 3
  (vertexAt vertices elements (element_index + 0) + vertexAt vertices elements (element_index + 1)
    + vertexAt vertices elements (element_index + 2)) * (1 / 3 : ℚ)

/-- The constructor `TriangleMeshShape::TriangleMeshShape` (lines 31-54).  `root`
keeps its default member value `-1` (modelled from the spec) on the early
return.  The recursion budget handed to `subdivide` is the triangle count. -/
def TriangleMeshShape.create (vertices : List vec3) (num_vertices : Int) (elements : List Nat)
    (num_elements : Int) : Except Fault TriangleMeshShape :=
  let num_triangles := Int.tdiv num_elements 3
  if num_triangles ≤ 0 then
    .ok { vertices := vertices, num_vertices := num_vertices, elements := elements,
          num_elements := num_elements, nodes := [], root := -1 }
  else
    let triangles := List.range num_triangles.toNat
    let centroids := triangles.map (centroidOf vertices elements)
    match subdivide vertices elements centroids num_triangles.toNat [] triangles with
    | .error e => .error e
    | .ok (nodes, root) =>
      .ok { vertices := vertices, num_vertices := num_vertices, elements := elements,
            num_elements := num_elements, nodes := nodes, root := root }

/-! ## Ray kernels -/

/-- Result of the overlap tests of `IntersectionTest`. -/
inductive OverlapResult where
  | disjoint
  | overlap
deriving DecidableEq

/-- `IntersectionTest::ray_aabb` (lines 818-865), in the scalar form of lines
850-863.  The SSE form of lines 822-847 computes the same six comparisons on
lanes 0..2. -/
def IntersectionTest.ray_aabb (ray : RayBBox) (aabb : CollisionBBox) : OverlapResult :=
  let v := ray.v
  let w := ray.w
  let h := aabb.Extents
  let c := ray.c - aabb.Center
  if |c.x| > v.x + h.x ∨ |c.y| > v.y + h.y ∨ |c.z| > v.z + h.z then
    OverlapResult.disjoint
  else if |c.y * w.z - c.z * w.y| > h.y * v.z + h.z * v.y ∨
      |c.x * w.z - c.z * w.x| > h.x * v.z + h.z * v.x ∨
      |c.x * w.y - c.y * w.x| > h.x * v.y + h.y * v.x then
    OverlapResult.disjoint
  else
    OverlapResult.overlap

/-- What `intersect_triangle_ray` hands back: the returned float, and the values
written through `barycentricB`, `barycentricC` (`none` when the function returns
without writing them). -/
structure RayTriangle where
  t : ℚ
  bary : Option (ℚ × ℚ)
deriving DecidableEq

/-- Lines 249-299 of `intersect_triangle_ray`: the Moeller-Trumbore kernel on the
three loaded vertices `p0`, `p1`, `p2` and the ray end points. -/
def ray_triangle (p0 p1 p2 ray_start ray_end : vec3) : RayTriangle :=
  let D := ray_end - ray_start
  let e1 := p1 - p0
  let e2 := p2 - p0
  let P := cross D e2
  let det := dot e1 P
  if det > -FLT_EPSILON ∧ det < FLT_EPSILON then ⟨1, none⟩
  else
    let inv_det := 1 / det
    let T := ray_start - p0
    let u := dot T P * inv_det
    if u < 0 ∨ u > 1 then ⟨1, none⟩
    else
      let Q := cross T e1
      let v := dot D Q * inv_det
      if v < 0 ∨ u + v > 1 then ⟨1, none⟩
      else
        let t := dot e2 Q * inv_det
        if t ≤ FLT_EPSILON then ⟨1, none⟩
        else ⟨t, some (u, v)⟩

/-- The read `elements[i]` with an `int` index. -/
def elementAt (elements : List Nat) (i : Int) : Nat := elements.getD i.toNat 0

/-- `TriangleMeshShape::intersect_triangle_ray` (lines 238-300): load the three
vertices of the triangle of node `a`, then run the kernel. -/
def intersect_triangle_ray (shape : TriangleMeshShape) (ray : RayBBox) (a : Int) :
    Except Fault RayTriangle :=
  match shape.node a with
  | .error e => .error e
  | .ok n =>
    let start_element := n.element_index
    let p0 := shape.vertices.getD (elementAt shape.elements start_element) vec3.zero
    let p1 := shape.vertices.getD (elementAt shape.elements (start_element + 1)) vec3.zero
    let p2 := shape.vertices.getD (elementAt shape.elements (start_element + 2)) vec3.zero
    .ok (ray_triangle p0 p1 p2 ray.start ray.end_)

/-- `TriangleMeshShape::overlap_bv_ray` (lines 233-236). -/
def overlap_bv_ray (shape : TriangleMeshShape) (ray : RayBBox) (a : Int) : Except Fault Bool :=
  match shape.node a with
  | .error e => .error e
  | .ok n => .ok (decide (IntersectionTest.ray_aabb ray n.aabb = OverlapResult.overlap))

/-- `TriangleMeshShape::is_leaf` (lines 537-540). -/
def is_leaf (shape : TriangleMeshShape) (node_index : Int) : Except Fault Bool :=
  match shape.node node_index with
  | .error e => .error e
  | .ok n => .ok (decide (n.element_index ≠ -1))

/-! ## Ray query drivers -/

/-- The recursive `find_any_hit(shape, ray, a)` (lines 189-207). -/
def find_any_hit_node (shape : TriangleMeshShape) (ray : RayBBox) :
    Nat → Int → Except Fault Bool
  | 0, _ => .error Fault.fuel
  | fuel + 1, a =>
    match overlap_bv_ray shape ray a with
    | .error e => .error e
    | .ok false => .ok false
    | .ok true =>
      match is_leaf shape a with
      | .error e => .error e
      | .ok true =>
        match intersect_triangle_ray shape ray a with
        | .error e => .error e
        | .ok r => .ok (decide (r.t < 1))
      | .ok false =>
        match shape.node a with
        | .error e => .error e
        | .ok n =>
          match find_any_hit_node shape ray fuel n.left with
          | .error e => .error e
          | .ok true => .ok true
          | .ok false => find_any_hit_node shape ray fuel n.right

/-- The recursive `find_first_hit(shape, ray, a, hit)` (lines 209-231); the record
behind `hit` is passed in and handed back.  `baryB`, `baryC` are locals without
an initialiser: reading them when the kernel has not written them is a fault. -/
def find_first_hit_node (shape : TriangleMeshShape) (ray : RayBBox) :
    Nat → Int → TraceHit → Except Fault TraceHit
  | 0, _, _ => .error Fault.fuel
  | fuel + 1, a, hit =>
    match overlap_bv_ray shape ray a with
    | .error e => .error e
    | .ok false => .ok hit
    | .ok true =>
      match is_leaf shape a with
      | .error e => .error e
      | .ok true =>
        match intersect_triangle_ray shape ray a, shape.node a with
        | .error e, _ => .error e
        | _, .error e => .error e
        | .ok r, .ok n =>
          if r.t < hit.fraction then
            match r.bary with
            | none => .error Fault.uninitialised
            | some (baryB, baryC) =>
              .ok { fraction := r.t, triangle := Int.tdiv n.element_index 3, b := baryB, c := baryC }
          else .ok hit
      | .ok false =>
        match shape.node a with
        | .error e => .error e
        | .ok n =>
          match find_first_hit_node shape ray fuel n.left hit with
          | .error e => .error e
          | .ok hit1 => find_first_hit_node shape ray fuel n.right hit1

/-- The public `find_any_hit(shape, ray_start, ray_end)` (lines 71-74).  `mkRay` is
the `RayBBox` constructor of `collision.h`.  The recursion budget exceeds the
number of nodes, which is enough whenever child indices are below their
parent. -/
def find_any_hit (mkRay : vec3 → vec3 → RayBBox) (shape : TriangleMeshShape)
    (ray_start ray_end : vec3) : Except Fault Bool :=
  find_any_hit_node shape (mkRay ray_start ray_end) (shape.nodes.length + 1) shape.root

/-- The chunk loop of the public `find_first_hit` (lines 85-96), entered with the
loop variable `t`.  The first argument bounds the number of iterations. -/
def find_first_hit_loop (mkRay : vec3 → vec3 → RayBBox) (shape : TriangleMeshShape)
    (ray_start ray_dir : vec3) (tracedist segmentlen : ℚ) :
    Nat → ℚ → TraceHit → Except Fault TraceHit
  | 0, t, hit => if t < tracedist then .error Fault.fuel else .ok hit
  | k + 1, t, hit =>
    if t < tracedist then
      let segstart := t / tracedist
      let segend := min (t + segmentlen) tracedist / tracedist
      match find_first_hit_node shape
          (mkRay (ray_start + ray_dir * segstart) (ray_start + ray_dir * segend))
          (shape.nodes.length + 1) shape.root hit with
      | .error e => .error e
      | .ok hit1 =>
        if hit1.fraction < 1 then
          .ok { hit1 with fraction := segstart * (1 - hit1.fraction) + segend * hit1.fraction }
        else
          find_first_hit_loop mkRay shape ray_start ray_dir tracedist segmentlen k
            (t + segmentlen) hit1
    else .ok hit

/-- The public `find_first_hit(shape, ray_start, ray_end)` (lines 76-99).  `mkRay`
is the `RayBBox` constructor of `collision.h` and `length` the Euclidean norm of
the maths header (irrational in general, hence a parameter).  Twenty chunks
cover the ray, so the loop budget of 21 is never exhausted. -/
def find_first_hit (mkRay : vec3 → vec3 → RayBBox) (length : vec3 → ℚ)
    (shape : TriangleMeshShape) (ray_start ray_end : vec3) : Except Fault TraceHit :=
  let hit : TraceHit := {}
  let ray_dir := ray_end - ray_start
  let tracedist := length ray_dir
  let segmentlen := max 100 (tracedist / 20)
  find_first_hit_loop mkRay shape ray_start ray_dir tracedist segmentlen 21 0 hit

/-! ## Vocabulary of the statements -/

deriving instance DecidableEq for Except

/-- The point `p` lies in the closed box `[mn, mx]`, componentwise. -/
def Encloses (mn mx p : vec3) : Prop :=
  (mn.x ≤ p.x ∧ p.x ≤ mx.x) ∧ (mn.y ≤ p.y ∧ p.y ≤ mx.y) ∧ (mn.z ≤ p.z ∧ p.z ≤ mx.z)

instance (mn mx p : vec3) : Decidable (Encloses mn mx p) := by
  unfold Encloses
  infer_instance

/-- The number of triangles `num_elements / 3` of a mesh. -/
def numTriangles (num_elements : Int) : Nat := (Int.tdiv num_elements 3).toNat

/-- The buffers are well formed: the element buffer holds `num_elements` entries
and each of them indexes the vertex buffer. -/
def ValidMesh (vertices : List vec3) (elements : List Nat) (num_elements : Int) : Prop :=
  0 ≤ num_elements ∧ num_elements.toNat ≤ elements.length ∧
    ∀ k, k < num_elements.toNat → elements.getD k 0 < vertices.length

instance (vertices : List vec3) (elements : List Nat) (num_elements : Int) :
    Decidable (ValidMesh vertices elements num_elements) := by
  unfold ValidMesh
  infer_instance

/-- A hierarchy as a tree: what a call of `subdivide` appends, read as a term.
A leaf carries its box and triangle number, an inner node its box and the two
subtrees. -/
inductive BVH where
  | leaf (mn mx : vec3) (triangle : Nat)
  | inner (mn mx : vec3) (l r : BVH)
deriving DecidableEq

/-- Number of nodes of a tree. -/
def BVH.size : BVH → Nat
  | .leaf _ _ _ => 1
  | .inner _ _ l r => l.size + r.size + 1

/-- Triangle numbers of the leaves, left to right. -/
def BVH.leaves : BVH → List Nat
  | .leaf _ _ t => [t]
  | .inner _ _ l r => l.leaves ++ r.leaves

/-- Lower corner of the box at the top of a tree. -/
def BVH.mn : BVH → vec3
  | .leaf mn _ _ => mn
  | .inner mn _ _ _ => mn

/-- Upper corner of the box at the top of a tree. -/
def BVH.mx : BVH → vec3
  | .leaf _ mx _ => mx
  | .inner _ mx _ _ => mx

/-- The nodes of a tree in the order `subdivide` appends them (children before
their parent, left before right) when the first of them lands at index `off`. -/
def BVH.flatten (off : Nat) : BVH → List Node
  | .leaf mn mx t => [Node.leaf mn mx ((t * 3 : Nat) : Int)]
  | .inner mn mx l r =>
    l.flatten off ++ r.flatten (off + l.size) ++
      [Node.inner mn mx (((off + l.size : Nat) : Int) - 1)
        (((off + l.size + r.size : Nat) : Int) - 1)]

/-- Every box in the tree encloses the three vertices of every triangle below it. -/
def BVH.Bounded (vertices : List vec3) (elements : List Nat) : BVH → Prop
  | .leaf mn mx t => ∀ j, j < 3 → Encloses mn mx (vertexAt vertices elements (t * 3 + j))
  | .inner mn mx l r =>
    (∀ t ∈ l.leaves ++ r.leaves, ∀ j, j < 3 →
        Encloses mn mx (vertexAt vertices elements (t * 3 + j))) ∧
      l.Bounded vertices elements ∧ r.Bounded vertices elements

/-- Node `b` belongs to the subtree of node `a`: it is `a` itself or is reached
from it through `left` / `right` links of internal nodes. -/
inductive Descends (nodes : List Node) : Int → Int → Prop
  | here (a : Int) (n : Node) : 0 ≤ a → nodes.get? a.toNat = some n → Descends nodes a a
  | left (a b : Int) (n : Node) : 0 ≤ a → nodes.get? a.toNat = some n →
      n.element_index = -1 → Descends nodes n.left b → Descends nodes a b
  | right (a b : Int) (n : Node) : 0 ≤ a → nodes.get? a.toNat = some n →
      n.element_index = -1 → Descends nodes n.right b → Descends nodes a b

/-- The node array holds the tree `T` with its top node at index `a`. -/
inductive Represents (nodes : List Node) : Int → BVH → Prop
  | leaf (a : Int) (mn mx : vec3) (t : Nat) : 0 ≤ a →
      nodes.get? a.toNat = some (Node.leaf mn mx ((t * 3 : Nat) : Int)) →
      Represents nodes a (BVH.leaf mn mx t)
  | inner (a li ri : Int) (mn mx : vec3) (l r : BVH) : 0 ≤ a →
      nodes.get? a.toNat = some (Node.inner mn mx li ri) →
      li < a → ri < a → Represents nodes li l → Represents nodes ri r →
      Represents nodes a (BVH.inner mn mx l r)

/-- The determinant `det = e1 . (D x e2)` of the Moeller-Trumbore method, for the
triangle `p0 p1 p2` and the ray from `s` to `e`. -/
def mtDet (p0 p1 p2 s e : vec3) : ℚ := dot (p1 - p0) (cross (e - s) (p2 - p0))

/-- The first barycentric `u = (T . P) / det` of the Moeller-Trumbore method. -/
def mtU (p0 p1 p2 s e : vec3) : ℚ :=
  dot (s - p0) (cross (e - s) (p2 - p0)) * (1 / mtDet p0 p1 p2 s e)

/-- The second barycentric `v = (D . Q) / det` of the Moeller-Trumbore method. -/
def mtV (p0 p1 p2 s e : vec3) : ℚ :=
  dot (e - s) (cross (s - p0) (p1 - p0)) * (1 / mtDet p0 p1 p2 s e)

/-- The ray parameter `t = (e2 . Q) / det` of the Moeller-Trumbore method. -/
def mtT (p0 p1 p2 s e : vec3) : ℚ :=
  dot (p2 - p0) (cross (s - p0) (p1 - p0)) * (1 / mtDet p0 p1 p2 s e)

/-- The six miss conditions of the ray/triangle kernel as the spec lists them. -/
def mtMiss (p0 p1 p2 s e : vec3) : Prop :=
  |mtDet p0 p1 p2 s e| < FLT_EPSILON ∨ mtU p0 p1 p2 s e < 0 ∨ mtU p0 p1 p2 s e > 1 ∨
    mtV p0 p1 p2 s e < 0 ∨ mtU p0 p1 p2 s e + mtV p0 p1 p2 s e > 1 ∨
    mtT p0 p1 p2 s e ≤ FLT_EPSILON

instance (p0 p1 p2 s e : vec3) : Decidable (mtMiss p0 p1 p2 s e) := by
  unfold mtMiss
  infer_instance

/-- The three vertices `intersect_triangle_ray` loads for a node. -/
def nodeTriangle (shape : TriangleMeshShape) (n : Node) : vec3 × vec3 × vec3 :=
  (shape.vertices.getD (elementAt shape.elements n.element_index) vec3.zero,
   shape.vertices.getD (elementAt shape.elements (n.element_index + 1)) vec3.zero,
   shape.vertices.getD (elementAt shape.elements (n.element_index + 2)) vec3.zero)

/-- The kernel result for triangle number `t` of a mesh and a ray. -/
def triangleHit (vertices : List vec3) (elements : List Nat) (ray : RayBBox) (t : Nat) :
    RayTriangle :=
  ray_triangle (vertexAt vertices elements (t * 3)) (vertexAt vertices elements (t * 3 + 1))
    (vertexAt vertices elements (t * 3 + 2)) ray.start ray.end_

/-- The ray/box test against the box `(mn, mx)`, as a boolean. -/
def boxOverlap (ray : RayBBox) (mn mx : vec3) : Bool :=
  decide (IntersectionTest.ray_aabb ray (CollisionBBox.ofMinMax mn mx) = OverlapResult.overlap)

/-- The any-hit traversal read on a tree. -/
def BVH.anyHit (vertices : List vec3) (elements : List Nat) (ray : RayBBox) : BVH → Bool
  | .leaf mn mx t => boxOverlap ray mn mx && decide ((triangleHit vertices elements ray t).t < 1)
  | .inner mn mx l r =>
    boxOverlap ray mn mx && (l.anyHit vertices elements ray || r.anyHit vertices elements ray)

/-- The update of the hit record at a leaf of triangle `t` (lines 216-223). -/
def leafUpdate (vertices : List vec3) (elements : List Nat) (ray : RayBBox) (hit : TraceHit)
    (t : Nat) : TraceHit :=
  if (triangleHit vertices elements ray t).t < hit.fraction then
    match (triangleHit vertices elements ray t).bary with
    | some (b, c) =>
      { fraction := (triangleHit vertices elements ray t).t, triangle := (t : Int), b := b, c := c }
    | none => hit
  else hit

/-- The first-hit traversal read on a tree. -/
def BVH.firstHit (vertices : List vec3) (elements : List Nat) (ray : RayBBox) :
    BVH → TraceHit → TraceHit
  | .leaf mn mx t, hit => if boxOverlap ray mn mx then leafUpdate vertices elements ray hit t else hit
  | .inner mn mx l r, hit =>
    if boxOverlap ray mn mx then
      r.firstHit vertices elements ray (l.firstHit vertices elements ray hit)
    else hit

/-- The triangle `(p0, p1, p2)` has no area: its vertices are collinear or
coincide, that is, the cross product of its two edges at `p0` vanishes. -/
def Degenerate (p0 p1 p2 : vec3) : Prop := cross (p1 - p0) (p2 - p0) = vec3.zero

instance (p0 p1 p2 : vec3) : Decidable (Degenerate p0 p1 p2) := by
  unfold Degenerate
  infer_instance

/-- The closed segment from `s` to `e` and the closed box `[mn, mx]` share a
point. -/
def SegmentMeetsBox (s e mn mx : vec3) : Prop :=
  ∃ t : ℚ, 0 ≤ t ∧ t ≤ 1 ∧ Encloses mn mx (s + (e - s) * t)

/-- A `RayBBox` in which `c` is the midpoint of the segment, `w` the vector from
`c` to the end point (half the segment vector) and `v = (|w.x|, |w.y|, |w.z|)`. -/
def RayBBox.Halved (ray : RayBBox) : Prop :=
  ray.c = (ray.start + ray.end_) * (1 / 2 : ℚ) ∧ ray.w = ray.end_ - ray.c ∧
    ray.v = ⟨|ray.w.x|, |ray.w.y|, |ray.w.z|⟩

instance (ray : RayBBox) : Decidable ray.Halved := by
  unfold RayBBox.Halved
  infer_instance

/-- A `CollisionBBox` with `min ≤ max` componentwise and with `Center`, `Extents`
consistent with `min`, `max`. -/
def CollisionBBox.Consistent (box : CollisionBBox) : Prop :=
  (box.min.x ≤ box.max.x ∧ box.min.y ≤ box.max.y ∧ box.min.z ≤ box.max.z) ∧
    box.Center = (box.min + box.max) * (1 / 2 : ℚ) ∧
    box.Extents = (box.max - box.min) * (1 / 2 : ℚ)

instance (box : CollisionBBox) : Decidable box.Consistent := by
  unfold CollisionBBox.Consistent
  infer_instance

/-- Lower end of the range of `σ` with `|d + σ w| ≤ h` on one axis (`-1` when the
axis puts no bound on `σ`). -/
def slabLo (d w h : ℚ) : ℚ :=
  if 0 < w then (-h - d) / w else if w < 0 then (h - d) / w else -1

/-- Upper end of the range of `σ` with `|d + σ w| ≤ h` on one axis (`1` when the
axis puts no bound on `σ`). -/
def slabHi (d w h : ℚ) : ℚ :=
  if 0 < w then (h - d) / w else if w < 0 then (-h - d) / w else 1

/-- The triangle numbers of the leaves of a node array, in the order in which
the leaves were appended. -/
def leafOrder (nodes : List Node) : List Nat :=
  nodes.filterMap (fun n =>
    if n.element_index = -1 then none else some (Int.tdiv n.element_index 3).toNat)

/-! ## Sample inputs -/

/-- The Euclidean norm on vectors that lie along a coordinate axis, where it is
rational: the sum of the absolute components. -/
def axisLength (v : vec3) : ℚ := |v.x| + |v.y| + |v.z|

/-- Vertices of a sample mesh of four triangles. -/
def sampleVertices : List vec3 :=
  [⟨0, 0, 100⟩, ⟨4, 0, 100⟩, ⟨2, 4, 100⟩, ⟨0, 0, 5⟩, ⟨1, 0, 5⟩, ⟨0, 1, 5⟩, ⟨7, 7, 7⟩]

/-- Elements of the sample mesh of four triangles. -/
def sampleElements : List Nat := [0, 1, 2, 3, 4, 5, 3, 4, 6, 0, 1, 6]

/-- The triangle `((0,0,0),(1,0,0),(0,1,0))` of the spec's first scenario. -/
def unitVertices : List vec3 := [⟨0, 0, 0⟩, ⟨1, 0, 0⟩, ⟨0, 1, 0⟩]

/-- The shape the constructor builds for the single triangle `unitVertices`. -/
def unitShape : TriangleMeshShape :=
  { vertices := unitVertices, num_vertices := 3, elements := [0, 1, 2], num_elements := 3,
    nodes := [Node.leaf ⟨0, 0, 0⟩ ⟨1, 1, 0⟩ 0], root := 0 }

/-- The degenerate triangle `((0,0,0),(1,0,0),(2,0,0))` of the spec's sixth scenario. -/
def collinearVertices : List vec3 := [⟨0, 0, 0⟩, ⟨1, 0, 0⟩, ⟨2, 0, 0⟩]

/-- A `RayBBox` whose `w` is half the segment vector and whose `v` is `|w|`: an
instance of the constructor parameter `mkRay` under which `ray_aabb` is the
exact segment/box test. -/
def RayBBox.ofHalf (ray_start ray_end : vec3) : RayBBox :=
  let c := (ray_start + ray_end) * (1 / 2 : ℚ)
  let w := ray_end - c
  { start := ray_start, end_ := ray_end, c := c, w := w, v := ⟨|w.x|, |w.y|, |w.z|⟩ }

/-- A triangle in the plane `z = 2⁻¹³`, just above the start of a long ray. -/
def nearVertices : List vec3 :=
  [⟨0, 0, 1 / 8192⟩, ⟨4, 0, 1 / 8192⟩, ⟨2, 4, 1 / 8192⟩]

/-- The shape the constructor builds for the single triangle `nearVertices`. -/
def nearShape : TriangleMeshShape :=
  { vertices := nearVertices, num_vertices := 3, elements := [0, 1, 2], num_elements := 3,
    nodes := [Node.leaf ⟨0, 0, 1 / 8192⟩ ⟨4, 4, 1 / 8192⟩ 0], root := 0 }

/-- A triangle with edges of about `2⁻¹⁶` in the plane `z = 50`. -/
def tinyVertices : List vec3 := [⟨0, 0, 50⟩, ⟨1 / 65536, 0, 50⟩, ⟨1 / 131072, 1 / 65536, 50⟩]

/-- The shape the constructor builds for the single triangle `tinyVertices`. -/
def tinyShape : TriangleMeshShape :=
  { vertices := tinyVertices, num_vertices := 3, elements := [0, 1, 2], num_elements := 3,
    nodes := [Node.leaf ⟨0, 0, 50⟩ ⟨1 / 65536, 1 / 65536, 50⟩ 0], root := 0 }

/-- Vertices of a unit square in the plane `z = 0`, cut along a diagonal. -/
def squareVertices : List vec3 := [⟨0, 0, 0⟩, ⟨1, 0, 0⟩, ⟨0, 1, 0⟩, ⟨1, 1, 0⟩]

/-- Elements of the two triangles of the unit square. -/
def squareElements : List Nat := [0, 1, 2, 1, 3, 2]

/-! ## Boxes, spheres, planes and frusta -/

/-- Modelled from the spec: the plain box `BBox` with its corners `min`, `max`. -/
structure BBox where
  min : vec3
  max : vec3
deriving DecidableEq

/-- A `CollisionBBox` passed where a `const BBox &` is expected (base class). -/
def CollisionBBox.toBBox (b : CollisionBBox) : BBox := { min := b.min, max := b.max }

/-- Modelled from the spec: the method `BBox::Center()`, `(min+max)/2`. -/
def BBox.Center (b : BBox) : vec3 := (b.min + b.max) * (1 / 2 : ℚ)

/-- Modelled from the spec: the method `BBox::Extents()`, `(max-min)/2`. -/
def BBox.Extents (b : BBox) : vec3 := (b.max - b.min) * (1 / 2 : ℚ)

/-- Modelled from the spec: `SphereShape`, a centre and a radius. -/
structure SphereShape where
  center : vec3
  radius : ℚ
deriving DecidableEq

/-- Modelled from the spec: `OrientedBBox`, a centre, half-extents and three axes. -/
structure OrientedBBox where
  Center : vec3
  Extents : vec3
  axis_x : vec3
  axis_y : vec3
  axis_z : vec3
deriving DecidableEq

/-- Modelled from the spec: `FrustumPlanes`, the array `planes[6]`. -/
structure FrustumPlanes where
  planes : List vec4
deriving DecidableEq

/-- The read `frustum.planes[i]`. -/
def FrustumPlanes.plane (f : FrustumPlanes) (i : Nat) : vec4 := f.planes.getD i ⟨0, 0, 0, 0⟩

/-- Modelled from the spec: the three-valued result of the plane and frustum
tests. -/
inductive Result where
  | outside
  | inside
  | intersecting
deriving DecidableEq

/-- Modelled from the spec: `vec4::xyz()`. -/
def vec4.xyz (p : vec4) : vec3 := ⟨p.x, p.y, p.z⟩

/-- The value `d` of `IntersectionTest::sphere_aabb` (lines 751-760). -/
def IntersectionTest.sphere_aabb_d (center : vec3) (aabb : BBox) : ℚ :=
  let a := aabb.min - center
  let b := center - aabb.max
  let a : vec3 := ⟨max a.x 0, max a.y 0, max a.z 0⟩
  let b : vec3 := ⟨max b.x 0, max b.y 0, max b.z 0⟩
  let e := a + b
  dot e e

/-- `IntersectionTest::sphere_aabb` (lines 749-765). -/
def IntersectionTest.sphere_aabb (center : vec3) (radius : ℚ) (aabb : BBox) : OverlapResult :=
  let d := IntersectionTest.sphere_aabb_d center aabb
  if d > radius * radius then OverlapResult.disjoint else OverlapResult.overlap

/-- `IntersectionTest::aabb` (lines 767-779). -/
def IntersectionTest.aabb (a b : BBox) : OverlapResult :=
  if a.min.x > b.max.x ∨ b.min.x > a.max.x ∨ a.min.y > b.max.y ∨ b.min.y > a.max.y ∨
      a.min.z > b.max.z ∨ b.min.z > a.max.z then
    OverlapResult.disjoint
  else OverlapResult.overlap

/-- `IntersectionTest::plane_aabb` (lines 710-722). -/
def IntersectionTest.plane_aabb (plane : vec4) (aabb : BBox) : Result :=
  let center := aabb.Center
  let extents := aabb.Extents
  let e := extents.x * |plane.x| + extents.y * |plane.y| + extents.z * |plane.z|
  let s := center.x * plane.x + center.y * plane.y + center.z * plane.z + plane.w
  if s - e > 0 then Result.inside
  else if s + e < 0 then Result.outside
  else Result.intersecting

/-- `IntersectionTest::plane_obb` (lines 724-736). -/
def IntersectionTest.plane_obb (plane : vec4) (obb : OrientedBBox) : Result :=
  let n := plane.xyz
  let d := plane.w
  let e := obb.Extents.x * |dot obb.axis_x n| + obb.Extents.y * |dot obb.axis_y n|
    + obb.Extents.z * |dot obb.axis_z n|
  let s := dot obb.Center n + d
  if s - e > 0 then Result.inside
  else if s + e < 0 then Result.outside
  else Result.intersecting

/-- The loop of `frustum_aabb` (lines 784-792) entered at plane `i` with `6 - i`
passes to go: `none` when the loop ends without returning, together with the
flag `is_intersecting`.  The unconditional `break` of line 791 ends the loop at
the end of the pass it is entered with. -/
def IntersectionTest.frustum_aabb_loop (frustum : FrustumPlanes) (box : BBox) :
    Nat → Nat → Bool → Option Result × Bool
  | 0, _, is_intersecting => (none, is_intersecting)
  | _ + 1, i, is_intersecting =>
    match IntersectionTest.plane_aabb (frustum.plane i) box with
    | Result.outside => (some Result.outside, is_intersecting)
    | Result.intersecting => (none, true)
    | Result.inside => (none, is_intersecting)

/-- `IntersectionTest::frustum_aabb` (lines 781-797). -/
def IntersectionTest.frustum_aabb (frustum : FrustumPlanes) (box : BBox) : Result :=
  match IntersectionTest.frustum_aabb_loop frustum box 6 0 false with
  | (some r, _) => r
  | (none, true) => Result.intersecting
  | (none, false) => Result.inside

/-- The loop of `frustum_obb` (lines 802-809) entered at plane `i` with `6 - i`
passes to go. -/
def IntersectionTest.frustum_obb_loop (frustum : FrustumPlanes) (box : OrientedBBox) :
    Nat → Nat → Bool → Option Result × Bool
  | 0, _, is_intersecting => (none, is_intersecting)
  | k + 1, i, is_intersecting =>
    match IntersectionTest.plane_obb (frustum.plane i) box with
    | Result.outside => (some Result.outside, is_intersecting)
    | Result.intersecting => IntersectionTest.frustum_obb_loop frustum box k (i + 1) true
    | Result.inside => IntersectionTest.frustum_obb_loop frustum box k (i + 1) is_intersecting

/-- `IntersectionTest::frustum_obb` (lines 799-814). -/
def IntersectionTest.frustum_obb (frustum : FrustumPlanes) (box : OrientedBBox) : Result :=
  match IntersectionTest.frustum_obb_loop frustum box 6 0 false with
  | (some r, _) => r
  | (none, true) => Result.intersecting
  | (none, false) => Result.inside

/-- The accumulation the spec describes for a list of per-plane results:
outside if some plane reports outside, otherwise intersecting if some plane
reports intersecting, otherwise inside. -/
def accumulateResults (rs : List Result) : Result :=
  if Result.outside ∈ rs then Result.outside
  else if Result.intersecting ∈ rs then Result.intersecting
  else Result.inside

/-! ## Mesh against mesh -/

/-- `TriangleMeshShape::volume` (lines 542-546). -/
def volume (shape : TriangleMeshShape) (node_index : Int) : Except Fault ℚ :=
  match shape.node node_index with
  | .error e => .error e
  | .ok n => .ok (n.aabb.Extents.x * n.aabb.Extents.y * n.aabb.Extents.z)

/-- `TriangleMeshShape::overlap_bv` (lines 463-466). -/
def overlap_bv (shape1 shape2 : TriangleMeshShape) (a b : Int) : Except Fault Bool :=
  match shape1.node a, shape2.node b with
  | .error e, _ => .error e
  | _, .error e => .error e
  | .ok na, .ok nb =>
    .ok (decide (IntersectionTest.aabb na.aabb.toBBox nb.aabb.toBBox = OverlapResult.overlap))

/-- `TriangleMeshShape::overlap_bv_triangle` (lines 468-471): a stub. -/
def overlap_bv_triangle (_shape1 _shape2 : TriangleMeshShape) (_a _b : Int) : Bool := false

/-- `TriangleMeshShape::overlap_triangle_triangle` (lines 478-481): a stub. -/
def overlap_triangle_triangle (_shape1 _shape2 : TriangleMeshShape) (_a _b : Int) : Bool := false

/-- The step "test the first subtree, and the second only when the first finds
nothing" shared by the branches of the mesh/mesh driver. -/
def firstThenSecond (first : Except Fault Bool) (second : Except Fault Bool) : Except Fault Bool :=
  match first with
  | .error e => .error e
  | .ok true => .ok true
  | .ok false => second

/-- The recursive `find_any_hit(shape1, shape2, a, b)` (lines 136-187). -/
def find_any_hit_mesh_node (shape1 shape2 : TriangleMeshShape) :
    Nat → Int → Int → Except Fault Bool
  | 0, _, _ => .error Fault.fuel
  | fuel + 1, a, b =>
    match is_leaf shape1 a, is_leaf shape2 b with
    | .error e, _ => .error e
    | _, .error e => .error e
    | .ok true, .ok true => .ok (overlap_triangle_triangle shape1 shape2 a b)
    | .ok false, .ok false =>
      match overlap_bv shape1 shape2 a b, volume shape1 a, volume shape2 b,
          shape1.node a, shape2.node b with
      | .error e, _, _, _, _ => .error e
      | _, .error e, _, _, _ => .error e
      | _, _, .error e, _, _ => .error e
      | _, _, _, .error e, _ => .error e
      | _, _, _, _, .error e => .error e
      | .ok false, _, _, _, _ => .ok false
      | .ok true, .ok va, .ok vb, .ok na, .ok nb =>
        if va > vb then
          firstThenSecond (find_any_hit_mesh_node shape1 shape2 fuel na.left b)
            (find_any_hit_mesh_node shape1 shape2 fuel na.right b)
        else
          firstThenSecond (find_any_hit_mesh_node shape1 shape2 fuel a nb.left)
            (find_any_hit_mesh_node shape1 shape2 fuel a nb.right)
    | .ok true, .ok false =>
      match shape2.node b with
      | .error e => .error e
      | .ok nb =>
        if overlap_bv_triangle shape2 shape1 b a then
          firstThenSecond (find_any_hit_mesh_node shape1 shape2 fuel a nb.left)
            (find_any_hit_mesh_node shape1 shape2 fuel a nb.right)
        else .ok false
    | .ok false, .ok true =>
      match shape1.node a with
      | .error e => .error e
      | .ok na =>
        if overlap_bv_triangle shape1 shape2 a b then
          firstThenSecond (find_any_hit_mesh_node shape1 shape2 fuel na.left b)
            (find_any_hit_mesh_node shape1 shape2 fuel na.right b)
        else .ok false

/-- The public `find_any_hit(shape1, shape2)` (lines 61-64).  The recursion
budget exceeds the total number of nodes, which is enough whenever child
indices are below their parent. -/
def find_any_hit_mesh (shape1 shape2 : TriangleMeshShape) : Except Fault Bool :=
  find_any_hit_mesh_node shape1 shape2 (shape1.nodes.length + shape2.nodes.length + 1)
    shape1.root shape2.root

/-- The point of the box `[min, max]` nearest to `center`: `center` clamped to
the box on each axis. -/
def closestInBox (center : vec3) (aabb : BBox) : vec3 :=
  ⟨max aabb.min.x (min center.x aabb.max.x), max aabb.min.y (min center.y aabb.max.y),
   max aabb.min.z (min center.z aabb.max.z)⟩

/-- A frustum whose first plane has the unit cube inside and whose second plane
has it outside. -/
def sampleFrustum : FrustumPlanes :=
  { planes := [⟨1, 0, 0, 1⟩, ⟨-1, 0, 0, -5⟩, ⟨0, 1, 0, 1⟩, ⟨0, -1, 0, 2⟩, ⟨0, 0, 1, 1⟩,
      ⟨0, 0, -1, 2⟩] }

/-- The unit cube `[0,1]³`. -/
def unitCube : BBox := { min := ⟨0, 0, 0⟩, max := ⟨1, 1, 1⟩ }

/-- The unit cube as an oriented box with the coordinate axes. -/
def unitCubeOriented : OrientedBBox :=
  { Center := ⟨1 / 2, 1 / 2, 1 / 2⟩, Extents := ⟨1 / 2, 1 / 2, 1 / 2⟩, axis_x := ⟨1, 0, 0⟩,
    axis_y := ⟨0, 1, 0⟩, axis_z := ⟨0, 0, 1⟩ }

/-! ## Swept sphere -/

/-- Two floats `x`, `y`. -/
structure vec2 where
  x : ℚ
  y : ℚ
deriving DecidableEq

/-- Modelled from the spec: `normalize(v)`, the vector divided by its length
`sqrt(dot(v, v))`.  `sqrt` is the square root of the maths library, a parameter
of the model since it is irrational in general. -/
def normalize (sqrt : ℚ → ℚ) (v : vec3) : vec3 := v * (1 / sqrt (dot v v))

/-- Modelled from the spec: `operator+=(vec3, float)` of the maths header, which
adds the float to each component. -/
def vec3.addScalar (a : vec3) (f : ℚ) : vec3 := ⟨a.x + f, a.y + f, a.z + f⟩

/-- One pass of the crossing loop of lines 362-372; the state is
`(inside, e0, y0)`. -/
def crossingStep (point : vec2) (st : Bool × vec2 × Bool) (e1 : vec2) : Bool × vec2 × Bool :=
  let inside := st.1
  let e0 := st.2.1
  let y0 := st.2.2
  let y1 := decide (e1.y ≥ point.y)
  let inside :=
    if y0 ≠ y1 ∧
        decide ((e1.y - point.y) * (e0.x - e1.x) ≥ (e1.x - point.x) * (e0.y - e1.y)) = y1 then
      !inside
    else inside
  (inside, e1, y1)

/-- Step 1a (lines 342-376): the time `t` at which the centre is at signed
distance `r` from the plane, and whether the crossing test finds the point
`c + (e - c) * t` inside the polygon. -/
def sweepPlaneTest (p0 p1 p2 c e : vec3) (r sc se : ℚ) : ℚ × Bool :=
  let t := (sc - r) / (sc - se)
  let vt := c + (e - c) * t
  let u0 := p1 - p0
  let u1 := p2 - p0
  let v_2d : List vec2 := [⟨0, 0⟩, ⟨dot u0 u0, 0⟩, ⟨0, dot u1 u1⟩]
  let point : vec2 := ⟨dot u0 vt, dot u1 vt⟩
  let e0 : vec2 := ⟨0, dot u1 u1⟩
  let y0 := decide (e0.y ≥ point.y)
  let st := v_2d.foldl (crossingStep point) (false, e0, y0)
  (t, st.1)

/-- The root selection shared by the edge and the point tests (lines 413-424 and
443-454): the stable quadratic formula for `aa t² + bb t + cc = 0` and the
choice between its two roots. -/
def sweepRoot (sqrt : ℚ → ℚ) (aa bb cc : ℚ) : ℚ :=
  let sign : ℚ := if bb ≥ 0 then 1 else -1
  let q := -(1 / 2 : ℚ) * (bb + sign * sqrt (bb * bb - 4 * aa * cc))
  let t0 := q / aa
  let t1 := cc / q
  if t0 < 0 ∨ t0 > 1 then t1
  else if t1 < 0 ∨ t1 > 1 then t0
  else min t0 t1

/-- One pass of the edge loop (lines 400-433) for the edge starting at `pi` with
direction `kei`; `some t` when the pass returns `t`. -/
def sweepEdgeTest (sqrt : ℚ → ℚ) (pi kei c e : vec3) (r : ℚ) : Option ℚ :=
  let kg := pi - c
  let ks := e - c
  let kee := dot kei kei
  let keg := dot kei kg
  let kes := dot kei ks
  let kgg := dot kg kg
  let kgs := dot kg ks
  let kss := dot ks ks
  let aa := kee * kss - kes * kes
  let bb := 2 * (keg * kes - kee * kgs)
  let cc := kee * (kgg - r * r) - keg * keg
  let t := sweepRoot sqrt aa bb cc
  if t ≥ 0 ∧ t ≤ 1 then
    let ct := c + ks * t
    let d := dot (ct - pi) kei
    if d ≥ 0 ∧ d ≤ kee then some t else none
  else none

/-- One pass of the point loop (lines 437-458) for the vertex `pi`; `some t` when
the pass returns `t`. -/
def sweepPointTest (sqrt : ℚ → ℚ) (pi c e : vec3) (r : ℚ) : Option ℚ :=
  let kg := pi - c
  let ks := e - c
  let aa := dot ks ks
  let bb := -2 * dot kg ks
  let cc := dot kg kg - r * r
  let t := sweepRoot sqrt aa bb cc
  if t ≥ 0 ∧ t ≤ 1 then some t else none

/-- Lines 323-460 of `sweep_intersect_triangle_sphere`: the kernel on the three
loaded vertices, the sphere `(c, r)` and the target `e`.  Divisions are those of
`ℚ`; where the source divides by zero (infinities, NaN) the model is silent. -/
def sweep_triangle_sphere (sqrt : ℚ → ℚ) (p0 p1 p2 c e : vec3) (r : ℚ) : ℚ :=
  let n := normalize sqrt (cross (p1 - p0) (p2 - p0))
  let plane := vec4.ofVec3 n (-(dot n p0))
  let sc := dot4 plane (vec4.ofVec3 c 1)
  let se := dot4 plane (vec4.ofVec3 e 1)
  let same_side := decide (sc * se > 0)
  if same_side = true ∧ |sc| > r ∧ |se| > r then 1
  else
    let pt := sweepPlaneTest p0 p1 p2 c e r sc se
    if pt.2 = true then pt.1
    else
      match sweepEdgeTest sqrt p0 (p1 - p0) c e r with
      | some t => t
      | none =>
      match sweepEdgeTest sqrt p1 (p2 - p1) c e r with
      | some t => t
      | none =>
      match sweepEdgeTest sqrt p2 (p0 - p2) c e r with
      | some t => t
      | none =>
      match sweepPointTest sqrt p0 c e r with
      | some t => t
      | none =>
      match sweepPointTest sqrt p1 c e r with
      | some t => t
      | none =>
      match sweepPointTest sqrt p2 c e r with
      | some t => t
      | none => 1

/-- `TriangleMeshShape::sweep_intersect_triangle_sphere` (lines 312-461): load the
three vertices of the triangle of node `a`, then run the kernel. -/
def sweep_intersect_triangle_sphere (sqrt : ℚ → ℚ) (shape1 : TriangleMeshShape)
    (shape2 : SphereShape) (a : Int) (target : vec3) : Except Fault ℚ :=
  match shape1.node a with
  | .error e => .error e
  | .ok n =>
    .ok (sweep_triangle_sphere sqrt (nodeTriangle shape1 n).1 (nodeTriangle shape1 n).2.1
      (nodeTriangle shape1 n).2.2 shape2.center target shape2.radius)

/-- `TriangleMeshShape::sweep_overlap_bv_sphere` (lines 302-310): the ray test
against the node box with `Extents` enlarged by the radius. -/
def sweep_overlap_bv_sphere (mkRay : vec3 → vec3 → RayBBox) (shape1 : TriangleMeshShape)
    (shape2 : SphereShape) (a : Int) (target : vec3) : Except Fault Bool :=
  match shape1.node a with
  | .error e => .error e
  | .ok n =>
    let aabb : CollisionBBox := { n.aabb with Extents := n.aabb.Extents.addScalar shape2.radius }
    .ok (decide (IntersectionTest.ray_aabb (mkRay shape2.center target) aabb
      = OverlapResult.overlap))

/-- The recursive `sweep(shape1, shape2, a, target)` (lines 101-115). -/
def sweep_node (mkRay : vec3 → vec3 → RayBBox) (sqrt : ℚ → ℚ) (shape1 : TriangleMeshShape)
    (shape2 : SphereShape) (target : vec3) : Nat → Int → Except Fault ℚ
  | 0, _ => .error Fault.fuel
  | fuel + 1, a =>
    match sweep_overlap_bv_sphere mkRay shape1 shape2 a target with
    | .error e => .error e
    | .ok false => .ok 1
    | .ok true =>
      match is_leaf shape1 a with
      | .error e => .error e
      | .ok true => sweep_intersect_triangle_sphere sqrt shape1 shape2 a target
      | .ok false =>
        match shape1.node a with
        | .error e => .error e
        | .ok n =>
          match sweep_node mkRay sqrt shape1 shape2 target fuel n.left,
              sweep_node mkRay sqrt shape1 shape2 target fuel n.right with
          | .error e, _ => .error e
          | _, .error e => .error e
          | .ok l, .ok r => .ok (min l r)

/-- The public `sweep(shape1, shape2, target)` (lines 56-59). -/
def sweep (mkRay : vec3 → vec3 → RayBBox) (sqrt : ℚ → ℚ) (shape1 : TriangleMeshShape)
    (shape2 : SphereShape) (target : vec3) : Except Fault ℚ :=
  sweep_node mkRay sqrt shape1 shape2 target (shape1.nodes.length + 1) shape1.root

/-- Linear search for the integer square root: the largest `k` with `k * k ≤ n`,
counting up from `lo`. -/
def sqrtSearch (n : Nat) : Nat → Nat → Nat
  | 0, lo => lo
  | fuel + 1, lo => if (lo + 1) * (lo + 1) ≤ n then sqrtSearch n fuel (lo + 1) else lo

/-- A square root for the sample inputs: the integer roots of numerator and
denominator, exact on squares of rationals. -/
def squareRoot (x : ℚ) : ℚ :=
  (sqrtSearch x.num.toNat x.num.toNat 0 : ℚ) / (sqrtSearch x.den x.den 0 : ℚ)

/-- Vertices of a right triangle in the plane `z = 0` with its right angle at the
origin. -/
def cornerVertices : List vec3 := [⟨0, 0, 0⟩, ⟨4, 0, 0⟩, ⟨0, 4, 0⟩]

/-- The shape the constructor builds for the right triangle, wound
counter-clockwise seen from above. -/
def cornerShape : TriangleMeshShape :=
  { vertices := cornerVertices, num_vertices := 3, elements := [0, 1, 2], num_elements := 3,
    nodes := [Node.leaf ⟨0, 0, 0⟩ ⟨4, 4, 0⟩ 0],
    root := 0 }

/-- At time `t` of its motion from `c` to `e` the sphere of radius `r` reaches the
point of the triangle `(p0, p1, p2)` with barycentrics `u`, `v`: the centre
`c + (e - c) t` is within `r` of that point. -/
def sphereTouchesAt (p0 p1 p2 c e : vec3) (r t u v : ℚ) : Prop :=
  0 ≤ u ∧ 0 ≤ v ∧ u + v ≤ 1 ∧
    dot ((c + (e - c) * t) - (p0 + (p1 - p0) * u + (p2 - p0) * v))
        ((c + (e - c) * t) - (p0 + (p1 - p0) * u + (p2 - p0) * v)) ≤ r * r

instance (p0 p1 p2 c e : vec3) (r t u v : ℚ) :
    Decidable (sphereTouchesAt p0 p1 p2 c e r t u v) :=
  inferInstanceAs (Decidable (_ ∧ _ ∧ _ ∧ _))

/-! ## Sphere against triangle -/

/-- Lines 489-534 of `overlap_triangle_sphere`: the separating-axis test on the
three loaded vertices, the sphere centre `P` and the radius `r`. -/
def triangle_sphere_kernel (p0 p1 p2 P : vec3) (r : ℚ) : Bool :=
  let A := p0 - P
  let B := p1 - P
  let C := p2 - P
  let rr := r * r
  let V := cross (B - A) (C - A)
  let d := dot A V
  let e := dot V V
  let sep1 := decide (d * d > rr * e)
  let aa := dot A A
  let ab := dot A B
  let ac := dot A C
  let bb := dot B B
  let bc := dot B C
  let cc := dot C C
  let sep2 := decide (aa > rr) && decide (ab > aa) && decide (ac > aa)
  let sep3 := decide (bb > rr) && decide (ab > bb) && decide (bc > bb)
  let sep4 := decide (cc > rr) && decide (ac > cc) && decide (bc > cc)
  let AB := B - A
  let BC := C - B
  let CA := A - C
  let d1 := ab - aa
  let d2 := bc - bb
  let d3 := ac - cc
  let e1 := dot AB AB
  let e2 := dot BC BC
  let e3 := dot CA CA
  let Q1 := A * e1 - AB * d1
  let Q2 := B * e2 - BC * d2
  let Q3 := C * e3 - CA * d3
  let QC := C * e1 - Q1
  let QA := A * e2 - Q2
  let QB := B * e3 - Q3
  let sep5 := decide (dot Q1 Q1 > rr * e1 * e1) && decide (dot Q1 QC > 0)
  let sep6 := decide (dot Q2 Q2 > rr * e2 * e2) && decide (dot Q2 QA > 0)
  let sep7 := decide (dot Q3 Q3 > rr * e3 * e3) && decide (dot Q3 QB > 0)
  let separated := sep1 || sep2 || sep3 || sep4 || sep5 || sep6 || sep7
  !separated

/-- `TriangleMeshShape::overlap_triangle_sphere` (lines 483-535): load the three
vertices of the triangle of node `shape1_node_index`, then run the test. -/
def overlap_triangle_sphere (shape1 : TriangleMeshShape) (shape2 : SphereShape)
    (shape1_node_index : Int) : Except Fault Bool :=
  match shape1.node shape1_node_index with
  | .error e => .error e
  | .ok n =>
    .ok (triangle_sphere_kernel (nodeTriangle shape1 n).1 (nodeTriangle shape1 n).2.1
      (nodeTriangle shape1 n).2.2 shape2.center shape2.radius)

/-- The closed triangle `(p0, p1, p2)` contains a point at distance at most `r`
from `P`: a convex combination of the vertices whose squared distance to `P` is
at most `r²`, for a radius `r ≥ 0`. -/
def TriangleWithin (p0 p1 p2 P : vec3) (r : ℚ) : Prop :=
  0 ≤ r ∧ ∃ α β γ : ℚ, 0 ≤ α ∧ 0 ≤ β ∧ 0 ≤ γ ∧ α + β + γ = 1 ∧
    dot ((p0 * α + p1 * β + p2 * γ) - P) ((p0 * α + p1 * β + p2 * γ) - P) ≤ r * r

/-- The barycentric weight of the third vertex of the foot of the perpendicular
from the origin on the plane of a triangle, times the squared doubled area, in
terms of the dot products of the vertices: `(A × B) · V`. -/
def triWeight (aa ab ac bb bc _cc : ℚ) : ℚ :=
  (aa * bb - ab * ab) + (ab * bc - ac * bb) + (ac * ab - aa * bc)

/-- The squared doubled area `V · V` of a triangle in terms of the dot products of
its vertices. -/
def triArea (aa ab ac bb bc cc : ℚ) : ℚ :=
  triWeight bb bc ab cc ac aa + triWeight cc ac bc aa ab bb + triWeight aa ab ac bb bc cc

/-- The squared triple product `(A · V)²` in terms of the dot products of the
vertices. -/
def triDet (aa ab ac bb bc cc : ℚ) : ℚ :=
  aa * bb * cc + 2 * ab * ac * bc - aa * bc * bc - bb * ac * ac - cc * ab * ab

/-- The squared length of the combination `α A + β B + γ C` in terms of the dot
products of the vertices. -/
def triForm (aa ab ac bb bc cc α β γ : ℚ) : ℚ :=
  α * α * aa + β * β * bb + γ * γ * cc + 2 * α * β * ab + 2 * α * γ * ac + 2 * β * γ * bc

/-- The plane test of `overlap_triangle_sphere` on the vertices relative to the
sphere centre: the sphere lies outside the plane of the triangle. -/
def planeSeparates (A B C : vec3) (rr : ℚ) : Prop :=
  dot A (cross (B - A) (C - A)) * dot A (cross (B - A) (C - A))
    > rr * dot (cross (B - A) (C - A)) (cross (B - A) (C - A))

/-- The vertex test of `overlap_triangle_sphere` for the vertex with squared
length `aa` and dot products `ab`, `ac` with the other two. -/
def vertexSeparates (aa ab ac rr : ℚ) : Prop := aa > rr ∧ ab > aa ∧ ac > aa

/-- The edge test of `overlap_triangle_sphere` for the edge from `A` to `B` with
opposite vertex `C`. -/
def edgeSeparates (A B C : vec3) (rr : ℚ) : Prop :=
  dot (A * dot (B - A) (B - A) - (B - A) * (dot A B - dot A A))
      (A * dot (B - A) (B - A) - (B - A) * (dot A B - dot A A))
    > rr * dot (B - A) (B - A) * dot (B - A) (B - A) ∧
  dot (A * dot (B - A) (B - A) - (B - A) * (dot A B - dot A A))
      (C * dot (B - A) (B - A) - (A * dot (B - A) (B - A) - (B - A) * (dot A B - dot A A))) > 0

/-- The shape the constructor builds for the collinear triangle. -/
def collinearShape : TriangleMeshShape :=
  { vertices := collinearVertices, num_vertices := 3, elements := [0, 1, 2], num_elements := 3,
    nodes := [Node.leaf ⟨0, 0, 0⟩ ⟨2, 0, 0⟩ 0], root := 0 }

/-! ## TMap -/

/-- A `Node*` of a `TMap`: the marker `(Node*)1` of a free node, `NULL`, or the
address `&Nodes[i]`. -/
inductive NodePtr where
  | one
  | null
  | node (i : Nat)
deriving DecidableEq

/-- `TMap::Node`: the `Next` pointer and the pair.  A `Key` or `Value` of `none` is
storage that has never been constructed. -/
structure TMap.Node (K V : Type) where
  Next : NodePtr
  Key : Option K
  Value : Option V
deriving DecidableEq

/-- The members of `TMap`: the node vector, `LastFree` as an index into it, `Size`
and `NumUsed` (both `hash_t`, 32 bits). -/
structure TMap (K V : Type) where
  Nodes : List (TMap.Node K V)
  LastFree : Int
  Size : Nat
  NumUsed : Nat
deriving DecidableEq

/-- `THashTraits<KT>`: the hash of a key and `Compare`, which is true (non-zero)
when the keys differ. -/
structure THashTraits (K : Type) where
  Hash : K → Nat
  Compare : K → K → Bool

/-- `Node::IsNil`. -/
def TMap.Node.IsNil {K V : Type} (n : TMap.Node K V) : Bool := decide (n.Next = NodePtr.one)

/-- The read `Nodes[i]`; outside the vector it is a fault. -/
def TMap.nodeAt {K V : Type} (m : TMap K V) (i : Nat) : Except Fault (TMap.Node K V) :=
  match m.Nodes.get? i with
  | some n => .ok n
  | none => .error (Fault.nodeIndex i)

/-- The write `Nodes[i] = n`. -/
def TMap.setNode {K V : Type} (m : TMap K V) (i : Nat) (n : TMap.Node K V) : TMap K V :=
  { m with Nodes := m.Nodes.set i n }

/-- `TMap::MainPosition` (lines 716-726), as an index: `Hash(k) & (Size - 1)` in
32-bit unsigned arithmetic. -/
def TMap.MainPosition {K V : Type} (traits : THashTraits K) (m : TMap K V) (k : K) : Nat :=
  (traits.Hash k % 2 ^ 32) &&& ((m.Size + 2 ^ 32 - 1) % 2 ^ 32)

/-- The loop `for (Size = 1; Size < size; Size <<= 1)` of `SetNodeVector`; it does
not end when `size` exceeds `2^31`. -/
def roundUpSize (size : Nat) : Nat → Nat → Except Fault Nat
  | 0, _ => .error Fault.fuel
  | fuel + 1, s => if s < size then roundUpSize size fuel ((s <<< 1) % 2 ^ 32) else .ok s

/-- `TMap::SetNodeVector` (lines 728-740): a fresh vector of `Size` free nodes, with
`LastFree` one past its end. -/
def TMap.SetNodeVector {K V : Type} (m : TMap K V) (size : Nat) : Except Fault (TMap K V) :=
  match roundUpSize size 33 1 with
  | .error e => .error e
  | .ok s =>
    .ok { m with Size := s, Nodes := List.replicate s ⟨NodePtr.one, none, none⟩, LastFree := s }

/-- The constructor `TMap()` (line 459). -/
def TMap.create {K V : Type} : Except Fault (TMap K V) :=
  TMap.SetNodeVector { Nodes := [], LastFree := 0, Size := 0, NumUsed := 0 } 1

/-- The loop of `GetFreePos` from `LastFree = lf > 0`: the new `LastFree` and the
free node found, if any. -/
def scanFree {K V : Type} (nodes : List (TMap.Node K V)) : Nat → Except Fault (Int × Option Nat)
  | 0 => .ok (-1, none)
  | lf + 1 =>
    match nodes.get? lf with
    | none => .error (Fault.nodeIndex lf)
    | some n => if n.IsNil then .ok (lf, some lf) else scanFree nodes lf

/-- `TMap::GetFreePos` (lines 783-793). -/
def TMap.GetFreePos {K V : Type} (m : TMap K V) : Except Fault (TMap K V × Option Nat) :=
  if m.LastFree ≤ 0 then .ok ({ m with LastFree := m.LastFree - 1 }, none)
  else
    match scanFree m.Nodes m.LastFree.toNat with
    | .error e => .error e
    | .ok (lf, n) => .ok ({ m with LastFree := lf }, n)

/-- The loop `while (othern->Next != mp) othern = othern->Next;` of `NewKey`.  A
read through `NULL` or `(Node*)1` is a read outside the vector. -/
def findPrevious {K V : Type} (m : TMap K V) (mp : Nat) : Nat → Nat → Except Fault Nat
  | 0, _ => .error Fault.fuel
  | fuel + 1, othern =>
    match m.nodeAt othern with
    | .error e => .error e
    | .ok n =>
      match n.Next with
      | NodePtr.node j => if j = mp then .ok othern else findPrevious m mp fuel j
      | _ => .error (Fault.nodeIndex (-1))

/-- The tail of `NewKey` (lines 838-840): count the node at `mp` and construct its
key. -/
def TMap.finishKey {K V : Type} (m : TMap K V) (mp : Nat) (key : K) :
    Except Fault (TMap K V × Nat) :=
  match m.nodeAt mp with
  | .error e => .error e
  | .ok n =>
    .ok ({ m.setNode mp { n with Key := some key } with NumUsed := (m.NumUsed + 1) % 2 ^ 32 },
      mp)

/-- Construct or assign the value of the node at `n`. -/
def TMap.setValue {K V : Type} (m : TMap K V) (n : Nat) (value : Option V) :
    Except Fault (TMap K V) :=
  match m.nodeAt n with
  | .error e => .error e
  | .ok nd => .ok (m.setNode n { nd with Value := value })

/-- The loop of `Resize` (lines 766-774) over the old vector `nold`, with `NewKey`
as a parameter. -/
def resizeLoop {K V : Type} (newKey : TMap K V → K → Except Fault (TMap K V × Nat))
    (nold : List (TMap.Node K V)) : List Nat → TMap K V → Except Fault (TMap K V)
  | [], m => .ok m
  | i :: rest, m =>
    match nold.get? i with
    | none => .error (Fault.nodeIndex i)
    | some nd =>
      if nd.IsNil then resizeLoop newKey nold rest m
      else
        match nd.Key with
        | none => .error Fault.uninitialised
        | some k =>
          match newKey m k with
          | .error e => .error e
          | .ok (m1, n) =>
            match m1.setValue n nd.Value with
            | .error e => .error e
            | .ok m2 => resizeLoop newKey nold rest m2

/-- `TMap::Resize` (lines 758-776), with `NewKey` as a parameter. -/
def TMap.ResizeWith {K V : Type} (newKey : TMap K V → K → Except Fault (TMap K V × Nat))
    (m : TMap K V) (nhsize : Nat) : Except Fault (TMap K V) :=
  match m.SetNodeVector nhsize with
  | .error e => .error e
  | .ok m0 => resizeLoop newKey m.Nodes (List.range m.Size) { m0 with NumUsed := 0 }

/-- `TMap::NewKey` (lines 804-841); the fuel bounds the depth of the recursion
through `Rehash`. -/
def TMap.NewKey {K V : Type} (traits : THashTraits K) :
    Nat → TMap K V → K → Except Fault (TMap K V × Nat)
  | 0, _, _ => .error Fault.fuel
  | fuel + 1, m, key =>
    let mp := m.MainPosition traits key
    match m.nodeAt mp with
    | .error e => .error e
    | .ok mpNode =>
      if mpNode.IsNil then (m.setNode mp { mpNode with Next := NodePtr.null }).finishKey mp key
      else
        match m.GetFreePos with
        | .error e => .error e
        | .ok (m1, none) =>
          match TMap.ResizeWith (TMap.NewKey traits fuel) m1 ((m1.Size <<< 1) % 2 ^ 32) with
          | .error e => .error e
          | .ok m2 => TMap.NewKey traits fuel m2 key
        | .ok (m1, some n) =>
          match mpNode.Key with
          | none => .error Fault.uninitialised
          | some mpKey =>
            let othern := m1.MainPosition traits mpKey
            if othern ≠ mp then
              match findPrevious m1 mp (m1.Size + 1) othern with
              | .error e => .error e
              | .ok prev =>
                match m1.nodeAt prev with
                | .error e => .error e
                | .ok prevNode =>
                  let m2 := m1.setNode prev { prevNode with Next := NodePtr.node n }
                  match m2.nodeAt mp with
                  | .error e => .error e
                  | .ok moved =>
                    let m3 := m2.setNode n moved
                    (m3.setNode mp { moved with Next := NodePtr.null }).finishKey mp key
            else
              match m1.nodeAt n with
              | .error e => .error e
              | .ok free =>
                let m2 := m1.setNode n { free with Next := mpNode.Next }
                (m2.setNode mp { mpNode with Next := NodePtr.node n }).finishKey n key

/-- `TMap::Rehash` (lines 778-781). -/
def TMap.Rehash {K V : Type} (traits : THashTraits K) (fuel : Nat) (m : TMap K V) :
    Except Fault (TMap K V) :=
  TMap.ResizeWith (TMap.NewKey traits fuel) m ((m.Size <<< 1) % 2 ^ 32)

/-- The loop of `FindKey` (lines 887-890) from the pointer `n`: the node found, or
`none` for `NULL`. -/
def findKeyLoop {K V : Type} (traits : THashTraits K) (m : TMap K V) (key : K) :
    Nat → NodePtr → Except Fault (Option Nat)
  | 0, _ => .error Fault.fuel
  | _ + 1, NodePtr.null => .ok none
  | _ + 1, NodePtr.one => .error (Fault.nodeIndex (-1))
  | fuel + 1, NodePtr.node i =>
    match m.nodeAt i with
    | .error e => .error e
    | .ok nd =>
      if nd.IsNil then .ok none
      else
        match nd.Key with
        | none => .error Fault.uninitialised
        | some k => if traits.Compare k key then findKeyLoop traits m key fuel nd.Next
          else .ok (some i)

/-- `TMap::FindKey` (lines 883-892). -/
def TMap.FindKey {K V : Type} (traits : THashTraits K) (m : TMap K V) (key : K) :
    Except Fault (Option Nat) :=
  findKeyLoop traits m key (m.Size + 1) (NodePtr.node (m.MainPosition traits key))

/-- `TMap::CheckKey` (lines 595-599), with the pointer it returns dereferenced:
`none` for `NULL`, else the value stored in the node. -/
def TMap.CheckKey {K V : Type} (traits : THashTraits K) (m : TMap K V) (key : K) :
    Except Fault (Option V) :=
  match m.FindKey traits key with
  | .error e => .error e
  | .ok none => .ok none
  | .ok (some n) =>
    match m.nodeAt n with
    | .error e => .error e
    | .ok nd =>
      match nd.Value with
      | none => .error Fault.uninitialised
      | some v => .ok (some v)

/-- `TMap::CountUsed` (lines 550-565). -/
def TMap.CountUsed {K V : Type} (m : TMap K V) : Nat := m.NumUsed

/-- `TMap::Insert` (lines 620-633); the fuel is that of `NewKey`.  The source
takes `value` by reference; it is taken to refer to an object outside the
table, so that it is read as the value it had at the call. -/
def TMap.Insert {K V : Type} (traits : THashTraits K) (fuel : Nat) (m : TMap K V) (key : K)
    (value : V) : Except Fault (TMap K V) :=
  match m.FindKey traits key with
  | .error e => .error e
  | .ok (some n) => m.setValue n (some value)
  | .ok none =>
    match TMap.NewKey traits fuel m key with
    | .error e => .error e
    | .ok (m1, n) => m1.setValue n (some value)

/-- The loop of `DelKey` (line 869) looking for the key along the chain: the node
holding the pointer `mp` and the node found, or `none` for `NULL`. -/
def delKeyLoop {K V : Type} (traits : THashTraits K) (m : TMap K V) (key : K) :
    Nat → Nat → NodePtr → Except Fault (Option (Nat × Nat))
  | 0, _, _ => .error Fault.fuel
  | _ + 1, _, NodePtr.null => .ok none
  | _ + 1, _, NodePtr.one => .error (Fault.nodeIndex (-1))
  | fuel + 1, prev, NodePtr.node i =>
    match m.nodeAt i with
    | .error e => .error e
    | .ok nd =>
      match nd.Key with
      | none => .error Fault.uninitialised
      | some k => if traits.Compare k key then delKeyLoop traits m key fuel i nd.Next
        else .ok (some (prev, i))

/-- `TMap::DelKey` (lines 843-881). -/
def TMap.DelKey {K V : Type} (traits : THashTraits K) (m : TMap K V) (key : K) :
    Except Fault (TMap K V) :=
  let mp := m.MainPosition traits key
  match m.nodeAt mp with
  | .error e => .error e
  | .ok mpNode =>
    if mpNode.IsNil then .ok m
    else
      match mpNode.Key with
      | none => .error Fault.uninitialised
      | some k =>
        if !traits.Compare k key then
          match mpNode.Next with
          | NodePtr.node n =>
            match m.nodeAt n with
            | .error e => .error e
            | .ok nd =>
              let m1 := m.setNode mp nd
              match m1.nodeAt n with
              | .error e => .error e
              | .ok nd1 =>
                .ok { m1.setNode n { nd1 with Next := NodePtr.one } with
                  NumUsed := (m.NumUsed + 2 ^ 32 - 1) % 2 ^ 32 }
          | _ =>
            .ok { m.setNode mp { mpNode with Next := NodePtr.one } with
              NumUsed := (m.NumUsed + 2 ^ 32 - 1) % 2 ^ 32 }
        else
          match delKeyLoop traits m key (m.Size + 1) mp mpNode.Next with
          | .error e => .error e
          | .ok none => .ok m
          | .ok (some (prev, i)) =>
            match m.nodeAt i with
            | .error e => .error e
            | .ok nd =>
              match m.nodeAt prev with
              | .error e => .error e
              | .ok prevNode =>
                let m1 := m.setNode prev { prevNode with Next := nd.Next }
                match m1.nodeAt i with
                | .error e => .error e
                | .ok nd1 =>
                  .ok { m1.setNode i { nd1 with Next := NodePtr.one } with
                    NumUsed := (m.NumUsed + 2 ^ 32 - 1) % 2 ^ 32 }

/-- `TMap::Remove` (lines 673-676). -/
def TMap.Remove {K V : Type} (traits : THashTraits K) (m : TMap K V) (key : K) :
    Except Fault (TMap K V) :=
  m.DelKey traits key

/-- The traits of `float` keys (lines 399-409) on bit patterns: the hash is the
bit pattern, and `Compare` is `left != right` on floats, which is true whenever
an operand is a NaN and false for the two zeros. -/
def floatTraits : THashTraits Nat :=
  { Hash := fun key => key,
    Compare := fun left right =>
      let isNaN := fun (x : Nat) => decide (x &&& 0x7F800000 = 0x7F800000 ∧ x &&& 0x007FFFFF ≠ 0)
      let isZero := fun (x : Nat) => decide (x &&& 0x7FFFFFFF = 0)
      isNaN left || isNaN right || !(decide (left = right) || (isZero left && isZero right)) }

/-- The traits of an integer key type (lines 384-397): the hash is the key
truncated to 32 bits, and `Compare` is `left != right`. -/
def intTraits : THashTraits Nat :=
  { Hash := fun key => key % 2 ^ 32, Compare := fun left right => decide (left ≠ right) }

/-- The maps built from `TMap()` by `Insert` and `Remove`. -/
inductive TMap.Reachable {K V : Type} (traits : THashTraits K) : TMap K V → Prop
  | create (m : TMap K V) : TMap.create = .ok m → TMap.Reachable traits m
  | insert (m m1 : TMap K V) (fuel : Nat) (key : K) (value : V) :
      TMap.Reachable traits m → TMap.Insert traits fuel m key value = .ok m1 →
      TMap.Reachable traits m1
  | remove (m m1 : TMap K V) (key : K) :
      TMap.Reachable traits m → TMap.Remove traits m key = .ok m1 → TMap.Reachable traits m1

/-- The `Next` pointer of node `i`, when `i` is in the vector. -/
def TMap.nextAt {K V : Type} (m : TMap K V) (i : Nat) : Option NodePtr :=
  (m.Nodes.get? i).map (fun n => n.Next)

/-- The key of node `i`, when `i` is in the vector and the key is constructed. -/
def TMap.keyAt {K V : Type} (m : TMap K V) (i : Nat) : Option K :=
  (m.Nodes.get? i).bind (fun n => n.Key)

/-- The value of node `i`, when `i` is in the vector and the value is constructed. -/
def TMap.valueAt {K V : Type} (m : TMap K V) (i : Nat) : Option V :=
  (m.Nodes.get? i).bind (fun n => n.Value)

/-- Node `i` is in the vector and not free. -/
def TMap.usedB {K V : Type} (m : TMap K V) (i : Nat) : Bool :=
  match m.nextAt i with
  | some p => decide (p ≠ NodePtr.one)
  | none => false

/-- The pointer to the first node of a list of nodes, `NULL` for the empty list. -/
def headPtr : List Nat → NodePtr
  | [] => NodePtr.null
  | i :: _ => NodePtr.node i

/-- The nodes of the list form a chain: each points to the next and the last to
`NULL`. -/
def TMap.Linked {K V : Type} (m : TMap K V) : List Nat → Prop
  | [] => True
  | i :: t => m.nextAt i = some (headPtr t) ∧ TMap.Linked m t

/-- The key comparison of the traits is equality. -/
def THashTraits.Lawful {K : Type} (traits : THashTraits K) : Prop :=
  ∀ a b, traits.Compare a b = false ↔ a = b

/-- The chains of a hash table: `chain p` is empty or starts at `p`, its nodes
are linked and distinct, they hold the keys whose main position is `p`, and
every node in use is in the chain of the main position of its key. -/
def TMap.Chains {K V : Type} (traits : THashTraits K) (m : TMap K V)
    (chain : Nat → List Nat) : Prop :=
  (∀ p, chain p = [] ∨ ∃ t, chain p = p :: t) ∧
  (∀ p, m.Linked (chain p)) ∧
  (∀ p, (chain p).Nodup) ∧
  (∀ p i, i ∈ chain p → ∃ k, m.keyAt i = some k ∧ m.MainPosition traits k = p) ∧
  (∀ i k, m.usedB i = true → m.keyAt i = some k → i ∈ chain (m.MainPosition traits k))

/-- The invariant of the hash table: the size is a power of two, `NumUsed` counts
the nodes in use, every node in use has a key of its own, and the nodes in use
form the chains of the main positions of their keys. -/
structure TMap.WF {K V : Type} (traits : THashTraits K) (m : TMap K V) : Prop where
  size : ∃ j, j ≤ 31 ∧ m.Size = 2 ^ j
  length : m.Nodes.length = m.Size
  lastFree : m.LastFree ≤ m.Size
  numUsed : m.NumUsed = (List.range m.Size).countP m.usedB
  keys : ∀ i, m.usedB i = true → ∃ k, m.keyAt i = some k
  distinct : ∀ i j k, m.usedB i = true → m.usedB j = true → m.keyAt i = some k →
    m.keyAt j = some k → i = j
  chains : ∃ chain : Nat → List Nat, m.Chains traits chain

/-- Every node from `LastFree` on is in use: the state of a table without
removals. -/
def TMap.Fresh {K V : Type} (m : TMap K V) : Prop :=
  ∀ i : Nat, m.LastFree ≤ i → i < m.Size → m.usedB i = true

/-- The table holds the key `k` in a node in use, with the value slot `v`. -/
def TMap.Has {K V : Type} (m : TMap K V) (k : K) (v : Option V) : Prop :=
  ∃ i, m.usedB i = true ∧ m.keyAt i = some k ∧ m.valueAt i = v

/-- Node `i` holds a key that `Compare` reports equal to `key`. -/
def TMap.matchKey {K V : Type} (traits : THashTraits K) (m : TMap K V) (key : K) (i : Nat) :
    Bool :=
  match m.keyAt i with
  | some k => !traits.Compare k key
  | none => false

/-- What `NewKey` establishes for a key that is not in the table: a well-formed
table with one more node in use, holding the key at the returned node, and the
pairs of the old table. -/
structure TMap.NewKeySpec {K V : Type} (traits : THashTraits K) (m : TMap K V) (k : K)
    (m1 : TMap K V) (idx : Nat) : Prop where
  wf : m1.WF traits
  used : m1.usedB idx = true
  key : m1.keyAt idx = some k
  numUsed : m1.NumUsed = m.NumUsed + 1
  has : ∀ k1 v, m1.Has k1 v ↔ m.Has k1 v ∨ (k1 = k ∧ v = m1.valueAt idx)

/-- No node in use holds the key `k`. -/
def TMap.Absent {K V : Type} (m : TMap K V) (k : K) : Prop :=
  ∀ i, m.usedB i = true → m.keyAt i ≠ some k

/-- The table `m1` is `m` with the pair `(k, v)` added, for a key that `m` does not
hold. -/
structure TMap.PutSpec {K V : Type} (traits : THashTraits K) (m : TMap K V) (k : K)
    (v : Option V) (m1 : TMap K V) : Prop where
  wf : m1.WF traits
  numUsed : m1.NumUsed = m.NumUsed + 1
  has : ∀ k1 v1, m1.Has k1 v1 ↔ m.Has k1 v1 ∨ (k1 = k ∧ v1 = v)

/-! ## The SSE form of the ray/box test -/

/-- An `__m128`: four float lanes, lane 0 first. -/
structure m128 where
  f0 : ℚ
  f1 : ℚ
  f2 : ℚ
  f3 : ℚ
deriving DecidableEq

/-- The result of a packed compare: per lane, all bits set (`true`) or clear. -/
structure m128mask where
  b0 : Bool
  b1 : Bool
  b2 : Bool
  b3 : Bool
deriving DecidableEq

/-- The load `_mm_loadu_ps(&a.x)` on a `vec3`: lanes 0..2 are the components of
`a`, lane 3 is the float `next` that follows them in memory. -/
def mm_loadu_ps (a : vec3) (next : ℚ) : m128 := ⟨a.x, a.y, a.z, next⟩

/-- The intrinsic `_mm_sub_ps`. -/
def mm_sub_ps (a b : m128) : m128 := ⟨a.f0 - b.f0, a.f1 - b.f1, a.f2 - b.f2, a.f3 - b.f3⟩

/-- The intrinsic `_mm_add_ps`. -/
def mm_add_ps (a b : m128) : m128 := ⟨a.f0 + b.f0, a.f1 + b.f1, a.f2 + b.f2, a.f3 + b.f3⟩

/-- The intrinsic `_mm_mul_ps`. -/
def mm_mul_ps (a b : m128) : m128 := ⟨a.f0 * b.f0, a.f1 * b.f1, a.f2 * b.f2, a.f3 * b.f3⟩

/-- The call `_mm_and_ps(a, clearsignbit)` with the mask `0x7fffffff` of line 816
on every lane: the sign bit of each lane is cleared. -/
def mm_and_ps_clearsignbit (a : m128) : m128 := ⟨|a.f0|, |a.f1|, |a.f2|, |a.f3|⟩

/-- The intrinsic `_mm_cmpgt_ps`. -/
def mm_cmpgt_ps (a b : m128) : m128mask :=
  ⟨decide (a.f0 > b.f0), decide (a.f1 > b.f1), decide (a.f2 > b.f2), decide (a.f3 > b.f3)⟩

/-- The intrinsic `_mm_movemask_ps`: bit `i` of the result is the top bit of lane
`i`. -/
def mm_movemask_ps (a : m128mask) : Nat :=
  (if a.b0 then 1 else 0) ||| (if a.b1 then 2 else 0) ||| (if a.b2 then 4 else 0) |||
    (if a.b3 then 8 else 0)

/-- The macro `_MM_SHUFFLE(z, y, x, w)`. -/
def MM_SHUFFLE (z y x w : Nat) : Nat := (z <<< 6) ||| (y <<< 4) ||| (x <<< 2) ||| w

/-- Lane `i % 4` of a register. -/
def m128.lane (a : m128) (i : Nat) : ℚ :=
  match i % 4 with
  | 0 => a.f0
  | 1 => a.f1
  | 2 => a.f2
  | _ => a.f3

/-- The intrinsic `_mm_shuffle_ps(a, b, imm)`: lanes 0 and 1 come from `a`, lanes
2 and 3 from `b`, each selected by two bits of `imm`. -/
def mm_shuffle_ps (a b : m128) (imm : Nat) : m128 :=
  ⟨a.lane (imm &&& 3), a.lane ((imm >>> 2) &&& 3), b.lane ((imm >>> 4) &&& 3),
    b.lane ((imm >>> 6) &&& 3)⟩

/-- The SSE path of `IntersectionTest::ray_aabb` (lines 822-847).  The four
unaligned loads read one float past the three components of each vector; these
floats are the parameters `nv`, `nw`, `nh`, `nc`, `na`. -/
def IntersectionTest.ray_aabb_sse (ray : RayBBox) (aabb : CollisionBBox)
    (nv nw nh nc na : ℚ) : OverlapResult :=
  let v := mm_loadu_ps ray.v nv
  let w := mm_loadu_ps ray.w nw
  let h := mm_loadu_ps aabb.Extents nh
  let c := mm_sub_ps (mm_loadu_ps ray.c nc) (mm_loadu_ps aabb.Center na)
  let abs_c := mm_and_ps_clearsignbit c
  let mask := mm_movemask_ps (mm_cmpgt_ps abs_c (mm_add_ps v h))
  if mask &&& 7 ≠ 0 then OverlapResult.disjoint
  else
    let c1 := mm_shuffle_ps c c (MM_SHUFFLE 3 0 0 1)
    let c2 := mm_shuffle_ps c c (MM_SHUFFLE 3 1 2 2)
    let w1 := mm_shuffle_ps w w (MM_SHUFFLE 3 1 2 2)
    let w2 := mm_shuffle_ps w w (MM_SHUFFLE 3 0 0 1)
    let lhs := mm_and_ps_clearsignbit (mm_sub_ps (mm_mul_ps c1 w1) (mm_mul_ps c2 w2))
    let h1 := mm_shuffle_ps h h (MM_SHUFFLE 3 0 0 1)
    let h2 := mm_shuffle_ps h h (MM_SHUFFLE 3 1 2 2)
    let v1 := mm_shuffle_ps v v (MM_SHUFFLE 3 1 2 2)
    let v2 := mm_shuffle_ps v v (MM_SHUFFLE 3 0 0 1)
    let rhs := mm_add_ps (mm_mul_ps h1 v1) (mm_mul_ps h2 v2)
    let mask := mm_movemask_ps (mm_cmpgt_ps lhs rhs)
    if mask &&& 7 ≠ 0 then OverlapResult.disjoint else OverlapResult.overlap

/-- The six comparisons of the scalar form of the ray/box test (lines 850-860):
one of the three axis tests or one of the three cross-product tests exceeds its
bound. -/
def scalarSeparated (ray : RayBBox) (aabb : CollisionBBox) : Prop :=
  (|ray.c.x - aabb.Center.x| > ray.v.x + aabb.Extents.x ∨
    |ray.c.y - aabb.Center.y| > ray.v.y + aabb.Extents.y ∨
    |ray.c.z - aabb.Center.z| > ray.v.z + aabb.Extents.z) ∨
  (|(ray.c.y - aabb.Center.y) * ray.w.z - (ray.c.z - aabb.Center.z) * ray.w.y|
      > aabb.Extents.y * ray.v.z + aabb.Extents.z * ray.v.y ∨
    |(ray.c.x - aabb.Center.x) * ray.w.z - (ray.c.z - aabb.Center.z) * ray.w.x|
      > aabb.Extents.x * ray.v.z + aabb.Extents.z * ray.v.x ∨
    |(ray.c.x - aabb.Center.x) * ray.w.y - (ray.c.y - aabb.Center.y) * ray.w.x|
      > aabb.Extents.x * ray.v.y + aabb.Extents.y * ray.v.x)

/-! ## The chunks of the segmented first-hit query -/

/-- The pairs `(segstart, segend)` of the passes that the chunk loop of
`find_first_hit` (lines 85-96) makes from the loop variable `t` on when no pass
breaks out.  The first argument bounds the number of passes; `none` when it is
used up. -/
def chunkList (tracedist segmentlen : ℚ) : Nat → ℚ → Option (List (ℚ × ℚ))
  | 0, t => if t < tracedist then none else some []
  | k + 1, t =>
    if t < tracedist then
      let segstart := t / tracedist
      let segend := min (t + segmentlen) tracedist / tracedist
      match chunkList tracedist segmentlen k (t + segmentlen) with
      | none => none
      | some rest => some ((segstart, segend) :: rest)
    else some []

/-- The chunk loop of `find_first_hit` run over a given list of chunks: the
traversal of each chunk, and the rewrite of the fraction with `break` at the
first chunk that records a hit (lines 90-95). -/
def runChunks (mkRay : vec3 → vec3 → RayBBox) (shape : TriangleMeshShape)
    (ray_start ray_dir : vec3) : List (ℚ × ℚ) → TraceHit → Except Fault TraceHit
  | [], hit => .ok hit
  | (segstart, segend) :: rest, hit =>
    match find_first_hit_node shape
        (mkRay (ray_start + ray_dir * segstart) (ray_start + ray_dir * segend))
        (shape.nodes.length + 1) shape.root hit with
    | .error e => .error e
    | .ok hit1 =>
      if hit1.fraction < 1 then
        .ok { hit1 with fraction := segstart * (1 - hit1.fraction) + segend * hit1.fraction }
      else runChunks mkRay shape ray_start ray_dir rest hit1

/-- The rewrite of line 93: the fraction `f` on the chunk `(segstart, segend)` as
a fraction of the whole ray. -/
def globalFraction (chunk : ℚ × ℚ) (f : ℚ) : ℚ := chunk.1 * (1 - f) + chunk.2 * f

/-- The chunks tile the stretch from fraction `a` to fraction `b` of the ray:
the first starts at `a`, each ends where the next starts, the last ends at
`b`. -/
def Tiles : ℚ → List (ℚ × ℚ) → ℚ → Prop
  | a, [], b => a = b
  | a, chunk :: rest, b => chunk.1 = a ∧ Tiles chunk.2 rest b

/-! ## TArray -/

/-- The members of `TArray<T>`: the allocation behind `Array` as a list of
cells (`none` is storage that holds no object; the null pointer is the empty
list), `Most` and `Count` (both `unsigned int`, 32 bits). -/
structure TArray (T : Type) where
  Array : List (Option T)
  Most : Nat
  Count : Nat
deriving DecidableEq

/-- The read `Array[index]` of `operator[]` (lines 119-122). -/
def TArray.at {T : Type} (a : TArray T) (index : Nat) : Option T := a.Array.getD index none

/-- A store into the cell `Array[i]`; outside the allocation it is a fault. -/
def TArray.store {T : Type} (a : TArray T) (i : Nat) (cell : Option T) :
    Except Fault (TArray T) :=
  if i < a.Array.length then .ok { a with Array := a.Array.set i cell }
  else .error (Fault.nodeIndex i)

/-- `TArray::DoResize` (lines 309-317): `realloc` to `Most` cells, which keeps the
cells that fit; the new cells hold no object.  The allocation is taken to
succeed. -/
def TArray.DoResize {T : Type} (a : TArray T) : TArray T :=
  { a with Array := a.Array.take a.Most ++ List.replicate (a.Most - a.Array.length) none }

/-- `TArray::Grow` (lines 217-226). -/
def TArray.Grow {T : Type} (a : TArray T) (amount : Nat) : TArray T :=
  if (a.Count + amount) % 2 ^ 32 > a.Most then
    let choicea := (a.Count + amount) % 2 ^ 32
    let choiceb := if a.Most ≥ 16 then (a.Most + a.Most / 2) % 2 ^ 32 else 16
    TArray.DoResize { a with Most := if choicea > choiceb then choicea else choiceb }
  else a

/-- The loop of lines 234-237: default-construct the cells `i .. amount - 1`, `n`
of them; `dflt` is the value of `T()`. -/
def TArray.constructFrom {T : Type} (dflt : T) : Nat → Nat → TArray T → Except Fault (TArray T)
  | 0, _, a => .ok a
  | n + 1, i, a =>
    match a.store i (some dflt) with
    | .error e => .error e
    | .ok a1 => TArray.constructFrom dflt n (i + 1) a1

/-- `TArray::DoDelete` (lines 319-326) on the cells `first .. first + n - 1`: the
destructor leaves storage without an object. -/
def TArray.DoDelete {T : Type} : Nat → Nat → TArray T → Except Fault (TArray T)
  | 0, _, a => .ok a
  | n + 1, first, a =>
    match a.store first none with
    | .error e => .error e
    | .ok a1 => TArray.DoDelete n (first + 1) a1

/-- `TArray::Resize` (lines 228-246). -/
def TArray.Resize {T : Type} (dflt : T) (a : TArray T) (amount : Nat) : Except Fault (TArray T) :=
  if a.Count < amount then
    let a1 := a.Grow ((amount + 2 ^ 32 - a.Count) % 2 ^ 32)
    match TArray.constructFrom dflt (amount - a1.Count) a1.Count a1 with
    | .error e => .error e
    | .ok a2 => .ok { a2 with Count := amount }
  else if a.Count ≠ amount then
    match TArray.DoDelete (a.Count - amount) amount a with
    | .error e => .error e
    | .ok a1 => .ok { a1 with Count := amount }
  else .ok { a with Count := amount }

/-- The call `memmove(&Array[dst], &Array[src], sizeof(T) * n)`; a range outside
the allocation is a fault. -/
def TArray.memmove {T : Type} (a : TArray T) (dst src n : Nat) : Except Fault (TArray T) :=
  if src + n ≤ a.Array.length ∧ dst + n ≤ a.Array.length then
    .ok { a with Array := a.Array.take dst ++ (a.Array.drop src).take n ++ a.Array.drop (dst + n) }
  else .error (Fault.nodeIndex (max src dst + n))

/-- The argument `const T &item` of `Insert`: a reference to an object outside
the array, or to the element `Array[j]` of the array itself, as in
`a.Insert(i, a[j])`. -/
inductive TArray.ItemRef (T : Type) where
  | outside (x : T)
  | element (j : Nat)
deriving DecidableEq

/-- The read of `item` in `T(item)`, made on the array `a1` that `Resize` and
`memmove` have left of the array `a` of the call.  A reference to `Array[j]`
reads what the cell holds now.  It is a fault when `j` was not an element at the
call, and when `DoResize` has run in between (`Most` has grown): `realloc` ends
the old allocation, into which the reference points. -/
def TArray.readItem {T : Type} (a a1 : TArray T) : TArray.ItemRef T → Except Fault T
  | .outside x => .ok x
  | .element j =>
    if j < a.Count ∧ a1.Most = a.Most then
      match a1.at j with
      | some x => .ok x
      | none => .error (Fault.nodeIndex j)
    else .error (Fault.nodeIndex j)

/-- `TArray::Insert` (lines 174-195); `dflt` is the value of `T()`.  The item is
passed by reference and read after `Resize` and `memmove`. -/
def TArray.Insert {T : Type} (dflt : T) (a : TArray T) (index : Nat)
    (item : TArray.ItemRef T) : Except Fault (TArray T) :=
  if index ≥ a.Count then
    match TArray.Resize dflt a ((index + 1) % 2 ^ 32) with
    | .error e => .error e
    | .ok a1 =>
      match TArray.readItem a a1 item with
      | .error e => .error e
      | .ok x => a1.store index (some x)
  else
    match TArray.Resize dflt a ((a.Count + 1) % 2 ^ 32) with
    | .error e => .error e
    | .ok a1 =>
      match a1.memmove (index + 1) index ((a1.Count + 2 ^ 32 - index - 1) % 2 ^ 32) with
      | .error e => .error e
      | .ok a2 =>
        match TArray.readItem a a2 item with
        | .error e => .error e
        | .ok x => a2.store index (some x)

/-- A `TArray` object in a consistent state: the allocation has `Most` cells,
`Count` of them are in use and hold objects, and both counters are 32-bit
values. -/
def TArray.Valid {T : Type} (a : TArray T) : Prop :=
  a.Array.length = a.Most ∧ a.Count ≤ a.Most ∧ a.Most < 2 ^ 32 ∧
    ∀ j, j < a.Count → (a.at j).isSome = true

instance {T : Type} (a : TArray T) : Decidable a.Valid := by
  unfold TArray.Valid
  infer_instance

/-- `TArray::Size` (lines 258-261). -/
def TArray.Size {T : Type} (a : TArray T) : Nat := a.Count

/-! ## The builder on its buffers -/

/-- The scratch array `work_buffer` of the constructor (line 51), together with
the record of the indices read or written so far, most recent first. -/
structure WorkBuffer where
  cells : List Nat
  log : List Nat
deriving DecidableEq

/-- The store `work_buffer[i] = v`; outside the array it is a fault. -/
def WorkBuffer.write (wb : WorkBuffer) (i v : Nat) : Except Fault WorkBuffer :=
  if i < wb.cells.length then .ok { cells := wb.cells.set i v, log := i :: wb.log }
  else .error (Fault.nodeIndex i)

/-- The read `work_buffer[i]`; outside the array it is a fault. -/
def WorkBuffer.read (wb : WorkBuffer) (i : Nat) : Except Fault (Nat × WorkBuffer) :=
  match wb.cells.get? i with
  | some v => .ok (v, { wb with log := i :: wb.log })
  | none => .error (Fault.nodeIndex i)

/-- The store `triangles[i] = v` into the part of the triangle array the call
works on; outside that part it is a fault. -/
def writeTriangle (triangles : List Nat) (i v : Nat) : Except Fault (List Nat) :=
  if i < triangles.length then .ok (triangles.set i v) else .error (Fault.nodeIndex i)

/-- The partition loop of lines 659-675 over the triangles still to visit, with
the current `work_buffer`, `left_count` and `right_count`. -/
def splitLoopRaw (centroids : List vec3) (plane : vec4) (num_triangles : Nat) :
    List Nat → WorkBuffer → Nat → Nat → Except Fault (WorkBuffer × Nat × Nat)
  | [], wb, left_count, right_count => .ok (wb, left_count, right_count)
  | triangle :: rest, wb, left_count, right_count =>
    if splitSide centroids plane triangle ≥ 0 then
      match wb.write left_count triangle with
      | .error e => .error e
      | .ok wb1 => splitLoopRaw centroids plane num_triangles rest wb1 (left_count + 1) right_count
    else
      match wb.write (num_triangles + right_count) triangle with
      | .error e => .error e
      | .ok wb1 => splitLoopRaw centroids plane num_triangles rest wb1 left_count (right_count + 1)

/-- The attempt loop of lines 644-679 over the remaining axes, entered with the
`work_buffer`, `left_count` and `right_count` the previous attempt left. -/
def splitAttemptsRaw (centroids : List vec3) (median : vec3) (triangles : List Nat) :
    List Nat → WorkBuffer × Nat × Nat → Except Fault (WorkBuffer × Nat × Nat)
  | [], last => .ok last
  | a :: rest, last =>
    let axis := axisVector a
    let plane := vec4.ofVec3 axis (-(dot median axis))
    match splitLoopRaw centroids plane triangles.length triangles last.1 0 0 with
    | .error e => .error e
    | .ok s =>
      if s.2.1 ≠ 0 ∧ s.2.2 ≠ 0 then .ok s
      else splitAttemptsRaw centroids median triangles rest s

/-- One of the copy loops of lines 689-692: `count` passes of
`triangles[dst] = work_buffer[src]` with both indices stepping by one. -/
def copyBackLoop : Nat → Nat → Nat → List Nat → WorkBuffer →
    Except Fault (List Nat × WorkBuffer)
  | 0, _, _, triangles, wb => .ok (triangles, wb)
  | count + 1, src, dst, triangles, wb =>
    match wb.read src with
    | .error e => .error e
    | .ok (v, wb1) =>
      match writeTriangle triangles dst v with
      | .error e => .error e
      | .ok triangles1 => copyBackLoop count (src + 1) (dst + 1) triangles1 wb1

/-- Lines 630-694 of `subdivide` on the buffers: the triangle array, `left_count`,
`right_count` and the `work_buffer` when the children are built. -/
def subdivide_split_raw (centroids : List vec3) (mn mx median : vec3) (triangles : List Nat)
    (wb : WorkBuffer) : Except Fault (List Nat × Nat × Nat × WorkBuffer) :=
  let axis_lengths : Nat → ℚ := fun a =>
    match a with
    | 0 => mx.x - mn.x
    | 1 => mx.y - mn.y
    | _ => mx.z - mn.z
  let axis_order := sortAxes axis_lengths [0, 1, 2]
  match splitAttemptsRaw centroids median triangles axis_order (wb, 0, 0) with
  | .error e => .error e
  | .ok (wb1, left_count, right_count) =>
    if left_count = 0 ∨ right_count = 0 then
      .ok (triangles, triangles.length / 2, triangles.length - triangles.length / 2, wb1)
    else
      match copyBackLoop left_count 0 0 triangles wb1 with
      | .error e => .error e
      | .ok (triangles1, wb2) =>
        match copyBackLoop right_count triangles.length left_count triangles1 wb2 with
        | .error e => .error e
        | .ok (triangles2, wb3) => .ok (triangles2, left_count, right_count, wb3)

/-- Lines 600-694 of `subdivide` on the buffers, for a call that is not a leaf:
the bounds pass followed by the split. -/
def subdivide_partition (vertices : List vec3) (elements : List Nat) (centroids : List vec3)
    (triangles : List Nat) (wb : WorkBuffer) : Except Fault (List Nat × Nat × Nat × WorkBuffer) :=
  let b := subdivide_bounds vertices elements centroids triangles
  subdivide_split_raw centroids b.1.1 b.1.2 b.2 triangles wb

/-- `TriangleMeshShape::subdivide` (lines 594-706) on the buffers: the node array
and the `work_buffer` are passed through, `triangles` is the part of the
triangle array the call works on.  `fuel` bounds the recursion depth. -/
def subdivideRaw (vertices : List vec3) (elements : List Nat) (centroids : List vec3) :
    Nat → List Node → List Nat → WorkBuffer → Except Fault (List Node × Int × WorkBuffer)
  | _, nodes, [], wb => .ok (nodes, -1, wb)
  | 0, _, _ :: _, _ => .error Fault.fuel
  | fuel + 1, nodes, t0 :: ts, wb =>
    let triangles := t0 :: ts
    let b := subdivide_bounds vertices elements centroids triangles
    let mn := b.1.1
    let mx := b.1.2
    if triangles.length = 1 then
      let nodes1 := nodes ++ [Node.leaf mn mx ((t0 * 3 : Nat) : Int)]
      .ok (nodes1, (nodes1.length : Int) - 1, wb)
    else
      match subdivide_partition vertices elements centroids triangles wb with
      | .error e => .error e
      | .ok (triangles1, left_count, right_count, wb1) =>
        match (if left_count > 0 then
                 subdivideRaw vertices elements centroids fuel nodes (triangles1.take left_count) wb1
               else .ok (nodes, -1, wb1)) with
        | .error e => .error e
        | .ok (nodesL, left_index, wbL) =>
          match (if right_count > 0 then
                   subdivideRaw vertices elements centroids fuel nodesL
                     ((triangles1.drop left_count).take right_count) wbL
                 else .ok (nodesL, -1, wbL)) with
          | .error e => .error e
          | .ok (nodesR, right_index, wbR) =>
            let nodes2 := nodesR ++ [Node.inner mn mx left_index right_index]
            .ok (nodes2, (nodes2.length : Int) - 1, wbR)

/-- The coordinate of a vector on axis `a` (`0` is `x`, `1` is `y`, `2` is `z`). -/
def vec3.component (v : vec3) (a : Nat) : ℚ :=
  match a with
  | 1 => v.y
  | 2 => v.z
  | _ => v.x

/-- The AABB extent `max - min` on axis `a`. -/
def axisExtent (mn mx : vec3) (a : Nat) : ℚ :=
  match a with
  | 0 => mx.x - mn.x
  | 1 => mx.y - mn.y
  | _ => mx.z - mn.z

/-- The mean over the triangles of the centroid coordinate on axis `a`. -/
def meanCentroid (centroids : List vec3) (triangles : List Nat) (a : Nat) : ℚ :=
  (triangles.map (fun t => (centroids.getD t vec3.zero).component a)).sum / (triangles.length : ℚ)

/-- The triangles whose centroid coordinate on axis `a` is at least the mean. -/
def upperSide (centroids : List vec3) (triangles : List Nat) (a : Nat) : List Nat :=
  triangles.filter (fun t =>
    decide ((centroids.getD t vec3.zero).component a ≥ meanCentroid centroids triangles a))

/-- The triangles whose centroid coordinate on axis `a` is below the mean. -/
def lowerSide (centroids : List vec3) (triangles : List Nat) (a : Nat) : List Nat :=
  triangles.filter (fun t =>
    decide ((centroids.getD t vec3.zero).component a < meanCentroid centroids triangles a))

/-- The axis splits the triangles: both sides of the mean are non-empty. -/
def SplitsOn (centroids : List vec3) (triangles : List Nat) (a : Nat) : Prop :=
  upperSide centroids triangles a ≠ [] ∧ lowerSide centroids triangles a ≠ []

instance (centroids : List vec3) (triangles : List Nat) (a : Nat) :
    Decidable (SplitsOn centroids triangles a) := by
  unfold SplitsOn
  infer_instance

/-- The centroids of the sample mesh of four triangles. -/
def sampleCentroids : List vec3 := (List.range 4).map (centroidOf sampleVertices sampleElements)

/-- The scratch array the constructor allocates for four triangles. -/
def sampleScratch : WorkBuffer := ⟨List.replicate 8 0, []⟩

/-- The element buffer of a mesh that holds the unit triangle twice. -/
def twinElements : List Nat := [0, 1, 2, 0, 1, 2]

/-- The centroids of the mesh that holds the unit triangle twice. -/
def twinCentroids : List vec3 := (List.range 2).map (centroidOf unitVertices twinElements)

/-- The scratch array the constructor allocates for two triangles. -/
def twinScratch : WorkBuffer := ⟨List.replicate 4 0, []⟩

/-! ## Depth statistics -/

/-- The recursive lambda `visit(level, node_index)` of `get_min_depth` and
`get_max_depth` (lines 551-557 and 564-570); `pick` is `std::min` in the first
and `std::max` in the second.  `level` is an `int` that never exceeds the number
of nodes on the descent, so it does not wrap. -/
def depth_visit (pick : Int → Int → Int) (shape : TriangleMeshShape) :
    Nat → Int → Int → Except Fault Int
  | 0, _, _ => .error Fault.fuel
  | fuel + 1, level, node_index =>
    match shape.node node_index with
    | .error e => .error e
    | .ok node =>
      if node.element_index = -1 then
        match depth_visit pick shape fuel (level + 1) node.left,
            depth_visit pick shape fuel (level + 1) node.right with
        | .error e, _ => .error e
        | _, .error e => .error e
        | .ok l, .ok r => .ok (pick l r)
      else .ok level

/-- `TriangleMeshShape::get_min_depth` (lines 548-559): `visit(1, root)` with
`std::min`. -/
def TriangleMeshShape.get_min_depth (shape : TriangleMeshShape) : Except Fault Int :=
  depth_visit min shape (shape.nodes.length + 1) 1 shape.root

/-- `TriangleMeshShape::get_max_depth` (lines 561-572): `visit(1, root)` with
`std::max`. -/
def TriangleMeshShape.get_max_depth (shape : TriangleMeshShape) : Except Fault Int :=
  depth_visit max shape (shape.nodes.length + 1) 1 shape.root

/-- The depth walk read on a tree whose top node is at level `level`. -/
def BVH.depth (pick : Int → Int → Int) : BVH → Int → Int
  | .leaf _ _ _, level => level
  | .inner _ _ l r, level => pick (l.depth pick (level + 1)) (r.depth pick (level + 1))

/-- One of the seven separation tests of `overlap_triangle_sphere` fires for the
triangle `(p0, p1, p2)` and the sphere `(P, r)`: the plane test, one of the
three vertex tests or one of the three edge tests. -/
def SeparationFires (p0 p1 p2 P : vec3) (r : ℚ) : Prop :=
  planeSeparates (p0 - P) (p1 - P) (p2 - P) (r * r) ∨
  vertexSeparates (dot (p0 - P) (p0 - P)) (dot (p0 - P) (p1 - P)) (dot (p0 - P) (p2 - P))
    (r * r) ∨
  vertexSeparates (dot (p1 - P) (p1 - P)) (dot (p0 - P) (p1 - P)) (dot (p1 - P) (p2 - P))
    (r * r) ∨
  vertexSeparates (dot (p2 - P) (p2 - P)) (dot (p0 - P) (p2 - P)) (dot (p1 - P) (p2 - P))
    (r * r) ∨
  edgeSeparates (p0 - P) (p1 - P) (p2 - P) (r * r) ∨
  edgeSeparates (p1 - P) (p2 - P) (p0 - P) (r * r) ∨
  edgeSeparates (p2 - P) (p0 - P) (p1 - P) (r * r)

/-! ## The swept sphere read on trees -/

/-- The test of `sweep_overlap_bv_sphere` (lines 302-310) on a node box
`(mn, mx)`: the ray test from the sphere centre to the target against the box
with `Extents` enlarged by the radius and the centre kept. -/
def sweptBoxOverlap (mkRay : vec3 → vec3 → RayBBox) (shape2 : SphereShape) (target : vec3)
    (mn mx : vec3) : Bool :=
  decide (IntersectionTest.ray_aabb (mkRay shape2.center target)
    { CollisionBBox.ofMinMax mn mx with
      Extents := (CollisionBBox.ofMinMax mn mx).Extents.addScalar shape2.radius }
    = OverlapResult.overlap)

/-- The swept-sphere kernel on triangle number `t` of a mesh. -/
def sweptTriangle (sqrt : ℚ → ℚ) (vertices : List vec3) (elements : List Nat)
    (shape2 : SphereShape) (target : vec3) (t : Nat) : ℚ :=
  sweep_triangle_sphere sqrt (vertexAt vertices elements (t * 3))
    (vertexAt vertices elements (t * 3 + 1)) (vertexAt vertices elements (t * 3 + 2))
    shape2.center target shape2.radius

/-- The recursive sweep read on a tree: `1` where the box test fails, the kernel
at a leaf, the smaller of the two children at an inner node. -/
def BVH.sweep (mkRay : vec3 → vec3 → RayBBox) (sqrt : ℚ → ℚ) (vertices : List vec3)
    (elements : List Nat) (shape2 : SphereShape) (target : vec3) : BVH → ℚ
  | .leaf mn mx t =>
    if sweptBoxOverlap mkRay shape2 target mn mx then
      sweptTriangle sqrt vertices elements shape2 target t
    else 1
  | .inner mn mx l r =>
    if sweptBoxOverlap mkRay shape2 target mn mx then
      min (l.sweep mkRay sqrt vertices elements shape2 target)
        (r.sweep mkRay sqrt vertices elements shape2 target)
    else 1

/-- The triangles of the leaves the sweep reaches, left to right: the leaves
whose own box and the boxes of all inner nodes above them pass the test. -/
def BVH.sweptLeaves (mkRay : vec3 → vec3 → RayBBox) (shape2 : SphereShape) (target : vec3) :
    BVH → List Nat
  | .leaf mn mx t => if sweptBoxOverlap mkRay shape2 target mn mx then [t] else []
  | .inner mn mx l r =>
    if sweptBoxOverlap mkRay shape2 target mn mx then
      l.sweptLeaves mkRay shape2 target ++ r.sweptLeaves mkRay shape2 target
    else []

/-! ## Polygon groups of the UE1 model loader -/

/-- The fields of `d3dpoly` that the group loop reads (`dpolys[i].type`,
`dpolys[i].texnum`); the struct itself is declared in `model_ue1.h`. -/
structure d3dpoly where
  type : Nat
  texnum : Nat
deriving DecidableEq

/-- The members of `UE1Group` the loop writes: the polygon list `P` and the
fields `numPolys`, `texNum`, `type`.  `numPolys` counts pushes from zero and
stays below the number of polygons, so the `int` does not wrap. -/
structure UE1Group where
  P : List Nat
  numPolys : Nat
  texNum : Nat
  type : Nat
deriving DecidableEq

/-- The members of `FUE1Model` the group loop writes. -/
structure FUE1Model where
  specialPolys : List Nat
  groups : List UE1Group
  numGroups : Nat
deriving DecidableEq

/-- The search of lines 182-187 of `models_ue1.cpp`, entered with the loop
variable `j` and `n` passes to go: the index of the first group from `j` on
with the attributes of `poly`, or `-1`.  A read outside `groups` is a fault. -/
def findGroupLoop (groups : List UE1Group) (poly : d3dpoly) : Nat → Nat → Except Fault Int
  | 0, _ => .ok (-1)
  | n + 1, j =>
    match groups.get? j with
    | none => .error (Fault.nodeIndex j)
    | some g =>
      if g.texNum ≠ poly.texnum ∨ g.type ≠ poly.type then findGroupLoop groups poly n (j + 1)
      else .ok (j : Int)

/-- Lines 193-194: `groups[curgroup].P.Push(i); groups[curgroup].numPolys++;`. -/
def pushPoly (m : FUE1Model) (curgroup : Int) (i : Nat) : Except Fault FUE1Model :=
  if 0 ≤ curgroup then
    match m.groups.get? curgroup.toNat with
    | none => .error (Fault.nodeIndex curgroup)
    | some g =>
      let g1 : UE1Group := { g with P := g.P ++ [i], numPolys := g.numPolys + 1 }
      .ok { m with groups := m.groups.set curgroup.toNat g1 }
  else .error (Fault.nodeIndex curgroup)

/-- Lines 169-175: the local `Group` is emptied, takes the attributes of the
polygon and is pushed on `groups`; `numGroups` is incremented (its old value
becomes `curgroup`). -/
def FUE1Model.addGroup (m : FUE1Model) (poly : d3dpoly) : FUE1Model :=
  let Group : UE1Group := { P := [], numPolys := 0, texNum := poly.texnum, type := poly.type }
  { m with groups := m.groups ++ [Group], numGroups := m.numGroups + 1 }

/-- The group loop of `FUE1Model::LoadGeometry` (lines 162-195), entered with
the loop variable `i` and the local `curgroup`.  `PT_WeaponTriangle` is the flag
constant of `model_ue1.h`.  After the search of a changed attribute pair the
source runs `i--; continue;`, which re-enters the body with the same `i`.  The
first argument bounds the number of passes. -/
def groupLoop (PT_WeaponTriangle : Nat) (dpolys : List d3dpoly) (numPolys : Nat) :
    Nat → Nat → Int → FUE1Model → Except Fault FUE1Model
  | 0, i, _, m => if i < numPolys then .error Fault.fuel else .ok m
  | fuel + 1, i, curgroup, m =>
    if i < numPolys then
      match dpolys.get? i with
      | none => .error (Fault.nodeIndex i)
      | some poly =>
        let m1 : FUE1Model :=
          if poly.type &&& PT_WeaponTriangle ≠ 0 then
            { m with specialPolys := m.specialPolys ++ [i] }
          else m
        if curgroup = -1 then
          match pushPoly (m1.addGroup poly) (m1.numGroups : Int) i with
          | .error e => .error e
          | .ok m3 => groupLoop PT_WeaponTriangle dpolys numPolys fuel (i + 1) (m1.numGroups : Int) m3
        else
          match (if 0 ≤ curgroup then m1.groups.get? curgroup.toNat else none) with
          | none => .error (Fault.nodeIndex curgroup)
          | some g =>
            if poly.texnum ≠ g.texNum ∨ poly.type ≠ g.type then
              match findGroupLoop m1.groups poly m1.numGroups 0 with
              | .error e => .error e
              | .ok found => groupLoop PT_WeaponTriangle dpolys numPolys fuel i found m1
            else
              match pushPoly m1 curgroup i with
              | .error e => .error e
              | .ok m3 => groupLoop PT_WeaponTriangle dpolys numPolys fuel (i + 1) curgroup m3
    else .ok m

/-- Lines 160-195 of `FUE1Model::LoadGeometry`: the group loop from `i = 0` and
`curgroup = -1`, on the empty `specialPolys` and `groups` of a model whose
geometry is not loaded, with `numGroups = 0` (line 89).  Each polygon takes at
most two passes, so the budget of `2 * numPolys + 1` passes is never used up. -/
def populateGroups (PT_WeaponTriangle : Nat) (dpolys : List d3dpoly) (numPolys : Nat) :
    Except Fault FUE1Model :=
  groupLoop PT_WeaponTriangle dpolys numPolys (2 * numPolys + 1) 0 (-1) ⟨[], [], 0⟩

/-- The group `g` carries the attributes of the polygon `poly`. -/
def UE1Group.Matches (g : UE1Group) (poly : d3dpoly) : Prop :=
  g.texNum = poly.texnum ∧ g.type = poly.type

instance (g : UE1Group) (poly : d3dpoly) : Decidable (g.Matches poly) :=
  inferInstanceAs (Decidable (_ ∧ _))

/-- What holds of the groups once the polygons below `i` are placed: the
counter equals the number of groups, no two groups carry the same attribute
pair, every group counts its own list and lists only polygons with its
attributes, and the lists together hold each index below `i` once. -/
def GroupsOK (dpolys : List d3dpoly) (i : Nat) (m : FUE1Model) : Prop :=
  m.numGroups = m.groups.length ∧
  (m.groups.map (fun g => (g.texNum, g.type))).Nodup ∧
  (∀ g ∈ m.groups, g.numPolys = g.P.length ∧
    ∀ k ∈ g.P, ∃ poly, dpolys.get? k = some poly ∧ g.Matches poly) ∧
  ((m.groups.map (fun g => g.P)).flatten).Perm (List.range i)

/-- The attribute pair of polygon `i` differs from that of the polygon before
it. -/
def attributesChange (dpolys : List d3dpoly) (i : Nat) : Bool :=
  match i, dpolys.get? i, dpolys.get? (i - 1) with
  | 0, _, _ => false
  | _ + 1, some p, some q => decide (p.texnum ≠ q.texnum ∨ p.type ≠ q.type)
  | _, _, _ => false

/-- What the loop pushes on `specialPolys` for polygon `i`: nothing without the
flag, the index once with it, and once more when the attribute pair differs
from that of the polygon before. -/
def specialStep (PT_WeaponTriangle : Nat) (dpolys : List d3dpoly) (i : Nat) : List Nat :=
  match dpolys.get? i with
  | some p =>
    if p.type &&& PT_WeaponTriangle ≠ 0 then
      (if attributesChange dpolys i then [i, i] else [i])
    else []
  | none => []

/-- What the loop has pushed on `specialPolys` once the polygons below `i` are
placed. -/
def specialOf (PT_WeaponTriangle : Nat) (dpolys : List d3dpoly) : Nat → List Nat
  | 0 => []
  | i + 1 => specialOf PT_WeaponTriangle dpolys i ++ specialStep PT_WeaponTriangle dpolys i

/-- The state of `curgroup` at the head of a pass for polygon `i`: on a fresh
pass it is `-1` with no groups (`i = 0`) or the group of the polygon before; on
the pass after a search it is `-1` with no group matching polygon `i`, or the
group matching it. -/
def CurOK (dpolys : List d3dpoly) (numPolys i : Nat) (curgroup : Int) (m : FUE1Model)
    (redo : Bool) : Prop :=
  if redo then
    i < numPolys ∧ attributesChange dpolys i = true ∧
      ((curgroup = -1 ∧ ∀ g ∈ m.groups, ∀ p, dpolys.get? i = some p → ¬ g.Matches p) ∨
        (0 ≤ curgroup ∧ ∃ g p, m.groups.get? curgroup.toNat = some g ∧
          dpolys.get? i = some p ∧ g.Matches p))
  else
    (i = 0 ∧ curgroup = -1 ∧ m.groups = []) ∨
      (0 < i ∧ 0 ≤ curgroup ∧ ∃ g q, m.groups.get? curgroup.toNat = some g ∧
        dpolys.get? (i - 1) = some q ∧ g.Matches q)

/-- What a pass that is about to be repeated has already pushed on
`specialPolys` for polygon `i`. -/
def pendingSpecial (PT_WeaponTriangle : Nat) (dpolys : List d3dpoly) (i : Nat) (redo : Bool) :
    List Nat :=
  if redo then
    match dpolys.get? i with
    | some p => if p.type &&& PT_WeaponTriangle ≠ 0 then [i] else []
    | none => []
  else []

/-! ## TMap: the main invariant -/

/-- `TMap::GetNode` (lines 894-905), on which `operator[]` (lines 573-576) rests:
the node of the key, made by `NewKey` with its value initialised by
`ValueTraits::Init` when the key is not found.  `init` is the value a
default-constructed `VT` holds; the fuel is that of `NewKey`. -/
def TMap.GetNode {K V : Type} (traits : THashTraits K) (init : V) (fuel : Nat) (m : TMap K V)
    (key : K) : Except Fault (TMap K V × Nat) :=
  match m.FindKey traits key with
  | .error e => .error e
  | .ok (some n) => .ok (m, n)
  | .ok none =>
    match TMap.NewKey traits fuel m key with
    | .error e => .error e
    | .ok (m1, n) =>
      match m1.setValue n (some init) with
      | .error e => .error e
      | .ok m2 => .ok (m2, n)

/-- The maps built from `TMap()` by `Insert`, `operator[]`, `Remove` and
`Rehash`. -/
inductive TMap.Built {K V : Type} (traits : THashTraits K) (init : V) : TMap K V → Prop
  | create (m : TMap K V) : TMap.create = .ok m → TMap.Built traits init m
  | insert (m m1 : TMap K V) (fuel : Nat) (key : K) (value : V) :
      TMap.Built traits init m → TMap.Insert traits fuel m key value = .ok m1 →
      TMap.Built traits init m1
  | index (m m1 : TMap K V) (fuel : Nat) (key : K) (n : Nat) :
      TMap.Built traits init m → TMap.GetNode traits init fuel m key = .ok (m1, n) →
      TMap.Built traits init m1
  | remove (m m1 : TMap K V) (key : K) :
      TMap.Built traits init m → TMap.Remove traits m key = .ok m1 → TMap.Built traits init m1
  | rehash (m m1 : TMap K V) (fuel : Nat) :
      TMap.Built traits init m → TMap.Rehash traits fuel m = .ok m1 → TMap.Built traits init m1

/-- Keys that `Compare` reports equal have hashes that agree in their low 31
bits, so they have the same main position in a table of any size.  The traits
of the source have this property: for integers and pointers `Compare` is `!=`,
and for `float` and `double` the only distinct bit patterns that compare equal
are the two zeros, which differ in the sign bit alone. -/
def THashTraits.Consistent {K : Type} (traits : THashTraits K) : Prop :=
  ∀ a b, traits.Compare a b = false → traits.Hash a % 2 ^ 31 = traits.Hash b % 2 ^ 31

/-- The part of the invariant of the hash table that does not depend on
`Compare`: the size is a power of two, `LastFree` is within the vector, every
node in use has a key, and the nodes in use form the chains of the main
positions of their keys. -/
structure TMap.Sound {K V : Type} (traits : THashTraits K) (m : TMap K V) : Prop where
  size : ∃ j, j ≤ 31 ∧ m.Size = 2 ^ j
  length : m.Nodes.length = m.Size
  lastFree : m.LastFree ≤ m.Size
  keys : ∀ i, m.usedB i = true → ∃ k, m.keyAt i = some k
  chains : ∃ chain : Nat → List Nat, m.Chains traits chain


/-- The traits of `double` keys (lines 411-421) on 64-bit patterns: the hash is
the exclusive or of the two 32-bit halves, and `Compare` is `left != right` on
doubles, which is true whenever an operand is a NaN and false for the two
zeros. -/
def doubleTraits : THashTraits Nat :=
  { Hash := fun key => (key % 2 ^ 32) ^^^ (key / 2 ^ 32 % 2 ^ 32),
    Compare := fun left right =>
      let isNaN := fun (x : Nat) =>
        decide (x &&& 0x7FF0000000000000 = 0x7FF0000000000000 ∧ x &&& 0x000FFFFFFFFFFFFF ≠ 0)
      let isZero := fun (x : Nat) => decide (x &&& 0x7FFFFFFFFFFFFFFF = 0)
      isNaN left || isNaN right || !(decide (left = right) || (isZero left && isZero right)) }

/-- A table of `float` keys built by `TMap()`, `Insert(+0, 10)`, two `operator[]`
with a NaN, `Insert(-0, 20)`, `Insert(0x3F800001, 30)`, `Remove(-0)` and
`Rehash`: the two NaN nodes stay chained from position 0. -/
def floatTable : TMap Nat Nat :=
  ⟨[⟨NodePtr.node 7, some 2143289344, some 0⟩, ⟨NodePtr.null, some 1065353217, some 30⟩,
    ⟨NodePtr.one, none, none⟩, ⟨NodePtr.one, none, none⟩, ⟨NodePtr.one, none, none⟩,
    ⟨NodePtr.one, none, none⟩, ⟨NodePtr.one, none, none⟩,
    ⟨NodePtr.null, some 2143289344, some 0⟩], 7, 8, 3⟩

/-! ## Inputs on which the literal wording fails -/

/-- Vertices of a triangle that crosses the box `[-1, 1]^3` from the edge
`x = 1, y = -1` to the point `(-1, 1, 0)`. -/
def slantVertices : List vec3 := [⟨1, -1, -1⟩, ⟨1, -1, 1⟩, ⟨-1, 1, 0⟩]

/-- The shape the constructor builds for the single triangle `slantVertices`. -/
def slantShape : TriangleMeshShape :=
  { vertices := slantVertices, num_vertices := 3, elements := [0, 1, 2], num_elements := 3,
    nodes := [Node.leaf ⟨-1, -1, -1⟩ ⟨1, 1, 1⟩ 0], root := 0 }

/-- The table of integer keys built by `TMap()`, `Insert(0, 10)`, `Insert(4, 20)`
and `Insert(1, 30)`: the key `4` collides with `0` at position 0 and is kept in
node 3. -/
def intTable : TMap Nat Nat :=
  ⟨[⟨NodePtr.node 3, some 0, some 10⟩, ⟨NodePtr.null, some 1, some 30⟩,
    ⟨NodePtr.one, none, none⟩, ⟨NodePtr.null, some 4, some 20⟩], 3, 4, 3⟩

/-! ## Vector arithmetic -/

@[simp] theorem vec3.add_x (a b : vec3) : (a + b).x = a.x + b.x := rfl

@[simp] theorem vec3.add_y (a b : vec3) : (a + b).y = a.y + b.y := rfl

@[simp] theorem vec3.add_z (a b : vec3) : (a + b).z = a.z + b.z := rfl

@[simp] theorem vec3.sub_x (a b : vec3) : (a - b).x = a.x - b.x := rfl

@[simp] theorem vec3.sub_y (a b : vec3) : (a - b).y = a.y - b.y := rfl

@[simp] theorem vec3.sub_z (a b : vec3) : (a - b).z = a.z - b.z := rfl

@[simp] theorem vec3.mul_x (a : vec3) (f : ℚ) : (a * f).x = a.x * f := rfl

@[simp] theorem vec3.mul_y (a : vec3) (f : ℚ) : (a * f).y = a.y * f := rfl

@[simp] theorem vec3.mul_z (a : vec3) (f : ℚ) : (a * f).z = a.z * f := rfl

theorem vec3.eq_of_components (a b : vec3) (hx : a.x = b.x) (hy : a.y = b.y) (hz : a.z = b.z) :
    a = b := by
  cases a
  cases b
  simp only [vec3.mk.injEq]
  exact ⟨hx, hy, hz⟩

/-! ## The builder -/

theorem splitAttempts_cases (centroids : List vec3) (median : vec3) (triangles : List Nat)
    (axes : List Nat) (last : List Nat × List Nat) :
    splitAttempts centroids median triangles axes last = last ∨
      ∃ a, splitAttempts centroids median triangles axes last
        = splitPass centroids median triangles a := by
  induction axes generalizing last with
  | nil => left; rfl
  | cons a rest ih =>
    right
    simp only [splitAttempts]
    split
    · exact ⟨a, rfl⟩
    · rcases ih (splitPass centroids median triangles a) with h | ⟨b, h⟩
      · exact ⟨a, h⟩
      · exact ⟨b, h⟩

theorem splitPass_perm (centroids : List vec3) (median : vec3) (triangles : List Nat) (a : Nat) :
    ((splitPass centroids median triangles a).1 ++ (splitPass centroids median triangles a).2).Perm
      triangles := by
  simp only [splitPass]
  exact List.filter_append_perm _ _

theorem subdivide_split_spec (centroids : List vec3) (mn mx median : vec3) (triangles : List Nat)
    (h2 : 2 ≤ triangles.length) :
    (subdivide_split centroids mn mx median triangles).1 ≠ [] ∧
    (subdivide_split centroids mn mx median triangles).2 ≠ [] ∧
    ((subdivide_split centroids mn mx median triangles).1 ++
      (subdivide_split centroids mn mx median triangles).2).Perm triangles := by
  unfold subdivide_split
  simp only []
  split
  · refine ⟨?_, ?_, ?_⟩
    · intro h
      have := congrArg List.length h
      simp only [List.length_take, List.length_nil] at this
      omega
    · intro h
      have := congrArg List.length h
      simp only [List.length_drop, List.length_nil] at this
      omega
    · simp
  · rename_i hne
    push_neg at hne
    refine ⟨?_, ?_, ?_⟩
    · intro h; exact hne.1 (by simp [h])
    · intro h; exact hne.2 (by simp [h])
    · rcases splitAttempts_cases centroids median triangles
        (sortAxes (fun a => match a with
          | 0 => mx.x - mn.x
          | 1 => mx.y - mn.y
          | _ => mx.z - mn.z) [0, 1, 2]) ([], []) with h | ⟨a, h⟩
      · rw [h] at hne; simp at hne
      · rw [h]; exact splitPass_perm _ _ _ _

theorem growBounds_keeps (mm : vec3 × vec3) (v p : vec3) (h : Encloses mm.1 mm.2 p) :
    Encloses (growBounds mm v).1 (growBounds mm v).2 p := by
  obtain ⟨⟨h1, h2⟩, ⟨h3, h4⟩, h5, h6⟩ := h
  simp only [growBounds, Encloses]
  refine ⟨⟨?_, ?_⟩, ⟨?_, ?_⟩, ?_, ?_⟩
  · exact le_trans (min_le_left _ _) h1
  · exact le_trans h2 (le_max_left _ _)
  · exact le_trans (min_le_left _ _) h3
  · exact le_trans h4 (le_max_left _ _)
  · exact le_trans (min_le_left _ _) h5
  · exact le_trans h6 (le_max_left _ _)

theorem growBounds_adds (mm : vec3 × vec3) (v : vec3) :
    Encloses (growBounds mm v).1 (growBounds mm v).2 v := by
  simp only [growBounds, Encloses]
  exact ⟨⟨min_le_right _ _, le_max_right _ _⟩, ⟨min_le_right _ _, le_max_right _ _⟩,
    min_le_right _ _, le_max_right _ _⟩

theorem boundsStep_keeps (vertices : List vec3) (elements : List Nat) (centroids : List vec3)
    (acc : (vec3 × vec3) × vec3) (t : Nat) (p : vec3) (h : Encloses acc.1.1 acc.1.2 p) :
    Encloses (boundsStep vertices elements centroids acc t).1.1
      (boundsStep vertices elements centroids acc t).1.2 p := by
  simp only [boundsStep, List.range, List.range.loop, List.foldl]
  exact growBounds_keeps _ _ _ (growBounds_keeps _ _ _ (growBounds_keeps _ _ _ h))

theorem boundsStep_adds (vertices : List vec3) (elements : List Nat) (centroids : List vec3)
    (acc : (vec3 × vec3) × vec3) (t j : Nat) (hj : j < 3) :
    Encloses (boundsStep vertices elements centroids acc t).1.1
      (boundsStep vertices elements centroids acc t).1.2
      (vertexAt vertices elements (t * 3 + j)) := by
  simp only [boundsStep, List.range, List.range.loop, List.foldl]
  have hcases : j = 0 ∨ j = 1 ∨ j = 2 := by omega
  rcases hcases with rfl | rfl | rfl
  · exact growBounds_keeps _ _ _ (growBounds_keeps _ _ _ (growBounds_adds _ _))
  · exact growBounds_keeps _ _ _ (growBounds_adds _ _)
  · exact growBounds_adds _ _

theorem bounds_fold_keeps (vertices : List vec3) (elements : List Nat) (centroids : List vec3)
    (l : List Nat) (acc : (vec3 × vec3) × vec3) (p : vec3) (h : Encloses acc.1.1 acc.1.2 p) :
    Encloses (l.foldl (boundsStep vertices elements centroids) acc).1.1
      (l.foldl (boundsStep vertices elements centroids) acc).1.2 p := by
  induction l generalizing acc with
  | nil => simpa using h
  | cons t rest ih =>
    simp only [List.foldl]
    exact ih _ (boundsStep_keeps _ _ _ _ _ _ h)

theorem bounds_fold_adds (vertices : List vec3) (elements : List Nat) (centroids : List vec3)
    (l : List Nat) (acc : (vec3 × vec3) × vec3) (t : Nat) (ht : t ∈ l) (j : Nat) (hj : j < 3) :
    Encloses (l.foldl (boundsStep vertices elements centroids) acc).1.1
      (l.foldl (boundsStep vertices elements centroids) acc).1.2
      (vertexAt vertices elements (t * 3 + j)) := by
  induction l generalizing acc with
  | nil => simp at ht
  | cons t0 rest ih =>
    simp only [List.foldl]
    rcases List.mem_cons.mp ht with rfl | hrest
    · exact bounds_fold_keeps _ _ _ _ _ _ (boundsStep_adds _ _ _ _ _ _ hj)
    · exact ih _ hrest

theorem subdivide_bounds_encloses (vertices : List vec3) (elements : List Nat)
    (centroids : List vec3) (triangles : List Nat) (t : Nat) (ht : t ∈ triangles) (j : Nat)
    (hj : j < 3) :
    Encloses (subdivide_bounds vertices elements centroids triangles).1.1
      (subdivide_bounds vertices elements centroids triangles).1.2
      (vertexAt vertices elements (t * 3 + j)) := by
  simp only [subdivide_bounds]
  exact bounds_fold_adds _ _ _ _ _ _ ht _ hj

theorem BVH.flatten_length (T : BVH) (off : Nat) : (T.flatten off).length = T.size := by
  induction T generalizing off with
  | leaf mn mx t => simp [BVH.flatten, BVH.size]
  | inner mn mx l r ihl ihr =>
    simp only [BVH.flatten, BVH.size, List.length_append, ihl, ihr, List.length_cons,
      List.length_nil]

theorem BVH.size_pos (T : BVH) : 0 < T.size := by
  cases T <;> simp [BVH.size]

/-- What a call of `subdivide` on a non-empty triangle list does: with a budget
of at least the list length it succeeds, appends the flattened form of a tree
whose leaves are a permutation of the list and whose boxes enclose their
triangles, and returns the index of the last appended node. -/
theorem subdivide_spec (vertices : List vec3) (elements : List Nat) (centroids : List vec3) :
    ∀ (fuel : Nat) (nodes : List Node) (triangles : List Nat), triangles ≠ [] →
      triangles.length ≤ fuel →
      ∃ T : BVH, subdivide vertices elements centroids fuel nodes triangles
          = .ok (nodes ++ T.flatten nodes.length, ((nodes.length + T.size : Nat) : Int) - 1) ∧
        T.leaves.Perm triangles ∧ T.Bounded vertices elements := by
  intro fuel
  induction fuel with
  | zero =>
    intro nodes triangles hne hlen
    cases triangles with
    | nil => exact absurd rfl hne
    | cons t0 ts => simp at hlen
  | succ fuel ih =>
    intro nodes triangles hne hlen
    cases triangles with
    | nil => exact absurd rfl hne
    | cons t0 ts =>
      by_cases h1 : (t0 :: ts).length = 1
      · have hts : ts = [] := by
          cases ts with
          | nil => rfl
          | cons a b => simp at h1
        subst hts
        refine ⟨BVH.leaf (subdivide_bounds vertices elements centroids [t0]).1.1
          (subdivide_bounds vertices elements centroids [t0]).1.2 t0, ?_, ?_, ?_⟩
        · simp [subdivide, BVH.flatten, BVH.size]
        · simp [BVH.leaves]
        · intro j hj
          exact subdivide_bounds_encloses _ _ _ _ t0 (by simp) j hj
      · have h2 : 2 ≤ (t0 :: ts).length := by
          simp only [List.length_cons] at h1 ⊢
          omega
        obtain ⟨hL, hR, hperm⟩ := subdivide_split_spec centroids
          (subdivide_bounds vertices elements centroids (t0 :: ts)).1.1
          (subdivide_bounds vertices elements centroids (t0 :: ts)).1.2
          (subdivide_bounds vertices elements centroids (t0 :: ts)).2 (t0 :: ts) h2
        have hlenp := hperm.length_eq
        rw [List.length_append] at hlenp
        have hLpos := List.length_pos.mpr hL
        have hRpos := List.length_pos.mpr hR
        obtain ⟨Tl, hTl, hpl, hbl⟩ := ih nodes _ hL (by omega)
        obtain ⟨Tr, hTr, hpr, hbr⟩ := ih (nodes ++ Tl.flatten nodes.length) _ hR (by omega)
        refine ⟨BVH.inner (subdivide_bounds vertices elements centroids (t0 :: ts)).1.1
          (subdivide_bounds vertices elements centroids (t0 :: ts)).1.2 Tl Tr, ?_, ?_, ?_⟩
        · rw [subdivide]
          simp only [h1, if_false, hLpos, hRpos, if_true, gt_iff_lt, hTl, hTr]
          simp only [BVH.flatten, BVH.size, List.length_append, BVH.flatten_length,
            List.append_assoc, List.length_cons, List.length_nil]
          have harith : nodes.length + (Tl.size + (Tr.size + (0 + 1)))
              = nodes.length + (Tl.size + Tr.size + 1) := by omega
          rw [harith]
        · simp only [BVH.leaves]
          exact (List.Perm.append hpl hpr).trans hperm
        · refine ⟨?_, hbl, hbr⟩
          intro t ht j hj
          have ht2 : t ∈ t0 :: ts :=
            (((List.Perm.append hpl hpr).trans hperm).mem_iff).mp ht
          exact subdivide_bounds_encloses _ _ _ _ t ht2 j hj

/-- The constructor on an empty mesh: no node, `root = -1`. -/
theorem create_empty (vertices : List vec3) (num_vertices : Int) (elements : List Nat)
    (num_elements : Int) (h : numTriangles num_elements = 0) :
    TriangleMeshShape.create vertices num_vertices elements num_elements
      = .ok { vertices := vertices, num_vertices := num_vertices, elements := elements,
              num_elements := num_elements, nodes := [], root := -1 } := by
  have h0 : Int.tdiv num_elements 3 ≤ 0 := by
    simp only [numTriangles] at h
    omega
  simp [TriangleMeshShape.create, h0]

/-- The constructor on a non-empty mesh: the node array is the flattened form of
a tree over the triangles `0 .. N_t - 1` and `root` is the last index. -/
theorem create_nonempty (vertices : List vec3) (num_vertices : Int) (elements : List Nat)
    (num_elements : Int) (h : 0 < numTriangles num_elements) :
    ∃ T : BVH,
      TriangleMeshShape.create vertices num_vertices elements num_elements
        = .ok { vertices := vertices, num_vertices := num_vertices, elements := elements,
                num_elements := num_elements, nodes := T.flatten 0,
                root := ((T.size : Nat) : Int) - 1 } ∧
      T.leaves.Perm (List.range (numTriangles num_elements)) ∧ T.Bounded vertices elements := by
  have h0 : ¬ Int.tdiv num_elements 3 ≤ 0 := by
    simp only [numTriangles] at h
    omega
  have hne : List.range (numTriangles num_elements) ≠ [] := by
    intro hnil
    have := congrArg List.length hnil
    simp at this
    omega
  obtain ⟨T, hT, hperm, hb⟩ := subdivide_spec vertices elements
    ((List.range (numTriangles num_elements)).map (centroidOf vertices elements))
    (numTriangles num_elements) [] (List.range (numTriangles num_elements)) hne (by simp)
  refine ⟨T, ?_, hperm, hb⟩
  simp only [numTriangles] at hT
  simp [TriangleMeshShape.create, h0, hT]

theorem BVH.flatten_filter_leaf (T : BVH) (off i : Nat) :
    ((T.flatten off).filter (fun n => decide (n.element_index = 3 * (i : Int)))).length
      = T.leaves.count i := by
  induction T generalizing off with
  | leaf mn mx t =>
    by_cases hti : t = i
    · subst hti
      have : (t : Int) * 3 = 3 * (t : Int) := by ring
      simp [BVH.flatten, BVH.leaves, Node.leaf, this]
    · have : ¬ (t : Int) * 3 = 3 * (i : Int) := by omega
      have hc : List.count i [t] = 0 := List.count_eq_zero.mpr (by simpa using fun h => hti h.symm)
      simp [BVH.flatten, BVH.leaves, Node.leaf, this, hc]
  | inner mn mx l r ihl ihr =>
    have : ¬ (-1 : Int) = 3 * (i : Int) := by omega
    simp [BVH.flatten, BVH.leaves, Node.inner, this, ihl, ihr, List.filter_append]

theorem BVH.flatten_leaf_mem (T : BVH) (off : Nat) (n : Node) (hn : n ∈ T.flatten off)
    (hleaf : n.element_index ≠ -1) :
    ∃ t ∈ T.leaves, n.element_index = 3 * (t : Int) := by
  induction T generalizing off with
  | leaf mn mx t =>
    simp only [BVH.flatten, List.mem_singleton] at hn
    subst hn
    exact ⟨t, by simp [BVH.leaves], by simp only [Node.leaf]; push_cast; ring⟩
  | inner mn mx l r ihl ihr =>
    simp only [BVH.flatten, List.mem_append, List.mem_singleton] at hn
    rcases hn with (hl | hr) | rfl
    · obtain ⟨t, ht, he⟩ := ihl _ hl
      exact ⟨t, by simp [BVH.leaves, ht], he⟩
    · obtain ⟨t, ht, he⟩ := ihr _ hr
      exact ⟨t, by simp [BVH.leaves, ht], he⟩
    · exact absurd rfl hleaf

/-- C3. After construction `root` is the last index of the node array when the
mesh has a triangle, and is `-1` with an empty node array when it has none. -/
theorem C3_root_position (vertices : List vec3) (num_vertices : Int) (elements : List Nat)
    (num_elements : Int) :
    ∃ shape, TriangleMeshShape.create vertices num_vertices elements num_elements = .ok shape ∧
      (0 < numTriangles num_elements →
        shape.nodes ≠ [] ∧ shape.root = (shape.nodes.length : Int) - 1) ∧
      (numTriangles num_elements = 0 → shape.nodes = [] ∧ shape.root = -1) := by
  rcases Nat.eq_zero_or_pos (numTriangles num_elements) with h0 | hpos
  · refine ⟨_, create_empty vertices num_vertices elements num_elements h0, ?_, ?_⟩
    · intro h; omega
    · intro _; exact ⟨rfl, rfl⟩
  · obtain ⟨T, hT, -, -⟩ := create_nonempty vertices num_vertices elements num_elements hpos
    refine ⟨_, hT, ?_, ?_⟩
    · intro _
      refine ⟨?_, ?_⟩
      · intro hnil
        have := congrArg List.length hnil
        simp only [BVH.flatten_length, List.length_nil] at this
        have := T.size_pos
        omega
      · simp only [BVH.flatten_length]
    · intro h; omega

theorem get?_middle (pre post : List Node) (x : Node) (k : Nat) (hk : k = pre.length) :
    (pre ++ x :: post).get? k = some x := by
  subst hk
  induction pre with
  | nil => rfl
  | cons a pre ih => simpa using ih

/-- The flattened form of a tree, placed anywhere in a node array at its own
offset, represents the tree at the index of its last node. -/
theorem BVH.flatten_represents (T : BVH) :
    ∀ (pre post : List Node),
      Represents (pre ++ T.flatten pre.length ++ post) (((pre.length + T.size : Nat) : Int) - 1) T := by
  induction T with
  | leaf mn mx t =>
    intro pre post
    refine Represents.leaf _ mn mx t ?_ ?_
    · simp only [BVH.size]; push_cast; omega
    · simp only [BVH.flatten, BVH.size, List.append_assoc, List.singleton_append]
      apply get?_middle
      push_cast
      omega
  | inner mn mx l r ihl ihr =>
    intro pre post
    have hl := l.size_pos
    have hr := r.size_pos
    refine Represents.inner _ (((pre.length + l.size : Nat) : Int) - 1)
      (((pre.length + l.size + r.size : Nat) : Int) - 1) mn mx l r ?_ ?_ ?_ ?_ ?_ ?_
    · simp only [BVH.size]; push_cast; omega
    · simp only [BVH.flatten, BVH.size]
      have : pre ++ (l.flatten pre.length ++ r.flatten (pre.length + l.size) ++
            [Node.inner mn mx (((pre.length + l.size : Nat) : Int) - 1)
              (((pre.length + l.size + r.size : Nat) : Int) - 1)]) ++ post
          = (pre ++ l.flatten pre.length ++ r.flatten (pre.length + l.size)) ++
            Node.inner mn mx (((pre.length + l.size : Nat) : Int) - 1)
              (((pre.length + l.size + r.size : Nat) : Int) - 1) :: post := by
        simp
      rw [this]
      apply get?_middle
      simp only [List.length_append, BVH.flatten_length]
      push_cast
      omega
    · simp only [BVH.size]; push_cast; omega
    · simp only [BVH.size]; push_cast; omega
    · have h := ihl pre (r.flatten (pre.length + l.size) ++
          [Node.inner mn mx (((pre.length + l.size : Nat) : Int) - 1)
            (((pre.length + l.size + r.size : Nat) : Int) - 1)] ++ post)
      simpa [BVH.flatten] using h
    · have h := ihr (pre ++ l.flatten pre.length)
          ([Node.inner mn mx (((pre.length + l.size : Nat) : Int) - 1)
            (((pre.length + l.size + r.size : Nat) : Int) - 1)] ++ post)
      simp only [List.length_append, BVH.flatten_length] at h
      simpa [BVH.flatten] using h

/-- Every index inside the flattened form of a tree is reached from its top
node through child links. -/
theorem BVH.flatten_descends (T : BVH) :
    ∀ (pre post : List Node) (a : Nat), pre.length ≤ a → a < pre.length + T.size →
      Descends (pre ++ T.flatten pre.length ++ post) (((pre.length + T.size : Nat) : Int) - 1)
        (a : Int) := by
  induction T with
  | leaf mn mx t =>
    intro pre post a h1 h2
    simp only [BVH.size] at h2
    have ha : (a : Int) = ((pre.length + (BVH.leaf mn mx t).size : Nat) : Int) - 1 := by
      simp only [BVH.size]; push_cast; omega
    rw [← ha]
    cases BVH.flatten_represents (BVH.leaf mn mx t) pre post with
    | leaf _ _ _ _ h0 hget =>
      rw [← ha] at h0 hget
      exact Descends.here _ _ h0 hget
  | inner mn mx l r ihl ihr =>
    intro pre post a h1 h2
    simp only [BVH.size] at h2
    cases BVH.flatten_represents (BVH.inner mn mx l r) pre post with
    | inner _ li ri _ _ _ _ h0 hget hli hri hl hr =>
      by_cases hlast : a = pre.length + l.size + r.size
      · have ha : (a : Int) = ((pre.length + (BVH.inner mn mx l r).size : Nat) : Int) - 1 := by
          simp only [BVH.size]; push_cast; omega
        rw [← ha] at h0 hget ⊢
        exact Descends.here _ _ h0 hget
      · have hlsz : (l.flatten pre.length).length = l.size := BVH.flatten_length _ _
        have hnode : (pre ++ (BVH.inner mn mx l r).flatten pre.length ++ post).get?
            (((pre.length + (BVH.inner mn mx l r).size : Nat) : Int) - 1).toNat
            = some (Node.inner mn mx (((pre.length + l.size : Nat) : Int) - 1)
                (((pre.length + l.size + r.size : Nat) : Int) - 1)) := by
          simp only [BVH.flatten, BVH.size]
          have : pre ++ (l.flatten pre.length ++ r.flatten (pre.length + l.size) ++
                [Node.inner mn mx (((pre.length + l.size : Nat) : Int) - 1)
                  (((pre.length + l.size + r.size : Nat) : Int) - 1)]) ++ post
              = (pre ++ l.flatten pre.length ++ r.flatten (pre.length + l.size)) ++
                Node.inner mn mx (((pre.length + l.size : Nat) : Int) - 1)
                  (((pre.length + l.size + r.size : Nat) : Int) - 1) :: post := by
            simp
          rw [this]
          apply get?_middle
          simp only [List.length_append, BVH.flatten_length]
          push_cast
          omega
        by_cases hleft : a < pre.length + l.size
        · have hd := ihl pre (r.flatten (pre.length + l.size) ++
            [Node.inner mn mx (((pre.length + l.size : Nat) : Int) - 1)
              (((pre.length + l.size + r.size : Nat) : Int) - 1)] ++ post) a h1 hleft
          refine Descends.left _ _ _ h0 hnode rfl ?_
          simpa [BVH.flatten, Node.inner] using hd
        · have hd := ihr (pre ++ l.flatten pre.length)
            ([Node.inner mn mx (((pre.length + l.size : Nat) : Int) - 1)
              (((pre.length + l.size + r.size : Nat) : Int) - 1)] ++ post) a
            (by simp only [List.length_append, BVH.flatten_length]; omega)
            (by simp only [List.length_append, BVH.flatten_length]; omega)
          refine Descends.right _ _ _ h0 hnode rfl ?_
          simp only [List.length_append, BVH.flatten_length] at hd
          simpa [BVH.flatten, Node.inner] using hd

/-- Every index inside the flattened form of a bounded tree carries a bounded
subtree. -/
theorem BVH.flatten_index_represents (vertices : List vec3) (elements : List Nat) (T : BVH) :
    ∀ (pre post : List Node), T.Bounded vertices elements →
      ∀ a : Nat, pre.length ≤ a → a < pre.length + T.size →
        ∃ S : BVH, Represents (pre ++ T.flatten pre.length ++ post) (a : Int) S ∧
          S.Bounded vertices elements := by
  induction T with
  | leaf mn mx t =>
    intro pre post hb a h1 h2
    simp only [BVH.size] at h2
    have ha : (a : Int) = ((pre.length + (BVH.leaf mn mx t).size : Nat) : Int) - 1 := by
      simp only [BVH.size]; push_cast; omega
    rw [ha]
    exact ⟨_, BVH.flatten_represents _ pre post, hb⟩
  | inner mn mx l r ihl ihr =>
    intro pre post hb a h1 h2
    simp only [BVH.size] at h2
    by_cases hlast : a = pre.length + l.size + r.size
    · have ha : (a : Int) = ((pre.length + (BVH.inner mn mx l r).size : Nat) : Int) - 1 := by
        simp only [BVH.size]; push_cast; omega
      rw [ha]
      exact ⟨_, BVH.flatten_represents _ pre post, hb⟩
    · by_cases hleft : a < pre.length + l.size
      · obtain ⟨S, hS, hSb⟩ := ihl pre (r.flatten (pre.length + l.size) ++
          [Node.inner mn mx (((pre.length + l.size : Nat) : Int) - 1)
            (((pre.length + l.size + r.size : Nat) : Int) - 1)] ++ post) hb.2.1 a h1 hleft
        refine ⟨S, ?_, hSb⟩
        simpa [BVH.flatten] using hS
      · obtain ⟨S, hS, hSb⟩ := ihr (pre ++ l.flatten pre.length)
          ([Node.inner mn mx (((pre.length + l.size : Nat) : Int) - 1)
            (((pre.length + l.size + r.size : Nat) : Int) - 1)] ++ post) hb.2.2 a
          (by simp only [List.length_append, BVH.flatten_length]; omega)
          (by simp only [List.length_append, BVH.flatten_length]; omega)
        refine ⟨S, ?_, hSb⟩
        simp only [List.length_append, BVH.flatten_length] at hS
        simpa [BVH.flatten] using hS

/-- Following links from the top of a represented, bounded tree stays inside
it: the node reached carries a bounded subtree whose triangles are among those
of the tree. -/
theorem descends_represents (vertices : List vec3) (elements : List Nat) (nodes : List Node)
    (a b : Int) (hd : Descends nodes a b) :
    ∀ S : BVH, Represents nodes a S → S.Bounded vertices elements →
      ∃ S2 : BVH, Represents nodes b S2 ∧ S2.Bounded vertices elements ∧
        ∀ t ∈ S2.leaves, t ∈ S.leaves := by
  induction hd with
  | here a n h0 hn =>
    intro S hS hb
    exact ⟨S, hS, hb, fun t ht => ht⟩
  | left a b n h0 hn hidx _ ih =>
    intro S hS hb
    cases hS with
    | leaf _ mn mx t _ hget =>
      rw [hn] at hget
      have := (Option.some.inj hget)
      subst this
      simp only [Node.leaf] at hidx
      omega
    | inner _ li ri mn mx l r _ hget hli hri hl hr =>
      rw [hn] at hget
      have := (Option.some.inj hget)
      subst this
      obtain ⟨S2, h1, h2, h3⟩ := ih l hl hb.2.1
      exact ⟨S2, h1, h2, fun t ht => by simp [BVH.leaves, h3 t ht]⟩
  | right a b n h0 hn hidx _ ih =>
    intro S hS hb
    cases hS with
    | leaf _ mn mx t _ hget =>
      rw [hn] at hget
      have := (Option.some.inj hget)
      subst this
      simp only [Node.leaf] at hidx
      omega
    | inner _ li ri mn mx l r _ hget hli hri hl hr =>
      rw [hn] at hget
      have := (Option.some.inj hget)
      subst this
      obtain ⟨S2, h1, h2, h3⟩ := ih r hr hb.2.2
      exact ⟨S2, h1, h2, fun t ht => by simp [BVH.leaves, h3 t ht]⟩

/-- The box stored at the top node of a represented, bounded tree encloses the
vertices of all its triangles. -/
theorem represents_encloses (vertices : List vec3) (elements : List Nat) (nodes : List Node)
    (a : Int) (S : BVH) (hS : Represents nodes a S) (hb : S.Bounded vertices elements)
    (n : Node) (hn : nodes.get? a.toNat = some n) (t : Nat) (ht : t ∈ S.leaves) (j : Nat)
    (hj : j < 3) :
    Encloses n.aabb.min n.aabb.max (vertexAt vertices elements (t * 3 + j)) := by
  cases hS with
  | leaf _ mn mx t0 _ hget =>
    rw [hn] at hget
    have := (Option.some.inj hget)
    subst this
    simp only [BVH.leaves, List.mem_singleton] at ht
    subst ht
    exact hb j hj
  | inner _ li ri mn mx l r _ hget hli hri hl hr =>
    rw [hn] at hget
    have := (Option.some.inj hget)
    subst this
    exact hb.1 t ht j hj

/-- C1. For every well-formed vertex and element buffer the constructor
succeeds, and in the tree it builds there is, for every triangle index
`i < N_t`, exactly one node with `element_index = 3 * i`, while every leaf
(`element_index ≠ -1`) is the leaf of such a triangle; every node of the array
belongs to the tree under `root`. -/
theorem C1_every_triangle_in_exactly_one_leaf (vertices : List vec3) (num_vertices : Int)
    (elements : List Nat) (num_elements : Int)
    (hvalid : ValidMesh vertices elements num_elements) :
    ∃ shape, TriangleMeshShape.create vertices num_vertices elements num_elements = .ok shape ∧
      (∀ i : Nat, i < numTriangles num_elements →
        (shape.nodes.filter (fun n => decide (n.element_index = 3 * (i : Int)))).length = 1) ∧
      (∀ n ∈ shape.nodes, n.element_index ≠ -1 →
        ∃ i : Nat, i < numTriangles num_elements ∧ n.element_index = 3 * (i : Int)) ∧
      (∀ j : Nat, j < shape.nodes.length → Descends shape.nodes shape.root (j : Int)) := by
  have _ := hvalid
  rcases Nat.eq_zero_or_pos (numTriangles num_elements) with h0 | hpos
  · refine ⟨_, create_empty vertices num_vertices elements num_elements h0, ?_, ?_, ?_⟩
    · intro i hi; omega
    · intro n hn; simp at hn
    · intro j hj; simp at hj
  · obtain ⟨T, hT, hperm, _⟩ := create_nonempty vertices num_vertices elements num_elements hpos
    refine ⟨_, hT, ?_, ?_, ?_⟩
    · intro i hi
      simp only []
      rw [BVH.flatten_filter_leaf, hperm.count_eq]
      exact List.count_eq_one_of_mem (List.nodup_range _) (List.mem_range.mpr hi)
    · intro n hn hleaf
      obtain ⟨t, ht, he⟩ := BVH.flatten_leaf_mem T 0 n hn hleaf
      exact ⟨t, List.mem_range.mp ((hperm.mem_iff).mp ht), he⟩
    · intro j hj
      simp only [BVH.flatten_length] at hj
      have hd := BVH.flatten_descends T [] [] j (by simp) (by simpa using hj)
      simpa using hd

/-- C2. In the tree built from a well-formed mesh with at least one triangle,
the box `(min, max)` stored at any node `a` encloses, componentwise, the three
vertices of the triangle of every leaf `b` in the subtree of `a`. -/
theorem C2_bounding_soundness (vertices : List vec3) (num_vertices : Int)
    (elements : List Nat) (num_elements : Int)
    (hvalid : ValidMesh vertices elements num_elements)
    (hpos : 1 ≤ numTriangles num_elements) :
    ∃ shape, TriangleMeshShape.create vertices num_vertices elements num_elements = .ok shape ∧
      ∀ (a b : Int) (na nb : Node), Descends shape.nodes a b →
        shape.nodes.get? a.toNat = some na → shape.nodes.get? b.toNat = some nb →
        nb.element_index ≠ -1 →
        ∀ j, j < 3 →
          Encloses na.aabb.min na.aabb.max
            (vertexAt vertices elements (nb.element_index.toNat + j)) := by
  have _ := hvalid
  obtain ⟨T, hT, _, hb⟩ := create_nonempty vertices num_vertices elements num_elements hpos
  refine ⟨_, hT, ?_⟩
  intro a b na nb hd hna hnb hleaf j hj
  simp only [] at hd hna hnb
  have ha0 : 0 ≤ a := by cases hd <;> assumption
  have halt : a.toNat < (T.flatten 0).length := by
    by_contra hge
    rw [List.get?_eq_none.mpr (by omega)] at hna
    cases hna
  rw [BVH.flatten_length] at halt
  obtain ⟨S, hS, hSb⟩ := BVH.flatten_index_represents vertices elements T [] [] hb a.toNat
    (by simp) (by simpa using halt)
  simp only [List.nil_append, List.length_nil, List.append_nil] at hS
  rw [Int.toNat_of_nonneg ha0] at hS
  obtain ⟨S2, hS2, _, hsub⟩ := descends_represents vertices elements _ a b hd S hS hSb
  cases hS2 with
  | leaf _ mn mx t _ hget =>
    rw [hnb] at hget
    have := (Option.some.inj hget)
    subst this
    have hidx : (Node.leaf mn mx ((t * 3 : Nat) : Int)).element_index.toNat = t * 3 := by
      simp only [Node.leaf]
      omega
    rw [hidx]
    exact represents_encloses vertices elements _ a S hS hSb na hna t
      (hsub t (by simp [BVH.leaves])) j hj
  | inner _ li ri mn mx l r _ hget hli hri hl hr =>
    rw [hnb] at hget
    have := (Option.some.inj hget)
    subst this
    exact absurd rfl hleaf

/-! ## The ray/triangle kernel -/

theorem ray_triangle_miss (p0 p1 p2 s e : vec3) (h : mtMiss p0 p1 p2 s e) :
    ray_triangle p0 p1 p2 s e = ⟨1, none⟩ := by
  unfold mtMiss mtU mtV mtT mtDet at h
  unfold ray_triangle
  simp only []
  split_ifs with h1 h2 h3 h4
  · rfl
  · rfl
  · rfl
  · rfl
  · exfalso
    rcases h with h | h | h | h | h | h
    · exact h1 (abs_lt.mp h)
    · exact h2 (Or.inl h)
    · exact h2 (Or.inr h)
    · exact h3 (Or.inl h)
    · exact h3 (Or.inr h)
    · exact h4 h

theorem ray_triangle_hit (p0 p1 p2 s e : vec3) (h : ¬ mtMiss p0 p1 p2 s e) :
    ray_triangle p0 p1 p2 s e
      = ⟨mtT p0 p1 p2 s e, some (mtU p0 p1 p2 s e, mtV p0 p1 p2 s e)⟩ := by
  unfold mtMiss at h
  push_neg at h
  obtain ⟨h1, h2, h3, h4, h5, h6⟩ := h
  unfold mtU mtV mtT mtDet at *
  unfold ray_triangle
  simp only []
  have hdet : ¬ (dot (p1 - p0) (cross (e - s) (p2 - p0)) > -FLT_EPSILON ∧
      dot (p1 - p0) (cross (e - s) (p2 - p0)) < FLT_EPSILON) := by
    intro hlt
    exact absurd (abs_lt.mpr hlt) (not_lt.mpr h1)
  rw [if_neg hdet, if_neg (by push_neg; exact ⟨h2, h3⟩), if_neg (by push_neg; exact ⟨h4, h5⟩),
    if_neg (not_le.mpr h6)]

theorem ray_triangle_bary_none (p0 p1 p2 s e : vec3)
    (h : (ray_triangle p0 p1 p2 s e).bary = none) : (ray_triangle p0 p1 p2 s e).t = 1 := by
  by_cases hm : mtMiss p0 p1 p2 s e
  · rw [ray_triangle_miss _ _ _ _ _ hm]
  · rw [ray_triangle_hit _ _ _ _ _ hm] at h
    cases h

theorem ray_triangle_bary_some (p0 p1 p2 s e : vec3) (b c : ℚ)
    (h : (ray_triangle p0 p1 p2 s e).bary = some (b, c)) :
    FLT_EPSILON < (ray_triangle p0 p1 p2 s e).t ∧ 0 ≤ b ∧ b ≤ 1 ∧ 0 ≤ c ∧ b + c ≤ 1 := by
  by_cases hm : mtMiss p0 p1 p2 s e
  · rw [ray_triangle_miss _ _ _ _ _ hm] at h
    cases h
  · rw [ray_triangle_hit _ _ _ _ _ hm] at h ⊢
    simp only [Option.some.injEq, Prod.mk.injEq] at h
    obtain ⟨rfl, rfl⟩ := h
    unfold mtMiss at hm
    push_neg at hm
    exact ⟨hm.2.2.2.2.2, hm.2.1, hm.2.2.1, hm.2.2.2.1, hm.2.2.2.2.1⟩

/-! ## The drivers read on trees -/

theorem node_of_get (shape : TriangleMeshShape) (a : Int) (n : Node) (h0 : 0 ≤ a)
    (hn : shape.nodes.get? a.toNat = some n) : shape.node a = .ok n := by
  simp only [TriangleMeshShape.node, h0, if_true, hn]

theorem intersect_leaf (shape : TriangleMeshShape) (ray : RayBBox) (a : Int) (mn mx : vec3)
    (t : Nat) (hn : shape.node a = .ok (Node.leaf mn mx ((t * 3 : Nat) : Int))) :
    intersect_triangle_ray shape ray a
      = .ok (triangleHit shape.vertices shape.elements ray t) := by
  have h0 : (((t * 3 : Nat) : Int)).toNat = t * 3 := by omega
  have h1 : (((t * 3 : Nat) : Int) + 1).toNat = t * 3 + 1 := by omega
  have h2 : (((t * 3 : Nat) : Int) + 2).toNat = t * 3 + 2 := by omega
  simp only [intersect_triangle_ray, hn, Node.leaf, elementAt, triangleHit, vertexAt, h0, h1, h2]

/-- On a represented tree the recursive any-hit driver, given a budget of at
least the tree size, returns what the tree reading computes. -/
theorem find_any_hit_node_eq (shape : TriangleMeshShape) (ray : RayBBox) (T : BVH) :
    ∀ (a : Int) (fuel : Nat), Represents shape.nodes a T → T.size ≤ fuel →
      find_any_hit_node shape ray fuel a = .ok (T.anyHit shape.vertices shape.elements ray) := by
  induction T with
  | leaf mn mx t =>
    intro a fuel hrep hfuel
    cases hrep with
    | leaf _ _ _ _ h0 hget =>
      have hn := node_of_get shape a _ h0 hget
      cases fuel with
      | zero => simp [BVH.size] at hfuel
      | succ fuel =>
        have hne : ¬ ((t : Int) * 3 = -1) := by omega
        by_cases hb : boxOverlap ray mn mx = true
        · have hb2 := hb
          simp only [boxOverlap] at hb2
          simp only [find_any_hit_node, overlap_bv_ray, hn, is_leaf, intersect_leaf shape ray a mn mx t hn,
            BVH.anyHit, hb]
          simp [Node.leaf, hb2, hne]
        · have hb2 := hb
          simp only [boxOverlap] at hb2
          simp only [find_any_hit_node, overlap_bv_ray, hn, BVH.anyHit, hb]
          simp [Node.leaf, hb2]
  | inner mn mx l r ihl ihr =>
    intro a fuel hrep hfuel
    cases hrep with
    | inner _ li ri _ _ _ _ h0 hget hli hri hl hr =>
      have hn := node_of_get shape a _ h0 hget
      cases fuel with
      | zero => simp [BVH.size] at hfuel
      | succ fuel =>
        simp only [BVH.size] at hfuel
        have hL := ihl li fuel hl (by omega)
        have hR := ihr ri fuel hr (by omega)
        by_cases hb : boxOverlap ray mn mx = true
        · have hb2 := hb
          simp only [boxOverlap] at hb2
          simp only [find_any_hit_node, overlap_bv_ray, hn, is_leaf, BVH.anyHit, hb]
          simp only [Node.inner, hb2]
          simp only [ne_eq, not_true_eq_false, decide_False, hL, hR]
          cases hla : l.anyHit shape.vertices shape.elements ray <;> simp
        · have hb2 := hb
          simp only [boxOverlap] at hb2
          simp only [find_any_hit_node, overlap_bv_ray, hn, BVH.anyHit, hb]
          simp [Node.inner, hb2]

theorem leafUpdate_fraction_le (vertices : List vec3) (elements : List Nat) (ray : RayBBox)
    (hit : TraceHit) (t : Nat) :
    (leafUpdate vertices elements ray hit t).fraction ≤ hit.fraction := by
  unfold leafUpdate
  split_ifs with h
  · split
    · exact le_of_lt h
    · exact le_refl _
  · exact le_refl _

theorem BVH.firstHit_fraction_le (vertices : List vec3) (elements : List Nat) (ray : RayBBox)
    (T : BVH) : ∀ hit : TraceHit,
      (T.firstHit vertices elements ray hit).fraction ≤ hit.fraction := by
  induction T with
  | leaf mn mx t =>
    intro hit
    simp only [BVH.firstHit]
    split_ifs
    · exact leafUpdate_fraction_le _ _ _ _ _
    · exact le_refl _
  | inner mn mx l r ihl ihr =>
    intro hit
    simp only [BVH.firstHit]
    split_ifs
    · exact le_trans (ihr _) (ihl _)
    · exact le_refl _

/-- On a represented tree the recursive first-hit driver, entered with a hit
record whose fraction is at most one and given a budget of at least the tree
size, returns what the tree reading computes; in particular it never reads
`baryB`, `baryC` unwritten. -/
theorem find_first_hit_node_eq (shape : TriangleMeshShape) (ray : RayBBox) (T : BVH) :
    ∀ (a : Int) (fuel : Nat) (hit : TraceHit), Represents shape.nodes a T → T.size ≤ fuel →
      hit.fraction ≤ 1 →
      find_first_hit_node shape ray fuel a hit
        = .ok (T.firstHit shape.vertices shape.elements ray hit) := by
  induction T with
  | leaf mn mx t =>
    intro a fuel hit hrep hfuel hfrac
    cases hrep with
    | leaf _ _ _ _ h0 hget =>
      have hn := node_of_get shape a _ h0 hget
      cases fuel with
      | zero => simp [BVH.size] at hfuel
      | succ fuel =>
        have hne : ¬ ((t : Int) * 3 = -1) := by omega
        have hdiv : Int.tdiv ((t : Int) * 3) 3 = t := Int.mul_tdiv_cancel _ (by decide)
        by_cases hb : boxOverlap ray mn mx = true
        · have hb2 := hb
          simp only [boxOverlap] at hb2
          simp only [find_first_hit_node, overlap_bv_ray, hn, is_leaf,
            intersect_leaf shape ray a mn mx t hn, BVH.firstHit, hb, leafUpdate]
          simp only [Node.leaf, hb2]
          simp only [ne_eq, Nat.cast_mul, Nat.cast_ofNat, hne, not_false_eq_true, decide_True,
            if_true, hdiv]
          by_cases hlt : (triangleHit shape.vertices shape.elements ray t).t < hit.fraction
          · simp only [hlt, if_true]
            cases hbary : (triangleHit shape.vertices shape.elements ray t).bary with
            | none =>
              exfalso
              have h1 := ray_triangle_bary_none _ _ _ _ _ hbary
              have : (triangleHit shape.vertices shape.elements ray t).t = 1 := h1
              rw [this] at hlt
              exact absurd hlt (not_lt.mpr hfrac)
            | some bc =>
              obtain ⟨b, c⟩ := bc
              rfl
          · simp only [hlt, if_false]
        · have hb2 := hb
          simp only [boxOverlap] at hb2
          simp only [find_first_hit_node, overlap_bv_ray, hn, BVH.firstHit, hb]
          simp [Node.leaf, hb2]
  | inner mn mx l r ihl ihr =>
    intro a fuel hit hrep hfuel hfrac
    cases hrep with
    | inner _ li ri _ _ _ _ h0 hget hli hri hl hr =>
      have hn := node_of_get shape a _ h0 hget
      cases fuel with
      | zero => simp [BVH.size] at hfuel
      | succ fuel =>
        simp only [BVH.size] at hfuel
        have hL := ihl li fuel hit hl (by omega) hfrac
        have hR := ihr ri fuel (l.firstHit shape.vertices shape.elements ray hit) hr (by omega)
          (le_trans (BVH.firstHit_fraction_le _ _ _ _ _) hfrac)
        by_cases hb : boxOverlap ray mn mx = true
        · have hb2 := hb
          simp only [boxOverlap] at hb2
          simp only [find_first_hit_node, overlap_bv_ray, hn, is_leaf, BVH.firstHit, hb]
          simp only [Node.inner, hb2]
          simp only [ne_eq, not_true_eq_false, decide_False, hL, hR, decide_True, if_true]
        · have hb2 := hb
          simp only [boxOverlap] at hb2
          simp only [find_first_hit_node, overlap_bv_ray, hn, BVH.firstHit, hb]
          simp [Node.inner, hb2]

/-- The tree reading of the first-hit traversal either leaves the record alone or
replaces it by the kernel result of one leaf, whose `t` is below the incoming
fraction. -/
theorem BVH.firstHit_cases (vertices : List vec3) (elements : List Nat) (ray : RayBBox)
    (T : BVH) : ∀ hit : TraceHit,
      T.firstHit vertices elements ray hit = hit ∨
      ∃ t ∈ T.leaves, ∃ b c, (triangleHit vertices elements ray t).bary = some (b, c) ∧
        T.firstHit vertices elements ray hit
          = ⟨(triangleHit vertices elements ray t).t, (t : Int), b, c⟩ ∧
        (triangleHit vertices elements ray t).t < hit.fraction := by
  induction T with
  | leaf mn mx t =>
    intro hit
    simp only [BVH.firstHit]
    split_ifs with hb
    · unfold leafUpdate
      split_ifs with hlt
      · cases hbary : (triangleHit vertices elements ray t).bary with
        | none => left; rfl
        | some bc =>
          obtain ⟨b, c⟩ := bc
          right
          exact ⟨t, by simp [BVH.leaves], b, c, hbary, rfl, hlt⟩
      · left; rfl
    · left; rfl
  | inner mn mx l r ihl ihr =>
    intro hit
    simp only [BVH.firstHit]
    split_ifs with hb
    · rcases ihr (l.firstHit vertices elements ray hit) with h2 | ⟨t, ht, b, c, hbary, heq, hlt⟩
      · rw [h2]
        rcases ihl hit with h1 | ⟨t, ht, b, c, hbary, heq, hlt⟩
        · left; exact h1
        · right
          exact ⟨t, by simp [BVH.leaves, ht], b, c, hbary, heq, hlt⟩
      · right
        exact ⟨t, by simp [BVH.leaves, ht], b, c, hbary, heq,
          lt_of_lt_of_le hlt (BVH.firstHit_fraction_le _ _ _ _ _)⟩
    · left; rfl

/-- The chunk loop on a represented tree, entered with the no-hit record at a
non-negative `t` and with enough iterations left to reach `tracedist`: it ends,
and hands back either the no-hit record or a hit with fraction in `[0, 1)`, a
triangle of the tree and barycentrics in the triangle. -/
theorem find_first_hit_loop_spec (mkRay : vec3 → vec3 → RayBBox) (shape : TriangleMeshShape)
    (T : BVH) (hrep : Represents shape.nodes shape.root T)
    (hsize : T.size ≤ shape.nodes.length + 1) (ray_start ray_dir : vec3)
    (tracedist segmentlen : ℚ) (hseg : 0 < segmentlen) :
    ∀ (k : Nat) (t : ℚ), 0 ≤ t → tracedist ≤ t + k * segmentlen →
      ∃ res, find_first_hit_loop mkRay shape ray_start ray_dir tracedist segmentlen k t {}
          = .ok res ∧
        (res = {} ∨
          (0 ≤ res.fraction ∧ res.fraction < 1 ∧
            (∃ ray, ∃ tri ∈ T.leaves, res.triangle = (tri : Int) ∧
              (triangleHit shape.vertices shape.elements ray tri).t < 1) ∧
            0 ≤ res.b ∧ 0 ≤ res.c ∧ res.b + res.c ≤ 1)) := by
  intro k
  induction k with
  | zero =>
    intro t ht hk
    refine ⟨{}, ?_, Or.inl rfl⟩
    have : ¬ t < tracedist := by
      simp only [Nat.cast_zero, zero_mul, add_zero] at hk
      exact not_lt.mpr hk
    simp only [find_first_hit_loop, this, if_false]
  | succ k ih =>
    intro t ht hk
    by_cases hlt : t < tracedist
    · have hpos : 0 < tracedist := lt_of_le_of_lt ht hlt
      rw [find_first_hit_loop]
      simp only [hlt, if_true]
      rw [find_first_hit_node_eq shape _ T shape.root _ {} hrep hsize (le_refl _)]
      simp only []
      rcases BVH.firstHit_cases shape.vertices shape.elements
        (mkRay (ray_start + ray_dir * (t / tracedist))
          (ray_start + ray_dir * (min (t + segmentlen) tracedist / tracedist))) T {}
        with h | ⟨tri, htri, b, c, hbary, heq, hfrac⟩
      · rw [h]
        have : ¬ (({} : TraceHit).fraction < 1) := by simp
        rw [if_neg this]
        apply ih (t + segmentlen) (by linarith)
        push_cast at hk
        linarith
      · rw [heq]
        have hfrac1 : (triangleHit shape.vertices shape.elements
            (mkRay (ray_start + ray_dir * (t / tracedist))
              (ray_start + ray_dir * (min (t + segmentlen) tracedist / tracedist))) tri).t < 1 :=
          hfrac
        obtain ⟨heps, hb0, _, hc0, hbc⟩ := ray_triangle_bary_some _ _ _ _ _ b c hbary
        have hf0 : 0 < (triangleHit shape.vertices shape.elements
            (mkRay (ray_start + ray_dir * (t / tracedist))
              (ray_start + ray_dir * (min (t + segmentlen) tracedist / tracedist))) tri).t := by
          have : (0 : ℚ) < FLT_EPSILON := by norm_num [FLT_EPSILON]
          exact lt_trans this heps
        simp only [hfrac1, if_true]
        refine ⟨_, rfl, Or.inr ⟨?_, ?_, ⟨_, tri, htri, rfl, hfrac1⟩, hb0, hc0, hbc⟩⟩
        · have h1 : 0 ≤ t / tracedist := div_nonneg ht (le_of_lt hpos)
          have h2 : 0 ≤ min (t + segmentlen) tracedist / tracedist :=
            div_nonneg (le_min (by linarith) (le_of_lt hpos)) (le_of_lt hpos)
          simp only []
          nlinarith
        · have h1 : t / tracedist < 1 := (div_lt_one hpos).mpr hlt
          have h2 : min (t + segmentlen) tracedist / tracedist ≤ 1 :=
            (div_le_one hpos).mpr (min_le_right _ _)
          simp only []
          nlinarith
    · refine ⟨{}, ?_, Or.inl rfl⟩
      rw [find_first_hit_loop]
      simp only [hlt, if_false]

/-- The shape built from a mesh with at least one triangle, together with the
tree its node array holds. -/
theorem create_represents (vertices : List vec3) (num_vertices : Int) (elements : List Nat)
    (num_elements : Int) (hpos : 1 ≤ numTriangles num_elements) :
    ∃ (T : BVH) (shape : TriangleMeshShape),
      TriangleMeshShape.create vertices num_vertices elements num_elements = .ok shape ∧
      shape.vertices = vertices ∧ shape.elements = elements ∧ shape.nodes = T.flatten 0 ∧
      shape.root = ((T.size : Nat) : Int) - 1 ∧ Represents shape.nodes shape.root T ∧
      T.leaves.Perm (List.range (numTriangles num_elements)) ∧ T.Bounded vertices elements := by
  obtain ⟨T, hT, hperm, hb⟩ := create_nonempty vertices num_vertices elements num_elements hpos
  refine ⟨T, _, hT, rfl, rfl, rfl, rfl, ?_, hperm, hb⟩
  have h := BVH.flatten_represents T [] []
  simpa using h

theorem find_first_hit_spec (mkRay : vec3 → vec3 → RayBBox) (length : vec3 → ℚ)
    (shape : TriangleMeshShape) (T : BVH) (hrep : Represents shape.nodes shape.root T)
    (hsize : T.size ≤ shape.nodes.length + 1) (ray_start ray_end : vec3) :
    ∃ res, find_first_hit mkRay length shape ray_start ray_end = .ok res ∧
      (res = {} ∨
        (0 ≤ res.fraction ∧ res.fraction < 1 ∧
          (∃ ray, ∃ tri ∈ T.leaves, res.triangle = (tri : Int) ∧
            (triangleHit shape.vertices shape.elements ray tri).t < 1) ∧
          0 ≤ res.b ∧ 0 ≤ res.c ∧ res.b + res.c ≤ 1)) := by
  unfold find_first_hit
  simp only []
  have hseg : (0 : ℚ) < max 100 (length (ray_end - ray_start) / 20) :=
    lt_of_lt_of_le (by norm_num) (le_max_left _ _)
  apply find_first_hit_loop_spec mkRay shape T hrep hsize _ _ _ _ hseg 21 0 (le_refl _)
  have h2 : length (ray_end - ray_start) / 20 ≤ max 100 (length (ray_end - ray_start) / 20) :=
    le_max_right _ _
  push_cast
  linarith

/-- C7. On the shape built from an empty mesh (`num_elements = 0`, so `root = -1`
and no node) the any-hit ray query reads `nodes[-1]`, outside the node array, for
every ray; so does the first-hit query for every ray of positive length, which
returns the no-hit record only when the chunk loop is not entered. -/
theorem C7_empty_mesh_query_reads_outside_nodes (mkRay : vec3 → vec3 → RayBBox)
    (length : vec3 → ℚ) (vertices : List vec3) (num_vertices : Int) (elements : List Nat)
    (ray_start ray_end : vec3) :
    ∃ shape, TriangleMeshShape.create vertices num_vertices elements 0 = .ok shape ∧
      shape.nodes = [] ∧ shape.root = -1 ∧
      find_any_hit mkRay shape ray_start ray_end = .error (Fault.nodeIndex (-1)) ∧
      find_first_hit mkRay length shape ray_start ray_end
        = (if 0 < length (ray_end - ray_start) then .error (Fault.nodeIndex (-1)) else .ok {}) := by
  refine ⟨_, create_empty vertices num_vertices elements 0 (by decide), rfl, rfl, ?_, ?_⟩
  · simp [find_any_hit, find_any_hit_node, overlap_bv_ray, TriangleMeshShape.node]
  · unfold find_first_hit
    simp only []
    rw [find_first_hit_loop]
    split_ifs with h
    · simp [find_first_hit_node, overlap_bv_ray, TriangleMeshShape.node]
    · rfl

theorem mtDet_degenerate (p0 p1 p2 s e : vec3) (h : Degenerate p0 p1 p2) :
    mtDet p0 p1 p2 s e = 0 := by
  unfold Degenerate at h
  have hx := congrArg vec3.x h
  have hy := congrArg vec3.y h
  have hz := congrArg vec3.z h
  simp only [cross, vec3.zero, vec3.sub_x, vec3.sub_y, vec3.sub_z] at hx hy hz
  simp only [mtDet, dot, cross, vec3.sub_x, vec3.sub_y, vec3.sub_z]
  linear_combination (-(e.x - s.x)) * hx + (-(e.y - s.y)) * hy + (-(e.z - s.z)) * hz

theorem ray_triangle_degenerate (p0 p1 p2 s e : vec3) (h : Degenerate p0 p1 p2) :
    ray_triangle p0 p1 p2 s e = ⟨1, none⟩ := by
  apply ray_triangle_miss
  left
  rw [mtDet_degenerate p0 p1 p2 s e h]
  norm_num [FLT_EPSILON]

theorem BVH.anyHit_false_of_miss (vertices : List vec3) (elements : List Nat) (ray : RayBBox)
    (T : BVH) (h : ∀ t ∈ T.leaves, ¬ (triangleHit vertices elements ray t).t < 1) :
    T.anyHit vertices elements ray = false := by
  induction T with
  | leaf mn mx t =>
    have := h t (by simp [BVH.leaves])
    simp [BVH.anyHit, this]
  | inner mn mx l r ihl ihr =>
    have hl := ihl (fun t ht => h t (by simp [BVH.leaves, ht]))
    have hr := ihr (fun t ht => h t (by simp [BVH.leaves, ht]))
    simp [BVH.anyHit, hl, hr]

theorem find_any_hit_eq (mkRay : vec3 → vec3 → RayBBox) (shape : TriangleMeshShape) (T : BVH)
    (hrep : Represents shape.nodes shape.root T) (hsize : T.size ≤ shape.nodes.length + 1)
    (ray_start ray_end : vec3) :
    find_any_hit mkRay shape ray_start ray_end
      = .ok (T.anyHit shape.vertices shape.elements (mkRay ray_start ray_end)) :=
  find_any_hit_node_eq shape _ T _ _ hrep hsize

/-- C9. A triangle without area (collinear or coincident vertices) has
determinant zero against every ray, so the ray/triangle kernel returns the miss
sentinel `1.0`.  Building a well-formed mesh with at least one triangle
succeeds whether or not it contains such triangles, `intersect_triangle_ray`
returns `1.0` at every leaf whose triangle has no area, and on a mesh made only
of such triangles both ray queries report a miss. -/
theorem C9_degenerate_triangles_miss (mkRay : vec3 → vec3 → RayBBox) (length : vec3 → ℚ)
    (vertices : List vec3) (num_vertices : Int) (elements : List Nat) (num_elements : Int)
    (hvalid : ValidMesh vertices elements num_elements)
    (hpos : 1 ≤ numTriangles num_elements) (ray_start ray_end : vec3) :
    (∀ p0 p1 p2 s e : vec3, Degenerate p0 p1 p2 →
      mtDet p0 p1 p2 s e = 0 ∧ ray_triangle p0 p1 p2 s e = ⟨1, none⟩) ∧
    ∃ shape, TriangleMeshShape.create vertices num_vertices elements num_elements = .ok shape ∧
      (∀ (ray : RayBBox) (a : Int) (n : Node), shape.node a = .ok n →
        Degenerate (nodeTriangle shape n).1 (nodeTriangle shape n).2.1 (nodeTriangle shape n).2.2 →
        intersect_triangle_ray shape ray a = .ok ⟨1, none⟩) ∧
      ((∀ i, i < numTriangles num_elements →
          Degenerate (vertexAt vertices elements (i * 3)) (vertexAt vertices elements (i * 3 + 1))
            (vertexAt vertices elements (i * 3 + 2))) →
        find_any_hit mkRay shape ray_start ray_end = .ok false ∧
        find_first_hit mkRay length shape ray_start ray_end
          = .ok { fraction := 1, triangle := -1, b := 0, c := 0 }) := by
  have _ := hvalid
  refine ⟨fun p0 p1 p2 s e h => ⟨mtDet_degenerate _ _ _ _ _ h, ray_triangle_degenerate _ _ _ _ _ h⟩,
    ?_⟩
  obtain ⟨T, shape, hcreate, hV, hE, hnodes, _, hrep, hperm, _⟩ :=
    create_represents vertices num_vertices elements num_elements hpos
  have hsize : T.size ≤ shape.nodes.length + 1 := by
    rw [hnodes, BVH.flatten_length]
    omega
  refine ⟨shape, hcreate, ?_, ?_⟩
  · intro ray a n hn hd
    simp only [intersect_triangle_ray, hn]
    exact congrArg Except.ok (ray_triangle_degenerate _ _ _ _ _ hd)
  · intro hdeg
    have hmiss : ∀ (ray : RayBBox), ∀ t ∈ T.leaves,
        triangleHit shape.vertices shape.elements ray t = ⟨1, none⟩ := by
      intro ray t ht
      rw [hV, hE]
      exact ray_triangle_degenerate _ _ _ _ _
        (hdeg t (List.mem_range.mp ((hperm.mem_iff).mp ht)))
    refine ⟨?_, ?_⟩
    · rw [find_any_hit_eq mkRay shape T hrep hsize]
      congr 1
      apply BVH.anyHit_false_of_miss
      intro t ht
      rw [hmiss _ t ht]
      norm_num
    · obtain ⟨res, hres, hcase⟩ :=
        find_first_hit_spec mkRay length shape T hrep hsize ray_start ray_end
      rcases hcase with rfl | ⟨_, _, ⟨ray, tri, htri, _, hlt⟩, _⟩
      · exact hres
      · rw [hmiss ray tri htri] at hlt
        norm_num at hlt

/-! ## Any-hit against first-hit -/

theorem BVH.firstHit_lt_one_iff (vertices : List vec3) (elements : List Nat) (ray : RayBBox)
    (T : BVH) : ∀ hit : TraceHit, hit.fraction ≤ 1 →
      ((T.firstHit vertices elements ray hit).fraction < 1 ↔
        (hit.fraction < 1 ∨ T.anyHit vertices elements ray = true)) := by
  induction T with
  | leaf mn mx t =>
    intro hit hle
    simp only [BVH.firstHit, BVH.anyHit]
    by_cases hb : boxOverlap ray mn mx = true
    · simp only [hb, if_true, Bool.true_and, decide_eq_true_eq]
      unfold leafUpdate
      by_cases hlt : (triangleHit vertices elements ray t).t < hit.fraction
      · simp only [hlt, if_true]
        have hlt1 : (triangleHit vertices elements ray t).t < 1 := lt_of_lt_of_le hlt hle
        cases hbary : (triangleHit vertices elements ray t).bary with
        | none =>
          exfalso
          have h1 : (triangleHit vertices elements ray t).t = 1 :=
            ray_triangle_bary_none _ _ _ _ _ hbary
          rw [h1] at hlt1
          exact lt_irrefl _ hlt1
        | some bc =>
          obtain ⟨b, c⟩ := bc
          simp only []
          exact ⟨fun _ => Or.inr hlt1, fun _ => hlt1⟩
      · simp only [hlt, if_false]
        constructor
        · intro h; exact Or.inl h
        · intro h
          rcases h with h | h
          · exact h
          · exact lt_of_le_of_lt (not_lt.mp hlt) h
    · simp [hb]
  | inner mn mx l r ihl ihr =>
    intro hit hle
    simp only [BVH.firstHit, BVH.anyHit]
    by_cases hb : boxOverlap ray mn mx = true
    · simp only [hb, if_true, Bool.true_and, Bool.or_eq_true]
      rw [ihr _ (le_trans (BVH.firstHit_fraction_le _ _ _ _ _) hle), ihl hit hle]
      tauto
    · simp [hb]

theorem vec3.add_mul_zero (a d : vec3) : a + d * (0 : ℚ) = a := by
  apply vec3.eq_of_components <;> simp

theorem vec3.add_sub_mul_one (a b : vec3) : a + (b - a) * (1 : ℚ) = b := by
  apply vec3.eq_of_components <;> simp

/-- A ray of positive length at most 100 is traced as a single chunk, which is
the whole ray: `find_first_hit` returns the result of one traversal. -/
theorem find_first_hit_single_chunk (mkRay : vec3 → vec3 → RayBBox) (length : vec3 → ℚ)
    (shape : TriangleMeshShape) (T : BVH) (hrep : Represents shape.nodes shape.root T)
    (hsize : T.size ≤ shape.nodes.length + 1) (ray_start ray_end : vec3)
    (hpos : 0 < length (ray_end - ray_start)) (hle : length (ray_end - ray_start) ≤ 100) :
    find_first_hit mkRay length shape ray_start ray_end
      = .ok (T.firstHit shape.vertices shape.elements (mkRay ray_start ray_end) {}) := by
  unfold find_first_hit
  simp only []
  have hmax : max (100 : ℚ) (length (ray_end - ray_start) / 20) = 100 := by
    apply max_eq_left
    linarith
  rw [hmax, find_first_hit_loop]
  simp only [hpos, if_true, zero_div, zero_add]
  have hmin : min (100 : ℚ) (length (ray_end - ray_start)) = length (ray_end - ray_start) :=
    min_eq_right hle
  rw [hmin, div_self (ne_of_gt hpos), vec3.add_mul_zero, vec3.add_sub_mul_one,
    find_first_hit_node_eq shape _ T shape.root _ {} hrep hsize (le_refl _)]
  simp only []
  split_ifs with hlt
  · congr 1
    simp
  · rw [find_first_hit_loop]
    have : ¬ ((100 : ℚ) < length (ray_end - ray_start)) := not_lt.mpr hle
    simp only [this, if_false]

/-- A ray of length zero is not traced at all by `find_first_hit`, and since
its direction vanishes the any-hit traversal finds no triangle either. -/
theorem zero_ray_miss (vertices : List vec3) (elements : List Nat) (ray : RayBBox)
    (h : ray.end_ = ray.start) (t : Nat) : (triangleHit vertices elements ray t).t = 1 := by
  unfold triangleHit
  rw [ray_triangle_miss]
  left
  have : mtDet (vertexAt vertices elements (t * 3)) (vertexAt vertices elements (t * 3 + 1))
      (vertexAt vertices elements (t * 3 + 2)) ray.start ray.end_ = 0 := by
    rw [h]
    simp [mtDet, dot, cross]
  rw [this]
  norm_num [FLT_EPSILON]

/-- C4 (amended). On the shape built from a well-formed mesh with at least one
triangle, for every ray of length at most 100 world units (traced as a single
chunk; a ray of length zero has `start = end`) whose `RayBBox` keeps the two end
points, the any-hit query returns true exactly when the first-hit query returns
a fraction below one. -/
theorem C4_any_hit_iff_first_hit_single_chunk (mkRay : vec3 → vec3 → RayBBox)
    (length : vec3 → ℚ) (vertices : List vec3) (num_vertices : Int) (elements : List Nat)
    (num_elements : Int) (hvalid : ValidMesh vertices elements num_elements)
    (hpos : 1 ≤ numTriangles num_elements) (ray_start ray_end : vec3)
    (hends : (mkRay ray_start ray_end).start = ray_start ∧
      (mkRay ray_start ray_end).end_ = ray_end)
    (hlen : (0 < length (ray_end - ray_start) ∧ length (ray_end - ray_start) ≤ 100) ∨
      (length (ray_end - ray_start) ≤ 0 ∧ ray_end = ray_start)) :
    ∃ shape any hit,
      TriangleMeshShape.create vertices num_vertices elements num_elements = .ok shape ∧
      find_any_hit mkRay shape ray_start ray_end = .ok any ∧
      find_first_hit mkRay length shape ray_start ray_end = .ok hit ∧
      (any = true ↔ hit.fraction < 1) := by
  have _ := hvalid
  obtain ⟨T, shape, hcreate, _, _, hnodes, _, hrep, _, _⟩ :=
    create_represents vertices num_vertices elements num_elements hpos
  have hsize : T.size ≤ shape.nodes.length + 1 := by
    rw [hnodes, BVH.flatten_length]
    omega
  rcases hlen with ⟨h0, h100⟩ | ⟨h0, hsame⟩
  · refine ⟨shape, _, _, hcreate, find_any_hit_eq mkRay shape T hrep hsize _ _,
      find_first_hit_single_chunk mkRay length shape T hrep hsize _ _ h0 h100, ?_⟩
    rw [BVH.firstHit_lt_one_iff _ _ _ T {} (le_refl _)]
    simp
  · refine ⟨shape, _, {}, hcreate, find_any_hit_eq mkRay shape T hrep hsize _ _, ?_, ?_⟩
    · unfold find_first_hit
      simp only []
      rw [find_first_hit_loop]
      simp only [not_lt.mpr h0, if_false]
    · have hmiss : T.anyHit shape.vertices shape.elements (mkRay ray_start ray_end) = false := by
        apply BVH.anyHit_false_of_miss
        intro t _
        rw [zero_ray_miss _ _ _ (by rw [hends.1, hends.2, hsame]) t]
        norm_num
      rw [hmiss]
      simp

/-- C4 (as stated) fails.  A triangle in the plane `z = 2⁻¹³` and the ray from
`(2,2,0)` to `(2,2,2000)`: on the whole ray the hit parameter `2⁻¹³/2000` is below
`ε`, so the any-hit query returns false; on the first chunk of length 100 the
parameter `2⁻¹³/100` exceeds `ε`, so the first-hit query returns a fraction below
one.  The outcome is the same for either scaling of the `RayBBox`. -/
theorem C4_counterexample :
    TriangleMeshShape.create nearVertices 3 [0, 1, 2] 3 = .ok nearShape ∧
    find_any_hit RayBBox.ofSpec nearShape ⟨2, 2, 0⟩ ⟨2, 2, 2000⟩ = .ok false ∧
    find_first_hit RayBBox.ofSpec axisLength nearShape ⟨2, 2, 0⟩ ⟨2, 2, 2000⟩
      = .ok { fraction := 1 / 16384000, triangle := 0, b := 1 / 4, c := 1 / 2 } ∧
    find_any_hit RayBBox.ofHalf nearShape ⟨2, 2, 0⟩ ⟨2, 2, 2000⟩ = .ok false ∧
    find_first_hit RayBBox.ofHalf axisLength nearShape ⟨2, 2, 0⟩ ⟨2, 2, 2000⟩
      = .ok { fraction := 1 / 16384000, triangle := 0, b := 1 / 4, c := 1 / 2 } ∧
    (1 / 16384000 : ℚ) < 1 := by
  decide!

/-! ## The segment/box test -/

theorem slab_inside (d w h σ : ℚ) (hT : |d| ≤ |w| + h) (hlo : slabLo d w h ≤ σ)
    (hhi : σ ≤ slabHi d w h) : |d + σ * w| ≤ h := by
  unfold slabLo at hlo
  unfold slabHi at hhi
  rw [abs_le]
  rcases lt_trichotomy 0 w with hw | hw | hw
  · simp only [hw, if_true] at hlo hhi
    rw [div_le_iff₀ hw] at hlo
    rw [le_div_iff₀ hw] at hhi
    constructor <;> linarith
  · subst hw
    simp at hT
    have := abs_le.mp hT
    constructor <;> simp <;> linarith
  · have hn : ¬ (0 < w) := not_lt.mpr (le_of_lt hw)
    simp only [hn, if_false, hw, if_true] at hlo hhi
    rw [div_le_iff_of_neg hw] at hlo
    rw [le_div_iff_of_neg hw] at hhi
    constructor <;> linarith

theorem slabLo_le_one (d w h : ℚ) (hT : |d| ≤ |w| + h) : slabLo d w h ≤ 1 := by
  unfold slabLo
  rcases lt_trichotomy 0 w with hw | hw | hw
  · simp only [hw, if_true]
    rw [div_le_iff₀ hw]
    rw [abs_of_pos hw] at hT
    have := abs_le.mp hT
    linarith
  · subst hw; simp
  · have hn : ¬ (0 < w) := not_lt.mpr (le_of_lt hw)
    simp only [hn, if_false, hw, if_true]
    rw [div_le_iff_of_neg hw]
    rw [abs_of_neg hw] at hT
    have := abs_le.mp hT
    linarith

theorem neg_one_le_slabHi (d w h : ℚ) (hT : |d| ≤ |w| + h) : -1 ≤ slabHi d w h := by
  unfold slabHi
  rcases lt_trichotomy 0 w with hw | hw | hw
  · simp only [hw, if_true]
    rw [le_div_iff₀ hw]
    rw [abs_of_pos hw] at hT
    have := abs_le.mp hT
    linarith
  · subst hw; simp
  · have hn : ¬ (0 < w) := not_lt.mpr (le_of_lt hw)
    simp only [hn, if_false, hw, if_true]
    rw [le_div_iff_of_neg hw]
    rw [abs_of_neg hw] at hT
    have := abs_le.mp hT
    linarith

theorem slabLo_le_slabHi_self (d w h : ℚ) (hh : 0 ≤ h) : slabLo d w h ≤ slabHi d w h := by
  unfold slabLo slabHi
  rcases lt_trichotomy 0 w with hw | hw | hw
  · simp only [hw, if_true]
    exact div_le_div_of_nonneg_right (by linarith) (le_of_lt hw)
  · subst hw; simp
  · have hn : ¬ (0 < w) := not_lt.mpr (le_of_lt hw)
    simp only [hn, if_false, hw, if_true]
    exact div_le_div_of_nonpos_of_le (le_of_lt hw) (by linarith)

theorem slabLo_le_slabHi (d1 w1 h1 d2 w2 h2 : ℚ) (hT1 : |d1| ≤ |w1| + h1)
    (hT2 : |d2| ≤ |w2| + h2)
    (hX : |d1 * w2 - d2 * w1| ≤ h1 * |w2| + h2 * |w1|) :
    slabLo d1 w1 h1 ≤ slabHi d2 w2 h2 := by
  rcases lt_trichotomy 0 w1 with hw1 | hw1 | hw1
  · rcases lt_trichotomy 0 w2 with hw2 | hw2 | hw2
    · unfold slabLo slabHi
      simp only [hw1, hw2, if_true]
      rw [div_le_div_iff₀ hw1 hw2]
      rw [abs_of_pos hw1, abs_of_pos hw2] at hX
      have := abs_le.mp hX
      nlinarith
    · subst hw2
      have : slabHi d2 0 h2 = 1 := by simp [slabHi]
      rw [this]
      exact slabLo_le_one _ _ _ hT1
    · have hn : ¬ (0 < w2) := not_lt.mpr (le_of_lt hw2)
      unfold slabLo slabHi
      simp only [hw1, hw2, hn, if_true, if_false]
      rw [abs_of_pos hw1, abs_of_neg hw2] at hX
      have := abs_le.mp hX
      have h2' : 0 < -w2 := by linarith
      rw [show (-h2 - d2) / w2 = (h2 + d2) / (-w2) by rw [div_neg, ← neg_div]; ring_nf]
      rw [div_le_div_iff₀ hw1 h2']
      nlinarith
  · subst hw1
    have : slabLo d1 0 h1 = -1 := by simp [slabLo]
    rw [this]
    exact neg_one_le_slabHi _ _ _ hT2
  · have hn1 : ¬ (0 < w1) := not_lt.mpr (le_of_lt hw1)
    have h1' : 0 < -w1 := by linarith
    rcases lt_trichotomy 0 w2 with hw2 | hw2 | hw2
    · unfold slabLo slabHi
      simp only [hw1, hw2, hn1, if_true, if_false]
      rw [abs_of_neg hw1, abs_of_pos hw2] at hX
      have := abs_le.mp hX
      rw [show (h1 - d1) / w1 = (d1 - h1) / (-w1) by rw [div_neg, ← neg_div]; ring_nf]
      rw [div_le_div_iff₀ h1' hw2]
      nlinarith
    · subst hw2
      have : slabHi d2 0 h2 = 1 := by simp [slabHi]
      rw [this]
      exact slabLo_le_one _ _ _ hT1
    · have hn2 : ¬ (0 < w2) := not_lt.mpr (le_of_lt hw2)
      have h2' : 0 < -w2 := by linarith
      unfold slabLo slabHi
      simp only [hw1, hw2, hn1, hn2, if_true, if_false]
      rw [abs_of_neg hw1, abs_of_neg hw2] at hX
      have := abs_le.mp hX
      rw [show (h1 - d1) / w1 = (d1 - h1) / (-w1) by rw [div_neg, ← neg_div]; ring_nf]
      rw [show (-h2 - d2) / w2 = (h2 + d2) / (-w2) by rw [div_neg, ← neg_div]; ring_nf]
      rw [div_le_div_iff₀ h1' h2']
      nlinarith

/-- The six comparisons of the segment/box test all pass exactly when some point
of the segment `d + σ w`, `-1 ≤ σ ≤ 1`, lies in the box of half-extents `h`
around the origin. -/
theorem sat_core (dx dy dz wx wy wz hx hy hz : ℚ) (hhx : 0 ≤ hx) (hhy : 0 ≤ hy) (hhz : 0 ≤ hz) :
    ((|dx| ≤ |wx| + hx ∧ |dy| ≤ |wy| + hy ∧ |dz| ≤ |wz| + hz) ∧
      |dy * wz - dz * wy| ≤ hy * |wz| + hz * |wy| ∧
      |dx * wz - dz * wx| ≤ hx * |wz| + hz * |wx| ∧
      |dx * wy - dy * wx| ≤ hx * |wy| + hy * |wx|) ↔
    ∃ σ : ℚ, -1 ≤ σ ∧ σ ≤ 1 ∧ |dx + σ * wx| ≤ hx ∧ |dy + σ * wy| ≤ hy ∧ |dz + σ * wz| ≤ hz := by
  constructor
  · rintro ⟨⟨tx, ty, tz⟩, cyz, cxz, cxy⟩
    have czy : |dz * wy - dy * wz| ≤ hz * |wy| + hy * |wz| := by
      rw [abs_sub_comm]; linarith
    have czx : |dz * wx - dx * wz| ≤ hz * |wx| + hx * |wz| := by
      rw [abs_sub_comm]; linarith
    have cyx : |dy * wx - dx * wy| ≤ hy * |wx| + hx * |wy| := by
      rw [abs_sub_comm]; linarith
    refine ⟨max (max (-1) (slabLo dx wx hx)) (max (slabLo dy wy hy) (slabLo dz wz hz)),
      ?_, ?_, ?_, ?_, ?_⟩
    · exact le_trans (le_max_left _ _) (le_max_left _ _)
    · exact max_le (max_le (by norm_num) (slabLo_le_one _ _ _ tx))
        (max_le (slabLo_le_one _ _ _ ty) (slabLo_le_one _ _ _ tz))
    · apply slab_inside _ _ _ _ tx
      · exact le_trans (le_max_right _ _) (le_max_left _ _)
      · exact max_le (max_le (neg_one_le_slabHi _ _ _ tx) (slabLo_le_slabHi_self _ _ _ hhx))
          (max_le (slabLo_le_slabHi _ _ _ _ _ _ ty tx cyx) (slabLo_le_slabHi _ _ _ _ _ _ tz tx czx))
    · apply slab_inside _ _ _ _ ty
      · exact le_trans (le_max_left _ _) (le_max_right _ _)
      · exact max_le (max_le (neg_one_le_slabHi _ _ _ ty) (slabLo_le_slabHi _ _ _ _ _ _ tx ty cxy))
          (max_le (slabLo_le_slabHi_self _ _ _ hhy) (slabLo_le_slabHi _ _ _ _ _ _ tz ty czy))
    · apply slab_inside _ _ _ _ tz
      · exact le_trans (le_max_right _ _) (le_max_right _ _)
      · exact max_le (max_le (neg_one_le_slabHi _ _ _ tz) (slabLo_le_slabHi _ _ _ _ _ _ tx tz cxz))
          (max_le (slabLo_le_slabHi _ _ _ _ _ _ ty tz cyz) (slabLo_le_slabHi_self _ _ _ hhz))
  · rintro ⟨σ, h1, h2, ax, ay, az⟩
    have hσ : |σ| ≤ 1 := abs_le.mpr ⟨h1, h2⟩
    have single : ∀ d w h : ℚ, |d + σ * w| ≤ h → |d| ≤ |w| + h := by
      intro d w h hd
      have e : d = (d + σ * w) - σ * w := by ring
      have h3 : |σ * w| ≤ |w| := by
        rw [abs_mul]
        exact mul_le_of_le_one_left (abs_nonneg _) hσ
      calc |d| = |(d + σ * w) - σ * w| := by rw [← e]
        _ ≤ |d + σ * w| + |σ * w| := abs_sub _ _
        _ ≤ |w| + h := by linarith
    have pair : ∀ d1 w1 h1 d2 w2 h2 : ℚ, |d1 + σ * w1| ≤ h1 → |d2 + σ * w2| ≤ h2 →
        |d1 * w2 - d2 * w1| ≤ h1 * |w2| + h2 * |w1| := by
      intro d1 w1 h1 d2 w2 h2 a1 a2
      have e : d1 * w2 - d2 * w1 = (d1 + σ * w1) * w2 - (d2 + σ * w2) * w1 := by ring
      calc |d1 * w2 - d2 * w1| = |(d1 + σ * w1) * w2 - (d2 + σ * w2) * w1| := by rw [← e]
        _ ≤ |(d1 + σ * w1) * w2| + |(d2 + σ * w2) * w1| := abs_sub _ _
        _ = |d1 + σ * w1| * |w2| + |d2 + σ * w2| * |w1| := by rw [abs_mul, abs_mul]
        _ ≤ h1 * |w2| + h2 * |w1| :=
          add_le_add (mul_le_mul_of_nonneg_right a1 (abs_nonneg _))
            (mul_le_mul_of_nonneg_right a2 (abs_nonneg _))
    exact ⟨⟨single _ _ _ ax, single _ _ _ ay, single _ _ _ az⟩, pair _ _ _ _ _ _ ay az,
      pair _ _ _ _ _ _ ax az, pair _ _ _ _ _ _ ax ay⟩

/-- C10 (as stated) fails.  With the `RayBBox` of the spec (`w = end - start`,
`v = |w|/2`) the segment from `(-1,-3,0)` to `(3,1,0)`, whose midpoint `(1,-1,0)`
lies in the box `[-1,1]³`, is reported disjoint from that box. -/
theorem C10_counterexample :
    (CollisionBBox.ofMinMax ⟨-1, -1, -1⟩ ⟨1, 1, 1⟩).Consistent ∧
    (0 : ℚ) ≤ 1 / 2 ∧ (1 / 2 : ℚ) ≤ 1 ∧
    Encloses ⟨-1, -1, -1⟩ ⟨1, 1, 1⟩
      ((⟨-1, -3, 0⟩ : vec3) + ((⟨3, 1, 0⟩ : vec3) - ⟨-1, -3, 0⟩) * (1 / 2 : ℚ)) ∧
    IntersectionTest.ray_aabb (RayBBox.ofSpec ⟨-1, -3, 0⟩ ⟨3, 1, 0⟩)
      (CollisionBBox.ofMinMax ⟨-1, -1, -1⟩ ⟨1, 1, 1⟩) = OverlapResult.disjoint := by
  decide!

/-- With `w` half the segment vector and `v = |w|`, the six comparisons of
`ray_aabb` decide exactly whether segment and box share a point. -/
theorem ray_aabb_overlap_iff (ray : RayBBox) (box : CollisionBBox)
    (hray : ray.Halved) (hbox : box.Consistent) :
    IntersectionTest.ray_aabb ray box = OverlapResult.overlap ↔
      SegmentMeetsBox ray.start ray.end_ box.min box.max := by
  obtain ⟨hc, hw, hv⟩ := hray
  obtain ⟨⟨hbx, hby, hbz⟩, hC, hE⟩ := hbox
  have hvx : ray.v.x = |ray.w.x| := by rw [hv]
  have hvy : ray.v.y = |ray.w.y| := by rw [hv]
  have hvz : ray.v.z = |ray.w.z| := by rw [hv]
  have hhx : 0 ≤ box.Extents.x := by rw [hE]; simp only [vec3.mul_x, vec3.sub_x]; linarith
  have hhy : 0 ≤ box.Extents.y := by rw [hE]; simp only [vec3.mul_y, vec3.sub_y]; linarith
  have hhz : 0 ≤ box.Extents.z := by rw [hE]; simp only [vec3.mul_z, vec3.sub_z]; linarith
  have hcore := sat_core (ray.c - box.Center).x (ray.c - box.Center).y (ray.c - box.Center).z
    ray.w.x ray.w.y ray.w.z box.Extents.x box.Extents.y box.Extents.z hhx hhy hhz
  have hcode : IntersectionTest.ray_aabb ray box = OverlapResult.overlap ↔
      ((|(ray.c - box.Center).x| ≤ |ray.w.x| + box.Extents.x ∧
          |(ray.c - box.Center).y| ≤ |ray.w.y| + box.Extents.y ∧
          |(ray.c - box.Center).z| ≤ |ray.w.z| + box.Extents.z) ∧
        |(ray.c - box.Center).y * ray.w.z - (ray.c - box.Center).z * ray.w.y|
          ≤ box.Extents.y * |ray.w.z| + box.Extents.z * |ray.w.y| ∧
        |(ray.c - box.Center).x * ray.w.z - (ray.c - box.Center).z * ray.w.x|
          ≤ box.Extents.x * |ray.w.z| + box.Extents.z * |ray.w.x| ∧
        |(ray.c - box.Center).x * ray.w.y - (ray.c - box.Center).y * ray.w.x|
          ≤ box.Extents.x * |ray.w.y| + box.Extents.y * |ray.w.x|) := by
    unfold IntersectionTest.ray_aabb
    simp only [hvx, hvy, hvz]
    split_ifs with h1 h2
    · simp only [false_iff]
      rintro ⟨⟨a, b, c⟩, _⟩
      rcases h1 with h | h | h
      · exact absurd a (not_le.mpr h)
      · exact absurd b (not_le.mpr h)
      · exact absurd c (not_le.mpr h)
    · simp only [false_iff]
      rintro ⟨_, a, b, c⟩
      rcases h2 with h | h | h
      · exact absurd a (not_le.mpr h)
      · exact absurd b (not_le.mpr h)
      · exact absurd c (not_le.mpr h)
    · simp only [true_iff]
      push_neg at h1 h2
      exact ⟨h1, h2⟩
  rw [hcode, hcore]
  have hdx : (ray.c - box.Center).x = (ray.start.x + ray.end_.x) / 2 - (box.min.x + box.max.x) / 2 := by
    rw [hc, hC]; simp only [vec3.sub_x, vec3.mul_x, vec3.add_x]; ring
  have hdy : (ray.c - box.Center).y = (ray.start.y + ray.end_.y) / 2 - (box.min.y + box.max.y) / 2 := by
    rw [hc, hC]; simp only [vec3.sub_y, vec3.mul_y, vec3.add_y]; ring
  have hdz : (ray.c - box.Center).z = (ray.start.z + ray.end_.z) / 2 - (box.min.z + box.max.z) / 2 := by
    rw [hc, hC]; simp only [vec3.sub_z, vec3.mul_z, vec3.add_z]; ring
  have hwx : ray.w.x = (ray.end_.x - ray.start.x) / 2 := by
    rw [hw, hc]; simp only [vec3.sub_x, vec3.mul_x, vec3.add_x]; ring
  have hwy : ray.w.y = (ray.end_.y - ray.start.y) / 2 := by
    rw [hw, hc]; simp only [vec3.sub_y, vec3.mul_y, vec3.add_y]; ring
  have hwz : ray.w.z = (ray.end_.z - ray.start.z) / 2 := by
    rw [hw, hc]; simp only [vec3.sub_z, vec3.mul_z, vec3.add_z]; ring
  have hex : box.Extents.x = (box.max.x - box.min.x) / 2 := by
    rw [hE]; simp only [vec3.sub_x, vec3.mul_x]; ring
  have hey : box.Extents.y = (box.max.y - box.min.y) / 2 := by
    rw [hE]; simp only [vec3.sub_y, vec3.mul_y]; ring
  have hez : box.Extents.z = (box.max.z - box.min.z) / 2 := by
    rw [hE]; simp only [vec3.sub_z, vec3.mul_z]; ring
  rw [hdx, hdy, hdz, hwx, hwy, hwz, hex, hey, hez]
  unfold SegmentMeetsBox Encloses
  simp only [vec3.add_x, vec3.add_y, vec3.add_z, vec3.mul_x, vec3.mul_y, vec3.mul_z, vec3.sub_x,
    vec3.sub_y, vec3.sub_z]
  constructor
  · rintro ⟨σ, h1, h2, ax, ay, az⟩
    rw [abs_le] at ax ay az
    refine ⟨(σ + 1) / 2, by linarith, by linarith, ⟨?_, ?_⟩, ⟨?_, ?_⟩, ?_, ?_⟩ <;> linarith
  · rintro ⟨t, h1, h2, ⟨ax1, ax2⟩, ⟨ay1, ay2⟩, az1, az2⟩
    refine ⟨2 * t - 1, by linarith, by linarith, ?_, ?_, ?_⟩ <;> rw [abs_le] <;>
      constructor <;> linarith

/-- C10 (amended). For every `RayBBox` whose `c` is the segment midpoint, whose
`w` is half the segment vector and whose `v` is `|w|`, and every `CollisionBBox`
with `min ≤ max` and consistent centre and extents, `ray_aabb` returns overlap
exactly when the closed segment from `start` to `end` shares a point with the
closed box. -/
theorem C10_ray_aabb_exact_for_half_vector (ray : RayBBox) (box : CollisionBBox)
    (hray : ray.Halved) (hbox : box.Consistent) :
    IntersectionTest.ray_aabb ray box = OverlapResult.overlap ↔
      SegmentMeetsBox ray.start ray.end_ box.min box.max :=
  ray_aabb_overlap_iff ray box hray hbox

/-! ## Pruning never hides a hit -/

theorem mt_hit_point_x (p0 p1 p2 s e : vec3) (hdet : mtDet p0 p1 p2 s e ≠ 0) :
    s.x + (e.x - s.x) * mtT p0 p1 p2 s e
      = p0.x + (p1.x - p0.x) * mtU p0 p1 p2 s e + (p2.x - p0.x) * mtV p0 p1 p2 s e := by
  unfold mtT mtU mtV
  field_simp
  simp only [mtDet, dot, cross, vec3.sub_x, vec3.sub_y, vec3.sub_z]
  ring

theorem mt_hit_point_y (p0 p1 p2 s e : vec3) (hdet : mtDet p0 p1 p2 s e ≠ 0) :
    s.y + (e.y - s.y) * mtT p0 p1 p2 s e
      = p0.y + (p1.y - p0.y) * mtU p0 p1 p2 s e + (p2.y - p0.y) * mtV p0 p1 p2 s e := by
  unfold mtT mtU mtV
  field_simp
  simp only [mtDet, dot, cross, vec3.sub_x, vec3.sub_y, vec3.sub_z]
  ring

theorem mt_hit_point_z (p0 p1 p2 s e : vec3) (hdet : mtDet p0 p1 p2 s e ≠ 0) :
    s.z + (e.z - s.z) * mtT p0 p1 p2 s e
      = p0.z + (p1.z - p0.z) * mtU p0 p1 p2 s e + (p2.z - p0.z) * mtV p0 p1 p2 s e := by
  unfold mtT mtU mtV
  field_simp
  simp only [mtDet, dot, cross, vec3.sub_x, vec3.sub_y, vec3.sub_z]
  ring

/-- The point of the ray at parameter `t` is the point of the triangle with
barycentrics `u`, `v`. -/
theorem mt_hit_point (p0 p1 p2 s e : vec3) (hdet : mtDet p0 p1 p2 s e ≠ 0) :
    s + (e - s) * mtT p0 p1 p2 s e
      = p0 + (p1 - p0) * mtU p0 p1 p2 s e + (p2 - p0) * mtV p0 p1 p2 s e := by
  apply vec3.eq_of_components
  · simpa using mt_hit_point_x p0 p1 p2 s e hdet
  · simpa using mt_hit_point_y p0 p1 p2 s e hdet
  · simpa using mt_hit_point_z p0 p1 p2 s e hdet

theorem convex_between (lo hi a b c u v : ℚ) (hu : 0 ≤ u) (hv : 0 ≤ v) (huv : u + v ≤ 1)
    (ha : lo ≤ a ∧ a ≤ hi) (hb : lo ≤ b ∧ b ≤ hi) (hc : lo ≤ c ∧ c ≤ hi) :
    lo ≤ a + (b - a) * u + (c - a) * v ∧ a + (b - a) * u + (c - a) * v ≤ hi := by
  have hw : 0 ≤ 1 - u - v := by linarith
  constructor
  · nlinarith [mul_nonneg hu (sub_nonneg.mpr hb.1), mul_nonneg hv (sub_nonneg.mpr hc.1),
      mul_nonneg hw (sub_nonneg.mpr ha.1)]
  · nlinarith [mul_nonneg hu (sub_nonneg.mpr hb.2), mul_nonneg hv (sub_nonneg.mpr hc.2),
      mul_nonneg hw (sub_nonneg.mpr ha.2)]

theorem triangle_point_in_box (mn mx p0 p1 p2 : vec3) (u v : ℚ) (hu : 0 ≤ u) (hv : 0 ≤ v)
    (huv : u + v ≤ 1) (h0 : Encloses mn mx p0) (h1 : Encloses mn mx p1)
    (h2 : Encloses mn mx p2) : Encloses mn mx (p0 + (p1 - p0) * u + (p2 - p0) * v) := by
  unfold Encloses at *
  simp only [vec3.add_x, vec3.add_y, vec3.add_z, vec3.mul_x, vec3.mul_y, vec3.mul_z, vec3.sub_x,
    vec3.sub_y, vec3.sub_z]
  exact ⟨convex_between _ _ _ _ _ u v hu hv huv h0.1 h1.1 h2.1,
    convex_between _ _ _ _ _ u v hu hv huv h0.2.1 h1.2.1 h2.2.1,
    convex_between _ _ _ _ _ u v hu hv huv h0.2.2 h1.2.2 h2.2.2⟩

/-- A triangle that the kernel reports hit before the end of the ray meets every
box that encloses its vertices, so the ray/box test passes there. -/
theorem kernel_hit_overlap (ray : RayBBox) (hray : ray.Halved) (mn mx p0 p1 p2 : vec3)
    (h0 : Encloses mn mx p0) (h1 : Encloses mn mx p1) (h2 : Encloses mn mx p2)
    (hlt : (ray_triangle p0 p1 p2 ray.start ray.end_).t < 1) : boxOverlap ray mn mx = true := by
  by_cases hm : mtMiss p0 p1 p2 ray.start ray.end_
  · rw [ray_triangle_miss _ _ _ _ _ hm] at hlt
    exact absurd hlt (lt_irrefl _)
  · rw [ray_triangle_hit _ _ _ _ _ hm] at hlt
    simp only [] at hlt
    unfold mtMiss at hm
    push_neg at hm
    obtain ⟨hdet, hu0, _, hv0, huv, ht⟩ := hm
    have heps : (0 : ℚ) < FLT_EPSILON := by norm_num [FLT_EPSILON]
    have hdet0 : mtDet p0 p1 p2 ray.start ray.end_ ≠ 0 := by
      intro h
      rw [h, abs_zero] at hdet
      exact absurd heps (not_lt.mpr hdet)
    have hbox : (CollisionBBox.ofMinMax mn mx).Consistent := by
      refine ⟨⟨le_trans h0.1.1 h0.1.2, le_trans h0.2.1.1 h0.2.1.2,
        le_trans h0.2.2.1 h0.2.2.2⟩, rfl, rfl⟩
    have hmeet : SegmentMeetsBox ray.start ray.end_ (CollisionBBox.ofMinMax mn mx).min
        (CollisionBBox.ofMinMax mn mx).max := by
      refine ⟨mtT p0 p1 p2 ray.start ray.end_, by linarith, le_of_lt hlt, ?_⟩
      rw [mt_hit_point p0 p1 p2 _ _ hdet0]
      exact triangle_point_in_box mn mx p0 p1 p2 _ _ hu0 hv0 huv h0 h1 h2
    simp only [boxOverlap, decide_eq_true_eq]
    exact (ray_aabb_overlap_iff ray _ hray hbox).mpr hmeet

theorem leafUpdate_no_hit (vertices : List vec3) (elements : List Nat) (ray : RayBBox)
    (hit : TraceHit) (t : Nat) (h : ¬ (triangleHit vertices elements ray t).t < hit.fraction) :
    leafUpdate vertices elements ray hit t = hit := by
  unfold leafUpdate
  rw [if_neg h]

theorem fold_no_hit (vertices : List vec3) (elements : List Nat) (ray : RayBBox)
    (L : List Nat) (hit : TraceHit)
    (h : ∀ t ∈ L, ¬ (triangleHit vertices elements ray t).t < hit.fraction) :
    L.foldl (leafUpdate vertices elements ray) hit = hit := by
  induction L with
  | nil => rfl
  | cons a rest ih =>
    simp only [List.foldl]
    rw [leafUpdate_no_hit _ _ _ _ _ (h a (by simp))]
    exact ih (fun t ht => h t (by simp [ht]))

/-- With sound boxes and a half-vector `RayBBox` the first-hit traversal of a
tree is the plain left-to-right scan of its leaves. -/
theorem BVH.firstHit_eq_fold (vertices : List vec3) (elements : List Nat) (ray : RayBBox)
    (hray : ray.Halved) (T : BVH) (hb : T.Bounded vertices elements) :
    ∀ hit : TraceHit, hit.fraction ≤ 1 →
      T.firstHit vertices elements ray hit
        = T.leaves.foldl (leafUpdate vertices elements ray) hit := by
  induction T with
  | leaf mn mx t =>
    intro hit hle
    simp only [BVH.firstHit, BVH.leaves, List.foldl]
    split_ifs with hov
    · rfl
    · symm
      apply leafUpdate_no_hit
      intro hlt
      apply hov
      refine kernel_hit_overlap ray hray mn mx _ _ _ ?_ ?_ ?_ (lt_of_lt_of_le hlt hle)
      · simpa using hb 0 (by norm_num)
      · exact hb 1 (by norm_num)
      · exact hb 2 (by norm_num)
  | inner mn mx l r ihl ihr =>
    intro hit hle
    simp only [BVH.firstHit, BVH.leaves, List.foldl_append]
    split_ifs with hov
    · rw [ihl hb.2.1 hit hle, ihr hb.2.2 _ (by
        rw [← ihl hb.2.1 hit hle]
        exact le_trans (BVH.firstHit_fraction_le _ _ _ _ _) hle)]
    · symm
      rw [← List.foldl_append]
      apply fold_no_hit
      intro t ht hlt
      apply hov
      refine kernel_hit_overlap ray hray mn mx _ _ _ ?_ ?_ ?_ (lt_of_lt_of_le hlt hle)
      · simpa using hb.1 t ht 0 (by norm_num)
      · exact hb.1 t ht 1 (by norm_num)
      · exact hb.1 t ht 2 (by norm_num)

/-! ## The first hit is the nearest one -/

theorem leafUpdate_le_kernel (vertices : List vec3) (elements : List Nat) (ray : RayBBox)
    (hit : TraceHit) (t : Nat) (hle : hit.fraction ≤ 1) :
    (leafUpdate vertices elements ray hit t).fraction ≤ (triangleHit vertices elements ray t).t := by
  unfold leafUpdate
  split_ifs with h
  · cases hbary : (triangleHit vertices elements ray t).bary with
    | none =>
      exfalso
      have h1 : (triangleHit vertices elements ray t).t = 1 :=
        ray_triangle_bary_none _ _ _ _ _ hbary
      rw [h1] at h
      exact absurd h (not_lt.mpr hle)
    | some bc =>
      obtain ⟨b, c⟩ := bc
      exact le_refl _
  · exact not_lt.mp h

theorem leafUpdate_cases (vertices : List vec3) (elements : List Nat) (ray : RayBBox)
    (hit : TraceHit) (t : Nat) :
    leafUpdate vertices elements ray hit t = hit ∨
      ∃ b c, leafUpdate vertices elements ray hit t
          = ⟨(triangleHit vertices elements ray t).t, (t : Int), b, c⟩ ∧
        (triangleHit vertices elements ray t).t < hit.fraction := by
  unfold leafUpdate
  split_ifs with h
  · cases hbary : (triangleHit vertices elements ray t).bary with
    | none => left; rfl
    | some bc =>
      obtain ⟨b, c⟩ := bc
      right
      exact ⟨b, c, rfl, h⟩
  · left; rfl

theorem fold_fraction_le (vertices : List vec3) (elements : List Nat) (ray : RayBBox)
    (L : List Nat) : ∀ hit : TraceHit,
      (L.foldl (leafUpdate vertices elements ray) hit).fraction ≤ hit.fraction := by
  induction L with
  | nil => intro hit; exact le_refl _
  | cons a rest ih =>
    intro hit
    simp only [List.foldl]
    exact le_trans (ih _) (leafUpdate_fraction_le _ _ _ _ _)

/-- The left-to-right scan of a list of triangles ends with a fraction that is
at most every kernel value of the list; and when it replaced the record, the
record is that of a triangle of the list whose kernel value is strictly below
those of all triangles before it. -/
theorem fold_first_min (vertices : List vec3) (elements : List Nat) (ray : RayBBox)
    (L : List Nat) : ∀ hit : TraceHit, hit.fraction ≤ 1 →
      (∀ t ∈ L, (L.foldl (leafUpdate vertices elements ray) hit).fraction
          ≤ (triangleHit vertices elements ray t).t) ∧
      (L.foldl (leafUpdate vertices elements ray) hit = hit ∨
        ∃ pre tri post b c, L = pre ++ tri :: post ∧
          L.foldl (leafUpdate vertices elements ray) hit
            = ⟨(triangleHit vertices elements ray tri).t, (tri : Int), b, c⟩ ∧
          (triangleHit vertices elements ray tri).t < hit.fraction ∧
          ∀ t ∈ pre, (triangleHit vertices elements ray tri).t
            < (triangleHit vertices elements ray t).t) := by
  induction L with
  | nil =>
    intro hit _
    exact ⟨fun t ht => by simp at ht, Or.inl rfl⟩
  | cons a rest ih =>
    intro hit hle
    have hle2 : (leafUpdate vertices elements ray hit a).fraction ≤ 1 :=
      le_trans (leafUpdate_fraction_le _ _ _ _ _) hle
    obtain ⟨hA, hB⟩ := ih (leafUpdate vertices elements ray hit a) hle2
    simp only [List.foldl]
    refine ⟨?_, ?_⟩
    · intro t ht
      rcases List.mem_cons.mp ht with rfl | hrest
      · exact le_trans (fold_fraction_le _ _ _ _ _) (leafUpdate_le_kernel _ _ _ _ _ hle)
      · exact hA t hrest
    · rcases hB with hsame | ⟨pre, tri, post, b, c, hsplit, hres, hlt, hpre⟩
      · rw [hsame]
        rcases leafUpdate_cases vertices elements ray hit a with h | ⟨b, c, h, hlt⟩
        · left; exact h
        · right
          exact ⟨[], a, rest, b, c, rfl, h, hlt, fun t ht => by simp at ht⟩
      · right
        refine ⟨a :: pre, tri, post, b, c, by rw [hsplit]; rfl, hres,
          lt_of_lt_of_le hlt (leafUpdate_fraction_le _ _ _ _ _), ?_⟩
        intro t ht
        rcases List.mem_cons.mp ht with rfl | hrest
        · exact lt_of_lt_of_le hlt (leafUpdate_le_kernel _ _ _ _ _ hle)
        · exact hpre t hrest

theorem BVH.flatten_leafOrder (T : BVH) (off : Nat) : leafOrder (T.flatten off) = T.leaves := by
  induction T generalizing off with
  | leaf mn mx t =>
    have hne : ¬ ((t : Int) * 3 = -1) := by omega
    have hdiv : Int.tdiv ((t : Int) * 3) 3 = t := Int.mul_tdiv_cancel _ (by decide)
    simp [leafOrder, BVH.flatten, BVH.leaves, Node.leaf, hne, hdiv]
  | inner mn mx l r ihl ihr =>
    have hl := ihl off
    have hr := ihr (off + l.size)
    unfold leafOrder at hl hr ⊢
    simp only [BVH.flatten, BVH.leaves, List.filterMap_append, hl, hr]
    simp [Node.inner]

/-- C5 (as stated) fails.  A triangle with edges of about `2⁻¹⁶` in the plane
`z = 50` and the ray from `(2⁻¹⁷, 2⁻¹⁷, 0)` to `(2⁻¹⁷, 2⁻¹⁷, 2000)`: on the whole
ray the kernel reports the hit `t = 1/40 < 1`, but on each of the twenty chunks
of length 100 the determinant is below `ε`, so `find_first_hit` returns the
no-hit record. -/
theorem C5_counterexample :
    TriangleMeshShape.create tinyVertices 3 [0, 1, 2] 3 = .ok tinyShape ∧
    triangleHit tinyVertices [0, 1, 2]
        (RayBBox.ofHalf ⟨1 / 131072, 1 / 131072, 0⟩ ⟨1 / 131072, 1 / 131072, 2000⟩) 0
      = ⟨1 / 40, some (1 / 4, 1 / 2)⟩ ∧
    (1 / 40 : ℚ) < 1 ∧
    find_first_hit RayBBox.ofHalf axisLength tinyShape ⟨1 / 131072, 1 / 131072, 0⟩
        ⟨1 / 131072, 1 / 131072, 2000⟩
      = .ok { fraction := 1, triangle := -1, b := 0, c := 0 } := by
  decide!

/-- C5 (amended). On the shape built from a well-formed mesh with at least one
triangle, for a ray of positive length at most 100 world units (traced as a
single chunk) whose `RayBBox` keeps the end points, has `w` half the segment
vector and `v = |w|`: if the ray/triangle parameter `t` of some triangle is
below one, `find_first_hit` returns as fraction the minimum of `t` over all
triangles and reports a triangle attaining it, and every triangle whose leaf was
appended to the node array before the leaf of the reported one has a strictly
larger `t`. -/
theorem C5_first_hit_is_nearest_single_chunk (mkRay : vec3 → vec3 → RayBBox)
    (length : vec3 → ℚ) (vertices : List vec3) (num_vertices : Int) (elements : List Nat)
    (num_elements : Int) (hvalid : ValidMesh vertices elements num_elements)
    (hpos : 1 ≤ numTriangles num_elements) (ray_start ray_end : vec3)
    (hmk : (mkRay ray_start ray_end).start = ray_start ∧
      (mkRay ray_start ray_end).end_ = ray_end ∧ (mkRay ray_start ray_end).Halved)
    (hlen : 0 < length (ray_end - ray_start) ∧ length (ray_end - ray_start) ≤ 100)
    (hex : ∃ i, i < numTriangles num_elements ∧
      (triangleHit vertices elements (mkRay ray_start ray_end) i).t < 1) :
    ∃ shape hit,
      TriangleMeshShape.create vertices num_vertices elements num_elements = .ok shape ∧
      find_first_hit mkRay length shape ray_start ray_end = .ok hit ∧
      (∀ i, i < numTriangles num_elements →
        hit.fraction ≤ (triangleHit vertices elements (mkRay ray_start ray_end) i).t) ∧
      ∃ (tri : Nat) (pre post : List Nat), hit.triangle = (tri : Int) ∧
        tri < numTriangles num_elements ∧
        (triangleHit vertices elements (mkRay ray_start ray_end) tri).t = hit.fraction ∧
        leafOrder shape.nodes = pre ++ tri :: post ∧
        ∀ t ∈ pre, hit.fraction < (triangleHit vertices elements (mkRay ray_start ray_end) t).t := by
  have _ := hvalid
  obtain ⟨T, shape, hcreate, hV, hE, hnodes, _, hrep, hperm, hb⟩ :=
    create_represents vertices num_vertices elements num_elements hpos
  have hsize : T.size ≤ shape.nodes.length + 1 := by
    rw [hnodes, BVH.flatten_length]
    omega
  have hres := find_first_hit_single_chunk mkRay length shape T hrep hsize ray_start ray_end
    hlen.1 hlen.2
  rw [hV, hE, BVH.firstHit_eq_fold vertices elements _ hmk.2.2 T hb {} (le_refl _)] at hres
  obtain ⟨hA, hB⟩ := fold_first_min vertices elements (mkRay ray_start ray_end) T.leaves {}
    (le_refl _)
  obtain ⟨i, hi, hilt⟩ := hex
  have himem : i ∈ T.leaves := (hperm.mem_iff).mpr (List.mem_range.mpr hi)
  rcases hB with hsame | ⟨pre, tri, post, b, c, hsplit, hfold, _, hpre⟩
  · exfalso
    have h1 := hA i himem
    rw [hsame] at h1
    have : ((({} : TraceHit)).fraction : ℚ) = 1 := rfl
    rw [this] at h1
    exact absurd hilt (not_lt.mpr h1)
  · refine ⟨shape, _, hcreate, hres, ?_, tri, pre, post, ?_, ?_, ?_, ?_, ?_⟩
    · intro j hj
      exact hA j ((hperm.mem_iff).mpr (List.mem_range.mpr hj))
    · rw [hfold]
    · have : tri ∈ T.leaves := by rw [hsplit]; simp
      exact List.mem_range.mp ((hperm.mem_iff).mp this)
    · rw [hfold]
    · rw [hnodes, BVH.flatten_leafOrder, hsplit]
    · intro t ht
      rw [hfold]
      exact hpre t ht

/-! ## Instances of the theorems on sample inputs -/

/-- C1 at the sample mesh of four triangles. -/
theorem C1_witness :
    ValidMesh sampleVertices sampleElements 12 ∧
    ∃ shape, TriangleMeshShape.create sampleVertices 7 sampleElements 12 = .ok shape ∧
      (∀ i : Nat, i < numTriangles 12 →
        (shape.nodes.filter (fun n => decide (n.element_index = 3 * (i : Int)))).length = 1) ∧
      (∀ n ∈ shape.nodes, n.element_index ≠ -1 →
        ∃ i : Nat, i < numTriangles 12 ∧ n.element_index = 3 * (i : Int)) ∧
      (∀ j : Nat, j < shape.nodes.length → Descends shape.nodes shape.root (j : Int)) :=
  ⟨by decide!, C1_every_triangle_in_exactly_one_leaf sampleVertices 7 sampleElements 12
    (by decide!)⟩

/-- C2 at the sample mesh of four triangles. -/
theorem C2_witness :
    ValidMesh sampleVertices sampleElements 12 ∧ 1 ≤ numTriangles 12 ∧
    ∃ shape, TriangleMeshShape.create sampleVertices 7 sampleElements 12 = .ok shape ∧
      ∀ (a b : Int) (na nb : Node), Descends shape.nodes a b →
        shape.nodes.get? a.toNat = some na → shape.nodes.get? b.toNat = some nb →
        nb.element_index ≠ -1 →
        ∀ j, j < 3 →
          Encloses na.aabb.min na.aabb.max
            (vertexAt sampleVertices sampleElements (nb.element_index.toNat + j)) :=
  ⟨by decide!, by decide!, C2_bounding_soundness sampleVertices 7 sampleElements 12
    (by decide!) (by decide!)⟩

/-- C9 at the collinear triangle `((0,0,0),(1,0,0),(2,0,0))` of the spec. -/
theorem C9_witness :
    ValidMesh collinearVertices [0, 1, 2] 3 ∧ 1 ≤ numTriangles 3 ∧
    (∀ i, i < numTriangles 3 →
      Degenerate (vertexAt collinearVertices [0, 1, 2] (i * 3))
        (vertexAt collinearVertices [0, 1, 2] (i * 3 + 1))
        (vertexAt collinearVertices [0, 1, 2] (i * 3 + 2))) ∧
    ∃ shape, TriangleMeshShape.create collinearVertices 3 [0, 1, 2] 3 = .ok shape ∧
      find_any_hit RayBBox.ofSpec shape ⟨1, 0, 1⟩ ⟨1, 0, -1⟩ = .ok false ∧
      find_first_hit RayBBox.ofSpec axisLength shape ⟨1, 0, 1⟩ ⟨1, 0, -1⟩
        = .ok { fraction := 1, triangle := -1, b := 0, c := 0 } := by
  have hd : ∀ i, i < numTriangles 3 →
      Degenerate (vertexAt collinearVertices [0, 1, 2] (i * 3))
        (vertexAt collinearVertices [0, 1, 2] (i * 3 + 1))
        (vertexAt collinearVertices [0, 1, 2] (i * 3 + 2)) := by decide!
  obtain ⟨_, shape, h1, _, h3⟩ := C9_degenerate_triangles_miss RayBBox.ofSpec axisLength
    collinearVertices 3 [0, 1, 2] 3 (by decide!) (by decide!) ⟨1, 0, 1⟩ ⟨1, 0, -1⟩
  exact ⟨by decide!, by decide!, hd, shape, h1, (h3 hd).1, (h3 hd).2⟩

/-- C4 (amended) at the sample mesh and a ray of length 100. -/
theorem C4_witness :
    ValidMesh sampleVertices sampleElements 12 ∧ 1 ≤ numTriangles 12 ∧
    ∃ shape any hit,
      TriangleMeshShape.create sampleVertices 7 sampleElements 12 = .ok shape ∧
      find_any_hit RayBBox.ofHalf shape ⟨2, 2, 50⟩ ⟨2, 2, 150⟩ = .ok any ∧
      find_first_hit RayBBox.ofHalf axisLength shape ⟨2, 2, 50⟩ ⟨2, 2, 150⟩ = .ok hit ∧
      (any = true ↔ hit.fraction < 1) :=
  ⟨by decide!, by decide!, C4_any_hit_iff_first_hit_single_chunk RayBBox.ofHalf axisLength
    sampleVertices 7 sampleElements 12 (by decide!) (by decide!) ⟨2, 2, 50⟩ ⟨2, 2, 150⟩
    (by decide!) (Or.inl (by decide!))⟩

/-- C10 (amended) at the segment and box of the counterexample, now with the
half-vector `RayBBox`. -/
theorem C10_witness :
    (RayBBox.ofHalf ⟨-1, -3, 0⟩ ⟨3, 1, 0⟩).Halved ∧
    (CollisionBBox.ofMinMax ⟨-1, -1, -1⟩ ⟨1, 1, 1⟩).Consistent ∧
    (IntersectionTest.ray_aabb (RayBBox.ofHalf ⟨-1, -3, 0⟩ ⟨3, 1, 0⟩)
        (CollisionBBox.ofMinMax ⟨-1, -1, -1⟩ ⟨1, 1, 1⟩) = OverlapResult.overlap ↔
      SegmentMeetsBox (RayBBox.ofHalf ⟨-1, -3, 0⟩ ⟨3, 1, 0⟩).start
        (RayBBox.ofHalf ⟨-1, -3, 0⟩ ⟨3, 1, 0⟩).end_
        (CollisionBBox.ofMinMax ⟨-1, -1, -1⟩ ⟨1, 1, 1⟩).min
        (CollisionBBox.ofMinMax ⟨-1, -1, -1⟩ ⟨1, 1, 1⟩).max) :=
  ⟨by decide!, by decide!, C10_ray_aabb_exact_for_half_vector _ _ (by decide!) (by decide!)⟩

/-- C5 (amended) at the unit square and a ray through its diagonal, where both
triangles have `t = 1/2`. -/
theorem C5_witness :
    ValidMesh squareVertices squareElements 6 ∧ 1 ≤ numTriangles 6 ∧
    (∃ i, i < numTriangles 6 ∧
      (triangleHit squareVertices squareElements
        (RayBBox.ofHalf ⟨1 / 2, 1 / 2, 1⟩ ⟨1 / 2, 1 / 2, -1⟩) i).t < 1) ∧
    ∃ shape hit,
      TriangleMeshShape.create squareVertices 4 squareElements 6 = .ok shape ∧
      find_first_hit RayBBox.ofHalf axisLength shape ⟨1 / 2, 1 / 2, 1⟩ ⟨1 / 2, 1 / 2, -1⟩
        = .ok hit ∧
      (∀ i, i < numTriangles 6 →
        hit.fraction ≤ (triangleHit squareVertices squareElements
          (RayBBox.ofHalf ⟨1 / 2, 1 / 2, 1⟩ ⟨1 / 2, 1 / 2, -1⟩) i).t) ∧
      ∃ (tri : Nat) (pre post : List Nat), hit.triangle = (tri : Int) ∧
        tri < numTriangles 6 ∧
        (triangleHit squareVertices squareElements
          (RayBBox.ofHalf ⟨1 / 2, 1 / 2, 1⟩ ⟨1 / 2, 1 / 2, -1⟩) tri).t = hit.fraction ∧
        leafOrder shape.nodes = pre ++ tri :: post ∧
        ∀ t ∈ pre, hit.fraction < (triangleHit squareVertices squareElements
          (RayBBox.ofHalf ⟨1 / 2, 1 / 2, 1⟩ ⟨1 / 2, 1 / 2, -1⟩) t).t :=
  ⟨by decide!, by decide!, ⟨0, by decide!, by decide!⟩,
    C5_first_hit_is_nearest_single_chunk RayBBox.ofHalf axisLength squareVertices 4
      squareElements 6 (by decide!) (by decide!) ⟨1 / 2, 1 / 2, 1⟩ ⟨1 / 2, 1 / 2, -1⟩ (by decide!)
      (by decide!) ⟨0, by decide!, by decide!⟩⟩

/-! ## Termination of the builder and the first scenario -/

/-- C18. `subdivide` returns on every input when its recursion budget is the
number of triangles; and in every call on at least two triangles, whichever
split is used (the first accepted axis split or the halving fallback), both
recursive calls get a count that is at least one and strictly below
`num_triangles`, and the two counts add up to `num_triangles`. -/
theorem C18_subdivide_terminates (vertices : List vec3) (elements : List Nat)
    (centroids : List vec3) (nodes : List Node) (triangles : List Nat) (mn mx median : vec3) :
    (∃ r, subdivide vertices elements centroids triangles.length nodes triangles = .ok r) ∧
    (2 ≤ triangles.length →
      1 ≤ (subdivide_split centroids mn mx median triangles).1.length ∧
      (subdivide_split centroids mn mx median triangles).1.length < triangles.length ∧
      1 ≤ (subdivide_split centroids mn mx median triangles).2.length ∧
      (subdivide_split centroids mn mx median triangles).2.length < triangles.length ∧
      (subdivide_split centroids mn mx median triangles).1.length +
        (subdivide_split centroids mn mx median triangles).2.length = triangles.length) := by
  refine ⟨?_, ?_⟩
  · cases triangles with
    | nil => exact ⟨(nodes, -1), by simp [subdivide]⟩
    | cons t0 ts =>
      obtain ⟨T, hT, _, _⟩ := subdivide_spec vertices elements centroids (t0 :: ts).length nodes
        (t0 :: ts) (by simp) (le_refl _)
      exact ⟨_, hT⟩
  · intro h2
    obtain ⟨hL, hR, hperm⟩ := subdivide_split_spec centroids mn mx median triangles h2
    have hlen := hperm.length_eq
    rw [List.length_append] at hlen
    have hLpos := List.length_pos.mpr hL
    have hRpos := List.length_pos.mpr hR
    omega

/-- C19. For the single triangle `((0,0,0),(1,0,0),(0,1,0))` and the ray from
`(1/4, 1/4, 1)` to `(1/4, 1/4, -1)`, of length 2, the constructor builds the
one-leaf shape and `find_first_hit` returns `fraction = 1/2`, `triangle = 0`,
`b = 1/4`, `c = 1/4`; this holds for the `RayBBox` as the spec words it and for
the half-vector `RayBBox` alike. -/
theorem C19_single_triangle_front_hit (length : vec3 → ℚ)
    (hlen : length ((⟨1 / 4, 1 / 4, -1⟩ : vec3) - ⟨1 / 4, 1 / 4, 1⟩) = 2) :
    TriangleMeshShape.create unitVertices 3 [0, 1, 2] 3 = .ok unitShape ∧
    find_first_hit RayBBox.ofSpec length unitShape ⟨1 / 4, 1 / 4, 1⟩ ⟨1 / 4, 1 / 4, -1⟩
      = .ok { fraction := 1 / 2, triangle := 0, b := 1 / 4, c := 1 / 4 } ∧
    find_first_hit RayBBox.ofHalf length unitShape ⟨1 / 4, 1 / 4, 1⟩ ⟨1 / 4, 1 / 4, -1⟩
      = .ok { fraction := 1 / 2, triangle := 0, b := 1 / 4, c := 1 / 4 } := by
  refine ⟨by decide!, ?_, ?_⟩
  · unfold find_first_hit
    simp only [hlen]
    decide!
  · unfold find_first_hit
    simp only [hlen]
    decide!

/-- C19 with the norm of vectors along a coordinate axis. -/
theorem C19_witness :
    axisLength ((⟨1 / 4, 1 / 4, -1⟩ : vec3) - ⟨1 / 4, 1 / 4, 1⟩) = 2 ∧
    find_first_hit RayBBox.ofSpec axisLength unitShape ⟨1 / 4, 1 / 4, 1⟩ ⟨1 / 4, 1 / 4, -1⟩
      = .ok { fraction := 1 / 2, triangle := 0, b := 1 / 4, c := 1 / 4 } :=
  ⟨by decide!, (C19_single_triangle_front_hit axisLength (by decide!)).2.1⟩

/-! ## Sphere against box -/

theorem clamp_axis_le (mn mx c p : ℚ) (h1 : mn ≤ p) (h2 : p ≤ mx) :
    (max (mn - c) 0 + max (c - mx) 0) * (max (mn - c) 0 + max (c - mx) 0)
      ≤ (p - c) * (p - c) := by
  rcases le_total (mn - c) 0 with ha | ha <;> rcases le_total (c - mx) 0 with hb | hb
  · rw [max_eq_right ha, max_eq_right hb]
    nlinarith [mul_self_nonneg (p - c)]
  · rw [max_eq_right ha, max_eq_left hb]
    nlinarith
  · rw [max_eq_left ha, max_eq_right hb]
    nlinarith
  · rw [max_eq_left ha, max_eq_left hb]
    nlinarith

theorem clamp_axis_eq (mn mx c : ℚ) (h : mn ≤ mx) :
    (max mn (min c mx) - c) * (max mn (min c mx) - c)
      = (max (mn - c) 0 + max (c - mx) 0) * (max (mn - c) 0 + max (c - mx) 0) := by
  rcases le_total c mx with hb | hb
  · rw [min_eq_left hb, max_eq_right (by linarith : c - mx ≤ 0)]
    rcases le_total mn c with ha | ha
    · rw [max_eq_right ha, max_eq_right (by linarith : mn - c ≤ 0)]
      ring
    · rw [max_eq_left ha, max_eq_left (by linarith : 0 ≤ mn - c)]
      ring
  · rw [min_eq_right hb, max_eq_right h, max_eq_left (by linarith : 0 ≤ c - mx),
      max_eq_right (by linarith : mn - c ≤ 0)]
    ring

theorem clamp_axis_mem (mn mx c : ℚ) (h : mn ≤ mx) :
    mn ≤ max mn (min c mx) ∧ max mn (min c mx) ≤ mx :=
  ⟨le_max_left _ _, max_le h (min_le_right _ _)⟩

/-- C12. For a box with `min ≤ max`, the value `d` that `sphere_aabb` computes is
the squared distance from the centre to the closed box: no point of the box is
nearer, and the centre clamped to the box is at exactly that squared distance.
The function returns overlap exactly when `d ≤ radius * radius`, and disjoint
otherwise. -/
theorem C12_sphere_aabb_distance (center : vec3) (radius : ℚ) (aabb : BBox)
    (hbox : aabb.min.x ≤ aabb.max.x ∧ aabb.min.y ≤ aabb.max.y ∧ aabb.min.z ≤ aabb.max.z) :
    (∀ p, Encloses aabb.min aabb.max p →
      IntersectionTest.sphere_aabb_d center aabb ≤ dot (p - center) (p - center)) ∧
    (Encloses aabb.min aabb.max (closestInBox center aabb) ∧
      dot (closestInBox center aabb - center) (closestInBox center aabb - center)
        = IntersectionTest.sphere_aabb_d center aabb) ∧
    (IntersectionTest.sphere_aabb center radius aabb = OverlapResult.overlap ↔
      IntersectionTest.sphere_aabb_d center aabb ≤ radius * radius) ∧
    (IntersectionTest.sphere_aabb center radius aabb = OverlapResult.disjoint ↔
      ¬ IntersectionTest.sphere_aabb_d center aabb ≤ radius * radius) := by
  obtain ⟨hx, hy, hz⟩ := hbox
  refine ⟨?_, ⟨?_, ?_⟩, ?_, ?_⟩
  · intro p hp
    obtain ⟨⟨x1, x2⟩, ⟨y1, y2⟩, z1, z2⟩ := hp
    simp only [IntersectionTest.sphere_aabb_d, dot, vec3.add_x, vec3.add_y, vec3.add_z,
      vec3.sub_x, vec3.sub_y, vec3.sub_z]
    have h1 := clamp_axis_le aabb.min.x aabb.max.x center.x p.x x1 x2
    have h2 := clamp_axis_le aabb.min.y aabb.max.y center.y p.y y1 y2
    have h3 := clamp_axis_le aabb.min.z aabb.max.z center.z p.z z1 z2
    linarith
  · exact ⟨clamp_axis_mem _ _ _ hx, clamp_axis_mem _ _ _ hy, clamp_axis_mem _ _ _ hz⟩
  · simp only [IntersectionTest.sphere_aabb_d, closestInBox, dot, vec3.add_x, vec3.add_y,
      vec3.add_z, vec3.sub_x, vec3.sub_y, vec3.sub_z]
    rw [clamp_axis_eq _ _ _ hx, clamp_axis_eq _ _ _ hy, clamp_axis_eq _ _ _ hz]
  · unfold IntersectionTest.sphere_aabb
    simp only []
    split_ifs with h
    · simp only [false_iff, not_le]
      exact h
    · simp only [true_iff]
      exact not_lt.mp h
  · unfold IntersectionTest.sphere_aabb
    simp only []
    split_ifs with h
    · simp only [true_iff, not_le]
      exact h
    · simp only [false_iff, not_not]
      exact not_lt.mp h

/-- C12 at the unit cube and a sphere centred at `(3, 1/2, 1/2)`. -/
theorem C12_witness :
    ((0 : ℚ) ≤ 1 ∧ (0 : ℚ) ≤ 1 ∧ (0 : ℚ) ≤ 1) ∧
    IntersectionTest.sphere_aabb_d ⟨3, 1 / 2, 1 / 2⟩ ⟨⟨0, 0, 0⟩, ⟨1, 1, 1⟩⟩ = 4 ∧
    (IntersectionTest.sphere_aabb ⟨3, 1 / 2, 1 / 2⟩ 2 ⟨⟨0, 0, 0⟩, ⟨1, 1, 1⟩⟩ = OverlapResult.overlap ↔
      IntersectionTest.sphere_aabb_d ⟨3, 1 / 2, 1 / 2⟩ ⟨⟨0, 0, 0⟩, ⟨1, 1, 1⟩⟩ ≤ 2 * 2) :=
  ⟨by decide!, by decide!,
    (C12_sphere_aabb_distance ⟨3, 1 / 2, 1 / 2⟩ 2 ⟨⟨0, 0, 0⟩, ⟨1, 1, 1⟩⟩ (by decide!)).2.2.1⟩
/-! ## Frustum tests -/

theorem frustum_aabb_eq_first_plane (frustum : FrustumPlanes) (box : BBox) :
    IntersectionTest.frustum_aabb frustum box
      = IntersectionTest.plane_aabb (frustum.plane 0) box := by
  simp only [IntersectionTest.frustum_aabb, IntersectionTest.frustum_aabb_loop]
  cases h : IntersectionTest.plane_aabb (frustum.plane 0) box <;> rfl

theorem frustum_obb_loop_accumulates (frustum : FrustumPlanes) (box : OrientedBBox) :
    ∀ (k i : Nat) (flag : Bool),
      (match IntersectionTest.frustum_obb_loop frustum box k i flag with
        | (some r, _) => r
        | (none, true) => Result.intersecting
        | (none, false) => Result.inside)
      = (if Result.outside ∈ (List.range' i k).map
            (fun j => IntersectionTest.plane_obb (frustum.plane j) box) then Result.outside
          else if flag = true ∨ Result.intersecting ∈ (List.range' i k).map
            (fun j => IntersectionTest.plane_obb (frustum.plane j) box) then Result.intersecting
          else Result.inside) := by
  intro k
  induction k with
  | zero =>
    intro i flag
    cases flag <;> simp [IntersectionTest.frustum_obb_loop]
  | succ k ih =>
    intro i flag
    have hne1 : ¬ (Result.outside = Result.intersecting) := by decide
    have hne2 : ¬ (Result.outside = Result.inside) := by decide
    have hne3 : ¬ (Result.intersecting = Result.inside) := by decide
    rw [IntersectionTest.frustum_obb_loop]
    cases h : IntersectionTest.plane_obb (frustum.plane i) box
    · have hmem : Result.outside ∈ (List.range' i (k + 1)).map
          (fun j => IntersectionTest.plane_obb (frustum.plane j) box) := by
        rw [List.range'_succ, List.map_cons, h]
        exact List.mem_cons_self _ _
      rw [if_pos hmem]
    · simp only [ih, List.range'_succ, List.map_cons, h, List.mem_cons, hne2, hne3, false_or]
    · simp only [ih, List.range'_succ, List.map_cons, h, List.mem_cons, hne1, false_or, true_or,
        or_true, if_true]

theorem frustum_obb_accumulates (frustum : FrustumPlanes) (box : OrientedBBox) :
    IntersectionTest.frustum_obb frustum box
      = accumulateResults ((List.range 6).map
          (fun j => IntersectionTest.plane_obb (frustum.plane j) box)) := by
  have h := frustum_obb_loop_accumulates frustum box 6 0 false
  unfold IntersectionTest.frustum_obb accumulateResults
  rw [h, List.range_eq_range']
  simp

/-- C17. `frustum_aabb` does not accumulate over the six planes: because of the
`break` at the end of the loop body it returns what `plane_aabb` reports for
plane 0 alone.  The sibling `frustum_obb` does accumulate the six results of
`plane_obb`.  For the unit cube and a frustum whose plane 0 has the cube inside
and whose plane 1 has it outside, `frustum_aabb` returns inside where the
accumulation (and `frustum_obb` on the same cube) gives outside. -/
theorem C17_frustum_aabb_stops_after_first_plane :
    (∀ (frustum : FrustumPlanes) (box : BBox),
      IntersectionTest.frustum_aabb frustum box
        = IntersectionTest.plane_aabb (frustum.plane 0) box) ∧
    (∀ (frustum : FrustumPlanes) (box : OrientedBBox),
      IntersectionTest.frustum_obb frustum box
        = accumulateResults ((List.range 6).map
            (fun j => IntersectionTest.plane_obb (frustum.plane j) box))) ∧
    IntersectionTest.plane_aabb (sampleFrustum.plane 1) unitCube = Result.outside ∧
    accumulateResults ((List.range 6).map
      (fun j => IntersectionTest.plane_aabb (sampleFrustum.plane j) unitCube)) = Result.outside ∧
    IntersectionTest.frustum_aabb sampleFrustum unitCube = Result.inside ∧
    IntersectionTest.frustum_obb sampleFrustum unitCubeOriented = Result.outside := by
  refine ⟨frustum_aabb_eq_first_plane, frustum_obb_accumulates, ?_, ?_, ?_, ?_⟩ <;> decide!

/-! ## Mesh against mesh -/

theorem is_leaf_of_node (shape : TriangleMeshShape) (a : Int) (n : Node)
    (hn : shape.node a = .ok n) : is_leaf shape a = .ok (decide (n.element_index ≠ -1)) := by
  simp only [is_leaf, hn]

/-- On two represented trees the mesh/mesh driver, given a budget of at least
the two tree sizes together, returns false. -/
theorem find_any_hit_mesh_node_false (shape1 shape2 : TriangleMeshShape) :
    ∀ (fuel : Nat) (T1 T2 : BVH) (a b : Int), Represents shape1.nodes a T1 →
      Represents shape2.nodes b T2 → T1.size + T2.size ≤ fuel + 1 →
      find_any_hit_mesh_node shape1 shape2 fuel a b = .ok false := by
  intro fuel
  induction fuel with
  | zero =>
    intro T1 T2 a b _ _ hsz
    have h1 := T1.size_pos
    have h2 := T2.size_pos
    omega
  | succ fuel ih =>
    intro T1 T2 a b h1 h2 hsz
    cases h1 with
    | leaf _ mn1 mx1 t1 ha0 hget1 =>
      have hn1 := node_of_get shape1 a _ ha0 hget1
      have hl1 : is_leaf shape1 a = .ok true := by
        rw [is_leaf_of_node _ _ _ hn1]
        have : ¬ ((t1 : Int) * 3 = -1) := by omega
        simp [Node.leaf, this]
      cases h2 with
      | leaf _ mn2 mx2 t2 hb0 hget2 =>
        have hn2 := node_of_get shape2 b _ hb0 hget2
        have hl2 : is_leaf shape2 b = .ok true := by
          rw [is_leaf_of_node _ _ _ hn2]
          have : ¬ ((t2 : Int) * 3 = -1) := by omega
          simp [Node.leaf, this]
        simp only [find_any_hit_mesh_node, hl1, hl2, overlap_triangle_triangle]
      | inner _ li ri mn2 mx2 l2 r2 hb0 hget2 _ _ _ _ =>
        have hn2 := node_of_get shape2 b _ hb0 hget2
        have hl2 : is_leaf shape2 b = .ok false := by
          rw [is_leaf_of_node _ _ _ hn2]
          simp [Node.inner]
        simp only [find_any_hit_mesh_node, hl1, hl2, hn2, overlap_bv_triangle]
        rfl
    | inner _ li1 ri1 mn1 mx1 l1 r1 ha0 hget1 _ _ hL1 hR1 =>
      have hn1 := node_of_get shape1 a _ ha0 hget1
      have hl1 : is_leaf shape1 a = .ok false := by
        rw [is_leaf_of_node _ _ _ hn1]
        simp [Node.inner]
      cases h2 with
      | leaf _ mn2 mx2 t2 hb0 hget2 =>
        have hn2 := node_of_get shape2 b _ hb0 hget2
        have hl2 : is_leaf shape2 b = .ok true := by
          rw [is_leaf_of_node _ _ _ hn2]
          have : ¬ ((t2 : Int) * 3 = -1) := by omega
          simp [Node.leaf, this]
        simp only [find_any_hit_mesh_node, hl1, hl2, hn1, overlap_bv_triangle]
        rfl
      | inner _ li2 ri2 mn2 mx2 l2 r2 hb0 hget2 _ _ hL2 hR2 =>
        have hn2 := node_of_get shape2 b _ hb0 hget2
        have hl2 : is_leaf shape2 b = .ok false := by
          rw [is_leaf_of_node _ _ _ hn2]
          simp [Node.inner]
        simp only [BVH.size] at hsz
        have hrep1 : Represents shape1.nodes a (BVH.inner mn1 mx1 l1 r1) :=
          Represents.inner a li1 ri1 mn1 mx1 l1 r1 ha0 hget1 ‹_› ‹_› hL1 hR1
        have hrep2 : Represents shape2.nodes b (BVH.inner mn2 mx2 l2 r2) :=
          Represents.inner b li2 ri2 mn2 mx2 l2 r2 hb0 hget2 ‹_› ‹_› hL2 hR2
        have e1 := ih l1 _ li1 b hL1 hrep2 (by simp only [BVH.size]; omega)
        have e2 := ih r1 _ ri1 b hR1 hrep2 (by simp only [BVH.size]; omega)
        have e3 := ih _ l2 a li2 hrep1 hL2 (by simp only [BVH.size]; omega)
        have e4 := ih _ r2 a ri2 hrep1 hR2 (by simp only [BVH.size]; omega)
        rw [find_any_hit_mesh_node]
        simp only [hl1, hl2, overlap_bv, volume, hn1, hn2]
        cases hov : decide (IntersectionTest.aabb
            (Node.inner mn1 mx1 li1 ri1).aabb.toBBox (Node.inner mn2 mx2 li2 ri2).aabb.toBBox
            = OverlapResult.overlap)
        · rfl
        · simp only []
          split_ifs
          · simp only [Node.inner] at e1 e2 ⊢
            rw [e1, e2]
            rfl
          · simp only [Node.inner] at e3 e4 ⊢
            rw [e3, e4]
            rfl

/-- C16. For two shapes built from well-formed meshes with at least one triangle
each, the mesh-vs-mesh query `find_any_hit(shape1, shape2)` returns, and it
returns false. -/
theorem C16_mesh_mesh_never_hits (vertices1 : List vec3) (num_vertices1 : Int)
    (elements1 : List Nat) (num_elements1 : Int) (vertices2 : List vec3) (num_vertices2 : Int)
    (elements2 : List Nat) (num_elements2 : Int)
    (hvalid1 : ValidMesh vertices1 elements1 num_elements1)
    (hpos1 : 1 ≤ numTriangles num_elements1)
    (hvalid2 : ValidMesh vertices2 elements2 num_elements2)
    (hpos2 : 1 ≤ numTriangles num_elements2) :
    ∃ shape1 shape2,
      TriangleMeshShape.create vertices1 num_vertices1 elements1 num_elements1 = .ok shape1 ∧
      TriangleMeshShape.create vertices2 num_vertices2 elements2 num_elements2 = .ok shape2 ∧
      find_any_hit_mesh shape1 shape2 = .ok false := by
  have _ := hvalid1
  have _ := hvalid2
  obtain ⟨T1, shape1, hc1, _, _, hnodes1, _, hrep1, _, _⟩ :=
    create_represents vertices1 num_vertices1 elements1 num_elements1 hpos1
  obtain ⟨T2, shape2, hc2, _, _, hnodes2, _, hrep2, _, _⟩ :=
    create_represents vertices2 num_vertices2 elements2 num_elements2 hpos2
  refine ⟨shape1, shape2, hc1, hc2, ?_⟩
  apply find_any_hit_mesh_node_false shape1 shape2 _ T1 T2 _ _ hrep1 hrep2
  rw [hnodes1, hnodes2, BVH.flatten_length, BVH.flatten_length]
  omega

/-- C16 at the sample mesh of four triangles against the unit square. -/
theorem C16_witness :
    ValidMesh sampleVertices sampleElements 12 ∧ 1 ≤ numTriangles 12 ∧
    ValidMesh squareVertices squareElements 6 ∧ 1 ≤ numTriangles 6 ∧
    ∃ shape1 shape2,
      TriangleMeshShape.create sampleVertices 7 sampleElements 12 = .ok shape1 ∧
      TriangleMeshShape.create squareVertices 4 squareElements 6 = .ok shape2 ∧
      find_any_hit_mesh shape1 shape2 = .ok false :=
  ⟨by decide!, by decide!, by decide!, by decide!,
    C16_mesh_mesh_never_hits sampleVertices 7 sampleElements 12 squareVertices 4 squareElements 6
      (by decide!) (by decide!) (by decide!) (by decide!)⟩

/-! ## Swept sphere -/

/-- C13 (fails on the code): `sweep_intersect_triangle_sphere` does not return the
first time of contact.  For the right triangle `(0,0,0), (4,0,0), (0,4,0)` and the
unit sphere moving from `(1,1,2)` to `(1,1,-2)` it returns `1/4`; with the last two
vertices exchanged it returns `3/4`, although the sphere already touches the
triangle at `1/4` (the centre `(1,1,1)` is at distance `1` from the point
`(1,1,0)`).  For the same triangle moved by `(10,10,0)`, and the sphere moved
with it, the kernel returns `1/2`, again with contact at `1/4`.  The square roots
taken on these runs are those of `256` and `0`, on which `squareRoot` is exact. -/
theorem C13_sweep_kernel_misses_first_contact :
    squareRoot 256 = 16 ∧ squareRoot 0 = 0 ∧
    sweep_intersect_triangle_sphere squareRoot cornerShape ⟨⟨1, 1, 2⟩, 1⟩ 0 ⟨1, 1, -2⟩
      = .ok (1 / 4) ∧
    sweep_intersect_triangle_sphere squareRoot { cornerShape with elements := [0, 2, 1] }
      ⟨⟨1, 1, 2⟩, 1⟩ 0 ⟨1, 1, -2⟩ = .ok (3 / 4) ∧
    sphereTouchesAt ⟨0, 0, 0⟩ ⟨0, 4, 0⟩ ⟨4, 0, 0⟩ ⟨1, 1, 2⟩ ⟨1, 1, -2⟩ 1 (1 / 4) (1 / 4) (1 / 4) ∧
    sweep_triangle_sphere squareRoot ⟨10, 10, 0⟩ ⟨14, 10, 0⟩ ⟨10, 14, 0⟩ ⟨11, 11, 2⟩
      ⟨11, 11, -2⟩ 1 = 1 / 2 ∧
    sphereTouchesAt ⟨10, 10, 0⟩ ⟨14, 10, 0⟩ ⟨10, 14, 0⟩ ⟨11, 11, 2⟩ ⟨11, 11, -2⟩ 1
      (1 / 4) (1 / 4) (1 / 4) := by
  refine ⟨?_, ?_, ?_, ?_, ?_, ?_, ?_⟩ <;> decide!

/-- C14 (fails on the code): the swept-sphere query leaves `[0, 1]`.  On the mesh
of the single right triangle `(0,0,0), (4,0,0), (0,4,0)`, for the unit sphere
centred at `(1,1,1/2)`, which already cuts the plane of the triangle, and the
target `(1,1,-2)`, `sweep` returns `-1/5`: the plane step returns its `t` without
the range check of the edge and vertex steps.  The result is the same for both
scalings of the ray box. -/
theorem C14_sweep_returns_negative_time :
    TriangleMeshShape.create cornerVertices 3 [0, 1, 2] 3 = .ok cornerShape ∧
    sweep RayBBox.ofHalf squareRoot cornerShape ⟨⟨1, 1, 1 / 2⟩, 1⟩ ⟨1, 1, -2⟩ = .ok (-1 / 5) ∧
    sweep RayBBox.ofSpec squareRoot cornerShape ⟨⟨1, 1, 1 / 2⟩, 1⟩ ⟨1, 1, -2⟩ = .ok (-1 / 5) ∧
    ¬ ((0 : ℚ) ≤ -1 / 5) := by
  refine ⟨?_, ?_, ?_, ?_⟩ <;> decide!

/-- C15 (fails on the code): sweep monotonicity fails where the plane step returns
a negative time.  On the mesh of the single right triangle, with `c = (1,1,1/2)`,
radius `1`, `e1 = (1,1,-2)` and `alpha = 1/2`, so `e2 = (1,1,-3/4)`: the sweep to
`e1` is `-1/5 < 1`, and the sweep to `e2` is `-2/5`, which is below
`alpha * (-1/5)`. -/
theorem C15_sweep_monotonicity_fails :
    (⟨1, 1, -3 / 4⟩ : vec3)
      = (⟨1, 1, 1 / 2⟩ : vec3) + ((⟨1, 1, -2⟩ : vec3) - (⟨1, 1, 1 / 2⟩ : vec3)) * (1 / 2 : ℚ) ∧
    ∃ t1 t2 : ℚ,
      sweep RayBBox.ofHalf squareRoot cornerShape ⟨⟨1, 1, 1 / 2⟩, 1⟩ ⟨1, 1, -2⟩ = .ok t1 ∧
      sweep RayBBox.ofHalf squareRoot cornerShape ⟨⟨1, 1, 1 / 2⟩, 1⟩ ⟨1, 1, -3 / 4⟩ = .ok t2 ∧
      t1 < 1 ∧ ¬ (t2 ≥ 1 / 2 * t1) := by
  refine ⟨by decide!, -1 / 5, -2 / 5, ?_, ?_, ?_, ?_⟩ <;> decide!

/-! ## Sphere against triangle -/

/-- In the wedge before `A` on the line `AB` and beyond the line `AB`, the foot lies
beyond the line `AC` too, and past `C` it is in the vertex region of `C`. -/
theorem wedge_region (E1 E3 g x y : ℚ) (hE1 : 0 < E1) (he : g * g < E1 * E3) (hx : x < 0)
    (hy : 0 < y) (hvc : E1 * y - g * x < 0) :
    E3 * x - g * y < 0 ∧ (E3 < y → x - g < 0) := by
  have hg : g < 0 := by
    by_contra hg
    push_neg at hg
    nlinarith [mul_pos hE1 hy, mul_nonneg hg (le_of_lt (neg_pos.mpr hx))]
  constructor
  · have h1 : E1 * (E3 * x - g * y) < 0 := by
      nlinarith [mul_pos (neg_pos.mpr hg) (sub_pos.mpr (show E1 * y < g * x by linarith)),
        mul_pos (sub_pos.mpr he) (neg_pos.mpr hx)]
    by_contra h
    push_neg at h
    nlinarith [mul_nonneg (le_of_lt hE1) h]
  · intro hy3
    have h2 : g * g < g * x := by nlinarith [mul_pos hE1 (sub_pos.mpr hy3)]
    by_contra h
    push_neg at h
    nlinarith [mul_nonneg (le_of_lt (neg_pos.mpr hg)) h]

/-- A foot beyond the edge `AB` lies in the region of a vertex or of an edge. -/
theorem cover_beyond_edge (aa ab ac bb bc cc : ℚ) (hE1 : 0 < aa - 2 * ab + bb)
    (he : 0 < triArea aa ab ac bb bc cc) (hvc : triWeight aa ab ac bb bc cc < 0) :
    (aa ≤ ab ∧ aa ≤ ac) ∨ (bb ≤ ab ∧ bb ≤ bc) ∨ (cc ≤ ac ∧ cc ≤ bc) ∨
    (triWeight aa ab ac bb bc cc ≤ 0 ∧ ab ≤ aa ∧ ab ≤ bb) ∨
    (triWeight bb bc ab cc ac aa ≤ 0 ∧ bc ≤ bb ∧ bc ≤ cc) ∨
    (triWeight cc ac bc aa ab bb ≤ 0 ∧ ac ≤ cc ∧ ac ≤ aa) := by
  unfold triArea at he
  unfold triWeight at *
  by_cases hx : aa - ab < 0
  · by_cases hy : aa - ac ≤ 0
    · exact Or.inl ⟨by linarith, by linarith⟩
    · push_neg at hy
      obtain ⟨h1, h2⟩ := wedge_region (aa - 2 * ab + bb) (aa - 2 * ac + cc)
        (aa - ab - ac + bc) (aa - ab) (aa - ac) hE1 (by nlinarith) hx hy (by nlinarith)
      by_cases hc : aa - 2 * ac + cc < aa - ac
      · have := h2 hc
        exact Or.inr (Or.inr (Or.inl ⟨by linarith, by linarith⟩))
      · push_neg at hc
        exact Or.inr (Or.inr (Or.inr (Or.inr (Or.inr ⟨by nlinarith, by linarith, by linarith⟩))))
  · push_neg at hx
    by_cases hx' : bb - ab < 0
    · by_cases hy : bb - bc ≤ 0
      · exact Or.inr (Or.inl ⟨by linarith, by linarith⟩)
      · push_neg at hy
        obtain ⟨h1, h2⟩ := wedge_region (aa - 2 * ab + bb) (bb - 2 * bc + cc)
          (bb - ab - bc + ac) (bb - ab) (bb - bc) hE1 (by nlinarith) hx' hy (by nlinarith)
        by_cases hc : bb - 2 * bc + cc < bb - bc
        · have := h2 hc
          exact Or.inr (Or.inr (Or.inl ⟨by linarith, by linarith⟩))
        · push_neg at hc
          exact Or.inr (Or.inr (Or.inr (Or.inr (Or.inl ⟨by nlinarith, by linarith, by linarith⟩))))
    · push_neg at hx'
      exact Or.inr (Or.inr (Or.inr (Or.inl ⟨by nlinarith, by linarith, by linarith⟩)))

/-- The regions of the vertices, of the edges and of the face cover the plane of a
triangle of positive area. -/
theorem cover_regions (aa ab ac bb bc cc : ℚ) (hE1 : 0 < aa - 2 * ab + bb)
    (hE2 : 0 < bb - 2 * bc + cc) (hE3 : 0 < cc - 2 * ac + aa)
    (he : 0 < triArea aa ab ac bb bc cc) :
    (0 ≤ triWeight bb bc ab cc ac aa ∧ 0 ≤ triWeight cc ac bc aa ab bb ∧
      0 ≤ triWeight aa ab ac bb bc cc) ∨
    (aa ≤ ab ∧ aa ≤ ac) ∨ (bb ≤ ab ∧ bb ≤ bc) ∨ (cc ≤ ac ∧ cc ≤ bc) ∨
    (triWeight aa ab ac bb bc cc ≤ 0 ∧ ab ≤ aa ∧ ab ≤ bb) ∨
    (triWeight bb bc ab cc ac aa ≤ 0 ∧ bc ≤ bb ∧ bc ≤ cc) ∨
    (triWeight cc ac bc aa ab bb ≤ 0 ∧ ac ≤ cc ∧ ac ≤ aa) := by
  by_cases hc : triWeight aa ab ac bb bc cc < 0
  · exact Or.inr (cover_beyond_edge aa ab ac bb bc cc hE1 he hc)
  by_cases ha : triWeight bb bc ab cc ac aa < 0
  · have he' : 0 < triArea bb bc ab cc ac aa := by
      unfold triArea at he ⊢
      linarith
    rcases cover_beyond_edge bb bc ab cc ac aa hE2 he' ha with h | h | h | h | h | h
    · exact Or.inr (Or.inr (Or.inl ⟨h.2, h.1⟩))
    · exact Or.inr (Or.inr (Or.inr (Or.inl ⟨h.2, h.1⟩)))
    · exact Or.inr (Or.inl ⟨h.1, h.2⟩)
    · exact Or.inr (Or.inr (Or.inr (Or.inr (Or.inr (Or.inl h)))))
    · exact Or.inr (Or.inr (Or.inr (Or.inr (Or.inr (Or.inr h)))))
    · exact Or.inr (Or.inr (Or.inr (Or.inr (Or.inl h))))
  by_cases hb : triWeight cc ac bc aa ab bb < 0
  · have he' : 0 < triArea cc ac bc aa ab bb := by
      unfold triArea at he ⊢
      linarith
    rcases cover_beyond_edge cc ac bc aa ab bb hE3 he' hb with h | h | h | h | h | h
    · exact Or.inr (Or.inr (Or.inr (Or.inl ⟨h.1, h.2⟩)))
    · exact Or.inr (Or.inl ⟨h.2, h.1⟩)
    · exact Or.inr (Or.inr (Or.inl ⟨h.2, h.1⟩))
    · exact Or.inr (Or.inr (Or.inr (Or.inr (Or.inr (Or.inr h)))))
    · exact Or.inr (Or.inr (Or.inr (Or.inr (Or.inl h))))
    · exact Or.inr (Or.inr (Or.inr (Or.inr (Or.inr (Or.inl h)))))
  · push_neg at hc ha hb
    exact Or.inl ⟨ha, hb, hc⟩

/-- Face region: the foot of the perpendicular on the plane is in the triangle and
within the radius unless the plane separates. -/
theorem region_face (aa ab ac bb bc cc rr : ℚ) (he : 0 < triArea aa ab ac bb bc cc)
    (h1 : triDet aa ab ac bb bc cc ≤ rr * triArea aa ab ac bb bc cc)
    (ha : 0 ≤ triWeight bb bc ab cc ac aa) (hb : 0 ≤ triWeight cc ac bc aa ab bb)
    (hc : 0 ≤ triWeight aa ab ac bb bc cc) :
    ∃ α β γ : ℚ, 0 ≤ α ∧ 0 ≤ β ∧ 0 ≤ γ ∧ α + β + γ = 1 ∧
      triForm aa ab ac bb bc cc α β γ ≤ rr := by
  refine ⟨triWeight bb bc ab cc ac aa / triArea aa ab ac bb bc cc,
    triWeight cc ac bc aa ab bb / triArea aa ab ac bb bc cc,
    triWeight aa ab ac bb bc cc / triArea aa ab ac bb bc cc,
    div_nonneg ha he.le, div_nonneg hb he.le, div_nonneg hc he.le, ?_, ?_⟩
  · rw [← add_div, ← add_div]
    exact div_self (ne_of_gt he)
  · have hid : triForm aa ab ac bb bc cc (triWeight bb bc ab cc ac aa / triArea aa ab ac bb bc cc)
        (triWeight cc ac bc aa ab bb / triArea aa ab ac bb bc cc)
        (triWeight aa ab ac bb bc cc / triArea aa ab ac bb bc cc)
        = triDet aa ab ac bb bc cc / triArea aa ab ac bb bc cc := by
      have hne := ne_of_gt he
      unfold triForm
      field_simp
      unfold triArea triWeight triDet
      ring
    rw [hid, div_le_iff₀ he]
    exact h1

/-- Edge region of `AB`: the foot of the perpendicular on the line `AB` is on the
edge and within the radius unless the plane or the edge separates. -/
theorem region_edge (aa ab ac bb bc cc rr : ℚ) (hE1 : 0 < aa - 2 * ab + bb)
    (he : 0 < triArea aa ab ac bb bc cc)
    (h1 : triDet aa ab ac bb bc cc ≤ rr * triArea aa ab ac bb bc cc)
    (h5 : aa * (aa - 2 * ab + bb) - (ab - aa) * (ab - aa) ≤ rr * (aa - 2 * ab + bb) ∨
      0 ≤ triWeight aa ab ac bb bc cc)
    (hc : triWeight aa ab ac bb bc cc ≤ 0) (hx : ab ≤ aa) (hx' : ab ≤ bb) :
    ∃ α β : ℚ, 0 ≤ α ∧ 0 ≤ β ∧ α + β = 1 ∧ triForm aa ab ac bb bc cc α β 0 ≤ rr := by
  have hkey : aa * (aa - 2 * ab + bb) - (ab - aa) * (ab - aa) ≤ rr * (aa - 2 * ab + bb) := by
    rcases h5 with h | h
    · exact h
    · have hz : triWeight aa ab ac bb bc cc = 0 := le_antisymm hc h
      have hid : triArea aa ab ac bb bc cc *
            (aa * (aa - 2 * ab + bb) - (ab - aa) * (ab - aa))
          = (aa - 2 * ab + bb) * triDet aa ab ac bb bc cc
            + triWeight aa ab ac bb bc cc * triWeight aa ab ac bb bc cc := by
        unfold triArea triWeight triDet
        ring
      rw [hz] at hid
      by_contra hcon
      push_neg at hcon
      nlinarith [mul_pos he (sub_pos.mpr hcon), mul_nonneg hE1.le (sub_nonneg.mpr h1)]
  refine ⟨(bb - ab) / (aa - 2 * ab + bb), (aa - ab) / (aa - 2 * ab + bb),
    div_nonneg (by linarith) hE1.le, div_nonneg (by linarith) hE1.le, ?_, ?_⟩
  · rw [← add_div]
    have : bb - ab + (aa - ab) = aa - 2 * ab + bb := by ring
    rw [this]
    exact div_self (ne_of_gt hE1)
  · have hne := ne_of_gt hE1
    have hid : triForm aa ab ac bb bc cc ((bb - ab) / (aa - 2 * ab + bb))
        ((aa - ab) / (aa - 2 * ab + bb)) 0
        = (aa * (aa - 2 * ab + bb) - (ab - aa) * (ab - aa)) / (aa - 2 * ab + bb) := by
      unfold triForm
      field_simp
      ring
    rw [hid, div_le_iff₀ hE1]
    exact hkey

/-- Vertex region of `A`: the vertex is within the radius unless the plane, the
vertex or one of its two edges separates. -/
theorem region_vertex (aa ab ac bb bc cc rr : ℚ) (hE1 : 0 < aa - 2 * ab + bb)
    (hE3 : 0 < cc - 2 * ac + aa) (he : 0 < triArea aa ab ac bb bc cc)
    (h1 : triDet aa ab ac bb bc cc ≤ rr * triArea aa ab ac bb bc cc)
    (h2 : aa ≤ rr ∨ ab ≤ aa ∨ ac ≤ aa)
    (h5 : aa * (aa - 2 * ab + bb) - (ab - aa) * (ab - aa) ≤ rr * (aa - 2 * ab + bb) ∨
      0 ≤ triWeight aa ab ac bb bc cc)
    (h7 : cc * (cc - 2 * ac + aa) - (ac - cc) * (ac - cc) ≤ rr * (cc - 2 * ac + aa) ∨
      0 ≤ triWeight cc ac bc aa ab bb)
    (hx : aa ≤ ab) (hy : aa ≤ ac) : aa ≤ rr := by
  by_contra hcon
  push_neg at hcon
  have hboth : ab = aa ∧ ac = aa := by
    rcases h2 with h | h | h
    · exact absurd h (not_le.mpr hcon)
    · have hab : ab = aa := le_antisymm h hx
      refine ⟨hab, ?_⟩
      subst hab
      rcases h5 with h5 | h5
      · nlinarith [mul_pos hE1 (sub_pos.mpr hcon)]
      · unfold triWeight at h5
        have : 0 ≤ (ab - 2 * ab + bb) * (ab - ac) := by nlinarith
        have : 0 ≤ ab - ac := by
          by_contra hneg
          push_neg at hneg
          nlinarith [mul_pos hE1 (neg_pos.mpr hneg)]
        linarith
    · have hac : ac = aa := le_antisymm h hy
      refine ⟨?_, hac⟩
      subst hac
      rcases h7 with h7 | h7
      · nlinarith [mul_pos hE3 (sub_pos.mpr hcon)]
      · unfold triWeight at h7
        have : 0 ≤ (cc - 2 * ac + ac) * (ac - ab) := by nlinarith
        have : 0 ≤ ac - ab := by
          by_contra hneg
          push_neg at hneg
          nlinarith [mul_pos hE3 (neg_pos.mpr hneg)]
        linarith
  obtain ⟨hab, hac⟩ := hboth
  subst hab
  subst hac
  have hid : triDet ac ac ac bb bc cc = triArea ac ac ac bb bc cc * ac := by
    unfold triArea triWeight triDet
    ring
  rw [hid] at h1
  nlinarith [mul_pos he (sub_pos.mpr hcon)]

/-- The squared triple product and the squared area do not depend on the order of
the vertices. -/
theorem triDet_rotate (aa ab ac bb bc cc : ℚ) :
    triDet bb bc ab cc ac aa = triDet aa ab ac bb bc cc := by
  unfold triDet
  ring

theorem triArea_rotate (aa ab ac bb bc cc : ℚ) :
    triArea bb bc ab cc ac aa = triArea aa ab ac bb bc cc := by
  unfold triArea
  ring

/-- Completeness of the seven tests in terms of the dot products: when none of
them separates a triangle of positive area, a point of the triangle is within the
radius. -/
theorem gram_complete (aa ab ac bb bc cc rr : ℚ) (hE1 : 0 < aa - 2 * ab + bb)
    (hE2 : 0 < bb - 2 * bc + cc) (hE3 : 0 < cc - 2 * ac + aa)
    (he : 0 < triArea aa ab ac bb bc cc)
    (h1 : triDet aa ab ac bb bc cc ≤ rr * triArea aa ab ac bb bc cc)
    (h2 : aa ≤ rr ∨ ab ≤ aa ∨ ac ≤ aa) (h3 : bb ≤ rr ∨ bc ≤ bb ∨ ab ≤ bb)
    (h4 : cc ≤ rr ∨ ac ≤ cc ∨ bc ≤ cc)
    (h5 : aa * (aa - 2 * ab + bb) - (ab - aa) * (ab - aa) ≤ rr * (aa - 2 * ab + bb) ∨
      0 ≤ triWeight aa ab ac bb bc cc)
    (h6 : bb * (bb - 2 * bc + cc) - (bc - bb) * (bc - bb) ≤ rr * (bb - 2 * bc + cc) ∨
      0 ≤ triWeight bb bc ab cc ac aa)
    (h7 : cc * (cc - 2 * ac + aa) - (ac - cc) * (ac - cc) ≤ rr * (cc - 2 * ac + aa) ∨
      0 ≤ triWeight cc ac bc aa ab bb) :
    ∃ α β γ : ℚ, 0 ≤ α ∧ 0 ≤ β ∧ 0 ≤ γ ∧ α + β + γ = 1 ∧
      triForm aa ab ac bb bc cc α β γ ≤ rr := by
  have heB : 0 < triArea bb bc ab cc ac aa := by rw [triArea_rotate]; exact he
  have heC : 0 < triArea cc ac bc aa ab bb := by rw [triArea_rotate, triArea_rotate]; exact he
  have h1B : triDet bb bc ab cc ac aa ≤ rr * triArea bb bc ab cc ac aa := by
    rw [triArea_rotate, triDet_rotate]; exact h1
  have h1C : triDet cc ac bc aa ab bb ≤ rr * triArea cc ac bc aa ab bb := by
    rw [triArea_rotate, triDet_rotate, triArea_rotate, triDet_rotate]; exact h1
  rcases cover_regions aa ab ac bb bc cc hE1 hE2 hE3 he with
    ⟨ha, hb, hc⟩ | ⟨hx, hy⟩ | ⟨hx, hy⟩ | ⟨hx, hy⟩ | ⟨hc, hx, hy⟩ | ⟨hc, hx, hy⟩ | ⟨hc, hx, hy⟩
  · exact region_face aa ab ac bb bc cc rr he h1 ha hb hc
  · have := region_vertex aa ab ac bb bc cc rr hE1 hE3 he h1 h2 h5 h7 hx hy
    exact ⟨1, 0, 0, by norm_num, le_refl _, le_refl _, by norm_num, by
      unfold triForm; linarith⟩
  · have := region_vertex bb bc ab cc ac aa rr hE2 hE1 heB h1B h3 h6 h5 hy hx
    exact ⟨0, 1, 0, le_refl _, by norm_num, le_refl _, by norm_num, by
      unfold triForm; linarith⟩
  · have := region_vertex cc ac bc aa ab bb rr hE3 hE2 heC h1C h4 h7 h6 hx hy
    exact ⟨0, 0, 1, le_refl _, le_refl _, by norm_num, by norm_num, by
      unfold triForm; linarith⟩
  · obtain ⟨α, β, hα, hβ, hs, hle⟩ := region_edge aa ab ac bb bc cc rr hE1 he h1 h5 hc hx hy
    exact ⟨α, β, 0, hα, hβ, le_refl _, by linarith, hle⟩
  · obtain ⟨α, β, hα, hβ, hs, hle⟩ := region_edge bb bc ab cc ac aa rr hE2 heB h1B h6 hc hx hy
    refine ⟨0, α, β, le_refl _, hα, hβ, by linarith, ?_⟩
    unfold triForm at hle ⊢
    linarith
  · obtain ⟨α, β, hα, hβ, hs, hle⟩ := region_edge cc ac bc aa ab bb rr hE3 heC h1C h7 hc hx hy
    refine ⟨β, 0, α, hβ, le_refl _, hα, by linarith, ?_⟩
    unfold triForm at hle ⊢
    linarith

theorem dot_comm (a b : vec3) : dot a b = dot b a := by
  unfold dot
  ring

/-- The test of `overlap_triangle_sphere` answers true exactly when none of its
seven tests separates. -/
theorem kernel_true_iff (p0 p1 p2 P : vec3) (r : ℚ) :
    triangle_sphere_kernel p0 p1 p2 P r = true ↔
      ¬ planeSeparates (p0 - P) (p1 - P) (p2 - P) (r * r) ∧
      ¬ vertexSeparates (dot (p0 - P) (p0 - P)) (dot (p0 - P) (p1 - P))
        (dot (p0 - P) (p2 - P)) (r * r) ∧
      ¬ vertexSeparates (dot (p1 - P) (p1 - P)) (dot (p0 - P) (p1 - P))
        (dot (p1 - P) (p2 - P)) (r * r) ∧
      ¬ vertexSeparates (dot (p2 - P) (p2 - P)) (dot (p0 - P) (p2 - P))
        (dot (p1 - P) (p2 - P)) (r * r) ∧
      ¬ edgeSeparates (p0 - P) (p1 - P) (p2 - P) (r * r) ∧
      ¬ edgeSeparates (p1 - P) (p2 - P) (p0 - P) (r * r) ∧
      ¬ edgeSeparates (p2 - P) (p0 - P) (p1 - P) (r * r) := by
  unfold triangle_sphere_kernel planeSeparates vertexSeparates edgeSeparates
  rw [dot_comm (p2 - P) (p0 - P)]
  simp only [Bool.not_eq_true', Bool.or_eq_false_iff, Bool.and_eq_false_iff,
    decide_eq_false_iff_not, not_and_or, and_assoc, or_assoc]

theorem dot_self_nonneg (u : vec3) : 0 ≤ dot u u := by
  unfold dot
  nlinarith [mul_self_nonneg u.x, mul_self_nonneg u.y, mul_self_nonneg u.z]

/-- Cauchy-Schwarz for the dot product, from the identity of Lagrange. -/
theorem dot_mul_self_le (u v : vec3) : dot u v * dot u v ≤ dot u u * dot v v := by
  have h : dot u u * dot v v - dot u v * dot u v = dot (cross u v) (cross u v) := by
    unfold dot cross
    ring
  have := dot_self_nonneg (cross u v)
  linarith

theorem dot_comb (A B C Q : vec3) (α β γ : ℚ) :
    dot (A * α + B * β + C * γ) Q = α * dot A Q + β * dot B Q + γ * dot C Q := by
  simp only [dot, vec3.add_x, vec3.add_y, vec3.add_z, vec3.mul_x, vec3.mul_y, vec3.mul_z]
  ring

theorem dot_comb_self (A B C : vec3) (α β γ : ℚ) :
    dot (A * α + B * β + C * γ) (A * α + B * β + C * γ)
      = triForm (dot A A) (dot A B) (dot A C) (dot B B) (dot B C) (dot C C) α β γ := by
  simp only [triForm, dot, vec3.add_x, vec3.add_y, vec3.add_z, vec3.mul_x, vec3.mul_y,
    vec3.mul_z]
  ring

theorem comb_sub (p0 p1 p2 P : vec3) (α β γ : ℚ) (h : α + β + γ = 1) :
    (p0 * α + p1 * β + p2 * γ) - P = (p0 - P) * α + (p1 - P) * β + (p2 - P) * γ := by
  have hγ : γ = 1 - α - β := by linarith
  subst hγ
  apply vec3.eq_of_components <;>
    simp only [vec3.add_x, vec3.add_y, vec3.add_z, vec3.mul_x, vec3.mul_y, vec3.mul_z,
      vec3.sub_x, vec3.sub_y, vec3.sub_z] <;> ring

theorem edge_len_eq (A B : vec3) :
    dot (B - A) (B - A) = dot A A - 2 * dot A B + dot B B := by
  simp only [dot, vec3.sub_x, vec3.sub_y, vec3.sub_z]
  ring

theorem tri_area_eq (A B C : vec3) :
    dot (cross (B - A) (C - A)) (cross (B - A) (C - A))
      = triArea (dot A A) (dot A B) (dot A C) (dot B B) (dot B C) (dot C C) := by
  simp only [triArea, triWeight, dot, cross, vec3.sub_x, vec3.sub_y, vec3.sub_z]
  ring

theorem tri_det_eq (A B C : vec3) :
    dot A (cross (B - A) (C - A)) * dot A (cross (B - A) (C - A))
      = triDet (dot A A) (dot A B) (dot A C) (dot B B) (dot B C) (dot C C) := by
  simp only [triDet, dot, cross, vec3.sub_x, vec3.sub_y, vec3.sub_z]
  ring

theorem tri_plane_dot (A B C : vec3) (α β γ : ℚ) (h : α + β + γ = 1) :
    dot (A * α + B * β + C * γ) (cross (B - A) (C - A)) = dot A (cross (B - A) (C - A)) := by
  have hγ : γ = 1 - α - β := by linarith
  subst hγ
  simp only [dot, cross, vec3.add_x, vec3.add_y, vec3.add_z, vec3.mul_x, vec3.mul_y,
    vec3.mul_z, vec3.sub_x, vec3.sub_y, vec3.sub_z]
  ring

theorem edge_q_self (A B : vec3) :
    dot (A * dot (B - A) (B - A) - (B - A) * (dot A B - dot A A))
        (A * dot (B - A) (B - A) - (B - A) * (dot A B - dot A A))
      = (dot A A - 2 * dot A B + dot B B) *
        (dot A A * (dot A A - 2 * dot A B + dot B B)
          - (dot A B - dot A A) * (dot A B - dot A A)) := by
  simp only [dot, vec3.sub_x, vec3.sub_y, vec3.sub_z, vec3.mul_x, vec3.mul_y, vec3.mul_z]
  ring

theorem edge_q_opposite (A B C : vec3) :
    dot (A * dot (B - A) (B - A) - (B - A) * (dot A B - dot A A))
        (C * dot (B - A) (B - A) - (A * dot (B - A) (B - A) - (B - A) * (dot A B - dot A A)))
      = -((dot A A - 2 * dot A B + dot B B) *
        triWeight (dot A A) (dot A B) (dot A C) (dot B B) (dot B C) (dot C C)) := by
  simp only [triWeight, dot, vec3.sub_x, vec3.sub_y, vec3.sub_z, vec3.mul_x, vec3.mul_y,
    vec3.mul_z]
  ring

theorem edge_q_dot (A B C : vec3) (α β γ : ℚ) (h : α + β + γ = 1) :
    dot (A * α + B * β + C * γ) (A * dot (B - A) (B - A) - (B - A) * (dot A B - dot A A))
      = (dot A A * (dot A A - 2 * dot A B + dot B B)
          - (dot A B - dot A A) * (dot A B - dot A A))
        - γ * triWeight (dot A A) (dot A B) (dot A C) (dot B B) (dot B C) (dot C C) := by
  have hα : α = 1 - β - γ := by linarith
  subst hα
  simp only [triWeight, dot, vec3.add_x, vec3.add_y, vec3.add_z, vec3.sub_x, vec3.sub_y,
    vec3.sub_z, vec3.mul_x, vec3.mul_y, vec3.mul_z]
  ring

/-- No plane test separates a sphere from a triangle with a point within the
radius. -/
theorem plane_sound (A B C : vec3) (α β γ rr : ℚ) (hsum : α + β + γ = 1)
    (hX : dot (A * α + B * β + C * γ) (A * α + B * β + C * γ) ≤ rr) :
    ¬ planeSeparates A B C rr := by
  unfold planeSeparates
  intro hs
  have hcs := dot_mul_self_le (A * α + B * β + C * γ) (cross (B - A) (C - A))
  rw [tri_plane_dot A B C α β γ hsum] at hcs
  have := mul_le_mul_of_nonneg_right hX (dot_self_nonneg (cross (B - A) (C - A)))
  linarith

/-- No vertex test separates a sphere from a point `X` within the radius, when
`X` is a combination of the vertex with weight `1 - β - γ` and two others. -/
theorem vertex_sound (A X : vec3) (ab ac β γ rr : ℚ) (hβ : 0 ≤ β) (hγ : 0 ≤ γ)
    (hX : dot X X ≤ rr)
    (hXA : dot X A = dot A A + β * (ab - dot A A) + γ * (ac - dot A A)) :
    ¬ vertexSeparates (dot A A) ab ac rr := by
  rintro ⟨h1, h2, h3⟩
  have hcs := dot_mul_self_le X A
  have hrr : 0 ≤ rr := le_trans (dot_self_nonneg X) hX
  have hge : dot A A ≤ dot X A := by
    rw [hXA]
    nlinarith [mul_nonneg hβ (sub_pos.mpr h2).le, mul_nonneg hγ (sub_pos.mpr h3).le]
  have haa : 0 < dot A A := lt_of_le_of_lt hrr h1
  have h4 : dot A A * dot A A ≤ dot X A * dot X A := by nlinarith
  have h5 : dot X X * dot A A ≤ rr * dot A A := mul_le_mul_of_nonneg_right hX haa.le
  nlinarith

/-- No edge test separates a sphere from a triangle with a point within the
radius. -/
theorem edge_sound (A B C : vec3) (α β γ rr : ℚ) (hγ : 0 ≤ γ) (hsum : α + β + γ = 1)
    (hX : dot (A * α + B * β + C * γ) (A * α + B * β + C * γ) ≤ rr) :
    ¬ edgeSeparates A B C rr := by
  unfold edgeSeparates
  rw [edge_q_self, edge_q_opposite, edge_len_eq]
  rintro ⟨h1, h2⟩
  have hcs := dot_mul_self_le (A * α + B * β + C * γ)
    (A * dot (B - A) (B - A) - (B - A) * (dot A B - dot A A))
  rw [edge_q_self, edge_q_dot A B C α β γ hsum] at hcs
  have hrr : 0 ≤ rr := le_trans (dot_self_nonneg _) hX
  have he1 : 0 ≤ dot A A - 2 * dot A B + dot B B := by
    rw [← edge_len_eq]
    exact dot_self_nonneg _
  generalize dot A A - 2 * dot A B + dot B B = e1 at *
  generalize dot A A * e1 - (dot A B - dot A A) * (dot A B - dot A A) = q at *
  generalize triWeight (dot A A) (dot A B) (dot A C) (dot B B) (dot B C) (dot C C) = vc at *
  generalize dot (A * α + B * β + C * γ) (A * α + B * β + C * γ) = xx at *
  have he1pos : 0 < e1 := by
    rcases eq_or_lt_of_le he1 with h | h
    · rw [← h] at h1
      simp at h1
    · exact h
  have hvc : vc < 0 := by
    by_contra hcon
    push_neg at hcon
    nlinarith [mul_nonneg he1 hcon]
  have hq : rr * e1 < q := by
    by_contra hcon
    push_neg at hcon
    nlinarith [mul_le_mul_of_nonneg_left hcon he1]
  have hq0 : 0 < q := lt_of_le_of_lt (mul_nonneg hrr he1) hq
  have hge : q ≤ q - γ * vc := by nlinarith [mul_nonneg hγ (neg_pos.mpr hvc).le]
  have h3 : q * q ≤ (q - γ * vc) * (q - γ * vc) := by nlinarith
  have h4 : xx * (e1 * q) ≤ rr * (e1 * q) :=
    mul_le_mul_of_nonneg_right hX (mul_nonneg he1 hq0.le)
  nlinarith [mul_pos hq0 (sub_pos.mpr hq)]

theorem comb_rotate (A B C : vec3) (α β γ : ℚ) :
    B * β + C * γ + A * α = A * α + B * β + C * γ := by
  apply vec3.eq_of_components <;>
    simp only [vec3.add_x, vec3.add_y, vec3.add_z, vec3.mul_x, vec3.mul_y, vec3.mul_z] <;> ring

theorem sub_sub_sub (p q P : vec3) : (p - P) - (q - P) = p - q := by
  apply vec3.eq_of_components <;>
    simp only [vec3.sub_x, vec3.sub_y, vec3.sub_z] <;> ring

theorem dot_self_pos (v : vec3) (h : v ≠ vec3.zero) : 0 < dot v v := by
  rcases lt_or_eq_of_le (dot_self_nonneg v) with h0 | h0
  · exact h0
  · exfalso
    apply h
    unfold dot at h0
    have hx : v.x = 0 := by nlinarith [mul_self_nonneg v.x, mul_self_nonneg v.y, mul_self_nonneg v.z]
    have hy : v.y = 0 := by nlinarith [mul_self_nonneg v.x, mul_self_nonneg v.y, mul_self_nonneg v.z]
    have hz : v.z = 0 := by nlinarith [mul_self_nonneg v.x, mul_self_nonneg v.y, mul_self_nonneg v.z]
    exact vec3.eq_of_components v vec3.zero hx hy hz

/-- The test answers true whenever the closed triangle has a point within the
radius, for every triangle. -/
theorem kernel_sound (p0 p1 p2 P : vec3) (r α β γ : ℚ) (hα : 0 ≤ α) (hβ : 0 ≤ β)
    (hγ : 0 ≤ γ) (hsum : α + β + γ = 1)
    (h : dot ((p0 * α + p1 * β + p2 * γ) - P) ((p0 * α + p1 * β + p2 * γ) - P) ≤ r * r) :
    triangle_sphere_kernel p0 p1 p2 P r = true := by
  rw [kernel_true_iff]
  rw [comb_sub p0 p1 p2 P α β γ hsum] at h
  generalize p0 - P = A at *
  generalize p1 - P = B at *
  generalize p2 - P = C at *
  have hα' : α = 1 - β - γ := by linarith
  refine ⟨plane_sound A B C α β γ _ hsum h, ?_, ?_, ?_, edge_sound A B C α β γ _ hγ hsum h,
    ?_, ?_⟩
  · apply vertex_sound A _ _ _ β γ _ hβ hγ h
    rw [dot_comb, dot_comm B A, dot_comm C A, hα']
    ring
  · apply vertex_sound B _ _ _ α γ _ hα hγ h
    rw [dot_comb, dot_comm C B, hα']
    ring
  · apply vertex_sound C _ _ _ α β _ hα hβ h
    rw [dot_comb, hα']
    ring
  · apply edge_sound B C A β γ α _ hα (by linarith)
    rw [comb_rotate]
    exact h
  · apply edge_sound C A B γ α β _ hβ (by linarith)
    rw [comb_rotate, comb_rotate]
    exact h

/-- An edge test that does not separate, in terms of the dot products. -/
theorem edge_gram (A B C : vec3) (rr : ℚ) (hE1 : 0 < dot A A - 2 * dot A B + dot B B)
    (h : ¬ edgeSeparates A B C rr) :
    dot A A * (dot A A - 2 * dot A B + dot B B) - (dot A B - dot A A) * (dot A B - dot A A)
        ≤ rr * (dot A A - 2 * dot A B + dot B B) ∨
      0 ≤ triWeight (dot A A) (dot A B) (dot A C) (dot B B) (dot B C) (dot C C) := by
  unfold edgeSeparates at h
  rw [edge_q_self, edge_q_opposite, edge_len_eq] at h
  generalize dot A A - 2 * dot A B + dot B B = e1 at *
  generalize dot A A * e1 - (dot A B - dot A A) * (dot A B - dot A A) = q at *
  generalize triWeight (dot A A) (dot A B) (dot A C) (dot B B) (dot B C) (dot C C) = vc at *
  by_contra hcon
  push_neg at hcon
  apply h
  constructor
  · nlinarith [mul_pos hE1 (sub_pos.mpr hcon.1)]
  · nlinarith [mul_pos hE1 (neg_pos.mpr hcon.2)]

/-- The test answers true only if the closed triangle has a point within the
radius, for a triangle of positive area. -/
theorem kernel_complete (p0 p1 p2 P : vec3) (r : ℚ) (hnd : ¬ Degenerate p0 p1 p2)
    (h : triangle_sphere_kernel p0 p1 p2 P r = true) :
    ∃ α β γ : ℚ, 0 ≤ α ∧ 0 ≤ β ∧ 0 ≤ γ ∧ α + β + γ = 1 ∧
      dot ((p0 * α + p1 * β + p2 * γ) - P) ((p0 * α + p1 * β + p2 * γ) - P) ≤ r * r := by
  rw [kernel_true_iff] at h
  obtain ⟨h1, h2, h3, h4, h5, h6, h7⟩ := h
  have he : 0 < dot (cross ((p1 - P) - (p0 - P)) ((p2 - P) - (p0 - P)))
      (cross ((p1 - P) - (p0 - P)) ((p2 - P) - (p0 - P))) := by
    rw [sub_sub_sub, sub_sub_sub]
    exact dot_self_pos _ hnd
  have key : ∃ α β γ : ℚ, 0 ≤ α ∧ 0 ≤ β ∧ 0 ≤ γ ∧ α + β + γ = 1 ∧
      dot ((p0 - P) * α + (p1 - P) * β + (p2 - P) * γ)
        ((p0 - P) * α + (p1 - P) * β + (p2 - P) * γ) ≤ r * r := by
    generalize p0 - P = A at *
    generalize p1 - P = B at *
    generalize p2 - P = C at *
    generalize r * r = rr at *
    rw [tri_area_eq] at he
    have hE1n := dot_self_nonneg (B - A)
    have hE2n := dot_self_nonneg (C - B)
    have hE3n := dot_self_nonneg (A - C)
    rw [edge_len_eq] at hE1n hE2n hE3n
    rw [dot_comm C A] at hE3n
    unfold planeSeparates at h1
    rw [tri_det_eq, tri_area_eq] at h1
    have hE1 : 0 < dot A A - 2 * dot A B + dot B B := by
      rcases lt_or_eq_of_le hE1n with h0 | h0
      · exact h0
      · exfalso
        unfold triArea triWeight at he
        nlinarith [mul_self_nonneg (dot A A - dot A B - dot A C + dot B C)]
    have hE2 : 0 < dot B B - 2 * dot B C + dot C C := by
      rcases lt_or_eq_of_le hE2n with h0 | h0
      · exact h0
      · exfalso
        unfold triArea triWeight at he
        nlinarith [mul_self_nonneg (dot B B - dot A B - dot B C + dot A C)]
    have hE3 : 0 < dot C C - 2 * dot A C + dot A A := by
      rcases lt_or_eq_of_le hE3n with h0 | h0
      · exact h0
      · exfalso
        unfold triArea triWeight at he
        nlinarith [mul_self_nonneg (dot C C - dot A C - dot B C + dot A B)]
    have g5 := edge_gram A B C rr hE1 h5
    have g6 := edge_gram B C A rr hE2 h6
    have g7 := edge_gram C A B rr (by rw [dot_comm C A]; exact hE3) h7
    rw [dot_comm B A, dot_comm C A] at g6
    rw [dot_comm C A, dot_comm C B] at g7
    unfold vertexSeparates at h2 h3 h4
    have g2 : dot A A ≤ rr ∨ dot A B ≤ dot A A ∨ dot A C ≤ dot A A := by
      by_contra hcon
      push_neg at hcon
      exact h2 ⟨hcon.1, hcon.2.1, hcon.2.2⟩
    have g3 : dot B B ≤ rr ∨ dot B C ≤ dot B B ∨ dot A B ≤ dot B B := by
      by_contra hcon
      push_neg at hcon
      exact h3 ⟨hcon.1, hcon.2.2, hcon.2.1⟩
    have g4 : dot C C ≤ rr ∨ dot A C ≤ dot C C ∨ dot B C ≤ dot C C := by
      by_contra hcon
      push_neg at hcon
      exact h4 ⟨hcon.1, hcon.2.1, hcon.2.2⟩
    obtain ⟨α, β, γ, hα, hβ, hγ, hsum, hle⟩ := gram_complete (dot A A) (dot A B) (dot A C)
      (dot B B) (dot B C) (dot C C) rr hE1 hE2 hE3 he (not_lt.mp h1) g2 g3 g4 g5 g6 g7
    exact ⟨α, β, γ, hα, hβ, hγ, hsum, by rw [dot_comb_self]; exact hle⟩
  obtain ⟨α, β, γ, hα, hβ, hγ, hsum, hle⟩ := key
  exact ⟨α, β, γ, hα, hβ, hγ, hsum, by rw [comb_sub p0 p1 p2 P α β γ hsum]; exact hle⟩

/-- C11 (as stated, fails): for the collinear triangle `(0,0,0), (1,0,0), (2,0,0)`
and the unit sphere centred at `(1,5,0)`, `overlap_triangle_sphere` returns true,
although every point of the triangle is at distance at least `5` from the
centre: with a zero normal the plane test cannot separate, and no vertex or edge
test does. -/
theorem C11_counterexample :
    TriangleMeshShape.create collinearVertices 3 [0, 1, 2] 3 = .ok collinearShape ∧
    overlap_triangle_sphere collinearShape ⟨⟨1, 5, 0⟩, 1⟩ 0 = .ok true ∧
    ¬ TriangleWithin ⟨0, 0, 0⟩ ⟨1, 0, 0⟩ ⟨2, 0, 0⟩ ⟨1, 5, 0⟩ 1 := by
  refine ⟨by decide!, by decide!, ?_⟩
  rintro ⟨_, α, β, γ, _, _, _, _, h⟩
  simp only [dot, vec3.add_x, vec3.add_y, vec3.add_z, vec3.mul_x, vec3.mul_y, vec3.mul_z,
    vec3.sub_x, vec3.sub_y, vec3.sub_z] at h
  nlinarith [mul_self_nonneg (0 * α + 1 * β + 2 * γ - 1)]

/-- C11 (amended): for a leaf node whose triangle has positive area and a sphere of
radius `r ≥ 0`, `overlap_triangle_sphere` returns true if and only if the closed
triangle has a point at distance at most `r` from the centre. -/
theorem C11_overlap_triangle_sphere_iff (shape1 : TriangleMeshShape) (shape2 : SphereShape)
    (a : Int) (n : Node) (hn : shape1.node a = .ok n)
    (hnd : ¬ Degenerate (nodeTriangle shape1 n).1 (nodeTriangle shape1 n).2.1
      (nodeTriangle shape1 n).2.2)
    (hr : 0 ≤ shape2.radius) :
    ∃ b, overlap_triangle_sphere shape1 shape2 a = .ok b ∧
      (b = true ↔
        TriangleWithin (nodeTriangle shape1 n).1 (nodeTriangle shape1 n).2.1
          (nodeTriangle shape1 n).2.2 shape2.center shape2.radius) := by
  refine ⟨triangle_sphere_kernel (nodeTriangle shape1 n).1 (nodeTriangle shape1 n).2.1
    (nodeTriangle shape1 n).2.2 shape2.center shape2.radius,
    by simp only [overlap_triangle_sphere, hn], fun hb => ?_, ?_⟩
  · exact ⟨hr, kernel_complete _ _ _ _ _ hnd hb⟩
  · rintro ⟨_, α, β, γ, hα, hβ, hγ, hsum, h⟩
    exact kernel_sound _ _ _ _ _ α β γ hα hβ hγ hsum h

/-- C11 at the unit triangle and the unit sphere centred at `(1/4, 1/4, 1/2)`. -/
theorem C11_witness :
    unitShape.node 0 = .ok (Node.leaf ⟨0, 0, 0⟩ ⟨1, 1, 0⟩ 0) ∧
    ¬ Degenerate (nodeTriangle unitShape (Node.leaf ⟨0, 0, 0⟩ ⟨1, 1, 0⟩ 0)).1
      (nodeTriangle unitShape (Node.leaf ⟨0, 0, 0⟩ ⟨1, 1, 0⟩ 0)).2.1
      (nodeTriangle unitShape (Node.leaf ⟨0, 0, 0⟩ ⟨1, 1, 0⟩ 0)).2.2 ∧
    (0 : ℚ) ≤ 1 ∧
    ∃ b, overlap_triangle_sphere unitShape ⟨⟨1 / 4, 1 / 4, 1 / 2⟩, 1⟩ 0 = .ok b ∧
      (b = true ↔
        TriangleWithin (nodeTriangle unitShape (Node.leaf ⟨0, 0, 0⟩ ⟨1, 1, 0⟩ 0)).1
          (nodeTriangle unitShape (Node.leaf ⟨0, 0, 0⟩ ⟨1, 1, 0⟩ 0)).2.1
          (nodeTriangle unitShape (Node.leaf ⟨0, 0, 0⟩ ⟨1, 1, 0⟩ 0)).2.2
          ⟨1 / 4, 1 / 4, 1 / 2⟩ 1) :=
  ⟨by decide!, by decide!, by decide!,
    C11_overlap_triangle_sphere_iff unitShape ⟨⟨1 / 4, 1 / 4, 1 / 2⟩, 1⟩ 0 _ (by decide!)
      (by decide!) (by decide!)⟩

/-! ## TMap -/

theorem TMap.nodeAt_eq_ok {K V : Type} (m : TMap K V) (i : Nat) (nd : TMap.Node K V) :
    m.nodeAt i = .ok nd ↔ m.Nodes.get? i = some nd := by
  unfold TMap.nodeAt
  cases h : m.Nodes.get? i <;> simp

theorem TMap.nodeAt_of_lt {K V : Type} (m : TMap K V) (i : Nat) (h : i < m.Nodes.length) :
    ∃ nd, m.nodeAt i = .ok nd ∧ m.Nodes.get? i = some nd := by
  have : m.Nodes.get? i = some (m.Nodes.get ⟨i, h⟩) := List.get?_eq_get h
  exact ⟨_, (m.nodeAt_eq_ok i _).mpr this, this⟩

theorem TMap.get?_setNode {K V : Type} (m : TMap K V) (i j : Nat) (n : TMap.Node K V) :
    (m.setNode i n).Nodes.get? j
      = if i = j then (if i < m.Nodes.length then some n else none) else m.Nodes.get? j := by
  unfold TMap.setNode
  simp only [List.get?_eq_getElem?, List.getElem?_set]

theorem TMap.nextAt_setNode {K V : Type} (m : TMap K V) (i : Nat) (n : TMap.Node K V)
    (h : i < m.Nodes.length) :
    (m.setNode i n).nextAt = Function.update m.nextAt i (some n.Next) := by
  funext j
  unfold TMap.nextAt
  rw [TMap.get?_setNode]
  by_cases hij : i = j
  · subst hij
    simp [h]
  · simp [hij, Function.update_noteq (Ne.symm hij)]

theorem TMap.keyAt_setNode {K V : Type} (m : TMap K V) (i : Nat) (n : TMap.Node K V)
    (h : i < m.Nodes.length) :
    (m.setNode i n).keyAt = Function.update m.keyAt i n.Key := by
  funext j
  unfold TMap.keyAt
  rw [TMap.get?_setNode]
  by_cases hij : i = j
  · subst hij
    simp [h]
  · simp [hij, Function.update_noteq (Ne.symm hij)]

theorem TMap.valueAt_setNode {K V : Type} (m : TMap K V) (i : Nat) (n : TMap.Node K V)
    (h : i < m.Nodes.length) :
    (m.setNode i n).valueAt = Function.update m.valueAt i n.Value := by
  funext j
  unfold TMap.valueAt
  rw [TMap.get?_setNode]
  by_cases hij : i = j
  · subst hij
    simp [h]
  · simp [hij, Function.update_noteq (Ne.symm hij)]

@[simp] theorem TMap.length_setNode {K V : Type} (m : TMap K V) (i : Nat) (n : TMap.Node K V) :
    (m.setNode i n).Nodes.length = m.Nodes.length := by
  unfold TMap.setNode
  simp

theorem TMap.usedB_eq {K V : Type} (m m1 : TMap K V) (i : Nat) (h : m1.nextAt i = m.nextAt i) :
    m1.usedB i = m.usedB i := by
  unfold TMap.usedB
  rw [h]

theorem TMap.usedB_iff {K V : Type} (m : TMap K V) (i : Nat) :
    m.usedB i = true ↔ ∃ p, m.nextAt i = some p ∧ p ≠ NodePtr.one := by
  unfold TMap.usedB
  cases h : m.nextAt i <;> simp

theorem TMap.usedB_lt {K V : Type} (m : TMap K V) (i : Nat) (h : m.usedB i = true) :
    i < m.Nodes.length := by
  obtain ⟨p, hp, _⟩ := (m.usedB_iff i).mp h
  unfold TMap.nextAt at hp
  by_contra hcon
  rw [List.get?_eq_none.mpr (not_lt.mp hcon)] at hp
  simp at hp

theorem TMap.mainPosition_eq_mod {K V : Type} (traits : THashTraits K) (m : TMap K V) (k : K)
    (j : Nat) (hj : j ≤ 31) (hs : m.Size = 2 ^ j) :
    m.MainPosition traits k = traits.Hash k % 2 ^ 32 % 2 ^ j := by
  unfold TMap.MainPosition
  rw [hs]
  have h1 : (2 : Nat) ^ j ≤ 2 ^ 31 := Nat.pow_le_pow_right (by norm_num) hj
  have h2 : 0 < 2 ^ j := Nat.pow_pos (by norm_num)
  have h3 : (2 ^ j + 2 ^ 32 - 1) % 2 ^ 32 = 2 ^ j - 1 := by
    have : 2 ^ j + 2 ^ 32 - 1 = (2 ^ j - 1) + 2 ^ 32 := by omega
    rw [this, Nat.add_mod_right]
    apply Nat.mod_eq_of_lt
    omega
  rw [h3, Nat.and_pow_two_sub_one_eq_mod]

theorem TMap.WF.mainPosition_lt {K V : Type} {traits : THashTraits K} {m : TMap K V}
    (h : m.WF traits) (k : K) : m.MainPosition traits k < m.Size := by
  obtain ⟨j, hj, hs⟩ := h.size
  rw [TMap.mainPosition_eq_mod traits m k j hj hs, hs]
  exact Nat.mod_lt _ (Nat.pow_pos (by norm_num))

theorem TMap.mainPosition_congr {K V : Type} (traits : THashTraits K) (m m1 : TMap K V) (k : K)
    (h : m1.Size = m.Size) : m1.MainPosition traits k = m.MainPosition traits k := by
  unfold TMap.MainPosition
  rw [h]

theorem countP_range_flip (f g : Nat → Bool) (n i : Nat) (hi : i < n)
    (hne : ∀ j, j ≠ i → g j = f j) (hf : f i = false) (hg : g i = true) :
    (List.range n).countP g = (List.range n).countP f + 1 := by
  induction n with
  | zero => omega
  | succ n ih =>
    rw [List.range_succ, List.countP_append, List.countP_append]
    by_cases hin : i = n
    · subst hin
      have hsame : (List.range i).countP g = (List.range i).countP f := by
        apply List.countP_congr
        intro x hx
        rw [List.mem_range] at hx
        rw [hne x (by omega)]
      simp [hsame, hf, hg]
    · have := ih (by omega)
      have hn : g n = f n := hne n (fun h => hin h.symm)
      rw [this, List.countP_singleton, List.countP_singleton, hn]
      omega

theorem countP_range_same (f g : Nat → Bool) (n : Nat) (h : ∀ j, j < n → g j = f j) :
    (List.range n).countP g = (List.range n).countP f := by
  apply List.countP_congr
  intro x hx
  rw [List.mem_range] at hx
  rw [h x hx]

theorem TMap.Linked.linked_congr {K V : Type} {m m1 : TMap K V} {l : List Nat}
    (h : ∀ i ∈ l, m1.nextAt i = m.nextAt i) (hl : m.Linked l) : m1.Linked l := by
  induction l with
  | nil => trivial
  | cons i t ih =>
    obtain ⟨h1, h2⟩ := hl
    exact ⟨by rw [h i (List.mem_cons_self i t)]; exact h1,
      ih (fun j hj => h j (List.mem_cons_of_mem i hj)) h2⟩

theorem headPtr_ne_one (l : List Nat) : headPtr l ≠ NodePtr.one := by
  cases l <;> simp [headPtr]

theorem TMap.Linked.linked_used {K V : Type} {m : TMap K V} {l : List Nat} (hl : m.Linked l) :
    ∀ i ∈ l, m.usedB i = true := by
  induction l with
  | nil => intro i hi; cases hi
  | cons a t ih =>
    obtain ⟨h1, h2⟩ := hl
    intro i hi
    rcases List.mem_cons.mp hi with h | h
    · subst h
      exact (m.usedB_iff i).mpr ⟨_, h1, headPtr_ne_one t⟩
    · exact ih h2 i h

theorem TMap.Linked.of_append {K V : Type} {m : TMap K V} {l1 l2 : List Nat}
    (hl : m.Linked (l1 ++ l2)) : m.Linked l2 := by
  induction l1 with
  | nil => exact hl
  | cons a t ih => exact ih hl.2

/-- In a chain the node before `i` points to `i`. -/
theorem TMap.Linked.pred {K V : Type} {m : TMap K V} {l1 l2 : List Nat} {a i : Nat}
    (hl : m.Linked (l1 ++ a :: i :: l2)) : m.nextAt a = some (NodePtr.node i) := by
  have := (TMap.Linked.of_append hl).1
  simpa [headPtr] using this

/-- Replacing the tail of a chain after its prefix. -/
theorem TMap.Linked.append {K V : Type} {m : TMap K V} {l1 l2 l3 : List Nat}
    (hl : m.Linked (l1 ++ l2)) (h3 : m.Linked l3) (hh : headPtr l3 = headPtr l2) :
    m.Linked (l1 ++ l3) := by
  induction l1 with
  | nil => exact h3
  | cons a t ih =>
    obtain ⟨h1, h2⟩ := hl
    refine ⟨?_, ih h2⟩
    rw [h1]
    cases t with
    | nil => simp [hh]
    | cons b t2 => rfl

theorem TMap.Chains.chain_used {K V : Type} {traits : THashTraits K} {m : TMap K V}
    {chain : Nat → List Nat} (hc : m.Chains traits chain) (p i : Nat) (hi : i ∈ chain p) :
    m.usedB i = true :=
  (hc.2.1 p).linked_used i hi

/-- A node in a chain is in the chain of the main position of its key only. -/
theorem TMap.Chains.unique {K V : Type} {traits : THashTraits K} {m : TMap K V}
    {chain : Nat → List Nat} (hc : m.Chains traits chain) (p q i : Nat) (hp : i ∈ chain p)
    (hq : i ∈ chain q) : p = q := by
  obtain ⟨k, hk, hkp⟩ := hc.2.2.2.1 p i hp
  obtain ⟨k1, hk1, hkq⟩ := hc.2.2.2.1 q i hq
  rw [hk] at hk1
  cases hk1
  rw [← hkp, ← hkq]

/-- The head of a non-empty chain is its main position. -/
theorem TMap.Chains.head_mem {K V : Type} {traits : THashTraits K} {m : TMap K V}
    {chain : Nat → List Nat} (hc : m.Chains traits chain) (p i : Nat) (hi : i ∈ chain p) :
    p ∈ chain p := by
  rcases hc.1 p with h | ⟨t, h⟩
  · rw [h] at hi
    cases hi
  · rw [h]
    exact List.mem_cons_self p t

/-- The length of a chain is at most the size of the table. -/
theorem TMap.Chains.length_le {K V : Type} {traits : THashTraits K} {m : TMap K V}
    {chain : Nat → List Nat} (hc : m.Chains traits chain) (p : Nat) :
    (chain p).length ≤ m.Nodes.length := by
  have hsub : (chain p).toFinset ⊆ Finset.range m.Nodes.length := by
    intro i hi
    rw [List.mem_toFinset] at hi
    rw [Finset.mem_range]
    exact m.usedB_lt i (hc.chain_used p i hi)
  have := Finset.card_le_card hsub
  rw [List.toFinset_card_of_nodup (hc.2.2.1 p), Finset.card_range] at this
  exact this

theorem TMap.nextAt_eq_some {K V : Type} (m : TMap K V) (i : Nat) (p : NodePtr) :
    m.nextAt i = some p ↔ ∃ nd, m.nodeAt i = .ok nd ∧ nd.Next = p := by
  unfold TMap.nextAt TMap.nodeAt
  cases h : m.Nodes.get? i <;> simp

theorem TMap.keyAt_of_nodeAt {K V : Type} (m : TMap K V) (i : Nat) (nd : TMap.Node K V)
    (h : m.nodeAt i = .ok nd) : m.keyAt i = nd.Key := by
  unfold TMap.keyAt
  rw [(m.nodeAt_eq_ok i nd).mp h]
  rfl

theorem TMap.valueAt_of_nodeAt {K V : Type} (m : TMap K V) (i : Nat) (nd : TMap.Node K V)
    (h : m.nodeAt i = .ok nd) : m.valueAt i = nd.Value := by
  unfold TMap.valueAt
  rw [(m.nodeAt_eq_ok i nd).mp h]
  rfl

theorem TMap.nextAt_of_nodeAt {K V : Type} (m : TMap K V) (i : Nat) (nd : TMap.Node K V)
    (h : m.nodeAt i = .ok nd) : m.nextAt i = some nd.Next := by
  unfold TMap.nextAt
  rw [(m.nodeAt_eq_ok i nd).mp h]
  rfl

theorem TMap.usedB_of_nodeAt {K V : Type} (m : TMap K V) (i : Nat) (nd : TMap.Node K V)
    (h : m.nodeAt i = .ok nd) : m.usedB i = !nd.IsNil := by
  unfold TMap.usedB TMap.Node.IsNil
  rw [m.nextAt_of_nodeAt i nd h]
  simp

/-- The loop of `FindKey` along a chain returns the first node with an equal key. -/
theorem findKeyLoop_linked {K V : Type} (traits : THashTraits K) (m : TMap K V) (key : K)
    (l : List Nat) (fuel : Nat) (hl : m.Linked l) (hk : ∀ i ∈ l, ∃ k, m.keyAt i = some k)
    (hf : l.length < fuel) :
    findKeyLoop traits m key fuel (headPtr l) = .ok (l.find? (m.matchKey traits key)) := by
  induction l generalizing fuel with
  | nil =>
    cases fuel with
    | zero => simp at hf
    | succ f => rfl
  | cons i t ih =>
    cases fuel with
    | zero => simp at hf
    | succ f =>
      obtain ⟨h1, h2⟩ := hl
      obtain ⟨nd, hnd, hnx⟩ := (m.nextAt_eq_some i _).mp h1
      obtain ⟨k, hki⟩ := hk i (List.mem_cons_self i t)
      have hkey : nd.Key = some k := by rw [← m.keyAt_of_nodeAt i nd hnd]; exact hki
      have hnil : nd.IsNil = false := by
        unfold TMap.Node.IsNil
        rw [hnx]
        simp [headPtr_ne_one]
      have hm : m.matchKey traits key i = !traits.Compare k key := by
        unfold TMap.matchKey
        rw [hki]
      have hrec := ih f h2 (fun j hj => hk j (List.mem_cons_of_mem i hj))
        (by simp at hf; omega)
      simp only [headPtr, findKeyLoop, hnd, hnil, hkey]
      rw [List.find?_cons, hm, hnx, hrec]
      cases hc : traits.Compare k key <;> simp

/-- What `FindKey` returns on a well-formed table: a node in use holding the key,
or `NULL` when no node in use holds it. -/
theorem TMap.WF.findKey {K V : Type} {traits : THashTraits K} {m : TMap K V}
    (h : m.WF traits) (hlaw : traits.Lawful) (key : K) :
    (∃ i, m.FindKey traits key = .ok (some i) ∧ m.usedB i = true ∧ m.keyAt i = some key) ∨
    (m.FindKey traits key = .ok none ∧ ∀ i, m.usedB i = true → m.keyAt i ≠ some key) := by
  obtain ⟨chain, hc⟩ := h.chains
  have hp := h.mainPosition_lt key
  obtain ⟨nd, hnd, _⟩ := m.nodeAt_of_lt _ (by rw [h.length]; exact hp)
  have hused := m.usedB_of_nodeAt _ nd hnd
  unfold TMap.FindKey
  cases hnil : nd.IsNil
  · -- the main position is in use
    rw [hnil] at hused
    obtain ⟨k0, hk0⟩ := h.keys _ hused
    have hmem := hc.2.2.2.2 _ k0 hused hk0
    obtain ⟨pre, suf, hsplit⟩ := List.append_of_mem hmem
    have hlink : m.Linked (m.MainPosition traits key :: suf) := by
      have := hc.2.1 (m.MainPosition traits k0)
      rw [hsplit] at this
      exact this.of_append
    have hlen : (m.MainPosition traits key :: suf).length < m.Size + 1 := by
      have := hc.length_le (m.MainPosition traits k0)
      rw [hsplit, h.length] at this
      simp at this ⊢
      omega
    have hkeys : ∀ i ∈ m.MainPosition traits key :: suf, ∃ k, m.keyAt i = some k := by
      intro i hi
      apply h.keys
      exact hlink.linked_used i hi
    have hwalk := findKeyLoop_linked traits m key _ (m.Size + 1) hlink hkeys hlen
    simp only [headPtr] at hwalk
    rw [hwalk]
    cases hfind : List.find? (m.matchKey traits key) (m.MainPosition traits key :: suf) with
    | some i =>
      left
      refine ⟨i, rfl, hlink.linked_used i (List.mem_of_find?_eq_some hfind), ?_⟩
      have hm := List.find?_some hfind
      unfold TMap.matchKey at hm
      cases hki : m.keyAt i with
      | none => rw [hki] at hm; simp at hm
      | some k =>
        rw [hki] at hm
        simp only [Bool.not_eq_true'] at hm
        rw [(hlaw k key).mp hm]
    | none =>
      right
      refine ⟨rfl, ?_⟩
      intro i hi hki
      have himem := hc.2.2.2.2 i key hi hki
      have hpp := hc.head_mem _ i himem
      have hq : m.MainPosition traits k0 = m.MainPosition traits key :=
        hc.unique _ _ _ hmem hpp
      rw [hq] at hsplit
      have hpre : pre = [] := by
        rcases hc.1 (m.MainPosition traits key) with h0 | ⟨t, ht⟩
        · rw [h0] at himem; cases himem
        · cases pre with
          | nil => rfl
          | cons a pre1 =>
            exfalso
            have hnd := hc.2.2.1 (m.MainPosition traits key)
            rw [hsplit] at hnd ht
            simp only [List.cons_append, List.cons.injEq] at ht
            rw [ht.1] at hnd
            simp at hnd
      rw [hpre] at hsplit
      simp only [List.nil_append] at hsplit
      rw [hsplit] at himem
      have := List.find?_eq_none.mp hfind i himem
      unfold TMap.matchKey at this
      rw [hki] at this
      simp only [Bool.not_eq_true', Bool.not_eq_false] at this
      have hrefl := (hlaw key key).mpr rfl
      rw [hrefl] at this
      cases this
  · -- the main position is free
    right
    rw [hnil] at hused
    constructor
    · simp only [findKeyLoop, hnd, hnil, if_true]
    · intro i hi hki
      have himem := hc.2.2.2.2 i key hi hki
      have := hc.chain_used _ _ (hc.head_mem _ i himem)
      rw [this] at hused
      cases hused

theorem TMap.usedB_update {K V : Type} (m m1 : TMap K V) (i : Nat) (x : NodePtr)
    (hN : m1.nextAt = Function.update m.nextAt i (some x)) (j : Nat) :
    m1.usedB j = if j = i then decide (x ≠ NodePtr.one) else m.usedB j := by
  unfold TMap.usedB
  rw [hN]
  by_cases hj : j = i
  · subst hj
    simp
  · simp [hj, Function.update_noteq hj]

/-- `NewKey` when the main position of the key is free: the key starts a chain
there. -/
theorem TMap.WF.newKey_free {K V : Type} {traits : THashTraits K} {m m1 : TMap K V} (k : K)
    (h : m.WF traits) (hfree : m.usedB (m.MainPosition traits k) = false)
    (habs : ∀ i, m.usedB i = true → m.keyAt i ≠ some k)
    (hS : m1.Size = m.Size) (hLen : m1.Nodes.length = m.Nodes.length)
    (hLF : m1.LastFree = m.LastFree) (hNU : m1.NumUsed = (m.NumUsed + 1) % 2 ^ 32)
    (hN : m1.nextAt = Function.update m.nextAt (m.MainPosition traits k) (some NodePtr.null))
    (hK : m1.keyAt = Function.update m.keyAt (m.MainPosition traits k) (some k)) :
    m1.WF traits := by
  have hp := h.mainPosition_lt k
  have hMP : ∀ k1, m1.MainPosition traits k1 = m.MainPosition traits k1 :=
    fun k1 => TMap.mainPosition_congr traits m m1 k1 hS
  generalize hpdef : m.MainPosition traits k = p at *
  have hU : ∀ j, m1.usedB j = if j = p then true else m.usedB j := by
    intro j
    rw [TMap.usedB_update m m1 p _ hN j]
    simp
  have hcount : (List.range m.Size).countP m1.usedB = (List.range m.Size).countP m.usedB + 1 :=
    countP_range_flip m.usedB m1.usedB m.Size p hp
      (fun j hj => by rw [hU j, if_neg hj]) hfree (by rw [hU p, if_pos rfl])
  have hbound : (List.range m.Size).countP m.usedB + 1 ≤ m.Size := by
    rw [← hcount]
    have := List.countP_le_length m1.usedB (l := List.range m.Size)
    simpa using this
  obtain ⟨j, hj, hsz⟩ := h.size
  have hsmall : m.Size ≤ 2 ^ 31 := by
    rw [hsz]
    exact Nat.pow_le_pow_right (by norm_num) hj
  obtain ⟨chain, hc⟩ := h.chains
  have hpchain : chain p = [] := by
    rcases hc.1 p with h0 | ⟨t, ht⟩
    · exact h0
    · have := hc.chain_used p p (by rw [ht]; exact List.mem_cons_self p t)
      rw [this] at hfree
      cases hfree
  refine ⟨⟨j, hj, by rw [hS]; exact hsz⟩, by rw [hLen, hS]; exact h.length,
    by rw [hLF, hS]; exact h.lastFree, ?_, ?_, ?_, ?_⟩
  · rw [hNU, hS, hcount, h.numUsed]
    apply Nat.mod_eq_of_lt
    omega
  · intro i hi
    rw [hU i] at hi
    rw [hK]
    by_cases hip : i = p
    · subst hip
      simp
    · rw [if_neg hip] at hi
      rw [Function.update_noteq hip]
      exact h.keys i hi
  · intro i i1 k1 hi hi1 hki hki1
    rw [hU] at hi hi1
    rw [hK] at hki hki1
    by_cases hip : i = p <;> by_cases hi1p : i1 = p
    · rw [hip, hi1p]
    · exfalso
      subst hip
      rw [if_neg hi1p] at hi1
      rw [Function.update_same] at hki
      rw [Function.update_noteq hi1p] at hki1
      cases hki
      exact habs i1 hi1 hki1
    · exfalso
      subst hi1p
      rw [if_neg hip] at hi
      rw [Function.update_same] at hki1
      rw [Function.update_noteq hip] at hki
      cases hki1
      exact habs i hi hki
    · rw [if_neg hip] at hi
      rw [if_neg hi1p] at hi1
      rw [Function.update_noteq hip] at hki
      rw [Function.update_noteq hi1p] at hki1
      exact h.distinct i i1 k1 hi hi1 hki hki1
  · refine ⟨Function.update chain p [p], ?_, ?_, ?_, ?_, ?_⟩
    · intro q
      by_cases hq : q = p
      · subst hq
        right
        exact ⟨[], by simp⟩
      · rw [Function.update_noteq hq]
        exact hc.1 q
    · intro q
      by_cases hq : q = p
      · subst hq
        rw [Function.update_same]
        refine ⟨?_, trivial⟩
        rw [hN, Function.update_same]
        rfl
      · rw [Function.update_noteq hq]
        apply TMap.Linked.linked_congr _ (hc.2.1 q)
        intro i hi
        have hne : i ≠ p := by
          intro hip
          have := hc.chain_used q i hi
          rw [hip, hfree] at this
          cases this
        rw [hN, Function.update_noteq hne]
    · intro q
      by_cases hq : q = p
      · subst hq
        simp
      · rw [Function.update_noteq hq]
        exact hc.2.2.1 q
    · intro q i hi
      by_cases hq : q = p
      · subst hq
        rw [Function.update_same] at hi
        simp only [List.mem_singleton] at hi
        subst hi
        exact ⟨k, by rw [hK, Function.update_same], by rw [hMP, hpdef]⟩
      · rw [Function.update_noteq hq] at hi
        have hne : i ≠ p := by
          intro hip
          have := hc.chain_used q i hi
          rw [hip, hfree] at this
          cases this
        obtain ⟨k1, hk1, hk1p⟩ := hc.2.2.2.1 q i hi
        exact ⟨k1, by rw [hK, Function.update_noteq hne]; exact hk1, by rw [hMP]; exact hk1p⟩
    · intro i k1 hi hki
      rw [hU] at hi
      rw [hK] at hki
      rw [hMP]
      by_cases hip : i = p
      · subst hip
        rw [Function.update_same] at hki
        cases hki
        rw [hpdef, Function.update_same]
        exact List.mem_singleton_self i
      · rw [if_neg hip] at hi
        rw [Function.update_noteq hip] at hki
        have hmem := hc.2.2.2.2 i k1 hi hki
        have hq : m.MainPosition traits k1 ≠ p := by
          intro hq
          rw [hq, hpchain] at hmem
          cases hmem
        rw [Function.update_noteq hq]
        exact hmem

/-- `NewKey` when the colliding node is in its main position: the new node is
chained right after it. -/
theorem TMap.WF.newKey_chain {K V : Type} {traits : THashTraits K} {m m1 : TMap K V} (k k0 : K)
    (n : Nat) (h : m.WF traits) (hused : m.usedB (m.MainPosition traits k) = true)
    (hk0 : m.keyAt (m.MainPosition traits k) = some k0)
    (hhome : m.MainPosition traits k0 = m.MainPosition traits k)
    (hn : n < m.Size) (hnfree : m.usedB n = false)
    (habs : ∀ i, m.usedB i = true → m.keyAt i ≠ some k)
    (hS : m1.Size = m.Size) (hLen : m1.Nodes.length = m.Nodes.length)
    (hLF : m1.LastFree ≤ m.Size) (hNU : m1.NumUsed = (m.NumUsed + 1) % 2 ^ 32)
    (hN : m1.nextAt = Function.update (Function.update m.nextAt n
      (m.nextAt (m.MainPosition traits k))) (m.MainPosition traits k) (some (NodePtr.node n)))
    (hK : m1.keyAt = Function.update m.keyAt n (some k)) :
    m1.WF traits := by
  have hMP : ∀ k1, m1.MainPosition traits k1 = m.MainPosition traits k1 :=
    fun k1 => TMap.mainPosition_congr traits m m1 k1 hS
  generalize hpdef : m.MainPosition traits k = p at *
  have hnp : n ≠ p := by
    intro hnp
    rw [hnp, hused] at hnfree
    cases hnfree
  have hU : ∀ j, m1.usedB j = if j = n then true else m.usedB j := by
    intro j
    unfold TMap.usedB
    rw [hN]
    by_cases hjp : j = p
    · subst hjp
      rw [Function.update_same, if_neg (Ne.symm hnp)]
      unfold TMap.usedB at hused
      rw [hused]
      simp
    · rw [Function.update_noteq hjp]
      by_cases hjn : j = n
      · subst hjn
        rw [Function.update_same, if_pos rfl]
        exact hused
      · rw [Function.update_noteq hjn, if_neg hjn]
  have hcount : (List.range m.Size).countP m1.usedB = (List.range m.Size).countP m.usedB + 1 :=
    countP_range_flip m.usedB m1.usedB m.Size n hn
      (fun j hj => by rw [hU j, if_neg hj]) hnfree (by rw [hU n, if_pos rfl])
  have hbound : (List.range m.Size).countP m.usedB + 1 ≤ m.Size := by
    rw [← hcount]
    have := List.countP_le_length m1.usedB (l := List.range m.Size)
    simpa using this
  obtain ⟨j, hj, hsz⟩ := h.size
  have hsmall : m.Size ≤ 2 ^ 31 := by
    rw [hsz]
    exact Nat.pow_le_pow_right (by norm_num) hj
  obtain ⟨chain, hc⟩ := h.chains
  have hpmem : p ∈ chain p := by
    have := hc.2.2.2.2 p k0 hused hk0
    rw [hhome] at this
    exact this
  obtain ⟨t, ht⟩ : ∃ t, chain p = p :: t := by
    rcases hc.1 p with h0 | h1
    · rw [h0] at hpmem
      cases hpmem
    · exact h1
  have hlinkp : m.Linked (p :: t) := by rw [← ht]; exact hc.2.1 p
  have hnodp : (p :: t).Nodup := by rw [← ht]; exact hc.2.2.1 p
  have hnotn : ∀ q i, i ∈ chain q → i ≠ n := by
    intro q i hi hin
    have := hc.chain_used q i hi
    rw [hin, hnfree] at this
    cases this
  refine ⟨⟨j, hj, by rw [hS]; exact hsz⟩, by rw [hLen, hS]; exact h.length,
    by rw [hS]; exact hLF, ?_, ?_, ?_, ?_⟩
  · rw [hNU, hS, hcount, h.numUsed]
    apply Nat.mod_eq_of_lt
    omega
  · intro i hi
    rw [hU i] at hi
    rw [hK]
    by_cases hin : i = n
    · subst hin
      simp
    · rw [if_neg hin] at hi
      rw [Function.update_noteq hin]
      exact h.keys i hi
  · intro i i1 k1 hi hi1 hki hki1
    rw [hU] at hi hi1
    rw [hK] at hki hki1
    by_cases hin : i = n <;> by_cases hi1n : i1 = n
    · rw [hin, hi1n]
    · exfalso
      subst hin
      rw [if_neg hi1n] at hi1
      rw [Function.update_same] at hki
      rw [Function.update_noteq hi1n] at hki1
      cases hki
      exact habs i1 hi1 hki1
    · exfalso
      subst hi1n
      rw [if_neg hin] at hi
      rw [Function.update_same] at hki1
      rw [Function.update_noteq hin] at hki
      cases hki1
      exact habs i hi hki
    · rw [if_neg hin] at hi
      rw [if_neg hi1n] at hi1
      rw [Function.update_noteq hin] at hki
      rw [Function.update_noteq hi1n] at hki1
      exact h.distinct i i1 k1 hi hi1 hki hki1
  · refine ⟨Function.update chain p (p :: n :: t), ?_, ?_, ?_, ?_, ?_⟩
    · intro q
      by_cases hq : q = p
      · subst hq
        right
        exact ⟨n :: t, by simp⟩
      · rw [Function.update_noteq hq]
        exact hc.1 q
    · intro q
      by_cases hq : q = p
      · subst hq
        rw [Function.update_same]
        refine ⟨?_, ?_, ?_⟩
        · rw [hN, Function.update_same]
          rfl
        · rw [hN, Function.update_noteq hnp, Function.update_same]
          exact hlinkp.1
        · apply TMap.Linked.linked_congr _ hlinkp.2
          intro i hi
          have hip : i ≠ q := by
            intro hip
            subst hip
            exact (List.nodup_cons.mp hnodp).1 hi
          have hin : i ≠ n := hnotn q i (by rw [ht]; exact List.mem_cons_of_mem q hi)
          rw [hN, Function.update_noteq hip, Function.update_noteq hin]
      · rw [Function.update_noteq hq]
        apply TMap.Linked.linked_congr _ (hc.2.1 q)
        intro i hi
        have hip : i ≠ p := by
          intro hip
          subst hip
          exact hq (hc.unique q i i hi hpmem)
        rw [hN, Function.update_noteq hip, Function.update_noteq (hnotn q i hi)]
    · intro q
      by_cases hq : q = p
      · subst hq
        rw [Function.update_same]
        have hnt : n ∉ q :: t := by
          intro hmem
          exact hnotn q n (by rw [ht]; exact hmem) rfl
        rw [List.nodup_cons] at hnodp ⊢
        refine ⟨?_, List.nodup_cons.mpr ⟨fun hm => hnt (List.mem_cons_of_mem q hm), hnodp.2⟩⟩
        intro hm
        rcases List.mem_cons.mp hm with hm | hm
        · exact hnp hm.symm
        · exact hnodp.1 hm
      · rw [Function.update_noteq hq]
        exact hc.2.2.1 q
    · intro q i hi
      by_cases hq : q = p
      · subst hq
        rw [Function.update_same] at hi
        by_cases hin : i = n
        · subst hin
          exact ⟨k, by rw [hK, Function.update_same], by rw [hMP, hpdef]⟩
        · have hi' : i ∈ chain q := by
            rw [ht]
            rcases List.mem_cons.mp hi with hi | hi
            · rw [hi]; exact List.mem_cons_self q t
            · rcases List.mem_cons.mp hi with hi | hi
              · exact absurd hi hin
              · exact List.mem_cons_of_mem q hi
          obtain ⟨k1, hk1, hk1p⟩ := hc.2.2.2.1 q i hi'
          exact ⟨k1, by rw [hK, Function.update_noteq hin]; exact hk1, by rw [hMP]; exact hk1p⟩
      · rw [Function.update_noteq hq] at hi
        obtain ⟨k1, hk1, hk1p⟩ := hc.2.2.2.1 q i hi
        exact ⟨k1, by rw [hK, Function.update_noteq (hnotn q i hi)]; exact hk1,
          by rw [hMP]; exact hk1p⟩
    · intro i k1 hi hki
      rw [hU] at hi
      rw [hK] at hki
      rw [hMP]
      by_cases hin : i = n
      · subst hin
        rw [Function.update_same] at hki
        cases hki
        rw [hpdef, Function.update_same]
        exact List.mem_cons_of_mem p (List.mem_cons_self i t)
      · rw [if_neg hin] at hi
        rw [Function.update_noteq hin] at hki
        have hmem := hc.2.2.2.2 i k1 hi hki
        by_cases hq : m.MainPosition traits k1 = p
        · rw [hq, Function.update_same]
          rw [hq, ht] at hmem
          rcases List.mem_cons.mp hmem with hm | hm
          · rw [hm]; exact List.mem_cons_self p _
          · exact List.mem_cons_of_mem p (List.mem_cons_of_mem n hm)
        · rw [Function.update_noteq hq]
          exact hmem

/-- A chain keeps its prefix when only its tail is rebuilt. -/
theorem TMap.Linked.replace_tail {K V : Type} {m m1 : TMap K V} {l l2 l3 : List Nat}
    (hsame : ∀ i ∈ l, m1.nextAt i = m.nextAt i) (hl : m.Linked (l ++ l2))
    (h3 : m1.Linked l3) (hh : headPtr l3 = headPtr l2) : m1.Linked (l ++ l3) := by
  induction l with
  | nil => exact h3
  | cons a t ih =>
    obtain ⟨h1, h2⟩ := hl
    refine ⟨?_, ih (fun i hi => hsame i (List.mem_cons_of_mem a hi)) h2⟩
    rw [hsame a (List.mem_cons_self a t), h1]
    cases t with
    | nil => simp [hh]
    | cons b t2 => rfl

/-- `NewKey` when the colliding node is out of its main position: it moves to the
free node and the key starts a chain at its main position. -/
theorem TMap.WF.newKey_move {K V : Type} {traits : THashTraits K} {m m1 : TMap K V} (k k0 : K)
    (n prev : Nat) (h : m.WF traits) (hused : m.usedB (m.MainPosition traits k) = true)
    (hk0 : m.keyAt (m.MainPosition traits k) = some k0)
    (haway : m.MainPosition traits k0 ≠ m.MainPosition traits k)
    (hn : n < m.Size) (hnfree : m.usedB n = false)
    (hprev : m.nextAt prev = some (NodePtr.node (m.MainPosition traits k)))
    (habs : ∀ i, m.usedB i = true → m.keyAt i ≠ some k)
    (hS : m1.Size = m.Size) (hLen : m1.Nodes.length = m.Nodes.length)
    (hLF : m1.LastFree ≤ m.Size) (hNU : m1.NumUsed = (m.NumUsed + 1) % 2 ^ 32)
    (hN : m1.nextAt = Function.update (Function.update (Function.update m.nextAt prev
      (some (NodePtr.node n))) n (m.nextAt (m.MainPosition traits k)))
      (m.MainPosition traits k) (some NodePtr.null))
    (hK : m1.keyAt = Function.update (Function.update m.keyAt n (some k0))
      (m.MainPosition traits k) (some k)) :
    m1.WF traits := by
  have hMP : ∀ k1, m1.MainPosition traits k1 = m.MainPosition traits k1 :=
    fun k1 => TMap.mainPosition_congr traits m m1 k1 hS
  generalize hpdef : m.MainPosition traits k = p at *
  generalize hqdef : m.MainPosition traits k0 = q at *
  have hnp : n ≠ p := by
    intro hnp
    rw [hnp, hused] at hnfree
    cases hnfree
  have hprevused : m.usedB prev = true := (m.usedB_iff prev).mpr ⟨_, hprev, by simp⟩
  have hnprev : n ≠ prev := by
    intro hnp
    rw [hnp, hprevused] at hnfree
    cases hnfree
  obtain ⟨chain, hc⟩ := h.chains
  have hpq : p ∈ chain q := by
    have := hc.2.2.2.2 p k0 hused hk0
    rw [hqdef] at this
    exact this
  -- the chain of `q` around `prev` and `p`
  obtain ⟨l, suf, hsplit⟩ : ∃ l suf, chain q = l ++ prev :: p :: suf := by
    obtain ⟨kp, hkp⟩ := h.keys prev hprevused
    have hmem := hc.2.2.2.2 prev kp hprevused hkp
    obtain ⟨l, rest, hsp⟩ := List.append_of_mem hmem
    have hlink := hc.2.1 (m.MainPosition traits kp)
    rw [hsp] at hlink
    have hnx := hlink.of_append.1
    rw [hprev] at hnx
    cases rest with
    | nil => simp [headPtr] at hnx
    | cons b suf =>
      simp only [headPtr, Option.some.injEq, NodePtr.node.injEq] at hnx
      subst hnx
      have hpr : p ∈ chain (m.MainPosition traits kp) := by
        rw [hsp]
        simp
      have := hc.unique _ _ _ hpr hpq
      rw [this] at hsp
      exact ⟨l, suf, hsp⟩
  have hlinkq : m.Linked (l ++ prev :: p :: suf) := by rw [← hsplit]; exact hc.2.1 q
  have hnodq : (l ++ prev :: p :: suf).Nodup := by rw [← hsplit]; exact hc.2.2.1 q
  have hprevp : prev ≠ p := by
    intro hpp
    have := (List.nodup_append.mp hnodq).2.1
    rw [hpp] at this
    simp at this
  have hpchain : chain p = [] := by
    rcases hc.1 p with h0 | ⟨t, ht⟩
    · exact h0
    · exfalso
      obtain ⟨k1, hk1, hk1p⟩ := hc.2.2.2.1 p p (by rw [ht]; exact List.mem_cons_self p t)
      rw [hk0] at hk1
      cases hk1
      rw [hqdef] at hk1p
      exact haway hk1p
  have hnotn : ∀ r i, i ∈ chain r → i ≠ n := by
    intro r i hi hin
    have := hc.chain_used r i hi
    rw [hin, hnfree] at this
    cases this
  have hpnext : ∃ x, m.nextAt p = some x ∧ x ≠ NodePtr.one := (m.usedB_iff p).mp hused
  have hU : ∀ j, m1.usedB j = if j = n then true else m.usedB j := by
    intro j
    unfold TMap.usedB
    rw [hN]
    by_cases hjp : j = p
    · subst hjp
      rw [Function.update_same, if_neg (Ne.symm hnp)]
      unfold TMap.usedB at hused
      rw [hused]
      simp
    · rw [Function.update_noteq hjp]
      by_cases hjn : j = n
      · subst hjn
        rw [Function.update_same, if_pos rfl]
        exact hused
      · rw [Function.update_noteq hjn, if_neg hjn]
        by_cases hjprev : j = prev
        · subst hjprev
          rw [Function.update_same]
          unfold TMap.usedB at hprevused
          rw [hprevused]
          simp
        · rw [Function.update_noteq hjprev]
  have hcount : (List.range m.Size).countP m1.usedB = (List.range m.Size).countP m.usedB + 1 :=
    countP_range_flip m.usedB m1.usedB m.Size n hn
      (fun j hj => by rw [hU j, if_neg hj]) hnfree (by rw [hU n, if_pos rfl])
  have hbound : (List.range m.Size).countP m.usedB + 1 ≤ m.Size := by
    rw [← hcount]
    have := List.countP_le_length m1.usedB (l := List.range m.Size)
    simpa using this
  obtain ⟨j, hj, hsz⟩ := h.size
  have hsmall : m.Size ≤ 2 ^ 31 := by
    rw [hsz]
    exact Nat.pow_le_pow_right (by norm_num) hj
  have hkk0 : k0 ≠ k := fun hkk => habs p hused (by rw [hk0, hkk])
  have hKn : m1.keyAt n = some k0 := by
    rw [hK, Function.update_noteq hnp, Function.update_same]
  have hKp : m1.keyAt p = some k := by rw [hK, Function.update_same]
  have hKo : ∀ i, i ≠ n → i ≠ p → m1.keyAt i = m.keyAt i := by
    intro i hin hip
    rw [hK, Function.update_noteq hip, Function.update_noteq hin]
  refine ⟨⟨j, hj, by rw [hS]; exact hsz⟩, by rw [hLen, hS]; exact h.length,
    by rw [hS]; exact hLF, ?_, ?_, ?_, ?_⟩
  · rw [hNU, hS, hcount, h.numUsed]
    apply Nat.mod_eq_of_lt
    omega
  · intro i hi
    rw [hU i] at hi
    by_cases hin : i = n
    · exact ⟨k0, by rw [hin]; exact hKn⟩
    · by_cases hip : i = p
      · exact ⟨k, by rw [hip]; exact hKp⟩
      · rw [if_neg hin] at hi
        rw [hKo i hin hip]
        exact h.keys i hi
  · -- keys stay distinct
    have hold : ∀ i k1, i ≠ n → i ≠ p → m1.usedB i = true → m1.keyAt i = some k1 →
        m.usedB i = true ∧ m.keyAt i = some k1 ∧ k1 ≠ k ∧ k1 ≠ k0 := by
      intro i k1 hin hip hi hki
      rw [hU, if_neg hin] at hi
      rw [hKo i hin hip] at hki
      refine ⟨hi, hki, fun hk => habs i hi (by rw [hki, hk]), fun hk => ?_⟩
      exact hip (h.distinct i p k0 hi hused (by rw [hki, hk]) hk0)
    intro i i1 k1 hi hi1 hki hki1
    by_cases hin : i = n <;> by_cases hi1n : i1 = n
    · rw [hin, hi1n]
    · subst hin
      rw [hKn] at hki
      cases hki
      by_cases hi1p : i1 = p
      · subst hi1p
        rw [hKp] at hki1
        cases hki1
        exact absurd rfl hkk0
      · exact absurd rfl (hold i1 k0 hi1n hi1p hi1 hki1).2.2.2
    · subst hi1n
      rw [hKn] at hki1
      cases hki1
      by_cases hip : i = p
      · subst hip
        rw [hKp] at hki
        cases hki
        exact absurd rfl hkk0
      · exact absurd rfl (hold i k0 hin hip hi hki).2.2.2
    · by_cases hip : i = p <;> by_cases hi1p : i1 = p
      · rw [hip, hi1p]
      · subst hip
        rw [hKp] at hki
        cases hki
        exact absurd rfl (hold i1 k hi1n hi1p hi1 hki1).2.2.1
      · subst hi1p
        rw [hKp] at hki1
        cases hki1
        exact absurd rfl (hold i k hin hip hi hki).2.2.1
      · obtain ⟨a1, a2, _, _⟩ := hold i k1 hin hip hi hki
        obtain ⟨b1, b2, _, _⟩ := hold i1 k1 hi1n hi1p hi1 hki1
        exact h.distinct i i1 k1 a1 b1 a2 b2
  · -- the chains
    have hqp : q ≠ p := haway
    have hmemnew : ∀ i, i ∈ l ++ prev :: n :: suf ↔ i = n ∨ (i ∈ chain q ∧ i ≠ p) := by
      intro i
      rw [hsplit]
      have hpl : p ∉ l := by
        intro hpl
        rw [List.nodup_append] at hnodq
        exact hnodq.2.2 hpl (by simp)
      have hps : p ∉ suf := by
        intro hps
        have := (List.nodup_append.mp hnodq).2.1
        simp only [List.nodup_cons, List.mem_cons] at this
        exact this.2.1 hps
      simp only [List.mem_append, List.mem_cons]
      constructor
      · rintro (h1 | h1 | h1 | h1)
        · exact Or.inr ⟨Or.inl h1, fun hip => hpl (hip ▸ h1)⟩
        · exact Or.inr ⟨Or.inr (Or.inl h1), fun hip => hprevp (h1 ▸ hip)⟩
        · exact Or.inl h1
        · exact Or.inr ⟨Or.inr (Or.inr (Or.inr h1)), fun hip => hps (hip ▸ h1)⟩
      · rintro (h1 | ⟨h1 | h1 | h1 | h1, h2⟩)
        · exact Or.inr (Or.inr (Or.inl h1))
        · exact Or.inl h1
        · exact Or.inr (Or.inl h1)
        · exact absurd h1 h2
        · exact Or.inr (Or.inr (Or.inr h1))
    refine ⟨Function.update (Function.update chain q (l ++ prev :: n :: suf)) p [p],
      ?_, ?_, ?_, ?_, ?_⟩
    · intro r
      by_cases hr : r = p
      · subst hr
        right
        exact ⟨[], by simp⟩
      · rw [Function.update_noteq hr]
        by_cases hrq : r = q
        · subst hrq
          rw [Function.update_same]
          right
          rcases hc.1 r with h0 | ⟨t, ht⟩
          · rw [h0] at hpq
            cases hpq
          · rw [hsplit] at ht
            cases l with
            | nil =>
              simp only [List.nil_append, List.cons.injEq] at ht
              exact ⟨n :: suf, by simp [ht.1]⟩
            | cons a l1 =>
              simp only [List.cons_append, List.cons.injEq] at ht
              exact ⟨l1 ++ prev :: n :: suf, by simp [ht.1]⟩
        · rw [Function.update_noteq hrq]
          exact hc.1 r
    · intro r
      by_cases hr : r = p
      · subst hr
        rw [Function.update_same]
        refine ⟨?_, trivial⟩
        rw [hN, Function.update_same]
        rfl
      · rw [Function.update_noteq hr]
        by_cases hrq : r = q
        · subst hrq
          rw [Function.update_same]
          have hsufsame : ∀ i ∈ suf, m1.nextAt i = m.nextAt i := by
            intro i hi
            have hiq : i ∈ chain r := by rw [hsplit]; simp [hi]
            have hip : i ≠ p := by
              intro hip
              subst hip
              have := (List.nodup_append.mp hnodq).2.1
              simp only [List.nodup_cons, List.mem_cons] at this
              exact this.2.1 hi
            have hiprev : i ≠ prev := by
              intro hip
              subst hip
              have := (List.nodup_append.mp hnodq).2.1
              simp only [List.nodup_cons, List.mem_cons] at this
              exact this.1 (Or.inr hi)
            rw [hN, Function.update_noteq hip, Function.update_noteq (hnotn r i hiq),
              Function.update_noteq hiprev]
          have hlsame : ∀ i ∈ l, m1.nextAt i = m.nextAt i := by
            intro i hi
            have hiq : i ∈ chain r := by rw [hsplit]; simp [hi]
            have hdis := (List.nodup_append.mp hnodq).2.2
            have hip : i ≠ p := fun hip => hdis hi (by simp [hip])
            have hiprev : i ≠ prev := fun hip => hdis hi (by simp [hip])
            rw [hN, Function.update_noteq hip, Function.update_noteq (hnotn r i hiq),
              Function.update_noteq hiprev]
          have hps : m.Linked (p :: suf) := by
            have := hlinkq.of_append
            exact this.2
          refine @TMap.Linked.replace_tail _ _ _ _ _ _ (prev :: n :: suf) hlsame hlinkq ?_ rfl
          refine ⟨?_, ?_, ?_⟩
          · rw [hN, Function.update_noteq hprevp, Function.update_noteq (Ne.symm hnprev),
              Function.update_same]
            rfl
          · rw [hN, Function.update_noteq hnp, Function.update_same]
            exact hps.1
          · exact TMap.Linked.linked_congr hsufsame hps.2
        · rw [Function.update_noteq hrq]
          apply TMap.Linked.linked_congr _ (hc.2.1 r)
          intro i hi
          have hip : i ≠ p := by
            intro hip
            subst hip
            exact hrq (hc.unique r q i hi hpq)
          have hiprev : i ≠ prev := by
            intro hip
            subst hip
            exact hrq (hc.unique r q i hi (by rw [hsplit]; simp))
          rw [hN, Function.update_noteq hip, Function.update_noteq (hnotn r i hi),
            Function.update_noteq hiprev]
    · intro r
      by_cases hr : r = p
      · subst hr
        simp
      · rw [Function.update_noteq hr]
        by_cases hrq : r = q
        · subst hrq
          rw [Function.update_same]
          have hnq : n ∉ l ++ prev :: p :: suf := by
            intro hmem
            exact hnotn r n (by rw [hsplit]; exact hmem) rfl
          simp only [List.nodup_append, List.nodup_cons, List.mem_cons, List.mem_append,
            not_or, List.Disjoint] at hnodq hnq ⊢
          obtain ⟨hl, ⟨hprevn, hpn, hsufn⟩, hdis⟩ := hnodq
          refine ⟨hl, ⟨⟨fun hh => hnq.2.1 hh.symm, hprevn.2⟩, hnq.2.2.2, hsufn⟩, ?_⟩
          intro a ha hb
          rcases hb with hb | hb | hb
          · exact hdis ha (Or.inl hb)
          · exact hnq.1 (hb ▸ ha)
          · exact hdis ha (Or.inr (Or.inr hb))
        · rw [Function.update_noteq hrq]
          exact hc.2.2.1 r
    · intro r i hi
      by_cases hr : r = p
      · subst hr
        rw [Function.update_same] at hi
        simp only [List.mem_singleton] at hi
        subst hi
        exact ⟨k, hKp, by rw [hMP, hpdef]⟩
      · rw [Function.update_noteq hr] at hi
        by_cases hrq : r = q
        · subst hrq
          rw [Function.update_same] at hi
          rcases (hmemnew i).mp hi with hin | ⟨hiq, hip⟩
          · subst hin
            exact ⟨k0, hKn, by rw [hMP, hqdef]⟩
          · obtain ⟨k1, hk1, hk1p⟩ := hc.2.2.2.1 r i hiq
            exact ⟨k1, by rw [hKo i (hnotn r i hiq) hip]; exact hk1, by rw [hMP]; exact hk1p⟩
        · rw [Function.update_noteq hrq] at hi
          have hip : i ≠ p := by
            intro hip
            subst hip
            exact hrq (hc.unique r q i hi hpq)
          obtain ⟨k1, hk1, hk1p⟩ := hc.2.2.2.1 r i hi
          exact ⟨k1, by rw [hKo i (hnotn r i hi) hip]; exact hk1, by rw [hMP]; exact hk1p⟩
    · intro i k1 hi hki
      rw [hMP]
      by_cases hin : i = n
      · subst hin
        rw [hKn] at hki
        cases hki
        rw [hqdef, Function.update_noteq hqp, Function.update_same]
        exact (hmemnew i).mpr (Or.inl rfl)
      · by_cases hip : i = p
        · subst hip
          rw [hKp] at hki
          cases hki
          rw [hpdef, Function.update_same]
          exact List.mem_singleton_self i
        · rw [hU, if_neg hin] at hi
          rw [hKo i hin hip] at hki
          have hmem := hc.2.2.2.2 i k1 hi hki
          have hr : m.MainPosition traits k1 ≠ p := by
            intro hr
            rw [hr, hpchain] at hmem
            cases hmem
          rw [Function.update_noteq hr]
          by_cases hrq : m.MainPosition traits k1 = q
          · rw [hrq, Function.update_same]
            rw [hrq] at hmem
            exact (hmemnew i).mpr (Or.inr ⟨hmem, hip⟩)
          · rw [Function.update_noteq hrq]
            exact hmem

theorem scanFree_spec {K V : Type} (m : TMap K V) (lf : Nat) (h : lf ≤ m.Nodes.length) :
    (∃ n : Nat, scanFree m.Nodes lf = .ok ((n : Int), some n) ∧ n < lf ∧ m.usedB n = false ∧
      ∀ i : Nat, n < i → i < lf → m.usedB i = true) ∨
    (scanFree m.Nodes lf = .ok (-1, none) ∧ ∀ i : Nat, i < lf → m.usedB i = true) := by
  induction lf with
  | zero =>
    right
    exact ⟨rfl, fun i hi => absurd hi (Nat.not_lt_zero i)⟩
  | succ lf ih =>
    obtain ⟨nd, hnd, hget⟩ := m.nodeAt_of_lt lf (by omega)
    have hu := m.usedB_of_nodeAt lf nd hnd
    have hstep : scanFree m.Nodes (lf + 1)
        = if nd.IsNil then .ok ((lf : Int), some lf) else scanFree m.Nodes lf := by
      rw [scanFree, hget]
    rw [hstep]
    cases hnil : nd.IsNil
    · rw [hnil] at hu
      simp only [Bool.false_eq_true, if_false]
      rcases ih (by omega) with ⟨n, h1, h2, h3, h4⟩ | ⟨h1, h2⟩
      · left
        refine ⟨n, h1, by omega, h3, ?_⟩
        intro i hi1 hi2
        by_cases hil : i = lf
        · rw [hil]; exact hu
        · exact h4 i hi1 (by omega)
      · right
        refine ⟨h1, ?_⟩
        intro i hi
        by_cases hil : i = lf
        · rw [hil]; exact hu
        · exact h2 i (by omega)
    · rw [hnil] at hu
      left
      refine ⟨lf, by simp, by omega, by simpa using hu, ?_⟩
      intro i hi1 hi2
      omega

/-- What `GetFreePos` returns: the highest free node below `LastFree`, or `NULL`
when every node below `LastFree` is in use. -/
theorem TMap.getFreePos_spec {K V : Type} (m : TMap K V) (h : m.LastFree ≤ m.Nodes.length) :
    (∃ n : Nat, m.GetFreePos = .ok ({ m with LastFree := n }, some n) ∧ (n : Int) < m.LastFree ∧
      m.usedB n = false ∧ ∀ i : Nat, n < i → (i : Int) < m.LastFree → m.usedB i = true) ∨
    (∃ lf : Int, m.GetFreePos = .ok ({ m with LastFree := lf }, none) ∧ lf ≤ m.LastFree ∧
      ∀ i : Nat, (i : Int) < m.LastFree → m.usedB i = true) := by
  unfold TMap.GetFreePos
  by_cases h0 : m.LastFree ≤ 0
  · right
    rw [if_pos h0]
    exact ⟨_, rfl, by omega, fun i hi => by omega⟩
  · rw [if_neg h0]
    rcases scanFree_spec m m.LastFree.toNat (by omega) with ⟨n, h1, h2, h3, h4⟩ | ⟨h1, h2⟩
    · left
      rw [h1]
      exact ⟨n, rfl, by omega, h3, fun i hi1 hi2 => h4 i hi1 (by omega)⟩
    · right
      rw [h1]
      exact ⟨_, rfl, by omega, fun i hi => h2 i (by omega)⟩

/-- The loop of `NewKey` that looks for the node before `p` walks the chain up to
that node. -/
theorem findPrevious_linked {K V : Type} (m : TMap K V) (p a : Nat) (suf l : List Nat)
    (fuel : Nat) (hl : m.Linked (l ++ a :: p :: suf)) (hp : p ∉ l) (hpa : p ≠ a)
    (hf : l.length < fuel) :
    findPrevious m p fuel ((l ++ [a]).headD 0) = .ok a := by
  induction l generalizing fuel with
  | nil =>
    cases fuel with
    | zero => simp at hf
    | succ f =>
      obtain ⟨nd, hnd, hnx⟩ := (m.nextAt_eq_some a _).mp hl.1
      simp only [List.nil_append, List.headD_cons, findPrevious, hnd, hnx, headPtr, if_true]
  | cons i t ih =>
    cases fuel with
    | zero => simp at hf
    | succ f =>
      have hl1 : m.nextAt i = some (headPtr (t ++ a :: p :: suf)) := hl.1
      obtain ⟨nd, hnd, hnx⟩ := (m.nextAt_eq_some i _).mp hl1
      have hrec := ih f hl.2 (fun hm => hp (List.mem_cons_of_mem i hm)) (by simp at hf; omega)
      have hhead : headPtr (t ++ a :: p :: suf) = NodePtr.node ((t ++ [a]).headD 0) := by
        cases t <;> rfl
      have hne : (t ++ [a]).headD 0 ≠ p := by
        cases t with
        | nil => exact fun hh => hpa hh.symm
        | cons b t2 =>
          intro hh
          apply hp
          simp only [List.cons_append, List.headD_cons] at hh
          rw [hh]
          simp
      rw [hhead] at hnx
      simp only [List.cons_append, List.headD_cons, findPrevious, hnd, hnx, if_neg hne]
      exact hrec

/-- In a well-formed table the node before a node that is out of its main
position is found. -/
theorem TMap.WF.findPrevious {K V : Type} {traits : THashTraits K} {m : TMap K V}
    (h : m.WF traits) (p : Nat) (k0 : K) (hused : m.usedB p = true)
    (hk0 : m.keyAt p = some k0) (haway : m.MainPosition traits k0 ≠ p) :
    ∃ prev, ZDRay.findPrevious m p (m.Size + 1) (m.MainPosition traits k0) = .ok prev ∧
      m.nextAt prev = some (NodePtr.node p) := by
  obtain ⟨chain, hc⟩ := h.chains
  have hmem := hc.2.2.2.2 p k0 hused hk0
  obtain ⟨pre, suf, hsplit⟩ := List.append_of_mem hmem
  have hnod := hc.2.2.1 (m.MainPosition traits k0)
  have hlink := hc.2.1 (m.MainPosition traits k0)
  have hlen := hc.length_le (m.MainPosition traits k0)
  rw [hsplit] at hnod hlink hlen
  rcases hc.1 (m.MainPosition traits k0) with h0 | ⟨t, ht⟩
  · rw [h0] at hmem
    cases hmem
  · rw [hsplit] at ht
    -- `pre` is not empty and ends in the node before `p`
    rcases List.eq_nil_or_concat pre with hpre | ⟨l, a, hpre⟩
    · subst hpre
      simp only [List.nil_append, List.cons.injEq] at ht
      exact absurd ht.1.symm haway
    · rw [List.concat_eq_append] at hpre
      subst hpre
      have hpl : p ∉ l ++ [a] := by
        intro hm
        exact (List.nodup_append.mp hnod).2.2 hm (List.mem_cons_self p suf)
      have hlink2 : m.Linked (l ++ a :: p :: suf) := by
        simpa using hlink
      have hhead : (l ++ [a]).headD 0 = m.MainPosition traits k0 := by
        cases l with
        | nil =>
          simp only [List.nil_append, List.cons_append, List.cons.injEq] at ht
          simp [ht.1]
        | cons b l2 =>
          simp only [List.cons_append, List.cons.injEq] at ht
          simp [ht.1]
      refine ⟨a, ?_, hlink2.pred⟩
      rw [← hhead]
      apply findPrevious_linked m p a suf l (m.Size + 1) hlink2
      · exact fun hm => hpl (List.mem_append_left _ hm)
      · exact fun hh => hpl (by rw [hh]; simp)
      · rw [h.length] at hlen
        simp at hlen
        omega

/-- The pairs of a table after one node was added at `new` and the other nodes in
use were kept, possibly at another index. -/
theorem TMap.has_after_newKey {K V : Type} (m m1 : TMap K V) (new : Nat) (k : K)
    (src : Nat → Nat) (hnew : m1.usedB new = true) (hkey : m1.keyAt new = some k)
    (hold : ∀ i, i ≠ new → m1.usedB i = m.usedB (src i) ∧ m1.keyAt i = m.keyAt (src i) ∧
      m1.valueAt i = m.valueAt (src i))
    (hsurj : ∀ i0, m.usedB i0 = true → ∃ i, i ≠ new ∧ src i = i0) :
    ∀ k1 v, m1.Has k1 v ↔ m.Has k1 v ∨ (k1 = k ∧ v = m1.valueAt new) := by
  intro k1 v
  constructor
  · rintro ⟨i, hi, hki, hvi⟩
    by_cases hin : i = new
    · subst hin
      rw [hkey] at hki
      cases hki
      exact Or.inr ⟨rfl, hvi.symm⟩
    · obtain ⟨h1, h2, h3⟩ := hold i hin
      exact Or.inl ⟨src i, by rw [← h1]; exact hi, by rw [← h2]; exact hki,
        by rw [← h3]; exact hvi⟩
  · rintro (⟨i0, hi, hki, hvi⟩ | ⟨hk, hv⟩)
    · obtain ⟨i, hin, hsrc⟩ := hsurj i0 hi
      obtain ⟨h1, h2, h3⟩ := hold i hin
      rw [hsrc] at h1 h2 h3
      exact ⟨i, by rw [h1]; exact hi, by rw [h2]; exact hki, by rw [h3]; exact hvi⟩
    · exact ⟨new, hnew, by rw [hkey, hk], hv.symm⟩

theorem TMap.WF.numUsed_lt {K V : Type} {traits : THashTraits K} {m : TMap K V}
    (h : m.WF traits) : m.NumUsed ≤ m.Size ∧ m.Size ≤ 2 ^ 31 := by
  obtain ⟨j, hj, hsz⟩ := h.size
  constructor
  · rw [h.numUsed]
    have := List.countP_le_length m.usedB (l := List.range m.Size)
    simpa using this
  · rw [hsz]
    exact Nat.pow_le_pow_right (by norm_num) hj

/-- No node of a well-formed table points to itself. -/
theorem TMap.WF.next_ne_self {K V : Type} {traits : THashTraits K} {m : TMap K V}
    (h : m.WF traits) (i : Nat) : m.nextAt i ≠ some (NodePtr.node i) := by
  intro hnx
  have hused : m.usedB i = true := (m.usedB_iff i).mpr ⟨_, hnx, by simp⟩
  obtain ⟨k, hk⟩ := h.keys i hused
  obtain ⟨chain, hc⟩ := h.chains
  have hmem := hc.2.2.2.2 i k hused hk
  obtain ⟨l, rest, hsp⟩ := List.append_of_mem hmem
  have hlink := hc.2.1 (m.MainPosition traits k)
  have hnod := hc.2.2.1 (m.MainPosition traits k)
  rw [hsp] at hlink hnod
  have h1 := hlink.of_append.1
  rw [hnx] at h1
  cases rest with
  | nil => simp [headPtr] at h1
  | cons b t =>
    simp only [headPtr, Option.some.injEq, NodePtr.node.injEq] at h1
    subst h1
    have := (List.nodup_append.mp hnod).2.1
    simp at this

/-- The tail of `NewKey` on a node of the vector. -/
theorem TMap.finishKey_ok {K V : Type} (m : TMap K V) (i : Nat) (k : K)
    (hi : i < m.Nodes.length) :
    ∃ m1, m.finishKey i k = .ok (m1, i) ∧ m1.Size = m.Size ∧ m1.LastFree = m.LastFree ∧
      m1.Nodes.length = m.Nodes.length ∧ m1.NumUsed = (m.NumUsed + 1) % 2 ^ 32 ∧
      m1.nextAt = m.nextAt ∧ m1.keyAt = Function.update m.keyAt i (some k) ∧
      m1.valueAt = m.valueAt := by
  obtain ⟨nd, hnd, hget⟩ := m.nodeAt_of_lt i hi
  refine ⟨{ m.setNode i { nd with Key := some k } with NumUsed := (m.NumUsed + 1) % 2 ^ 32 },
    by rw [TMap.finishKey, hnd], rfl, rfl, by simp, rfl, ?_, ?_, ?_⟩
  · show (m.setNode i { nd with Key := some k }).nextAt = m.nextAt
    rw [TMap.nextAt_setNode m i _ hi]
    apply Function.update_eq_self_iff.mpr
    exact (m.nextAt_of_nodeAt i nd hnd).symm
  · show (m.setNode i { nd with Key := some k }).keyAt = _
    rw [TMap.keyAt_setNode m i _ hi]
  · show (m.setNode i { nd with Key := some k }).valueAt = m.valueAt
    rw [TMap.valueAt_setNode m i _ hi]
    apply Function.update_eq_self_iff.mpr
    exact (m.valueAt_of_nodeAt i nd hnd).symm

/-- The write of a `Next` pointer. -/
theorem TMap.setNext_spec {K V : Type} (m : TMap K V) (i : Nat) (nd : TMap.Node K V)
    (x : NodePtr) (hnd : m.nodeAt i = .ok nd) :
    (m.setNode i { nd with Next := x }).nextAt = Function.update m.nextAt i (some x) ∧
    (m.setNode i { nd with Next := x }).keyAt = m.keyAt ∧
    (m.setNode i { nd with Next := x }).valueAt = m.valueAt := by
  have hi : i < m.Nodes.length := by
    have := (m.nodeAt_eq_ok i nd).mp hnd
    by_contra hcon
    rw [List.get?_eq_none.mpr (not_lt.mp hcon)] at this
    cases this
  refine ⟨TMap.nextAt_setNode m i _ hi, ?_, ?_⟩
  · rw [TMap.keyAt_setNode m i _ hi]
    apply Function.update_eq_self_iff.mpr
    exact (m.keyAt_of_nodeAt i nd hnd).symm
  · rw [TMap.valueAt_setNode m i _ hi]
    apply Function.update_eq_self_iff.mpr
    exact (m.valueAt_of_nodeAt i nd hnd).symm

theorem TMap.nodeAt_lt {K V : Type} (m : TMap K V) (i : Nat) (nd : TMap.Node K V)
    (hnd : m.nodeAt i = .ok nd) : i < m.Nodes.length := by
  have := (m.nodeAt_eq_ok i nd).mp hnd
  by_contra hcon
  rw [List.get?_eq_none.mpr (not_lt.mp hcon)] at this
  cases this

@[simp] theorem TMap.setNode_Size {K V : Type} (m : TMap K V) (i : Nat) (n : TMap.Node K V) :
    (m.setNode i n).Size = m.Size := rfl

@[simp] theorem TMap.setNode_NumUsed {K V : Type} (m : TMap K V) (i : Nat)
    (n : TMap.Node K V) : (m.setNode i n).NumUsed = m.NumUsed := rfl

@[simp] theorem TMap.setNode_LastFree {K V : Type} (m : TMap K V) (i : Nat)
    (n : TMap.Node K V) : (m.setNode i n).LastFree = m.LastFree := rfl

theorem TMap.usedB_congr {K V : Type} (m m1 : TMap K V) (h : m1.nextAt = m.nextAt) :
    m1.usedB = m.usedB := by
  funext i
  exact TMap.usedB_eq m m1 i (by rw [h])

/-- The invariant depends on the `Next` pointers, the keys, `Size` and `NumUsed`
only. -/
theorem TMap.WF.wf_congr {K V : Type} {traits : THashTraits K} {m m1 : TMap K V}
    (h : m.WF traits) (hN : m1.nextAt = m.nextAt) (hK : m1.keyAt = m.keyAt)
    (hS : m1.Size = m.Size) (hLen : m1.Nodes.length = m.Nodes.length)
    (hLF : m1.LastFree ≤ m.Size) (hNU : m1.NumUsed = m.NumUsed) : m1.WF traits := by
  have hU := TMap.usedB_congr m m1 hN
  have hMP : ∀ k1, m1.MainPosition traits k1 = m.MainPosition traits k1 :=
    fun k1 => TMap.mainPosition_congr traits m m1 k1 hS
  obtain ⟨chain, hc⟩ := h.chains
  refine ⟨by rw [hS]; exact h.size, by rw [hLen, hS]; exact h.length, by rw [hS]; exact hLF,
    by rw [hNU, hS, hU]; exact h.numUsed, by rw [hU, hK]; exact h.keys,
    by rw [hU, hK]; exact h.distinct, chain, hc.1, ?_, hc.2.2.1, ?_, ?_⟩
  · intro p
    exact TMap.Linked.linked_congr (fun i _ => by rw [hN]) (hc.2.1 p)
  · intro p i hi
    obtain ⟨k1, h1, h2⟩ := hc.2.2.2.1 p i hi
    exact ⟨k1, by rw [hK]; exact h1, by rw [hMP]; exact h2⟩
  · intro i k1 hi hki
    rw [hMP]
    rw [hU] at hi
    rw [hK] at hki
    exact hc.2.2.2.2 i k1 hi hki

theorem TMap.WF.withLastFree {K V : Type} {traits : THashTraits K} {m : TMap K V}
    (h : m.WF traits) (lf : Int) (hlf : lf ≤ m.Size) :
    TMap.WF traits { m with LastFree := lf } :=
  h.wf_congr rfl rfl rfl rfl hlf rfl

/-- The run of `NewKey` when the main position of the key is free. -/
theorem TMap.WF.newKey_free_run {K V : Type} {traits : THashTraits K} {m : TMap K V}
    (h : m.WF traits) (k : K) (habs : ∀ i, m.usedB i = true → m.keyAt i ≠ some k)
    (nd : TMap.Node K V) (hnd : m.nodeAt (m.MainPosition traits k) = .ok nd)
    (hnil : nd.IsNil = true) :
    ∃ m1, (m.setNode (m.MainPosition traits k) { nd with Next := NodePtr.null }).finishKey
        (m.MainPosition traits k) k = .ok (m1, m.MainPosition traits k) ∧
      TMap.NewKeySpec traits m k m1 (m.MainPosition traits k) ∧ m1.Size = m.Size ∧
      m1.LastFree = m.LastFree ∧ (∀ i, m.usedB i = true → m1.usedB i = true) := by
  have hp := m.nodeAt_lt _ nd hnd
  have hfree : m.usedB (m.MainPosition traits k) = false := by
    rw [m.usedB_of_nodeAt _ nd hnd, hnil]
    rfl
  obtain ⟨s1, s2, s3⟩ := m.setNext_spec _ nd NodePtr.null hnd
  obtain ⟨m1, hrun, f1, f2, f3, f4, f5, f6, f7⟩ :=
    (m.setNode (m.MainPosition traits k) { nd with Next := NodePtr.null }).finishKey_ok
      (m.MainPosition traits k) k (by simpa using hp)
  rw [s1] at f5
  rw [s2] at f6
  rw [s3] at f7
  have f3' : m1.Nodes.length = m.Nodes.length := by rw [f3]; simp
  have hwf := h.newKey_free k hfree habs f1 f3' f2 f4 f5 f6
  have hU : ∀ j, m1.usedB j = if j = m.MainPosition traits k then true else m.usedB j := by
    intro j
    rw [TMap.usedB_update m m1 _ _ f5 j]
    simp
  refine ⟨m1, hrun, ⟨hwf, by rw [hU, if_pos rfl], by rw [f6, Function.update_same], ?_, ?_⟩,
    f1, f2, ?_⟩
  · rw [f4]
    simp only [TMap.setNode_NumUsed]
    apply Nat.mod_eq_of_lt
    have := h.numUsed_lt
    omega
  · apply TMap.has_after_newKey m m1 (m.MainPosition traits k) k id
      (by rw [hU, if_pos rfl]) (by rw [f6, Function.update_same])
    · intro i hi
      exact ⟨by rw [hU, if_neg hi]; rfl, by rw [f6, Function.update_noteq hi]; rfl,
        by rw [f7]; rfl⟩
    · intro i0 hi0
      refine ⟨i0, ?_, rfl⟩
      intro hh
      rw [hh, hfree] at hi0
      cases hi0
  · intro i hi
    rw [hU]
    split_ifs
    · rfl
    · exact hi

/-- The run of `NewKey` when the colliding node is in its main position. -/
theorem TMap.WF.newKey_chain_run {K V : Type} {traits : THashTraits K} {m : TMap K V}
    (h : m.WF traits) (k k0 : K) (habs : ∀ i, m.usedB i = true → m.keyAt i ≠ some k)
    (mpNode free : TMap.Node K V) (n : Nat)
    (hnd : m.nodeAt (m.MainPosition traits k) = .ok mpNode) (hnil : mpNode.IsNil = false)
    (hkey : mpNode.Key = some k0)
    (hhome : m.MainPosition traits k0 = m.MainPosition traits k)
    (hfree : m.nodeAt n = .ok free) (hnfree : m.usedB n = false) :
    ∃ m1, ((m.setNode n { free with Next := mpNode.Next }).setNode (m.MainPosition traits k)
        { mpNode with Next := NodePtr.node n }).finishKey n k = .ok (m1, n) ∧
      TMap.NewKeySpec traits m k m1 n ∧ m1.Size = m.Size ∧
      m1.LastFree = m.LastFree ∧ (∀ i, m.usedB i = true → m1.usedB i = true) := by
  generalize hpdef : m.MainPosition traits k = p at *
  have hp := m.nodeAt_lt _ mpNode hnd
  have hn := m.nodeAt_lt _ free hfree
  have hused : m.usedB p = true := by
    rw [m.usedB_of_nodeAt _ mpNode hnd, hnil]
    rfl
  have hnp : n ≠ p := by
    intro hh
    rw [hh, hused] at hnfree
    cases hnfree
  have hk0 : m.keyAt p = some k0 := by rw [m.keyAt_of_nodeAt p mpNode hnd]; exact hkey
  obtain ⟨m1, hrun, f1, f2, f3, f4, f5, f6, f7⟩ :=
    ((m.setNode n { free with Next := mpNode.Next }).setNode p
      { mpNode with Next := NodePtr.node n }).finishKey_ok n k (by simpa using hn)
  have hN : m1.nextAt = Function.update (Function.update m.nextAt n (m.nextAt p)) p
      (some (NodePtr.node n)) := by
    rw [f5, TMap.nextAt_setNode _ p _ (by simpa using hp), TMap.nextAt_setNode m n _ hn,
      m.nextAt_of_nodeAt p mpNode hnd]
  have hK : m1.keyAt = Function.update m.keyAt n (some k) := by
    rw [f6, TMap.keyAt_setNode _ p _ (by simpa using hp), TMap.keyAt_setNode m n _ hn]
    funext j
    by_cases hjn : j = n
    · rw [hjn, Function.update_same, Function.update_same]
    · by_cases hjp : j = p
      · subst hjp
        simp [Function.update_apply, hjn, hk0, hkey]
      · simp [Function.update_apply, hjn, hjp]
  have hV : m1.valueAt = m.valueAt := by
    rw [f7, TMap.valueAt_setNode _ p _ (by simpa using hp), TMap.valueAt_setNode m n _ hn]
    funext j
    by_cases hjp : j = p
    · rw [hjp, Function.update_same, m.valueAt_of_nodeAt p mpNode hnd]
    · rw [Function.update_noteq hjp]
      by_cases hjn : j = n
      · rw [hjn, Function.update_same, m.valueAt_of_nodeAt n free hfree]
      · rw [Function.update_noteq hjn]
  have f3' : m1.Nodes.length = m.Nodes.length := by rw [f3]; simp
  have hnS : n < m.Size := by rw [← h.length]; exact hn
  have hwf := h.newKey_chain k k0 n (by rw [hpdef]; exact hused) (by rw [hpdef]; exact hk0)
    (by rw [hpdef]; exact hhome) hnS hnfree habs f1 f3'
    (by rw [f2]; exact h.lastFree) f4 (by rw [hpdef]; exact hN) hK
  have hU : ∀ j, m1.usedB j = if j = n then true else m.usedB j := by
    intro j
    unfold TMap.usedB
    rw [hN]
    by_cases hjp : j = p
    · subst hjp
      rw [Function.update_same, if_neg (Ne.symm hnp)]
      unfold TMap.usedB at hused
      rw [hused]
      simp
    · rw [Function.update_noteq hjp]
      by_cases hjn : j = n
      · subst hjn
        rw [Function.update_same, if_pos rfl]
        exact hused
      · rw [Function.update_noteq hjn, if_neg hjn]
  refine ⟨m1, hrun, ⟨hwf, by rw [hU, if_pos rfl], by rw [hK, Function.update_same], ?_, ?_⟩,
    f1, f2, ?_⟩
  · rw [f4]
    simp only [TMap.setNode_NumUsed]
    apply Nat.mod_eq_of_lt
    have := h.numUsed_lt
    omega
  · apply TMap.has_after_newKey m m1 n k id
      (by rw [hU, if_pos rfl]) (by rw [hK, Function.update_same])
    · intro i hi
      exact ⟨by rw [hU, if_neg hi]; rfl, by rw [hK, Function.update_noteq hi]; rfl,
        by rw [hV]; rfl⟩
    · intro i0 hi0
      refine ⟨i0, ?_, rfl⟩
      intro hh
      rw [hh, hnfree] at hi0
      cases hi0
  · intro i hi
    rw [hU]
    split_ifs
    · rfl
    · exact hi

theorem TMap.nodeAt_setNode_ne {K V : Type} (m : TMap K V) (i j : Nat) (n : TMap.Node K V)
    (h : i ≠ j) : (m.setNode i n).nodeAt j = m.nodeAt j := by
  unfold TMap.nodeAt
  rw [TMap.get?_setNode, if_neg h]

/-- The run of `NewKey` when the colliding node is out of its main position. -/
theorem TMap.WF.newKey_move_run {K V : Type} {traits : THashTraits K} {m : TMap K V}
    (h : m.WF traits) (k k0 : K) (habs : ∀ i, m.usedB i = true → m.keyAt i ≠ some k)
    (mpNode prevNode : TMap.Node K V) (n prev : Nat)
    (hnd : m.nodeAt (m.MainPosition traits k) = .ok mpNode) (hnil : mpNode.IsNil = false)
    (hkey : mpNode.Key = some k0)
    (haway : m.MainPosition traits k0 ≠ m.MainPosition traits k)
    (hn : n < m.Nodes.length) (hnfree : m.usedB n = false)
    (hprev : m.nodeAt prev = .ok prevNode)
    (hprevnx : prevNode.Next = NodePtr.node (m.MainPosition traits k)) :
    (m.setNode prev { prevNode with Next := NodePtr.node n }).nodeAt (m.MainPosition traits k)
      = .ok mpNode ∧
    ∃ m1, (((m.setNode prev { prevNode with Next := NodePtr.node n }).setNode n mpNode).setNode
        (m.MainPosition traits k) { mpNode with Next := NodePtr.null }).finishKey
        (m.MainPosition traits k) k = .ok (m1, m.MainPosition traits k) ∧
      TMap.NewKeySpec traits m k m1 (m.MainPosition traits k) ∧ m1.Size = m.Size ∧
      m1.LastFree = m.LastFree ∧ (∀ i, m.usedB i = true → m1.usedB i = true) ∧
      m1.usedB n = true := by
  generalize hpdef : m.MainPosition traits k = p at *
  have hp := m.nodeAt_lt _ mpNode hnd
  have hprevlt := m.nodeAt_lt _ prevNode hprev
  have hused : m.usedB p = true := by
    rw [m.usedB_of_nodeAt _ mpNode hnd, hnil]
    rfl
  have hnp : n ≠ p := by
    intro hh
    rw [hh, hused] at hnfree
    cases hnfree
  have hprevN : m.nextAt prev = some (NodePtr.node p) := by
    rw [m.nextAt_of_nodeAt prev prevNode hprev, hprevnx]
  have hprevused : m.usedB prev = true := (m.usedB_iff prev).mpr ⟨_, hprevN, by simp⟩
  have hprevp : prev ≠ p := by
    intro hh
    rw [hh] at hprevN
    exact h.next_ne_self p hprevN
  have hnprev : n ≠ prev := by
    intro hh
    rw [hh, hprevused] at hnfree
    cases hnfree
  have hk0 : m.keyAt p = some k0 := by rw [m.keyAt_of_nodeAt p mpNode hnd]; exact hkey
  have hmoved : (m.setNode prev { prevNode with Next := NodePtr.node n }).nodeAt p
      = .ok mpNode := by
    rw [TMap.nodeAt_setNode_ne m prev p _ hprevp]
    exact hnd
  refine ⟨hmoved, ?_⟩
  obtain ⟨s1, s2, s3⟩ := m.setNext_spec prev prevNode (NodePtr.node n) hprev
  obtain ⟨m1, hrun, f1, f2, f3, f4, f5, f6, f7⟩ :=
    (((m.setNode prev { prevNode with Next := NodePtr.node n }).setNode n mpNode).setNode p
      { mpNode with Next := NodePtr.null }).finishKey_ok p k (by simpa using hp)
  have hN : m1.nextAt = Function.update (Function.update (Function.update m.nextAt prev
      (some (NodePtr.node n))) n (m.nextAt p)) p (some NodePtr.null) := by
    rw [f5, TMap.nextAt_setNode _ p _ (by simpa using hp),
      TMap.nextAt_setNode _ n _ (by simpa using hn), s1, m.nextAt_of_nodeAt p mpNode hnd]
  have hK : m1.keyAt = Function.update (Function.update m.keyAt n (some k0)) p (some k) := by
    rw [f6, TMap.keyAt_setNode _ p _ (by simpa using hp),
      TMap.keyAt_setNode _ n _ (by simpa using hn), s2, hkey]
    simp
  have hV : m1.valueAt = Function.update (Function.update m.valueAt n (m.valueAt p)) p
      (m.valueAt p) := by
    rw [f7, TMap.valueAt_setNode _ p _ (by simpa using hp),
      TMap.valueAt_setNode _ n _ (by simpa using hn), s3, m.valueAt_of_nodeAt p mpNode hnd]
  have f3' : m1.Nodes.length = m.Nodes.length := by rw [f3]; simp
  have hnS : n < m.Size := by rw [← h.length]; exact hn
  have hwf := h.newKey_move k k0 n prev (by rw [hpdef]; exact hused) (by rw [hpdef]; exact hk0)
    (by rw [hpdef]; exact haway) hnS hnfree (by rw [hpdef]; exact hprevN) habs f1 f3'
    (by rw [f2]; exact h.lastFree) f4 (by rw [hpdef]; exact hN) (by rw [hpdef]; exact hK)
  have hU : ∀ j, m1.usedB j = if j = n then true else m.usedB j := by
    intro j
    unfold TMap.usedB
    rw [hN]
    by_cases hjp : j = p
    · subst hjp
      rw [Function.update_same, if_neg (Ne.symm hnp)]
      unfold TMap.usedB at hused
      rw [hused]
      simp
    · rw [Function.update_noteq hjp]
      by_cases hjn : j = n
      · subst hjn
        rw [Function.update_same, if_pos rfl]
        exact hused
      · rw [Function.update_noteq hjn, if_neg hjn]
        by_cases hjprev : j = prev
        · subst hjprev
          rw [Function.update_same]
          unfold TMap.usedB at hprevused
          rw [hprevused]
          simp
        · rw [Function.update_noteq hjprev]
  refine ⟨m1, hrun, ⟨hwf, by rw [hU, if_neg (Ne.symm hnp)]; exact hused,
    by rw [hK, Function.update_same], ?_, ?_⟩, f1, f2, ?_, by rw [hU, if_pos rfl]⟩
  · rw [f4]
    simp only [TMap.setNode_NumUsed]
    apply Nat.mod_eq_of_lt
    have := h.numUsed_lt
    omega
  · apply TMap.has_after_newKey m m1 p k (fun i => if i = n then p else i)
      (by rw [hU, if_neg (Ne.symm hnp)]; exact hused) (by rw [hK, Function.update_same])
    · intro i hi
      by_cases hin : i = n
      · subst hin
        simp only [if_true]
        refine ⟨by rw [hU, if_pos rfl, hused], ?_, ?_⟩
        · rw [hK, Function.update_noteq hi, Function.update_same, hk0]
        · rw [hV, Function.update_noteq hi, Function.update_same]
      · simp only [if_neg hin]
        refine ⟨by rw [hU, if_neg hin], ?_, ?_⟩
        · rw [hK, Function.update_noteq hi, Function.update_noteq hin]
        · rw [hV, Function.update_noteq hi, Function.update_noteq hin]
    · intro i0 hi0
      by_cases hip : i0 = p
      · exact ⟨n, hnp, by simp [hip]⟩
      · refine ⟨i0, hip, ?_⟩
        have : i0 ≠ n := by
          intro hh
          rw [hh, hnfree] at hi0
          cases hi0
        simp [this]
  · intro i hi
    rw [hU]
    split_ifs
    · rfl
    · exact hi

/-- One call of `NewKey` for a key that is not in the table: either it places the
key without a rehash, or every node below `LastFree` is in use and it rehashes
and calls itself on the grown table. -/
theorem TMap.WF.newKey_step {K V : Type} {traits : THashTraits K} {m : TMap K V}
    (h : m.WF traits) (k : K) (habs : ∀ i, m.usedB i = true → m.keyAt i ≠ some k)
    (fuel : Nat) :
    (∃ m1 idx, TMap.NewKey traits (fuel + 1) m k = .ok (m1, idx) ∧
      TMap.NewKeySpec traits m k m1 idx ∧ m1.Size = m.Size ∧ (m.Fresh → m1.Fresh)) ∨
    (∃ lf : Int, lf ≤ m.LastFree ∧ (∀ i : Nat, (i : Int) < m.LastFree → m.usedB i = true) ∧
      m.usedB (m.MainPosition traits k) = true ∧
      TMap.NewKey traits (fuel + 1) m k =
        match TMap.ResizeWith (TMap.NewKey traits fuel) { m with LastFree := lf }
          ((m.Size <<< 1) % 2 ^ 32) with
        | .error e => .error e
        | .ok m2 => TMap.NewKey traits fuel m2 k) := by
  have hp := h.mainPosition_lt k
  obtain ⟨mpNode, hnd, _⟩ := m.nodeAt_of_lt _ (by rw [h.length]; exact hp)
  cases hnil : mpNode.IsNil
  · -- the main position is in use
    have hused : m.usedB (m.MainPosition traits k) = true := by
      rw [m.usedB_of_nodeAt _ mpNode hnd, hnil]
      rfl
    rcases m.getFreePos_spec (by rw [h.length]; exact h.lastFree) with
      ⟨n, hg, hlt, hnfree, habove⟩ | ⟨lf, hg, hlf, hall⟩
    · left
      have hnS : (n : Int) ≤ m.Size := le_trans (le_of_lt hlt) h.lastFree
      have h1 : TMap.WF traits { m with LastFree := n } := h.withLastFree n hnS
      have hnlen : n < m.Nodes.length := by
        rw [h.length]
        have := h.lastFree
        omega
      obtain ⟨k0, hk0⟩ := h.keys _ hused
      have hkey : mpNode.Key = some k0 := by rw [← m.keyAt_of_nodeAt _ mpNode hnd]; exact hk0
      have hfresh : ∀ m1 : TMap K V, m1.LastFree = (n : Int) → m1.Size = m.Size →
          m1.usedB n = true → (∀ i, m.usedB i = true → m1.usedB i = true) →
          m.Fresh → m1.Fresh := by
        intro m1 hLF hS hun hmono hfr i hi1 hi2
        rw [hLF] at hi1
        rw [hS] at hi2
        by_cases hin : i = n
        · rw [hin]; exact hun
        · by_cases hil : (i : Int) < m.LastFree
          · exact hmono i (habove i (by omega) hil)
          · exact hmono i (hfr i (by omega) hi2)
      by_cases haway : m.MainPosition traits k0 = m.MainPosition traits k
      · -- the colliding node is in its main position
        obtain ⟨free, hfree, _⟩ := m.nodeAt_of_lt n hnlen
        obtain ⟨m1, hrun, hspec, hS, hLF, hmono⟩ :=
          h1.newKey_chain_run k k0 habs mpNode free n hnd hnil hkey haway hfree hnfree
        refine ⟨m1, n, ?_, ⟨hspec.wf, hspec.used, hspec.key, hspec.numUsed, hspec.has⟩, hS,
          hfresh m1 hLF hS hspec.used hmono⟩
        rw [TMap.NewKey]
        simp only [hnd, hnil, hg, hkey]
        have hoth : TMap.MainPosition traits { m with LastFree := n } k0
            = m.MainPosition traits k := haway
        simp only [hoth, ne_eq, not_true_eq_false, if_false, Bool.false_eq_true]
        have hfree' : TMap.nodeAt { m with LastFree := n } n = .ok free := hfree
        simp only [hfree']
        simp only [hkey] at hrun
        exact hrun
      · -- the colliding node is out of its main position
        obtain ⟨prev, hfp, hprevN⟩ := h1.findPrevious (m.MainPosition traits k) k0 hused hk0 haway
        obtain ⟨prevNode, hprev, hprevnx⟩ := (TMap.nextAt_eq_some _ prev _).mp hprevN
        obtain ⟨hmoved, m1, hrun, hspec, hS, hLF, hmono, hun⟩ :=
          h1.newKey_move_run k k0 habs mpNode prevNode n prev hnd hnil hkey haway hnlen hnfree
            hprev hprevnx
        refine ⟨m1, m.MainPosition traits k, ?_,
          ⟨hspec.wf, hspec.used, hspec.key, hspec.numUsed, hspec.has⟩, hS, ?_⟩
        · rw [TMap.NewKey]
          simp only [hnd, hnil, hg, hkey]
          have hoth : TMap.MainPosition traits { m with LastFree := n } k0
              ≠ m.MainPosition traits k := haway
          simp only [ne_eq, hoth, not_false_eq_true, if_true, Bool.false_eq_true, if_false]
          have hfp' : ZDRay.findPrevious { m with LastFree := n } (m.MainPosition traits k)
              (m.Size + 1) (TMap.MainPosition traits { m with LastFree := n } k0)
              = .ok prev := hfp
          have hprev' : TMap.nodeAt { m with LastFree := n } prev = .ok prevNode := hprev
          have hmoved' : (TMap.setNode { m with LastFree := n } prev
              { prevNode with Next := NodePtr.node n }).nodeAt (m.MainPosition traits k)
              = .ok mpNode := hmoved
          simp only [hfp', hprev', hmoved']
          exact hrun
        · exact hfresh m1 hLF hS hun hmono
    · right
      refine ⟨lf, hlf, hall, hused, ?_⟩
      rw [TMap.NewKey]
      simp only [hnd, hnil, hg]
      rfl
  · -- the main position is free
    left
    obtain ⟨m1, hrun, hspec, hS, hLF, hmono⟩ := h.newKey_free_run k habs mpNode hnd hnil
    refine ⟨m1, _, ?_, hspec, hS, ?_⟩
    · rw [TMap.NewKey]
      simp only [hnd, hnil, if_true]
      exact hrun
    · intro hfresh i hi1 hi2
      rw [hLF] at hi1
      rw [hS] at hi2
      exact hmono i (hfresh i hi1 hi2)

/-- The effect of constructing or assigning a value. -/
theorem TMap.setValue_ok {K V : Type} (m : TMap K V) (n : Nat) (v : Option V)
    (hn : n < m.Nodes.length) :
    ∃ m1, m.setValue n v = .ok m1 ∧ m1.Size = m.Size ∧ m1.LastFree = m.LastFree ∧
      m1.Nodes.length = m.Nodes.length ∧ m1.NumUsed = m.NumUsed ∧ m1.nextAt = m.nextAt ∧
      m1.keyAt = m.keyAt ∧ m1.valueAt = Function.update m.valueAt n v := by
  obtain ⟨nd, hnd, _⟩ := m.nodeAt_of_lt n hn
  refine ⟨m.setNode n { nd with Value := v }, by rw [TMap.setValue, hnd], rfl, rfl, by simp,
    rfl, ?_, ?_, ?_⟩
  · rw [TMap.nextAt_setNode m n _ hn]
    apply Function.update_eq_self_iff.mpr
    exact (m.nextAt_of_nodeAt n nd hnd).symm
  · rw [TMap.keyAt_setNode m n _ hn]
    apply Function.update_eq_self_iff.mpr
    exact (m.keyAt_of_nodeAt n nd hnd).symm
  · rw [TMap.valueAt_setNode m n _ hn]

theorem TMap.absent_iff {K V : Type} (m : TMap K V) (k : K) :
    m.Absent k ↔ ∀ v, ¬ m.Has k v := by
  constructor
  · rintro h v ⟨i, hi, hk, _⟩
    exact h i hi hk
  · intro h i hi hk
    exact h (m.valueAt i) ⟨i, hi, hk, rfl⟩

/-- `NewKey` followed by the construction of the value adds the pair. -/
theorem TMap.NewKeySpec.setValue {K V : Type} {traits : THashTraits K} {m m1 : TMap K V}
    {k : K} {idx : Nat} (hs : TMap.NewKeySpec traits m k m1 idx) (habs : m.Absent k)
    (v : Option V) :
    ∃ m2, m1.setValue idx v = .ok m2 ∧ TMap.PutSpec traits m k v m2 ∧ m2.Size = m1.Size ∧
      m2.LastFree = m1.LastFree ∧ m2.usedB = m1.usedB := by
  have hidx := m1.usedB_lt idx hs.used
  obtain ⟨m2, hrun, f1, f2, f3, f4, f5, f6, f7⟩ := m1.setValue_ok idx v hidx
  have hU := TMap.usedB_congr m1 m2 f5
  refine ⟨m2, hrun, ⟨hs.wf.wf_congr f5 f6 f1 f3 (by rw [f2]; exact hs.wf.lastFree) f4,
    by rw [f4]; exact hs.numUsed, ?_⟩, f1, f2, hU⟩
  intro k1 v1
  constructor
  · rintro ⟨i, hi, hk, hv⟩
    rw [hU] at hi
    rw [f6] at hk
    rw [f7] at hv
    by_cases hii : i = idx
    · subst hii
      rw [hs.key] at hk
      cases hk
      rw [Function.update_same] at hv
      exact Or.inr ⟨rfl, hv.symm⟩
    · rw [Function.update_noteq hii] at hv
      rcases (hs.has k1 v1).mp ⟨i, hi, hk, hv⟩ with h1 | ⟨h1, _⟩
      · exact Or.inl h1
      · exfalso
        subst h1
        exact hii (hs.wf.distinct i idx k1 hi hs.used hk hs.key)
  · rintro (h1 | ⟨h1, h2⟩)
    · obtain ⟨i, hi, hk, hv⟩ := (hs.has k1 v1).mpr (Or.inl h1)
      have hii : i ≠ idx := by
        intro hii
        subst hii
        rw [hs.key] at hk
        cases hk
        obtain ⟨i0, hi0, hk0, _⟩ := h1
        exact habs i0 hi0 hk0
      exact ⟨i, by rw [hU]; exact hi, by rw [f6]; exact hk,
        by rw [f7, Function.update_noteq hii]; exact hv⟩
    · subst h1
      exact ⟨idx, by rw [hU]; exact hs.used, by rw [f6]; exact hs.key,
        by rw [f7, Function.update_same, h2]⟩

theorem TMap.Fresh.fresh_congr {K V : Type} {m m1 : TMap K V} (h : m.Fresh)
    (hS : m1.Size = m.Size) (hLF : m1.LastFree = m.LastFree) (hU : m1.usedB = m.usedB) :
    m1.Fresh := by
  intro i hi1 hi2
  rw [hU]
  rw [hLF] at hi1
  rw [hS] at hi2
  exact h i hi1 hi2

/-- The loop of `Resize` re-inserts the pairs of the old nodes it visits.  With
`G`, a `NewKey` that does not fail on a table without removals that has room makes
the loop succeed. -/
theorem resizeLoop_spec {K V : Type} {traits : THashTraits K}
    (newKey : TMap K V → K → Except Fault (TMap K V × Nat)) (mo : TMap K V) (G : Prop)
    (S : Nat) (hmo : mo.WF traits)
    (hNK : ∀ (m : TMap K V) (k : K), m.WF traits → m.Absent k →
      (∀ m1 idx, newKey m k = .ok (m1, idx) → TMap.NewKeySpec traits m k m1 idx) ∧
      (G → m.Fresh → m.Size = S → m.NumUsed < S →
        ∃ m1 idx, newKey m k = .ok (m1, idx) ∧ m1.Fresh ∧ m1.Size = S))
    (is : List Nat) (m : TMap K V) (hnd : is.Nodup) (hin : ∀ i ∈ is, i < mo.Nodes.length)
    (hm : m.WF traits)
    (habs : ∀ i ∈ is, ∀ k, mo.usedB i = true → mo.keyAt i = some k → m.Absent k) :
    (∀ m2, resizeLoop newKey mo.Nodes is m = .ok m2 →
      m2.WF traits ∧ m2.NumUsed = m.NumUsed + is.countP mo.usedB ∧
      ∀ k1 v1, m2.Has k1 v1 ↔ m.Has k1 v1 ∨
        ∃ i ∈ is, mo.usedB i = true ∧ mo.keyAt i = some k1 ∧ mo.valueAt i = v1) ∧
    (G → m.Fresh → m.Size = S → m.NumUsed + is.countP mo.usedB < S →
      ∃ m2, resizeLoop newKey mo.Nodes is m = .ok m2 ∧ m2.Fresh ∧ m2.Size = S) := by
  induction is generalizing m with
  | nil =>
    refine ⟨?_, fun _ hf hs _ => ⟨m, rfl, hf, hs⟩⟩
    intro m2 h2
    simp only [resizeLoop, Except.ok.injEq] at h2
    subst h2
    exact ⟨hm, by simp, fun k1 v1 => by simp⟩
  | cons i rest ih =>
    obtain ⟨nd, hnode, hget⟩ := mo.nodeAt_of_lt i (hin i (List.mem_cons_self i rest))
    have hu := mo.usedB_of_nodeAt i nd hnode
    have hnd' := (List.nodup_cons.mp hnd).2
    have hirest := (List.nodup_cons.mp hnd).1
    have hin' : ∀ j ∈ rest, j < mo.Nodes.length := fun j hj => hin j (List.mem_cons_of_mem i hj)
    cases hnil : nd.IsNil
    · -- the old node is in use
      rw [hnil] at hu
      simp only [Bool.not_false] at hu
      obtain ⟨k, hk⟩ := hmo.keys i hu
      have hkey : nd.Key = some k := by rw [← mo.keyAt_of_nodeAt i nd hnode]; exact hk
      have hval : mo.valueAt i = nd.Value := mo.valueAt_of_nodeAt i nd hnode
      have hab := habs i (List.mem_cons_self i rest) k hu hk
      obtain ⟨hpart, htot⟩ := hNK m k hm hab
      have hstep : resizeLoop newKey mo.Nodes (i :: rest) m =
          match newKey m k with
          | .error e => .error e
          | .ok (m1, n) =>
            match m1.setValue n nd.Value with
            | .error e => .error e
            | .ok m2 => resizeLoop newKey mo.Nodes rest m2 := by
        rw [resizeLoop, hget]
        simp only [hnil, hkey, Bool.false_eq_true, if_false]
      -- what one step establishes
      have hafter : ∀ m1 idx, newKey m k = .ok (m1, idx) →
          ∃ m2, m1.setValue idx nd.Value = .ok m2 ∧ TMap.PutSpec traits m k nd.Value m2 ∧
            m2.Size = m1.Size ∧ m2.LastFree = m1.LastFree ∧ m2.usedB = m1.usedB ∧
            (∀ j ∈ rest, ∀ kj, mo.usedB j = true → mo.keyAt j = some kj → m2.Absent kj) := by
        intro m1 idx hnk
        obtain ⟨m2, hsv, hput, hS, hLF, hU⟩ := (hpart m1 idx hnk).setValue hab nd.Value
        refine ⟨m2, hsv, hput, hS, hLF, hU, ?_⟩
        intro j hj kj huj hkj
        rw [TMap.absent_iff]
        intro v hv
        rcases (hput.has kj v).mp hv with h1 | ⟨h1, _⟩
        · exact (TMap.absent_iff m kj).mp (habs j (List.mem_cons_of_mem i hj) kj huj hkj) v h1
        · subst h1
          have := hmo.distinct i j kj hu huj hk hkj
          rw [this] at hirest
          exact hirest hj
      constructor
      · intro m3 h3
        rw [hstep] at h3
        cases hnk : newKey m k with
        | error e => rw [hnk] at h3; cases h3
        | ok r =>
          obtain ⟨m1, idx⟩ := r
          obtain ⟨m2, hsv, hput, hS, hLF, hU, hab2⟩ := hafter m1 idx hnk
          rw [hnk] at h3
          simp only [hsv] at h3
          obtain ⟨w1, w2, w3⟩ := (ih m2 hnd' hin' hput.wf hab2).1 m3 h3
          refine ⟨w1, ?_, ?_⟩
          · rw [w2, hput.numUsed, List.countP_cons, hu]
            simp
            omega
          · intro k1 v1
            rw [w3, hput.has]
            constructor
            · rintro ((h1 | ⟨h1, h2⟩) | ⟨j, hj, h1⟩)
              · exact Or.inl h1
              · exact Or.inr ⟨i, List.mem_cons_self i rest, hu, by rw [hk, h1],
                  by rw [hval, h2]⟩
              · exact Or.inr ⟨j, List.mem_cons_of_mem i hj, h1⟩
            · rintro (h1 | ⟨j, hj, h1, h2, h3⟩)
              · exact Or.inl (Or.inl h1)
              · rcases List.mem_cons.mp hj with hji | hji
                · subst hji
                  rw [hk] at h2
                  cases h2
                  exact Or.inl (Or.inr ⟨rfl, by rw [← h3, hval]⟩)
                · exact Or.inr ⟨j, hji, h1, h2, h3⟩
      · intro hG hf hs hb
        rw [List.countP_cons, hu] at hb
        simp only [if_true] at hb
        obtain ⟨m1, idx, hnk, hf1, hs1⟩ := htot hG hf hs (by omega)
        obtain ⟨m2, hsv, hput, hS, hLF, hU, hab2⟩ := hafter m1 idx hnk
        have hf2 : m2.Fresh := hf1.fresh_congr hS hLF hU
        obtain ⟨m3, h3, hf3, hs3⟩ := (ih m2 hnd' hin' hput.wf hab2).2 hG hf2
          (by rw [hS, hs1]) (by rw [hput.numUsed]; omega)
        refine ⟨m3, ?_, hf3, hs3⟩
        rw [hstep, hnk]
        simp only [hsv]
        exact h3
    · -- the old node is free
      rw [hnil] at hu
      simp only [Bool.not_true] at hu
      have hstep : resizeLoop newKey mo.Nodes (i :: rest) m
          = resizeLoop newKey mo.Nodes rest m := by
        rw [resizeLoop, hget]
        simp only [hnil, if_true]
      have hab' : ∀ j ∈ rest, ∀ kj, mo.usedB j = true → mo.keyAt j = some kj → m.Absent kj :=
        fun j hj => habs j (List.mem_cons_of_mem i hj)
      obtain ⟨ih1, ih2⟩ := ih m hnd' hin' hm hab'
      constructor
      · intro m3 h3
        rw [hstep] at h3
        obtain ⟨w1, w2, w3⟩ := ih1 m3 h3
        refine ⟨w1, ?_, ?_⟩
        · rw [w2, List.countP_cons, hu]
          simp
        · intro k1 v1
          rw [w3]
          constructor
          · rintro (h1 | ⟨j, hj, h1⟩)
            · exact Or.inl h1
            · exact Or.inr ⟨j, List.mem_cons_of_mem i hj, h1⟩
          · rintro (h1 | ⟨j, hj, h1, h2, h3⟩)
            · exact Or.inl h1
            · rcases List.mem_cons.mp hj with hji | hji
              · subst hji
                rw [hu] at h1
                cases h1
              · exact Or.inr ⟨j, hji, h1, h2, h3⟩
      · intro hG hf hs hb
        rw [List.countP_cons, hu] at hb
        simp only [Bool.false_eq_true, if_false, add_zero] at hb
        obtain ⟨m3, h3, hf3, hs3⟩ := ih2 hG hf hs hb
        exact ⟨m3, by rw [hstep]; exact h3, hf3, hs3⟩

theorem roundUpSize_zero (size : Nat) (hs : 0 < size) (fuel : Nat) :
    roundUpSize size fuel 0 = .error Fault.fuel := by
  induction fuel with
  | zero => rfl
  | succ f ih =>
    rw [roundUpSize, if_pos hs]
    simpa using ih

theorem shiftLeft_one_pow (j : Nat) (hj : j < 31) : (2 ^ j <<< 1) % 2 ^ 32 = 2 ^ (j + 1) := by
  rw [Nat.shiftLeft_eq, pow_one, ← pow_succ]
  apply Nat.mod_eq_of_lt
  exact Nat.pow_lt_pow_right (by norm_num) (by omega)

/-- The size `SetNodeVector` rounds up to is a power of two below `2^32`. -/
theorem roundUpSize_pow (size : Nat) (fuel j s : Nat) (hj : j ≤ 31)
    (h : roundUpSize size fuel (2 ^ j) = .ok s) : ∃ j1, j1 ≤ 31 ∧ s = 2 ^ j1 := by
  induction fuel generalizing j with
  | zero => cases h
  | succ f ih =>
    rw [roundUpSize] at h
    by_cases hlt : 2 ^ j < size
    · rw [if_pos hlt] at h
      by_cases hj31 : j < 31
      · rw [shiftLeft_one_pow j hj31] at h
        exact ih (j + 1) (by omega) h
      · have hj' : j = 31 := by omega
        subst hj'
        have hz : ((2 : Nat) ^ 31 <<< 1) % 2 ^ 32 = 0 := by decide
        rw [hz, roundUpSize_zero size (by omega) f] at h
        cases h
    · rw [if_neg hlt] at h
      cases h
      exact ⟨j, hj, rfl⟩

/-- Rounding up to a power of two below `2^32` returns it. -/
theorem roundUpSize_exact (t fuel i : Nat) (ht : t ≤ 31) (hi : i ≤ t) (hf : t - i < fuel) :
    roundUpSize (2 ^ t) fuel (2 ^ i) = .ok (2 ^ t) := by
  induction fuel generalizing i with
  | zero => omega
  | succ f ih =>
    rw [roundUpSize]
    by_cases hit : i = t
    · subst hit
      rw [if_neg (lt_irrefl _)]
    · have hlt : (2 : Nat) ^ i < 2 ^ t := Nat.pow_lt_pow_right (by norm_num) (by omega)
      rw [if_pos hlt, shiftLeft_one_pow i (by omega)]
      exact ih (i + 1) (by omega) (by omega)

/-- A vector of free nodes is a well-formed table without removals and without
pairs. -/
theorem TMap.WF.fresh_vector {K V : Type} (traits : THashTraits K) (j : Nat) (hj : j ≤ 31)
    (m : TMap K V) (hN : m.Nodes = List.replicate (2 ^ j) ⟨NodePtr.one, none, none⟩)
    (hS : m.Size = 2 ^ j) (hLF : m.LastFree = (2 ^ j : Nat)) (hNU : m.NumUsed = 0) :
    m.WF traits ∧ m.Fresh ∧ (∀ k, m.Absent k) ∧ ∀ k v, ¬ m.Has k v := by
  have hU : ∀ i, m.usedB i = false := by
    intro i
    unfold TMap.usedB TMap.nextAt
    rw [hN, List.get?_eq_getElem?, List.getElem?_replicate]
    split_ifs <;> simp
  refine ⟨⟨⟨j, hj, hS⟩, by rw [hN, hS]; simp, by rw [hLF, hS], ?_, ?_, ?_, ?_⟩, ?_, ?_, ?_⟩
  · rw [hNU]
    symm
    rw [List.countP_eq_zero]
    intro i _
    rw [hU i]
    simp
  · intro i hi
    rw [hU i] at hi
    cases hi
  · intro i i1 k hi
    rw [hU i] at hi
    cases hi
  · refine ⟨fun _ => [], fun _ => Or.inl rfl, fun _ => trivial, fun _ => List.nodup_nil, ?_, ?_⟩
    · intro p i hi
      cases hi
    · intro i k hi
      rw [hU i] at hi
      cases hi
  · intro i hi1 hi2
    rw [hLF, hS] at *
    omega
  · intro k i hi
    rw [hU i] at hi
    cases hi
  · rintro k v ⟨i, hi, _⟩
    rw [hU i] at hi
    cases hi

theorem TMap.Has.of_range {K V : Type} {traits : THashTraits K} {m : TMap K V}
    (h : m.WF traits) (k : K) (v : Option V) :
    m.Has k v ↔ ∃ i ∈ List.range m.Size, m.usedB i = true ∧ m.keyAt i = some k ∧
      m.valueAt i = v := by
  constructor
  · rintro ⟨i, hi, hk, hv⟩
    refine ⟨i, ?_, hi, hk, hv⟩
    rw [List.mem_range, ← h.length]
    exact m.usedB_lt i hi
  · rintro ⟨i, _, hi, hk, hv⟩
    exact ⟨i, hi, hk, hv⟩

/-- `Resize` keeps the pairs and the count; with `G`, a `NewKey` that does not fail
on a table without removals that has room makes a resize to a larger power of two
succeed. -/
theorem TMap.WF.resizeWith {K V : Type} {traits : THashTraits K} {m : TMap K V}
    (h : m.WF traits) (newKey : TMap K V → K → Except Fault (TMap K V × Nat)) (G : Prop)
    (t : Nat) (nhsize : Nat)
    (hNK : ∀ (m1 : TMap K V) (k : K), m1.WF traits → m1.Absent k →
      (∀ m2 idx, newKey m1 k = .ok (m2, idx) → TMap.NewKeySpec traits m1 k m2 idx) ∧
      (G → m1.Fresh → m1.Size = 2 ^ t → m1.NumUsed < 2 ^ t →
        ∃ m2 idx, newKey m1 k = .ok (m2, idx) ∧ m2.Fresh ∧ m2.Size = 2 ^ t)) :
    (∀ m2, TMap.ResizeWith newKey m nhsize = .ok m2 →
      m2.WF traits ∧ m2.NumUsed = m.NumUsed ∧ ∀ k v, m2.Has k v ↔ m.Has k v) ∧
    (G → nhsize = 2 ^ t → t ≤ 31 → m.NumUsed < 2 ^ t →
      ∃ m2, TMap.ResizeWith newKey m nhsize = .ok m2 ∧ m2.Fresh ∧ m2.Size = 2 ^ t) := by
  have hloop : ∀ (j : Nat) (hj : j ≤ 31),
      (∀ m2, resizeLoop newKey m.Nodes (List.range m.Size)
          { Nodes := List.replicate (2 ^ j) ⟨NodePtr.one, none, none⟩,
            LastFree := (2 ^ j : Nat), Size := 2 ^ j, NumUsed := 0 } = .ok m2 →
        m2.WF traits ∧ m2.NumUsed = m.NumUsed ∧ ∀ k v, m2.Has k v ↔ m.Has k v) ∧
      (G → j = t → m.NumUsed < 2 ^ t →
        ∃ m2, resizeLoop newKey m.Nodes (List.range m.Size)
          { Nodes := List.replicate (2 ^ j) ⟨NodePtr.one, none, none⟩,
            LastFree := (2 ^ j : Nat), Size := 2 ^ j, NumUsed := 0 } = .ok m2 ∧
          m2.Fresh ∧ m2.Size = 2 ^ t) := by
    intro j hj
    obtain ⟨w1, w2, w3, w4⟩ := TMap.WF.fresh_vector traits j hj
      ({ Nodes := List.replicate (2 ^ j) ⟨NodePtr.one, none, none⟩,
         LastFree := (2 ^ j : Nat), Size := 2 ^ j, NumUsed := 0 } : TMap K V) rfl rfl rfl rfl
    obtain ⟨l1, l2⟩ := resizeLoop_spec newKey m G (2 ^ t) h hNK (List.range m.Size) _
      (List.nodup_range m.Size)
      (fun i hi => by rw [h.length]; exact List.mem_range.mp hi) w1
      (fun i _ k _ _ => w3 k)
    constructor
    · intro m2 h2
      obtain ⟨a1, a2, a3⟩ := l1 m2 h2
      refine ⟨a1, by rw [a2, h.numUsed]; simp, ?_⟩
      intro k v
      rw [a3, TMap.Has.of_range h]
      constructor
      · rintro (h1 | h1)
        · exact absurd h1 (w4 k v)
        · exact h1
      · exact Or.inr
    · intro hG hjt hb
      subst hjt
      exact l2 hG w2 rfl (by rw [← h.numUsed]; simpa using hb)
  constructor
  · intro m2 h2
    unfold TMap.ResizeWith TMap.SetNodeVector at h2
    cases hr : roundUpSize nhsize 33 1 with
    | error e => rw [hr] at h2; cases h2
    | ok s =>
      rw [hr] at h2
      obtain ⟨j, hj, hs⟩ := roundUpSize_pow nhsize 33 0 s (by norm_num) hr
      subst hs
      exact (hloop j hj).1 m2 h2
  · intro hG hnh ht hb
    unfold TMap.ResizeWith TMap.SetNodeVector
    have hr : roundUpSize nhsize 33 1 = .ok (2 ^ t) := by
      rw [hnh]
      exact roundUpSize_exact t 33 0 ht (by omega) (by omega)
    rw [hr]
    exact (hloop t ht).2 hG rfl hb

/-- On a table without removals that has room, `NewKey` places the key without a
rehash. -/
theorem TMap.WF.newKey_fresh {K V : Type} {traits : THashTraits K} {m : TMap K V}
    (h : m.WF traits) (k : K) (habs : m.Absent k) (hf : m.Fresh) (hroom : m.NumUsed < m.Size)
    (fuel : Nat) :
    ∃ m1 idx, TMap.NewKey traits (fuel + 1) m k = .ok (m1, idx) ∧
      TMap.NewKeySpec traits m k m1 idx ∧ m1.Size = m.Size ∧ m1.Fresh := by
  rcases h.newKey_step k habs fuel with ⟨m1, idx, h1, h2, h3, h4⟩ | ⟨lf, _, hall, _, _⟩
  · exact ⟨m1, idx, h1, h2, h3, h4 hf⟩
  · exfalso
    have hallused : ∀ i ∈ List.range m.Size, m.usedB i = true := by
      intro i hi
      rw [List.mem_range] at hi
      by_cases hil : (i : Int) < m.LastFree
      · exact hall i hil
      · exact hf i (by omega) hi
    have := List.countP_eq_length.mpr hallused
    rw [← h.numUsed, List.length_range] at this
    omega

/-- Whatever `NewKey` returns for a key that is not in a well-formed table
satisfies its specification, for every fuel. -/
theorem TMap.WF.newKey_spec {K V : Type} {traits : THashTraits K} (fuel : Nat) :
    ∀ (m : TMap K V) (k : K), m.WF traits → m.Absent k →
      ∀ m1 idx, TMap.NewKey traits fuel m k = .ok (m1, idx) →
        TMap.NewKeySpec traits m k m1 idx := by
  induction fuel with
  | zero =>
    intro m k _ _ m1 idx h1
    rw [TMap.NewKey] at h1
    cases h1
  | succ f ih =>
    intro m k h habs m1 idx h1
    rcases h.newKey_step k habs f with ⟨m2, idx2, h2, h3, _, _⟩ | ⟨lf, hlf, _, _, hrun⟩
    · rw [h2] at h1
      cases h1
      exact h3
    · rw [hrun] at h1
      have hwf1 : TMap.WF traits { m with LastFree := lf } :=
        h.withLastFree lf (le_trans hlf h.lastFree)
      obtain ⟨hres, _⟩ := hwf1.resizeWith (TMap.NewKey traits f) False 0
        ((m.Size <<< 1) % 2 ^ 32)
        (fun m1 k1 hm1 hab1 => ⟨fun m2 idx2 hh => ih m1 k1 hm1 hab1 m2 idx2 hh,
          fun hF => absurd hF id⟩)
      cases hrz : TMap.ResizeWith (TMap.NewKey traits f) { m with LastFree := lf }
          ((m.Size <<< 1) % 2 ^ 32) with
      | error e => rw [hrz] at h1; cases h1
      | ok m2 =>
        rw [hrz] at h1
        obtain ⟨a1, a2, a3⟩ := hres m2 hrz
        have hab2 : m2.Absent k := by
          rw [TMap.absent_iff]
          intro v hv
          exact (TMap.absent_iff m k).mp habs v ((a3 k v).mp hv)
        have hs := ih m2 k a1 hab2 m1 idx h1
        exact ⟨hs.wf, hs.used, hs.key, by rw [hs.numUsed, a2],
          fun k1 v1 => by rw [hs.has k1 v1, a3 k1 v1]; exact Iff.rfl⟩

/-- With fuel for one rehash, `NewKey` returns on every well-formed table whose size
can be doubled in 32 bits. -/
theorem TMap.WF.newKey_total {K V : Type} {traits : THashTraits K} {m : TMap K V}
    (h : m.WF traits) (k : K) (habs : m.Absent k) (hsize : 2 * m.Size < 2 ^ 32)
    (fuel : Nat) :
    ∃ m1 idx, TMap.NewKey traits (fuel + 2) m k = .ok (m1, idx) := by
  rcases h.newKey_step k habs (fuel + 1) with ⟨m2, idx2, h2, _, _, _⟩ | ⟨lf, hlf, _, _, hrun⟩
  · exact ⟨m2, idx2, h2⟩
  · rw [hrun]
    obtain ⟨j, hj, hsz⟩ := h.size
    have hj30 : j < 31 := by
      by_contra hcon
      have : j = 31 := by omega
      subst this
      rw [hsz] at hsize
      norm_num at hsize
    have hwf1 : TMap.WF traits { m with LastFree := lf } :=
      h.withLastFree lf (le_trans hlf h.lastFree)
    have hnh : (m.Size <<< 1) % 2 ^ 32 = 2 ^ (j + 1) := by
      rw [hsz]
      exact shiftLeft_one_pow j hj30
    obtain ⟨hres, htot⟩ := hwf1.resizeWith (TMap.NewKey traits (fuel + 1)) True (j + 1)
      ((m.Size <<< 1) % 2 ^ 32)
      (fun m1 k1 hm1 hab1 => ⟨fun m2 idx2 hh => TMap.WF.newKey_spec (fuel + 1) m1 k1 hm1 hab1
          m2 idx2 hh,
        fun _ hfr hs1 hroom => by
          obtain ⟨m2, idx2, r1, _, r3, r4⟩ := hm1.newKey_fresh k1 hab1 hfr
            (by rw [hs1]; exact hroom) fuel
          exact ⟨m2, idx2, r1, r4, by rw [r3, hs1]⟩⟩)
    have hroom : m.NumUsed < 2 ^ (j + 1) := by
      have := h.numUsed_lt.1
      rw [hsz] at this
      rw [pow_succ]
      have : 0 < 2 ^ j := Nat.pow_pos (by norm_num)
      omega
    obtain ⟨m2, hrz, hfr2, hs2⟩ := htot trivial hnh (by omega) hroom
    obtain ⟨a1, a2, a3⟩ := hres m2 hrz
    have hab2 : m2.Absent k := by
      rw [TMap.absent_iff]
      intro v hv
      exact (TMap.absent_iff m k).mp habs v ((a3 k v).mp hv)
    obtain ⟨m3, idx3, r1, _, _, _⟩ := a1.newKey_fresh k hab2 hfr2
      (by rw [a2, hs2]; exact hroom) fuel
    rw [hrz]
    exact ⟨m3, idx3, r1⟩

/-- In a well-formed table a key has one value slot. -/
theorem TMap.WF.has_unique {K V : Type} {traits : THashTraits K} {m : TMap K V}
    (h : m.WF traits) (k : K) (v1 v2 : Option V) (h1 : m.Has k v1) (h2 : m.Has k v2) :
    v1 = v2 := by
  obtain ⟨i, hi, hk, hv⟩ := h1
  obtain ⟨j, hj, hkj, hvj⟩ := h2
  have := h.distinct i j k hi hj hk hkj
  subst this
  rw [← hv, ← hvj]

/-- `CheckKey` on a well-formed table: the value of the node that holds the key, or
`NULL` when no node holds it. -/
theorem TMap.WF.checkKey {K V : Type} {traits : THashTraits K} {m : TMap K V}
    (h : m.WF traits) (hlaw : traits.Lawful) (k : K) :
    (∀ v, m.Has k (some v) → m.CheckKey traits k = .ok (some v)) ∧
    (m.Has k none → m.CheckKey traits k = .error Fault.uninitialised) ∧
    (m.Absent k → m.CheckKey traits k = .ok none) := by
  rcases h.findKey hlaw k with ⟨i, hfind, hi, hk⟩ | ⟨hfind, habs⟩
  · obtain ⟨nd, hnd, _⟩ := m.nodeAt_of_lt i (m.usedB_lt i hi)
    have hval := m.valueAt_of_nodeAt i nd hnd
    have hhas : m.Has k nd.Value := ⟨i, hi, hk, hval⟩
    have hrun : m.CheckKey traits k =
        match nd.Value with
        | none => .error Fault.uninitialised
        | some v => .ok (some v) := by
      rw [TMap.CheckKey, hfind]
      simp only [hnd]
    refine ⟨?_, ?_, ?_⟩
    · intro v hv
      have := h.has_unique k _ _ hhas hv
      rw [hrun, this]
    · intro hv
      have := h.has_unique k _ _ hhas hv
      rw [hrun, this]
    · intro hab
      exact absurd hk (hab i hi)
  · refine ⟨?_, ?_, ?_⟩
    · rintro v ⟨i, hi, hk, _⟩
      exact absurd hk (habs i hi)
    · rintro ⟨i, hi, hk, _⟩
      exact absurd hk (habs i hi)
    · intro _
      rw [TMap.CheckKey, hfind]

/-- Tables that hold the same slots for a key answer `CheckKey` alike. -/
theorem TMap.WF.checkKey_congr {K V : Type} {traits : THashTraits K} {m m1 : TMap K V}
    (h : m.WF traits) (h1 : m1.WF traits) (hlaw : traits.Lawful) (k : K)
    (hhas : ∀ v, m1.Has k v ↔ m.Has k v) : m1.CheckKey traits k = m.CheckKey traits k := by
  obtain ⟨a1, a2, a3⟩ := h.checkKey hlaw k
  obtain ⟨b1, b2, b3⟩ := h1.checkKey hlaw k
  by_cases hab : m.Absent k
  · have hab1 : m1.Absent k := by
      rw [TMap.absent_iff] at hab ⊢
      intro v hv
      exact hab v ((hhas v).mp hv)
    rw [a3 hab, b3 hab1]
  · rw [TMap.absent_iff] at hab
    push_neg at hab
    obtain ⟨v, hv⟩ := hab
    cases v with
    | none => rw [a2 hv, b2 ((hhas none).mpr hv)]
    | some x => rw [a1 x hv, b1 x ((hhas (some x)).mpr hv)]

/-- What `Insert` returns on a well-formed table, whatever the fuel: a well-formed
table that holds the pair and the other pairs of the old table, with one more node
in use exactly when the key was not there. -/
theorem TMap.WF.insert_spec {K V : Type} {traits : THashTraits K} {m m1 : TMap K V}
    (h : m.WF traits) (hlaw : traits.Lawful) (fuel : Nat) (k : K) (v : V)
    (hrun : TMap.Insert traits fuel m k v = .ok m1) :
    m1.WF traits ∧
    (∀ k1 v1, m1.Has k1 v1 ↔ (k1 ≠ k ∧ m.Has k1 v1) ∨ (k1 = k ∧ v1 = some v)) ∧
    (m.Absent k → m1.NumUsed = m.NumUsed + 1) ∧ (¬ m.Absent k → m1.NumUsed = m.NumUsed) := by
  rcases h.findKey hlaw k with ⟨i, hfind, hi, hk⟩ | ⟨hfind, habs⟩
  · -- the key is in the table: its value is assigned
    rw [TMap.Insert, hfind] at hrun
    obtain ⟨m2, hsv, f1, f2, f3, f4, f5, f6, f7⟩ := m.setValue_ok i (some v) (m.usedB_lt i hi)
    simp only [hsv, Except.ok.injEq] at hrun
    subst hrun
    have hU := TMap.usedB_congr m m2 f5
    refine ⟨h.wf_congr f5 f6 f1 f3 (by rw [f2]; exact h.lastFree) f4, ?_,
      fun hab => absurd hk (hab i hi), fun _ => f4⟩
    intro k1 v1
    constructor
    · rintro ⟨j, hj, hkj, hvj⟩
      rw [hU] at hj
      rw [f6] at hkj
      rw [f7] at hvj
      by_cases hji : j = i
      · subst hji
        rw [hk] at hkj
        cases hkj
        rw [Function.update_same] at hvj
        exact Or.inr ⟨rfl, hvj.symm⟩
      · rw [Function.update_noteq hji] at hvj
        refine Or.inl ⟨?_, j, hj, hkj, hvj⟩
        intro hkk
        subst hkk
        exact hji (h.distinct j i k1 hj hi hkj hk)
    · rintro (⟨hne, j, hj, hkj, hvj⟩ | ⟨h1, h2⟩)
      · have hji : j ≠ i := by
          intro hji
          subst hji
          rw [hk] at hkj
          cases hkj
          exact hne rfl
        exact ⟨j, by rw [hU]; exact hj, by rw [f6]; exact hkj,
          by rw [f7, Function.update_noteq hji]; exact hvj⟩
      · subst h1
        exact ⟨i, by rw [hU]; exact hi, by rw [f6]; exact hk,
          by rw [f7, Function.update_same, h2]⟩
  · -- the key is not in the table: a node is made for it
    rw [TMap.Insert, hfind] at hrun
    simp only at hrun
    cases hnk : TMap.NewKey traits fuel m k with
    | error e => rw [hnk] at hrun; cases hrun
    | ok r =>
      obtain ⟨m2, idx⟩ := r
      rw [hnk] at hrun
      simp only at hrun
      have hspec := TMap.WF.newKey_spec fuel m k h habs m2 idx hnk
      obtain ⟨m3, hsv, hput, _, _, _⟩ := hspec.setValue habs (some v)
      rw [hsv] at hrun
      cases hrun
      refine ⟨hput.wf, ?_, fun _ => hput.numUsed, fun hn => absurd habs hn⟩
      intro k1 v1
      rw [hput.has]
      constructor
      · rintro (h1 | h1)
        · refine Or.inl ⟨?_, h1⟩
          intro hkk
          subst hkk
          exact (TMap.absent_iff m k1).mp habs v1 h1
        · exact Or.inr h1
      · rintro (⟨_, h1⟩ | h1)
        · exact Or.inl h1
        · exact Or.inr h1

/-- With fuel for one rehash, `Insert` returns on every well-formed table whose size
can be doubled in 32 bits. -/
theorem TMap.WF.insert_total {K V : Type} {traits : THashTraits K} {m : TMap K V}
    (h : m.WF traits) (hlaw : traits.Lawful) (hsize : 2 * m.Size < 2 ^ 32) (fuel : Nat)
    (k : K) (v : V) : ∃ m1, TMap.Insert traits (fuel + 2) m k v = .ok m1 := by
  rcases h.findKey hlaw k with ⟨i, hfind, hi, hk⟩ | ⟨hfind, habs⟩
  · obtain ⟨m2, hsv, _⟩ := m.setValue_ok i (some v) (m.usedB_lt i hi)
    exact ⟨m2, by rw [TMap.Insert, hfind]; exact hsv⟩
  · obtain ⟨m2, idx, hnk⟩ := h.newKey_total k habs hsize fuel
    have hspec := TMap.WF.newKey_spec (fuel + 2) m k h habs m2 idx hnk
    obtain ⟨m3, hsv, _⟩ := hspec.setValue habs (some v)
    refine ⟨m3, ?_⟩
    rw [TMap.Insert, hfind]
    simp only [hnk]
    exact hsv

/-- Freeing a node in use keeps the invariant, given the chains of the new table. -/
theorem TMap.WF.free_node {K V : Type} {traits : THashTraits K} {m m1 : TMap K V} (i : Nat)
    (h : m.WF traits) (hi : m.usedB i = true)
    (hU : ∀ j, m1.usedB j = if j = i then false else m.usedB j)
    (hK : ∀ j, j ≠ i → m1.keyAt j = m.keyAt j)
    (hS : m1.Size = m.Size) (hLen : m1.Nodes.length = m.Nodes.length)
    (hLF : m1.LastFree ≤ m.Size) (hNU : m1.NumUsed = (m.NumUsed + 2 ^ 32 - 1) % 2 ^ 32)
    (hch : ∃ chain, m1.Chains traits chain) : m1.WF traits := by
  have hiS : i < m.Size := by rw [← h.length]; exact m.usedB_lt i hi
  have hcount : (List.range m.Size).countP m.usedB = (List.range m.Size).countP m1.usedB + 1 :=
    countP_range_flip m1.usedB m.usedB m.Size i hiS
      (fun j hj => by rw [hU j, if_neg hj]) (by rw [hU i, if_pos rfl]) hi
  have hb := h.numUsed_lt
  refine ⟨by rw [hS]; exact h.size, by rw [hLen, hS]; exact h.length, by rw [hS]; exact hLF,
    ?_, ?_, ?_, hch⟩
  · rw [hNU, hS, h.numUsed, hcount]
    have : (List.range m.Size).countP m1.usedB + 1 ≤ 2 ^ 31 := by
      rw [← hcount, ← h.numUsed]
      omega
    omega
  · intro j hj
    rw [hU j] at hj
    by_cases hji : j = i
    · rw [if_pos hji] at hj
      cases hj
    · rw [if_neg hji] at hj
      rw [hK j hji]
      exact h.keys j hj
  · intro j j1 k hj hj1 hkj hkj1
    rw [hU] at hj hj1
    by_cases hji : j = i
    · rw [if_pos hji] at hj
      cases hj
    · by_cases hj1i : j1 = i
      · rw [if_pos hj1i] at hj1
        cases hj1
      · rw [if_neg hji] at hj
        rw [if_neg hj1i] at hj1
        rw [hK j hji] at hkj
        rw [hK j1 hj1i] at hkj1
        exact h.distinct j j1 k hj hj1 hkj hkj1

/-- The chains after the only node of a chain is freed. -/
theorem TMap.Chains.remove_single {K V : Type} {traits : THashTraits K} {m m1 : TMap K V}
    {chain : Nat → List Nat} (hc : m.Chains traits chain) (p : Nat) (hp : chain p = [p])
    (hN : m1.nextAt = Function.update m.nextAt p (some NodePtr.one))
    (hK : ∀ j, j ≠ p → m1.keyAt j = m.keyAt j) (hS : m1.Size = m.Size) :
    m1.Chains traits (Function.update chain p []) := by
  have hMP : ∀ k1, m1.MainPosition traits k1 = m.MainPosition traits k1 :=
    fun k1 => TMap.mainPosition_congr traits m m1 k1 hS
  have hU : ∀ j, m1.usedB j = if j = p then false else m.usedB j := by
    intro j
    rw [TMap.usedB_update m m1 p _ hN j]
    simp
  have hnotp : ∀ q i, q ≠ p → i ∈ chain q → i ≠ p := by
    intro q i hq hi hip
    subst hip
    exact hq (hc.unique q i i hi (by rw [hp]; exact List.mem_singleton_self i))
  refine ⟨?_, ?_, ?_, ?_, ?_⟩
  · intro q
    by_cases hq : q = p
    · subst hq
      left
      simp
    · rw [Function.update_noteq hq]
      exact hc.1 q
  · intro q
    by_cases hq : q = p
    · subst hq
      rw [Function.update_same]
      trivial
    · rw [Function.update_noteq hq]
      apply TMap.Linked.linked_congr _ (hc.2.1 q)
      intro i hi
      rw [hN, Function.update_noteq (hnotp q i hq hi)]
  · intro q
    by_cases hq : q = p
    · subst hq
      simp
    · rw [Function.update_noteq hq]
      exact hc.2.2.1 q
  · intro q i hi
    by_cases hq : q = p
    · subst hq
      rw [Function.update_same] at hi
      cases hi
    · rw [Function.update_noteq hq] at hi
      obtain ⟨k1, h1, h2⟩ := hc.2.2.2.1 q i hi
      exact ⟨k1, by rw [hK i (hnotp q i hq hi)]; exact h1, by rw [hMP]; exact h2⟩
  · intro i k1 hi hki
    rw [hU] at hi
    by_cases hip : i = p
    · rw [if_pos hip] at hi
      cases hi
    · rw [if_neg hip] at hi
      rw [hK i hip] at hki
      rw [hMP]
      have hmem := hc.2.2.2.2 i k1 hi hki
      have hq : m.MainPosition traits k1 ≠ p := by
        intro hq
        rw [hq, hp] at hmem
        exact hip (List.mem_singleton.mp hmem)
      rw [Function.update_noteq hq]
      exact hmem

/-- The chains after the node `i` that follows `prev` is unlinked and freed. -/
theorem TMap.Chains.unlink {K V : Type} {traits : THashTraits K} {m m1 : TMap K V}
    {chain : Nat → List Nat} (hc : m.Chains traits chain) (hkeys : ∀ j, m.usedB j = true →
      ∃ k, m.keyAt j = some k) (prev i : Nat)
    (hprev : m.nextAt prev = some (NodePtr.node i))
    (hN : m1.nextAt = Function.update (Function.update m.nextAt prev (m.nextAt i)) i
      (some NodePtr.one))
    (hK : ∀ j, j ≠ i → m1.keyAt j = m.keyAt j) (hS : m1.Size = m.Size) :
    m.usedB i = true ∧ prev ≠ i ∧
    (∀ j, m1.usedB j = if j = i then false else m.usedB j) ∧
    (∀ ki kp, m.keyAt i = some ki → m.keyAt prev = some kp →
      m.MainPosition traits ki = m.MainPosition traits kp) ∧
    ∃ chain1, m1.Chains traits chain1 := by
  have hMP : ∀ k1, m1.MainPosition traits k1 = m.MainPosition traits k1 :=
    fun k1 => TMap.mainPosition_congr traits m m1 k1 hS
  have hprevused : m.usedB prev = true := (m.usedB_iff prev).mpr ⟨_, hprev, by simp⟩
  obtain ⟨kp, hkp⟩ := hkeys prev hprevused
  generalize hqdef : m.MainPosition traits kp = q at *
  have hmem := hc.2.2.2.2 prev kp hprevused hkp
  rw [hqdef] at hmem
  obtain ⟨l, rest0, hsp⟩ := List.append_of_mem hmem
  have hlink := hc.2.1 q
  have hnod := hc.2.2.1 q
  rw [hsp] at hlink hnod
  have hnx := hlink.of_append.1
  rw [hprev] at hnx
  cases rest0 with
  | nil => simp [headPtr] at hnx
  | cons b rest =>
    simp only [headPtr, Option.some.injEq, NodePtr.node.injEq] at hnx
    subst hnx
    have hiq : i ∈ chain q := by rw [hsp]; simp
    have hiused := hc.chain_used q i hiq
    have hnod2 := (List.nodup_append.mp hnod).2.1
    have hdis := (List.nodup_append.mp hnod).2.2
    have hprevi : prev ≠ i := by
      intro hh
      rw [hh] at hnod2
      simp at hnod2
    have hU : ∀ j, m1.usedB j = if j = i then false else m.usedB j := by
      intro j
      unfold TMap.usedB
      rw [hN]
      by_cases hji : j = i
      · subst hji
        simp
      · rw [Function.update_noteq hji, if_neg hji]
        by_cases hjp : j = prev
        · subst hjp
          rw [Function.update_same]
          unfold TMap.usedB at hprevused hiused
          rw [hprevused]
          cases hni : m.nextAt i with
          | none => rw [hni] at hiused; cases hiused
          | some x => rw [hni] at hiused; exact hiused
        · rw [Function.update_noteq hjp]
    have hsame : ∀ ki kp1, m.keyAt i = some ki → m.keyAt prev = some kp1 →
        m.MainPosition traits ki = m.MainPosition traits kp1 := by
      intro ki kp1 h1 h2
      obtain ⟨k1, a1, a2⟩ := hc.2.2.2.1 q i hiq
      rw [h1] at a1
      cases a1
      rw [hkp] at h2
      cases h2
      rw [a2, hqdef]
    refine ⟨hiused, hprevi, hU, hsame, ?_⟩
    have hil : i ∉ l := fun hh => hdis hh (by simp)
    have hir : i ∉ rest := by
      intro hh
      simp only [List.nodup_cons, List.mem_cons] at hnod2
      exact hnod2.2.1 hh
    have hmemnew : ∀ j, j ∈ l ++ prev :: rest ↔ j ∈ chain q ∧ j ≠ i := by
      intro j
      rw [hsp]
      simp only [List.mem_append, List.mem_cons]
      constructor
      · rintro (h1 | h1 | h1)
        · exact ⟨Or.inl h1, fun hh => hil (hh ▸ h1)⟩
        · exact ⟨Or.inr (Or.inl h1), fun hh => hprevi (h1 ▸ hh)⟩
        · exact ⟨Or.inr (Or.inr (Or.inr h1)), fun hh => hir (hh ▸ h1)⟩
      · rintro ⟨h1 | h1 | h1 | h1, h2⟩
        · exact Or.inl h1
        · exact Or.inr (Or.inl h1)
        · exact absurd h1 h2
        · exact Or.inr (Or.inr h1)
    refine ⟨Function.update chain q (l ++ prev :: rest), ?_, ?_, ?_, ?_, ?_⟩
    · intro r
      by_cases hr : r = q
      · subst hr
        rw [Function.update_same]
        right
        rcases hc.1 r with h0 | ⟨t, ht⟩
        · rw [h0] at hiq
          cases hiq
        · rw [hsp] at ht
          cases l with
          | nil =>
            simp only [List.nil_append, List.cons.injEq] at ht
            exact ⟨rest, by simp [ht.1]⟩
          | cons a l1 =>
            simp only [List.cons_append, List.cons.injEq] at ht
            exact ⟨l1 ++ prev :: rest, by simp [ht.1]⟩
      · rw [Function.update_noteq hr]
        exact hc.1 r
    · intro r
      by_cases hr : r = q
      · subst hr
        rw [Function.update_same]
        have hlsame : ∀ j ∈ l, m1.nextAt j = m.nextAt j := by
          intro j hj
          have hji : j ≠ i := fun hh => hil (hh ▸ hj)
          have hjp : j ≠ prev := fun hh => hdis hj (by simp [hh])
          rw [hN, Function.update_noteq hji, Function.update_noteq hjp]
        have hrsame : ∀ j ∈ rest, m1.nextAt j = m.nextAt j := by
          intro j hj
          have hji : j ≠ i := fun hh => hir (hh ▸ hj)
          have hjp : j ≠ prev := by
            intro hh
            simp only [List.nodup_cons, List.mem_cons] at hnod2
            exact hnod2.1 (Or.inr (hh ▸ hj))
          rw [hN, Function.update_noteq hji, Function.update_noteq hjp]
        have his : m.Linked (i :: rest) := hlink.of_append.2
        refine @TMap.Linked.replace_tail _ _ _ _ _ _ (prev :: rest) hlsame hlink ?_ rfl
        refine ⟨?_, TMap.Linked.linked_congr hrsame his.2⟩
        rw [hN, Function.update_noteq hprevi, Function.update_same]
        exact his.1
      · rw [Function.update_noteq hr]
        apply TMap.Linked.linked_congr _ (hc.2.1 r)
        intro j hj
        have hji : j ≠ i := by
          intro hh
          subst hh
          exact hr (hc.unique r q j hj hiq)
        have hjp : j ≠ prev := by
          intro hh
          subst hh
          exact hr (hc.unique r q j hj hmem)
        rw [hN, Function.update_noteq hji, Function.update_noteq hjp]
    · intro r
      by_cases hr : r = q
      · subst hr
        rw [Function.update_same]
        apply List.Nodup.sublist _ hnod
        apply List.Sublist.append_left
        exact List.Sublist.cons₂ prev (List.sublist_cons_self i rest)
      · rw [Function.update_noteq hr]
        exact hc.2.2.1 r
    · intro r j hj
      by_cases hr : r = q
      · subst hr
        rw [Function.update_same] at hj
        obtain ⟨hjq, hji⟩ := (hmemnew j).mp hj
        obtain ⟨k1, h1, h2⟩ := hc.2.2.2.1 r j hjq
        exact ⟨k1, by rw [hK j hji]; exact h1, by rw [hMP]; exact h2⟩
      · rw [Function.update_noteq hr] at hj
        have hji : j ≠ i := by
          intro hh
          subst hh
          exact hr (hc.unique r q j hj hiq)
        obtain ⟨k1, h1, h2⟩ := hc.2.2.2.1 r j hj
        exact ⟨k1, by rw [hK j hji]; exact h1, by rw [hMP]; exact h2⟩
    · intro j k1 hj hkj
      rw [hU] at hj
      by_cases hji : j = i
      · rw [if_pos hji] at hj
        cases hj
      · rw [if_neg hji] at hj
        rw [hK j hji] at hkj
        rw [hMP]
        have hm := hc.2.2.2.2 j k1 hj hkj
        by_cases hr : m.MainPosition traits k1 = q
        · rw [hr, Function.update_same]
          rw [hr] at hm
          exact (hmemnew j).mpr ⟨hm, hji⟩
        · rw [Function.update_noteq hr]
          exact hm

/-- Replacing the key of a node in use by a key of the same main position that no
other node holds keeps the invariant. -/
theorem TMap.WF.rekey {K V : Type} {traits : THashTraits K} {m m1 : TMap K V} (p : Nat)
    (k0 kn : K) (h : m.WF traits) (hused : m.usedB p = true) (hk0 : m.keyAt p = some k0)
    (hmp : m.MainPosition traits kn = m.MainPosition traits k0)
    (habs : ∀ j, m.usedB j = true → j ≠ p → m.keyAt j ≠ some kn)
    (hN : m1.nextAt = m.nextAt) (hK : m1.keyAt = Function.update m.keyAt p (some kn))
    (hS : m1.Size = m.Size) (hLen : m1.Nodes.length = m.Nodes.length)
    (hLF : m1.LastFree ≤ m.Size) (hNU : m1.NumUsed = m.NumUsed) : m1.WF traits := by
  have hU := TMap.usedB_congr m m1 hN
  have hMP : ∀ k1, m1.MainPosition traits k1 = m.MainPosition traits k1 :=
    fun k1 => TMap.mainPosition_congr traits m m1 k1 hS
  obtain ⟨chain, hc⟩ := h.chains
  refine ⟨by rw [hS]; exact h.size, by rw [hLen, hS]; exact h.length, by rw [hS]; exact hLF,
    by rw [hNU, hS, hU]; exact h.numUsed, ?_, ?_, chain, hc.1, ?_, hc.2.2.1, ?_, ?_⟩
  · intro j hj
    rw [hU] at hj
    rw [hK]
    by_cases hjp : j = p
    · subst hjp
      simp
    · rw [Function.update_noteq hjp]
      exact h.keys j hj
  · intro j j1 k hj hj1 hkj hkj1
    rw [hU] at hj hj1
    rw [hK] at hkj hkj1
    by_cases hjp : j = p <;> by_cases hj1p : j1 = p
    · rw [hjp, hj1p]
    · exfalso
      subst hjp
      rw [Function.update_same] at hkj
      rw [Function.update_noteq hj1p] at hkj1
      cases hkj
      exact habs j1 hj1 hj1p hkj1
    · exfalso
      subst hj1p
      rw [Function.update_same] at hkj1
      rw [Function.update_noteq hjp] at hkj
      cases hkj1
      exact habs j hj hjp hkj
    · rw [Function.update_noteq hjp] at hkj
      rw [Function.update_noteq hj1p] at hkj1
      exact h.distinct j j1 k hj hj1 hkj hkj1
  · intro q
    exact TMap.Linked.linked_congr (fun i _ => by rw [hN]) (hc.2.1 q)
  · intro q i hi
    obtain ⟨k1, h1, h2⟩ := hc.2.2.2.1 q i hi
    by_cases hip : i = p
    · subst hip
      rw [hk0] at h1
      cases h1
      exact ⟨kn, by rw [hK, Function.update_same], by rw [hMP, hmp]; exact h2⟩
    · exact ⟨k1, by rw [hK, Function.update_noteq hip]; exact h1, by rw [hMP]; exact h2⟩
  · intro i k1 hi hki
    rw [hU] at hi
    rw [hK] at hki
    rw [hMP]
    by_cases hip : i = p
    · subst hip
      rw [Function.update_same] at hki
      cases hki
      rw [hmp]
      exact hc.2.2.2.2 i k0 hi hk0
    · rw [Function.update_noteq hip] at hki
      exact hc.2.2.2.2 i k1 hi hki

/-- The loop of `DelKey` returns a node together with the node that points to
it. -/
theorem delKeyLoop_pred {K V : Type} (traits : THashTraits K) (m : TMap K V) (key : K)
    (fuel prev : Nat) (ptr : NodePtr) (pr i : Nat) (hinv : m.nextAt prev = some ptr)
    (h : delKeyLoop traits m key fuel prev ptr = .ok (some (pr, i))) :
    m.nextAt pr = some (NodePtr.node i) := by
  induction fuel generalizing prev ptr with
  | zero => cases h
  | succ f ih =>
    cases ptr with
    | one => cases h
    | null => cases h
    | node j =>
      rw [delKeyLoop] at h
      cases hnd : m.nodeAt j with
      | error e => rw [hnd] at h; cases h
      | ok nd =>
        rw [hnd] at h
        simp only at h
        cases hk : nd.Key with
        | none => rw [hk] at h; cases h
        | some k0 =>
          rw [hk] at h
          simp only at h
          cases hc : traits.Compare k0 key
          · rw [hc] at h
            simp only [Bool.false_eq_true, if_false, Except.ok.injEq, Option.some.injEq,
              Prod.mk.injEq] at h
            rw [← h.1, ← h.2]
            exact hinv
          · rw [hc] at h
            simp only [if_true] at h
            exact ih j nd.Next (m.nextAt_of_nodeAt j nd hnd) h

/-- The table after the two stores and the counter update with which `DelKey`
takes node `i` out: node `prev` overwritten by `x`, node `i` marked free. -/
theorem TMap.unlink_run {K V : Type} (m : TMap K V) (prev i : Nat) (x nd : TMap.Node K V)
    (u : Nat) (hprev : prev < m.Nodes.length) (hnd : m.nodeAt i = .ok nd) (hpi : prev ≠ i)
    (m1 : TMap K V)
    (hm1 : m1 = { TMap.setNode (m.setNode prev x) i { nd with Next := NodePtr.one } with
      NumUsed := u }) :
    m1.nextAt = Function.update (Function.update m.nextAt prev (some x.Next)) i
      (some NodePtr.one) ∧
    m1.keyAt = Function.update m.keyAt prev x.Key ∧
    m1.Size = m.Size ∧ m1.Nodes.length = m.Nodes.length ∧ m1.LastFree = m.LastFree ∧
    m1.NumUsed = u := by
  subst hm1
  have hilen := m.nodeAt_lt i nd hnd
  have hilen2 : i < (m.setNode prev x).Nodes.length := by
    rw [TMap.length_setNode]
    exact hilen
  refine ⟨?_, ?_, ?_, ?_, ?_, rfl⟩
  · show TMap.nextAt (TMap.setNode _ _ _) = _
    rw [TMap.nextAt_setNode _ i _ hilen2, TMap.nextAt_setNode m prev _ hprev]
  · show TMap.keyAt (TMap.setNode _ _ _) = _
    rw [TMap.keyAt_setNode _ i _ hilen2, TMap.keyAt_setNode m prev _ hprev]
    funext j
    by_cases hji : j = i
    · subst hji
      rw [Function.update_same, Function.update_noteq (Ne.symm hpi)]
      exact (m.keyAt_of_nodeAt j nd hnd).symm
    · rw [Function.update_noteq hji]
  · simp
  · simp [TMap.length_setNode]
  · simp

/-- The table after the store and the counter update with which `DelKey` frees a
node that is alone in its chain. -/
theorem TMap.clear_run {K V : Type} (m : TMap K V) (p : Nat) (nd : TMap.Node K V)
    (u : Nat) (hnd : m.nodeAt p = .ok nd) (m1 : TMap K V)
    (hm1 : m1 = { m.setNode p { nd with Next := NodePtr.one } with NumUsed := u }) :
    m1.nextAt = Function.update m.nextAt p (some NodePtr.one) ∧
    m1.keyAt = m.keyAt ∧
    m1.Size = m.Size ∧ m1.Nodes.length = m.Nodes.length ∧ m1.LastFree = m.LastFree ∧
    m1.NumUsed = u := by
  subst hm1
  obtain ⟨s1, s2, _⟩ := m.setNext_spec p nd NodePtr.one hnd
  refine ⟨s1, s2, ?_, ?_, ?_, rfl⟩
  · simp
  · simp [TMap.length_setNode]
  · simp

/-- Whatever `DelKey` returns on a well-formed table is well formed. -/
theorem TMap.WF.delKey {K V : Type} {traits : THashTraits K} {m m1 : TMap K V}
    (h : m.WF traits) (hlaw : traits.Lawful) (k : K)
    (hrun : m.DelKey traits k = .ok m1) : m1.WF traits := by
  have hp := h.mainPosition_lt k
  obtain ⟨mpNode, hnd, _⟩ := m.nodeAt_of_lt _ (by rw [h.length]; exact hp)
  obtain ⟨chain, hc⟩ := h.chains
  rw [TMap.DelKey] at hrun
  simp only [hnd] at hrun
  cases hnil : mpNode.IsNil
  · rw [hnil] at hrun
    simp only [Bool.false_eq_true, if_false] at hrun
    have hused : m.usedB (m.MainPosition traits k) = true := by
      rw [m.usedB_of_nodeAt _ mpNode hnd, hnil]
      rfl
    obtain ⟨k0, hk0⟩ := h.keys _ hused
    have hkey : mpNode.Key = some k0 := by rw [← m.keyAt_of_nodeAt _ mpNode hnd]; exact hk0
    have hnext := m.nextAt_of_nodeAt _ mpNode hnd
    generalize hpdef : m.MainPosition traits k = p at *
    have hplen : p < m.Nodes.length := by rw [h.length]; exact hp
    obtain ⟨nx, ky, vl⟩ := mpNode
    simp only at hkey hnext
    subst hkey
    simp only at hrun
    cases hcmp : traits.Compare k0 k
    · -- the key is in its main position
      rw [hcmp] at hrun
      simp only [Bool.not_false, if_true] at hrun
      have hkk : k0 = k := (hlaw k0 k).mp hcmp
      cases nx with
      | node n =>
        simp only at hrun
        cases hndn : m.nodeAt n with
        | error e => rw [hndn] at hrun; cases hrun
        | ok nd =>
          rw [hndn] at hrun
          simp only at hrun
          have hnp : p ≠ n := by
            intro hh
            rw [← hh] at hnext
            exact h.next_ne_self p hnext
          have hnd1 : (m.setNode p nd).nodeAt n = .ok nd := by
            rw [TMap.nodeAt_setNode_ne m p n nd hnp]
            exact hndn
          rw [hnd1] at hrun
          simp only [Except.ok.injEq] at hrun
          have hnn := m.nextAt_of_nodeAt n nd hndn
          have hkn := m.keyAt_of_nodeAt n nd hndn
          obtain ⟨hN, hK, hS, hLen, hLF, hNU⟩ :=
            TMap.unlink_run m p n nd nd _ hplen hndn hnp m1 hrun.symm
          -- the table with `n` unlinked and the key of `p` kept
          obtain ⟨A, hAdef⟩ : ∃ A : TMap K V, A = { TMap.setNode
              (m.setNode p ⟨nd.Next, some k0, vl⟩) n { nd with Next := NodePtr.one } with
              NumUsed := (m.NumUsed + 2 ^ 32 - 1) % 2 ^ 32 } := ⟨_, rfl⟩
          obtain ⟨aN, aK, aS, aLen, aLF, aNU⟩ :=
            TMap.unlink_run m p n ⟨nd.Next, some k0, vl⟩ nd
              ((m.NumUsed + 2 ^ 32 - 1) % 2 ^ 32) hplen hndn hnp A hAdef
          clear hAdef
          simp only at aN aK
          rw [← hnn] at aN
          have aK2 := aK.trans (Function.update_eq_self_iff.mpr hk0.symm)
          obtain ⟨hnused, _, hU, hsame, hch⟩ :=
            hc.unlink h.keys p n hnext aN (fun j _ => by rw [aK2]) aS
          have hA := h.free_node n hnused hU (fun j _ => by rw [aK2]) aS aLen
            (by rw [aLF]; exact h.lastFree) aNU hch
          obtain ⟨kn, hknn⟩ := h.keys n hnused
          have hndk : nd.Key = some kn := by rw [← hkn]; exact hknn
          apply hA.rekey p k0 kn
          · rw [hU p, if_neg hnp]
            exact hused
          · rw [aK2]
            exact hk0
          · rw [TMap.mainPosition_congr traits m A kn aS,
              TMap.mainPosition_congr traits m A k0 aS]
            exact hsame kn k0 hknn hk0
          · intro j hj hjp
            rw [hU j] at hj
            by_cases hjn : j = n
            · rw [if_pos hjn] at hj
              cases hj
            · rw [if_neg hjn] at hj
              rw [aK2]
              intro hkj
              exact hjn (h.distinct j n kn hj hnused hkj hknn)
          · rw [hN, aN, hnn]
          · rw [hK, aK2, hndk]
          · rw [hS, aS]
          · rw [hLen, aLen]
          · rw [hLF, aS]
            exact h.lastFree
          · rw [hNU, aNU]
      | null =>
        simp only [Except.ok.injEq] at hrun
        have hpmem : p ∈ chain p := by
          have := hc.2.2.2.2 p k0 hused hk0
          rw [hkk, hpdef] at this
          exact this
        have hsingle : chain p = [p] := by
          rcases hc.1 p with h0 | ⟨t, ht⟩
          · rw [h0] at hpmem
            cases hpmem
          · have hl := hc.2.1 p
            rw [ht] at hl
            have := hl.1
            rw [hnext] at this
            cases t with
            | nil => exact ht
            | cons b t2 => simp [headPtr] at this
        obtain ⟨hN, hK, hS, hLen, hLF, hNU⟩ :=
          TMap.clear_run m p ⟨NodePtr.null, some k0, vl⟩ _ hnd m1 hrun.symm
        have hU : ∀ j, m1.usedB j = if j = p then false else m.usedB j := by
          intro j
          rw [TMap.usedB_update m _ p _ hN j]
          simp
        exact h.free_node p hused hU (fun j _ => by rw [hK]) hS hLen
          (by rw [hLF]; exact h.lastFree) hNU
          ⟨_, hc.remove_single p hsingle hN (fun j _ => by rw [hK]) hS⟩
      | one =>
        exfalso
        simp [TMap.Node.IsNil] at hnil
    · -- the key is not in its main position
      rw [hcmp] at hrun
      simp only [Bool.not_true, Bool.false_eq_true, if_false] at hrun
      cases hloop : delKeyLoop traits m k (m.Size + 1) p nx with
      | error e => rw [hloop] at hrun; cases hrun
      | ok r =>
        rw [hloop] at hrun
        cases r with
        | none =>
          simp only [Except.ok.injEq] at hrun
          subst hrun
          exact h
        | some pi =>
          obtain ⟨prev, i⟩ := pi
          simp only at hrun
          have hpred := delKeyLoop_pred traits m k (m.Size + 1) p nx prev i hnext hloop
          cases hndi : m.nodeAt i with
          | error e => rw [hndi] at hrun; cases hrun
          | ok nd =>
            rw [hndi] at hrun
            simp only at hrun
            obtain ⟨prevNode, hprev, hprevnx⟩ := (m.nextAt_eq_some prev _).mp hpred
            rw [hprev] at hrun
            simp only at hrun
            have hpi : prev ≠ i := by
              intro hh
              rw [hh] at hpred
              exact h.next_ne_self i hpred
            have hnd1 : (m.setNode prev { prevNode with Next := nd.Next }).nodeAt i
                = .ok nd := by
              rw [TMap.nodeAt_setNode_ne m prev i _ hpi]
              exact hndi
            rw [hnd1] at hrun
            simp only [Except.ok.injEq] at hrun
            have hni := m.nextAt_of_nodeAt i nd hndi
            obtain ⟨hN, hK, hS, hLen, hLF, hNU⟩ :=
              TMap.unlink_run m prev i { prevNode with Next := nd.Next } nd _
                (m.nodeAt_lt prev prevNode hprev) hndi hpi m1 hrun.symm
            simp only at hN hK
            rw [← hni] at hN
            have hK2 := hK.trans (Function.update_eq_self_iff.mpr
              (m.keyAt_of_nodeAt prev prevNode hprev).symm)
            obtain ⟨hiused, _, hU, _, hch⟩ :=
              hc.unlink h.keys prev i hpred hN (fun j _ => by rw [hK2]) hS
            exact h.free_node i hiused hU (fun j _ => by rw [hK2]) hS hLen
              (by rw [hLF]; exact h.lastFree) hNU hch
  · rw [hnil] at hrun
    simp only [if_true, Except.ok.injEq] at hrun
    subst hrun
    exact h

/-- The table the constructor builds is well formed. -/
theorem TMap.WF.create {K V : Type} (traits : THashTraits K) (m : TMap K V)
    (h : TMap.create = .ok m) : m.WF traits := by
  have hr : roundUpSize 1 33 1 = .ok 1 := roundUpSize_exact 0 33 0 (by omega) (by omega) (by omega)
  rw [TMap.create, TMap.SetNodeVector, hr] at h
  simp only [Except.ok.injEq] at h
  subst h
  exact (TMap.WF.fresh_vector traits 0 (by omega) _ rfl rfl rfl rfl).1

/-- Every table built from `TMap()` by `Insert` and `Remove` is well formed, when
`Compare` returns zero exactly on equal keys. -/
theorem TMap.Reachable.wf {K V : Type} {traits : THashTraits K} (hlaw : traits.Lawful)
    {m : TMap K V} (h : TMap.Reachable traits m) : m.WF traits := by
  induction h with
  | create m hm => exact TMap.WF.create traits m hm
  | insert m m1 fuel key value _ hrun ih => exact (ih.insert_spec hlaw fuel key value hrun).1
  | remove m m1 key _ hrun ih => exact ih.delKey hlaw key hrun

/-- The comparison of an integer key type returns zero exactly on equal keys. -/
theorem intTraits_lawful : intTraits.Lawful := by
  intro a b
  simp [intTraits]

/-- C20, as worded, fails for `float` keys: `THashTraits<float>::Compare` is
`left != right`, which is non-zero for a NaN against itself.  On the table of
`TMap()`, `Insert(NaN, 7)` succeeds, and `CheckKey(NaN)` then returns `NULL`
instead of a pointer to 7; a second `Insert(NaN, 8)` adds a second pair. -/
theorem C20_counterexample :
    ∃ m m1 m2 : TMap Nat Nat, TMap.create = .ok m ∧
      TMap.Insert floatTraits 2 m 0x7FC00000 7 = .ok m1 ∧
      m1.CheckKey floatTraits 0x7FC00000 = .ok none ∧
      TMap.Insert floatTraits 2 m1 0x7FC00000 8 = .ok m2 ∧
      m1.CountUsed = 1 ∧ m2.CountUsed = 2 :=
  ⟨⟨[⟨NodePtr.one, none, none⟩], 1, 1, 0⟩,
    ⟨[⟨NodePtr.null, some 0x7FC00000, some 7⟩], 1, 1, 1⟩,
    ⟨[⟨NodePtr.node 1, some 0x7FC00000, some 7⟩, ⟨NodePtr.null, some 0x7FC00000, some 8⟩],
      1, 2, 2⟩,
    by decide!, by decide!, by decide!, by decide!, by decide!, by decide!⟩

/-- C20, amended: for a key type whose `Compare` returns zero exactly on equal
keys, on every table built from `TMap()` by `Insert` and `Remove` with fewer than
`2^31` nodes, `Insert(k, v)` returns; afterwards `CheckKey(k)` yields `v`,
`CheckKey` of every other key is unchanged, and `CountUsed` is one more when
`CheckKey(k)` was `NULL` before and unchanged otherwise, rehash included. -/
theorem C20_insert_postconditions {K V : Type} (traits : THashTraits K)
    (hlaw : traits.Lawful) (m : TMap K V) (hreach : TMap.Reachable traits m)
    (hsize : 2 * m.Size < 2 ^ 32) (fuel : Nat) (k : K) (v : V) :
    ∃ m1, TMap.Insert traits (fuel + 2) m k v = .ok m1 ∧
      m1.CheckKey traits k = .ok (some v) ∧
      (∀ k1, k1 ≠ k → m1.CheckKey traits k1 = m.CheckKey traits k1) ∧
      (m.CheckKey traits k = .ok none → m1.CountUsed = m.CountUsed + 1) ∧
      (m.CheckKey traits k ≠ .ok none → m1.CountUsed = m.CountUsed) := by
  have h := hreach.wf hlaw
  obtain ⟨m1, hrun⟩ := h.insert_total hlaw hsize fuel k v
  obtain ⟨h1, hhas, hnew, hold⟩ := h.insert_spec hlaw (fuel + 2) k v hrun
  obtain ⟨c1, c2, c3⟩ := h.checkKey hlaw k
  refine ⟨m1, hrun, ?_, ?_, ?_, ?_⟩
  · exact (h1.checkKey hlaw k).1 v ((hhas k (some v)).mpr (Or.inr ⟨rfl, rfl⟩))
  · intro k1 hk1
    apply h.checkKey_congr h1 hlaw k1
    intro v1
    rw [hhas k1 v1]
    constructor
    · rintro (⟨_, hm⟩ | ⟨he, _⟩)
      · exact hm
      · exact absurd he hk1
    · intro hm
      exact Or.inl ⟨hk1, hm⟩
  · intro hck
    apply hnew
    rw [TMap.absent_iff]
    intro v0 hv0
    cases v0 with
    | none =>
      rw [c2 hv0] at hck
      cases hck
    | some w =>
      rw [c1 w hv0] at hck
      cases hck
  · intro hck
    apply hold
    intro hab
    exact hck (c3 hab)

/-- C20 at a concrete table: the one-node table holding `3 ↦ 10`, built by
`TMap()` and one `Insert`, receives `7 ↦ 70`, which takes a rehash. -/
theorem C20_witness :
    intTraits.Lawful ∧
    TMap.Reachable intTraits
      (⟨[⟨NodePtr.null, some 3, some 10⟩], 1, 1, 1⟩ : TMap Nat Nat) ∧
    ∃ m1, TMap.Insert intTraits 2 (⟨[⟨NodePtr.null, some 3, some 10⟩], 1, 1, 1⟩ : TMap Nat Nat)
        7 70 = .ok m1 ∧
      m1.CheckKey intTraits 7 = .ok (some 70) ∧
      (∀ k1, k1 ≠ 7 → m1.CheckKey intTraits k1
        = TMap.CheckKey intTraits (⟨[⟨NodePtr.null, some 3, some 10⟩], 1, 1, 1⟩ : TMap Nat Nat) k1) ∧
      (TMap.CheckKey intTraits (⟨[⟨NodePtr.null, some 3, some 10⟩], 1, 1, 1⟩ : TMap Nat Nat) 7
        = .ok none → m1.CountUsed
          = TMap.CountUsed (⟨[⟨NodePtr.null, some 3, some 10⟩], 1, 1, 1⟩ : TMap Nat Nat) + 1) ∧
      (TMap.CheckKey intTraits (⟨[⟨NodePtr.null, some 3, some 10⟩], 1, 1, 1⟩ : TMap Nat Nat) 7
        ≠ .ok none → m1.CountUsed
          = TMap.CountUsed (⟨[⟨NodePtr.null, some 3, some 10⟩], 1, 1, 1⟩ : TMap Nat Nat)) :=
  ⟨intTraits_lawful,
    TMap.Reachable.insert ⟨[⟨NodePtr.one, none, none⟩], 1, 1, 0⟩ _ 2 3 10
      (TMap.Reachable.create _ (by decide!)) (by decide!),
    C20_insert_postconditions intTraits intTraits_lawful _
      (TMap.Reachable.insert ⟨[⟨NodePtr.one, none, none⟩], 1, 1, 0⟩ _ 2 3 10
        (TMap.Reachable.create _ (by decide!)) (by decide!))
      (by decide) 0 7 70⟩


/-! ## TMap: removal -/

/-- The values after the two stores of `DelKey`: node `prev` takes the value of
the node written over it, the others keep theirs. -/
theorem TMap.unlink_run_value {K V : Type} (m : TMap K V) (prev i : Nat) (x nd : TMap.Node K V)
    (u : Nat) (hprev : prev < m.Nodes.length) (hnd : m.nodeAt i = .ok nd) (hpi : prev ≠ i)
    (m1 : TMap K V)
    (hm1 : m1 = { TMap.setNode (m.setNode prev x) i { nd with Next := NodePtr.one } with
      NumUsed := u }) :
    m1.valueAt = Function.update m.valueAt prev x.Value := by
  subst hm1
  have hilen := m.nodeAt_lt i nd hnd
  have hilen2 : i < (m.setNode prev x).Nodes.length := by
    rw [TMap.length_setNode]
    exact hilen
  show TMap.valueAt (TMap.setNode _ _ _) = _
  rw [TMap.valueAt_setNode _ i _ hilen2, TMap.valueAt_setNode m prev _ hprev]
  funext j
  by_cases hji : j = i
  · subst hji
    rw [Function.update_same, Function.update_noteq (Ne.symm hpi)]
    exact (m.valueAt_of_nodeAt j nd hnd).symm
  · rw [Function.update_noteq hji]

/-- The pairs of a table after the node that holds `k` is freed: those of the
other keys. -/
theorem TMap.has_after_free {K V : Type} {traits : THashTraits K} {m m1 : TMap K V}
    (h : m.WF traits) (r : Nat) (k : K) (hr : m.usedB r = true) (hk : m.keyAt r = some k)
    (hU : ∀ j, m1.usedB j = if j = r then false else m.usedB j)
    (hK : m1.keyAt = m.keyAt) (hV : m1.valueAt = m.valueAt) :
    ∀ k1 v, m1.Has k1 v ↔ k1 ≠ k ∧ m.Has k1 v := by
  intro k1 v
  constructor
  · rintro ⟨j, hj, hkj, hvj⟩
    rw [hU j] at hj
    by_cases hjr : j = r
    · rw [if_pos hjr] at hj
      cases hj
    · rw [if_neg hjr] at hj
      rw [hK] at hkj
      rw [hV] at hvj
      refine ⟨?_, j, hj, hkj, hvj⟩
      intro hkk
      rw [hkk] at hkj
      exact hjr (h.distinct j r k hj hr hkj hk)
  · rintro ⟨hne, j, hj, hkj, hvj⟩
    have hjr : j ≠ r := by
      intro hjr
      rw [hjr, hk] at hkj
      exact hne (Option.some.inj hkj).symm
    exact ⟨j, by rw [hU j, if_neg hjr]; exact hj, by rw [hK]; exact hkj, by rw [hV]; exact hvj⟩

/-- The pairs of a table after the pair of node `n` has moved over the node `p`
that holds `k` and node `n` is freed: those of the other keys. -/
theorem TMap.has_after_move {K V : Type} {traits : THashTraits K} {m m1 : TMap K V}
    (h : m.WF traits) (p n : Nat) (k : K) (hp : m.usedB p = true) (hn : m.usedB n = true)
    (hpn : p ≠ n) (hk : m.keyAt p = some k)
    (hU : ∀ j, m1.usedB j = if j = n then false else m.usedB j)
    (hK : m1.keyAt = Function.update m.keyAt p (m.keyAt n))
    (hV : m1.valueAt = Function.update m.valueAt p (m.valueAt n)) :
    ∀ k1 v, m1.Has k1 v ↔ k1 ≠ k ∧ m.Has k1 v := by
  intro k1 v
  constructor
  · rintro ⟨j, hj, hkj, hvj⟩
    rw [hU j] at hj
    by_cases hjn : j = n
    · rw [if_pos hjn] at hj
      cases hj
    · rw [if_neg hjn] at hj
      rw [hK] at hkj
      rw [hV] at hvj
      by_cases hjp : j = p
      · subst hjp
        rw [Function.update_same] at hkj hvj
        refine ⟨?_, n, hn, hkj, hvj⟩
        intro hkk
        rw [hkk] at hkj
        exact hpn (h.distinct j n k hp hn hk hkj)
      · rw [Function.update_noteq hjp] at hkj hvj
        refine ⟨?_, j, hj, hkj, hvj⟩
        intro hkk
        rw [hkk] at hkj
        exact hjp (h.distinct j p k hj hp hkj hk)
  · rintro ⟨hne, j, hj, hkj, hvj⟩
    have hjp : j ≠ p := by
      intro hjp
      rw [hjp, hk] at hkj
      exact hne (Option.some.inj hkj).symm
    by_cases hjn : j = n
    · subst hjn
      refine ⟨p, by rw [hU p, if_neg hpn]; exact hp, ?_, ?_⟩
      · rw [hK, Function.update_same]; exact hkj
      · rw [hV, Function.update_same]; exact hvj
    · refine ⟨j, by rw [hU j, if_neg hjn]; exact hj, ?_, ?_⟩
      · rw [hK, Function.update_noteq hjp]; exact hkj
      · rw [hV, Function.update_noteq hjp]; exact hvj

/-- The loop of `DelKey` along a chain: it returns the first node with an equal
key, with some predecessor, or nothing when the chain has no such node. -/
theorem delKeyLoop_linked {K V : Type} (traits : THashTraits K) (m : TMap K V) (key : K) :
    ∀ (l : List Nat) (fuel prev : Nat), m.Linked l → (∀ i ∈ l, ∃ k, m.keyAt i = some k) →
      l.length < fuel →
      (l.find? (m.matchKey traits key) = none ∧
        delKeyLoop traits m key fuel prev (headPtr l) = .ok none) ∨
      (∃ i pr, l.find? (m.matchKey traits key) = some i ∧
        delKeyLoop traits m key fuel prev (headPtr l) = .ok (some (pr, i))) := by
  intro l
  induction l with
  | nil =>
    intro fuel prev _ _ hf
    left
    cases fuel with
    | zero => omega
    | succ f => exact ⟨rfl, rfl⟩
  | cons i t ih =>
    intro fuel prev hl hk hf
    cases fuel with
    | zero => omega
    | succ f =>
      obtain ⟨hnx, hlt⟩ := hl
      obtain ⟨k, hki⟩ := hk i (List.mem_cons_self _ _)
      obtain ⟨nd, hnd, hndn⟩ := (m.nextAt_eq_some i _).mp hnx
      have hkey : nd.Key = some k := by rw [← m.keyAt_of_nodeAt i nd hnd]; exact hki
      have hm : m.matchKey traits key i = !traits.Compare k key := by
        simp only [TMap.matchKey, hki]
      have hrun : delKeyLoop traits m key (f + 1) prev (headPtr (i :: t))
          = if traits.Compare k key then delKeyLoop traits m key f i (headPtr t)
            else .ok (some (prev, i)) := by
        simp only [headPtr, delKeyLoop, hnd, hkey, hndn]
      rw [hrun, List.find?_cons, hm]
      cases hc : traits.Compare k key
      · right
        exact ⟨i, prev, by simp, by simp⟩
      · simp only [Bool.not_true, if_true]
        exact ih f i hlt (fun j hj => hk j (List.mem_cons_of_mem _ hj))
          (by simp only [List.length_cons] at hf; omega)

/-- Freeing a node in use lowers the 32-bit counter by one. -/
theorem TMap.WF.numUsed_pred {K V : Type} {traits : THashTraits K} {m : TMap K V}
    (h : m.WF traits) (r : Nat) (hr : m.usedB r = true) :
    (m.NumUsed + 2 ^ 32 - 1) % 2 ^ 32 + 1 = m.NumUsed := by
  have hb := h.numUsed_lt
  have hpos : 0 < m.NumUsed := by
    rw [h.numUsed, List.countP_pos_iff]
    exact ⟨r, List.mem_range.mpr (by rw [← h.length]; exact m.usedB_lt r hr), hr⟩
  have h1 : m.NumUsed + 2 ^ 32 - 1 = (m.NumUsed - 1) + 2 ^ 32 := by omega
  rw [h1, Nat.add_mod_right, Nat.mod_eq_of_lt (by omega)]
  omega

/-- The nodes in use after a store that keeps node `p` in use and frees node
`n`. -/
theorem TMap.usedB_after_move {K V : Type} (m m1 : TMap K V) (p n : Nat) (x : NodePtr)
    (hx : x ≠ NodePtr.one) (hp : m.usedB p = true)
    (hN : m1.nextAt = Function.update (Function.update m.nextAt p (some x)) n
      (some NodePtr.one)) :
    ∀ j, m1.usedB j = if j = n then false else m.usedB j := by
  intro j
  by_cases hjn : j = n
  · rw [if_pos hjn]
    unfold TMap.usedB
    rw [hN, hjn, Function.update_same]
    simp
  · rw [if_neg hjn]
    by_cases hjp : j = p
    · rw [hjp, hp]
      unfold TMap.usedB
      rw [hN, Function.update_noteq (by rw [← hjp]; exact hjn), Function.update_same]
      simpa using hx
    · unfold TMap.usedB
      rw [hN, Function.update_noteq hjn, Function.update_noteq hjp]

/-- What `DelKey` does on a well-formed table: it returns; either the key is in
no node and the table is unchanged, or the key is in a node, and afterwards the
table holds the pairs of the other keys and counts one node less. -/
theorem TMap.WF.delKey_spec {K V : Type} {traits : THashTraits K} {m : TMap K V}
    (h : m.WF traits) (hlaw : traits.Lawful) (k : K) :
    ∃ m1, m.DelKey traits k = .ok m1 ∧
      ((m1 = m ∧ m.Absent k) ∨
        ((∃ r, m.usedB r = true ∧ m.keyAt r = some k) ∧
          (∀ k1 v, m1.Has k1 v ↔ k1 ≠ k ∧ m.Has k1 v) ∧ m1.NumUsed + 1 = m.NumUsed)) := by
  have hp := h.mainPosition_lt k
  obtain ⟨mpNode, hnd, _⟩ := m.nodeAt_of_lt _ (by rw [h.length]; exact hp)
  obtain ⟨chain, hc⟩ := h.chains
  have hcover : ∀ i, m.usedB i = true → m.keyAt i = some k →
      i ∈ chain (m.MainPosition traits k) := fun i hi hk => hc.2.2.2.2 i k hi hk
  obtain ⟨u, hu⟩ : ∃ u, u = (m.NumUsed + 2 ^ 32 - 1) % 2 ^ 32 := ⟨_, rfl⟩
  have hunfold : m.DelKey traits k
      = if mpNode.IsNil then .ok m
        else
          match mpNode.Key with
          | none => .error Fault.uninitialised
          | some k0 =>
            if !traits.Compare k0 k then
              match mpNode.Next with
              | NodePtr.node n =>
                match m.nodeAt n with
                | .error e => .error e
                | .ok nd =>
                  match (m.setNode (m.MainPosition traits k) nd).nodeAt n with
                  | .error e => .error e
                  | .ok nd1 =>
                    .ok { TMap.setNode (m.setNode (m.MainPosition traits k) nd) n
                        { nd1 with Next := NodePtr.one } with
                      NumUsed := u }
              | _ =>
                .ok { m.setNode (m.MainPosition traits k) { mpNode with Next := NodePtr.one } with
                  NumUsed := u }
            else
              match delKeyLoop traits m k (m.Size + 1) (m.MainPosition traits k) mpNode.Next with
              | .error e => .error e
              | .ok none => .ok m
              | .ok (some (prev, i)) =>
                match m.nodeAt i with
                | .error e => .error e
                | .ok nd =>
                  match m.nodeAt prev with
                  | .error e => .error e
                  | .ok prevNode =>
                    match (m.setNode prev { prevNode with Next := nd.Next }).nodeAt i with
                    | .error e => .error e
                    | .ok nd1 =>
                      .ok { TMap.setNode (m.setNode prev { prevNode with Next := nd.Next }) i
                          { nd1 with Next := NodePtr.one } with
                        NumUsed := u } := by
    rw [TMap.DelKey]
    simp only [hnd, ← hu]
  rw [hunfold]
  generalize hpdef : m.MainPosition traits k = p at *
  have hplen : p < m.Nodes.length := by rw [h.length]; exact hp
  have hnext := m.nextAt_of_nodeAt p mpNode hnd
  cases hnil : mpNode.IsNil
  · -- the main position is in use
    simp only [Bool.false_eq_true, if_false]
    have hused : m.usedB p = true := by
      rw [m.usedB_of_nodeAt p mpNode hnd, hnil]
      rfl
    obtain ⟨k0, hk0⟩ := h.keys p hused
    have hkey : mpNode.Key = some k0 := by rw [← m.keyAt_of_nodeAt p mpNode hnd]; exact hk0
    obtain ⟨nx, ky, vl⟩ := mpNode
    simp only at hkey hnext
    subst hkey
    simp only
    cases hcmp : traits.Compare k0 k
    · -- the key is in its main position
      simp only [Bool.not_false, if_true]
      have hkk : k0 = k := (hlaw k0 k).mp hcmp
      subst hkk
      have hpmem : p ∈ chain p := hcover p hused hk0
      obtain ⟨t, ht⟩ : ∃ t, chain p = p :: t := by
        rcases hc.1 p with h0 | ht
        · rw [h0] at hpmem
          cases hpmem
        · exact ht
      have hlink := hc.2.1 p
      rw [ht] at hlink
      have hhead : some nx = some (headPtr t) := by rw [← hnext]; exact hlink.1
      have hnxt : nx = headPtr t := Option.some.inj hhead
      cases t with
      | nil =>
        -- no chain: the node is freed
        have hnull : nx = NodePtr.null := hnxt
        subst hnull
        simp only
        obtain ⟨hN, hK, hS, hLen, hLF, hNU⟩ := TMap.clear_run m p ⟨NodePtr.null, some k0, vl⟩
          u hnd _ rfl
        have hV := (m.setNext_spec p ⟨NodePtr.null, some k0, vl⟩ NodePtr.one hnd).2.2
        refine ⟨_, rfl, Or.inr ⟨⟨p, hused, hk0⟩, ?_, ?_⟩⟩
        · apply TMap.has_after_free h p k0 hused hk0 _ hK hV
          intro j
          rw [TMap.usedB_update m _ p _ hN j]
          simp
        · rw [hNU, hu]
          exact h.numUsed_pred p hused
      | cons n t2 =>
        have hnode : nx = NodePtr.node n := hnxt
        subst hnode
        simp only
        have hnmem : n ∈ chain p := by rw [ht]; simp
        have hnused := hc.chain_used p n hnmem
        obtain ⟨nd, hndn, _⟩ := m.nodeAt_of_lt n (m.usedB_lt n hnused)
        have hnp : p ≠ n := by
          intro hh
          rw [← hh] at hnext
          exact h.next_ne_self p hnext
        have hnd1 : (m.setNode p nd).nodeAt n = .ok nd := by
          rw [TMap.nodeAt_setNode_ne m p n nd hnp]
          exact hndn
        simp only [hndn, hnd1]
        obtain ⟨hN, hK, hS, hLen, hLF, hNU⟩ := TMap.unlink_run m p n nd nd
          u hplen hndn hnp _ rfl
        have hV := TMap.unlink_run_value m p n nd nd
          u hplen hndn hnp _ rfl
        have hnx1 : nd.Next ≠ NodePtr.one := by
          obtain ⟨q, hq1, hq2⟩ := (m.usedB_iff n).mp hnused
          rw [m.nextAt_of_nodeAt n nd hndn] at hq1
          rw [Option.some.inj hq1]
          exact hq2
        refine ⟨_, rfl, Or.inr ⟨⟨p, hused, hk0⟩, ?_, ?_⟩⟩
        · apply TMap.has_after_move h p n k0 hused hnused hnp hk0
            (TMap.usedB_after_move m _ p n nd.Next hnx1 hused hN)
          · rw [hK, m.keyAt_of_nodeAt n nd hndn]
          · rw [hV, m.valueAt_of_nodeAt n nd hndn]
        · rw [hNU, hu]
          exact h.numUsed_pred p hused
    · -- the key is not in its main position
      simp only [Bool.not_true, Bool.false_eq_true, if_false]
      have hne : k0 ≠ k := by
        intro hkk
        rw [(hlaw k0 k).mpr hkk] at hcmp
        cases hcmp
      have hpq : p ∈ chain (m.MainPosition traits k0) := hc.2.2.2.2 p k0 hused hk0
      obtain ⟨l1, l2, hsp⟩ := List.append_of_mem hpq
      have hlink := hc.2.1 (m.MainPosition traits k0)
      rw [hsp] at hlink
      have hlink2 : m.Linked (p :: l2) := hlink.of_append
      have hnxt : nx = headPtr l2 := by
        have : some nx = some (headPtr l2) := by rw [← hnext]; exact hlink2.1
        exact Option.some.inj this
      have hl2mem : ∀ i ∈ l2, i ∈ chain (m.MainPosition traits k0) := by
        intro i hi
        rw [hsp]
        simp [hi]
      have hl2len : l2.length < m.Size + 1 := by
        have := hc.length_le (m.MainPosition traits k0)
        rw [hsp, List.length_append, List.length_cons, h.length] at this
        omega
      rw [hnxt]
      rcases delKeyLoop_linked traits m k l2 (m.Size + 1) p hlink2.2
        (fun i hi => h.keys i (hc.chain_used _ i (hl2mem i hi))) hl2len with
        ⟨hfind, hloop⟩ | ⟨i, pr, hfind, hloop⟩
      · -- the chain does not hold the key
        rw [hloop]
        refine ⟨m, rfl, Or.inl ⟨rfl, ?_⟩⟩
        intro i hi hki
        have himem := hcover i hi hki
        have hpp : p ∈ chain p := hc.head_mem p i himem
        have hqp : p = m.MainPosition traits k0 := hc.unique p _ p hpp hpq
        rw [← hqp] at hsp
        have hl1 : l1 = [] := by
          rcases hc.1 p with h0 | ⟨t, ht⟩
          · rw [h0] at hpp
            cases hpp
          · cases l1 with
            | nil => rfl
            | cons a l1t =>
              exfalso
              rw [ht] at hsp
              simp only [List.cons_append, List.cons.injEq] at hsp
              have hnd := hc.2.2.1 p
              rw [ht, hsp.2] at hnd
              simp at hnd
        rw [hl1, List.nil_append] at hsp
        rw [hsp] at himem
        rcases List.mem_cons.mp himem with hip | hil
        · rw [hip, hk0] at hki
          exact hne (Option.some.inj hki)
        · have hm := List.find?_eq_none.mp hfind i hil
          simp only [TMap.matchKey, hki, (hlaw k k).mpr rfl] at hm
          exact hm rfl
      · -- the chain holds the key at node `i`
        rw [hloop]
        simp only
        have hil : i ∈ l2 := List.mem_of_find?_eq_some hfind
        have hmatch : m.matchKey traits k i = true := List.find?_some hfind
        have hiused := hc.chain_used _ i (hl2mem i hil)
        obtain ⟨ki, hki⟩ := h.keys i hiused
        have hkik : ki = k := by
          simp only [TMap.matchKey, hki, Bool.not_eq_true'] at hmatch
          exact (hlaw ki k).mp hmatch
        subst hkik
        have hpred := delKeyLoop_pred traits m ki (m.Size + 1) p (headPtr l2) pr i
          (by rw [← hnxt]; exact hnext) hloop
        obtain ⟨nd, hndi, _⟩ := m.nodeAt_of_lt i (m.usedB_lt i hiused)
        obtain ⟨prevNode, hprev, hprevnx⟩ := (m.nextAt_eq_some pr _).mp hpred
        have hpi : pr ≠ i := by
          intro hh
          rw [hh] at hpred
          exact h.next_ne_self i hpred
        have hnd1 : (m.setNode pr { prevNode with Next := nd.Next }).nodeAt i = .ok nd := by
          rw [TMap.nodeAt_setNode_ne m pr i _ hpi]
          exact hndi
        simp only [hndi, hprev, hnd1]
        have hni := m.nextAt_of_nodeAt i nd hndi
        obtain ⟨hN, hK, hS, hLen, hLF, hNU⟩ :=
          TMap.unlink_run m pr i { prevNode with Next := nd.Next } nd
            u (m.nodeAt_lt pr prevNode hprev) hndi hpi _ rfl
        have hV := TMap.unlink_run_value m pr i { prevNode with Next := nd.Next } nd
            u (m.nodeAt_lt pr prevNode hprev) hndi hpi _ rfl
        simp only at hN hK hV
        rw [← hni] at hN
        have hK2 := hK.trans (Function.update_eq_self_iff.mpr
          (m.keyAt_of_nodeAt pr prevNode hprev).symm)
        have hV2 := hV.trans (Function.update_eq_self_iff.mpr
          (m.valueAt_of_nodeAt pr prevNode hprev).symm)
        obtain ⟨_, _, hU, _, _⟩ :=
          hc.unlink h.keys pr i hpred hN (fun j _ => by rw [hK2]) hS
        refine ⟨_, rfl, Or.inr ⟨⟨i, hiused, hki⟩, ?_, ?_⟩⟩
        · exact TMap.has_after_free h i ki hiused hki hU hK2 hV2
        · rw [hNU, hu]
          exact h.numUsed_pred i hiused
  · -- nothing at the main position
    simp only [if_true]
    refine ⟨m, rfl, Or.inl ⟨rfl, ?_⟩⟩
    intro i hi hki
    have himem := hcover i hi hki
    have hpp : p ∈ chain p := hc.head_mem p i himem
    have := hc.chain_used p p hpp
    rw [m.usedB_of_nodeAt p mpNode hnd, hnil] at this
    cases this

/-- C21, as worded, fails for `float` keys: `THashTraits<float>::Compare` is
`left != right`, which is non-zero for a NaN against itself.  After
`Insert(NaN, 7)` on the table of `TMap()` the pair is stored in node 0 and
counted, but `Remove(NaN)` finds no equal key, leaves the pair in the table and
`CountUsed` at 1. -/
theorem C21_counterexample :
    ∃ m m1 m2 : TMap Nat Nat, TMap.create = .ok m ∧
      TMap.Insert floatTraits 2 m 0x7FC00000 7 = .ok m1 ∧
      (m1.usedB 0 = true ∧ m1.keyAt 0 = some 0x7FC00000 ∧ m1.valueAt 0 = some 7) ∧
      m1.CountUsed = 1 ∧
      TMap.Remove floatTraits m1 0x7FC00000 = .ok m2 ∧
      m2 = m1 ∧ m2.CountUsed = 1 :=
  ⟨⟨[⟨NodePtr.one, none, none⟩], 1, 1, 0⟩,
    ⟨[⟨NodePtr.null, some 0x7FC00000, some 7⟩], 1, 1, 1⟩,
    ⟨[⟨NodePtr.null, some 0x7FC00000, some 7⟩], 1, 1, 1⟩,
    by decide!, by decide!, by decide!, by decide!, by decide!, by decide!, by decide!⟩

/-- C21, amended: for a key type whose `Compare` returns zero exactly on equal
keys, on every table built from `TMap()` by `Insert` and `Remove`, `Remove(k)`
returns; afterwards `CheckKey(k)` is `NULL`, `CheckKey` of every other key is
unchanged, and `CountUsed` is one less when `CheckKey(k)` was not `NULL` before
(the key was present) and unchanged otherwise. -/
theorem C21_remove_postconditions {K V : Type} (traits : THashTraits K)
    (hlaw : traits.Lawful) (m : TMap K V) (hreach : TMap.Reachable traits m) (k : K) :
    ∃ m1, TMap.Remove traits m k = .ok m1 ∧
      m1.CheckKey traits k = .ok none ∧
      (∀ k1, k1 ≠ k → m1.CheckKey traits k1 = m.CheckKey traits k1) ∧
      (m.CheckKey traits k ≠ .ok none → m1.CountUsed + 1 = m.CountUsed) ∧
      (m.CheckKey traits k = .ok none → m1.CountUsed = m.CountUsed) := by
  have h := hreach.wf hlaw
  obtain ⟨m1, hrun, hcases⟩ := h.delKey_spec hlaw k
  have h1 : m1.WF traits := h.delKey hlaw k hrun
  obtain ⟨c1, c2, c3⟩ := h.checkKey hlaw k
  refine ⟨m1, hrun, ?_⟩
  rcases hcases with ⟨hsame, habs⟩ | ⟨⟨r, hr, hkr⟩, hhas, hnum⟩
  · subst hsame
    exact ⟨c3 habs, fun _ _ => rfl, fun hne => absurd (c3 habs) hne, fun _ => rfl⟩
  · have hpresent : m1.CheckKey traits k ≠ .ok none → False := by
      intro hne
      apply hne
      apply (h1.checkKey hlaw k).2.2
      rw [TMap.absent_iff]
      intro v hv
      exact ((hhas k v).mp hv).1 rfl
    have hbefore : m.CheckKey traits k ≠ .ok none := by
      intro hck
      have hv : m.Has k (m.valueAt r) := ⟨r, hr, hkr, rfl⟩
      cases hval : m.valueAt r with
      | none =>
        rw [hval] at hv
        rw [c2 hv] at hck
        cases hck
      | some w =>
        rw [hval] at hv
        rw [c1 w hv] at hck
        cases hck
    refine ⟨?_, ?_, fun _ => hnum, fun hck => absurd hck hbefore⟩
    · by_contra hne
      exact hpresent hne
    · intro k1 hk1
      apply h.checkKey_congr h1 hlaw k1
      intro v
      rw [hhas k1 v]
      exact ⟨fun hh => hh.2, fun hh => ⟨hk1, hh⟩⟩

/-- C21 at a concrete table: the one-node table holding `3 ↦ 10`, built by
`TMap()` and one `Insert`, loses the key 3. -/
theorem C21_witness :
    intTraits.Lawful ∧
    TMap.Reachable intTraits
      (⟨[⟨NodePtr.null, some 3, some 10⟩], 1, 1, 1⟩ : TMap Nat Nat) ∧
    TMap.Remove intTraits (⟨[⟨NodePtr.null, some 3, some 10⟩], 1, 1, 1⟩ : TMap Nat Nat) 3
      = .ok ⟨[⟨NodePtr.one, some 3, some 10⟩], 1, 1, 0⟩ ∧
    ∃ m1, TMap.Remove intTraits (⟨[⟨NodePtr.null, some 3, some 10⟩], 1, 1, 1⟩ : TMap Nat Nat) 3
        = .ok m1 ∧
      m1.CheckKey intTraits 3 = .ok none ∧
      (∀ k1, k1 ≠ 3 → m1.CheckKey intTraits k1
        = TMap.CheckKey intTraits (⟨[⟨NodePtr.null, some 3, some 10⟩], 1, 1, 1⟩ : TMap Nat Nat) k1) ∧
      (TMap.CheckKey intTraits (⟨[⟨NodePtr.null, some 3, some 10⟩], 1, 1, 1⟩ : TMap Nat Nat) 3
        ≠ .ok none → m1.CountUsed + 1
          = TMap.CountUsed (⟨[⟨NodePtr.null, some 3, some 10⟩], 1, 1, 1⟩ : TMap Nat Nat)) ∧
      (TMap.CheckKey intTraits (⟨[⟨NodePtr.null, some 3, some 10⟩], 1, 1, 1⟩ : TMap Nat Nat) 3
        = .ok none → m1.CountUsed
          = TMap.CountUsed (⟨[⟨NodePtr.null, some 3, some 10⟩], 1, 1, 1⟩ : TMap Nat Nat)) :=
  ⟨intTraits_lawful,
    TMap.Reachable.insert ⟨[⟨NodePtr.one, none, none⟩], 1, 1, 0⟩ _ 2 3 10
      (TMap.Reachable.create _ (by decide!)) (by decide!),
    by decide!,
    C21_remove_postconditions intTraits intTraits_lawful _
      (TMap.Reachable.insert ⟨[⟨NodePtr.one, none, none⟩], 1, 1, 0⟩ _ 2 3 10
        (TMap.Reachable.create _ (by decide!)) (by decide!)) 3⟩

/-! ## The SSE form of the ray/box test -/

/-- Bits 0..2 of a move mask are clear exactly when lanes 0..2 are. -/
theorem movemask_and_seven (a : m128mask) :
    mm_movemask_ps a &&& 7 ≠ 0 ↔ (a.b0 = true ∨ a.b1 = true ∨ a.b2 = true) := by
  obtain ⟨b0, b1, b2, b3⟩ := a
  cases b0 <;> cases b1 <;> cases b2 <;> cases b3 <;> decide

/-- The shuffle `_MM_SHUFFLE(3, 0, 0, 1)` selects lanes `1, 0, 0, 3`. -/
theorem shuffle_yxx (a : m128) :
    mm_shuffle_ps a a (MM_SHUFFLE 3 0 0 1) = ⟨a.f1, a.f0, a.f0, a.f3⟩ := by
  simp [mm_shuffle_ps, MM_SHUFFLE, m128.lane]

/-- The shuffle `_MM_SHUFFLE(3, 1, 2, 2)` selects lanes `2, 2, 1, 3`. -/
theorem shuffle_zzy (a : m128) :
    mm_shuffle_ps a a (MM_SHUFFLE 3 1 2 2) = ⟨a.f2, a.f2, a.f1, a.f3⟩ := by
  simp [mm_shuffle_ps, MM_SHUFFLE, m128.lane]

/-- The scalar path returns `disjoint` exactly when one of its six comparisons
holds. -/
theorem ray_aabb_disjoint_iff (ray : RayBBox) (aabb : CollisionBBox) :
    IntersectionTest.ray_aabb ray aabb = OverlapResult.disjoint ↔ scalarSeparated ray aabb := by
  unfold IntersectionTest.ray_aabb scalarSeparated
  simp only [vec3.sub_x, vec3.sub_y, vec3.sub_z]
  constructor
  · intro h
    split at h
    · left; assumption
    · split at h
      · right; assumption
      · cases h
  · rintro (h | h)
    · rw [if_pos h]
    · split_ifs <;> rfl

/-- The SSE path returns `disjoint` exactly when one of the six comparisons of
the scalar form holds, whatever lane 3 holds. -/
theorem ray_aabb_sse_disjoint_iff (ray : RayBBox) (aabb : CollisionBBox)
    (nv nw nh nc na : ℚ) :
    IntersectionTest.ray_aabb_sse ray aabb nv nw nh nc na = OverlapResult.disjoint ↔
      scalarSeparated ray aabb := by
  unfold IntersectionTest.ray_aabb_sse scalarSeparated
  simp only [movemask_and_seven, shuffle_yxx, shuffle_zzy]
  simp only [mm_loadu_ps, mm_sub_ps, mm_add_ps, mm_mul_ps, mm_and_ps_clearsignbit, mm_cmpgt_ps,
    decide_eq_true_eq]
  constructor
  · intro h
    split at h
    · left; assumption
    · split at h
      · right; assumption
      · cases h
  · rintro (h | h)
    · rw [if_pos h]
    · split_ifs <;> rfl

/-- C30: the SSE path of `IntersectionTest::ray_aabb` returns the same result as
the scalar path for every ray, every box and every content of the masked-out
lane 3, and it returns `disjoint` exactly when one of the three axis tests or
one of the three cross-product tests of the scalar form exceeds its bound. -/
theorem C30_ray_aabb_sse_eq_scalar (ray : RayBBox) (aabb : CollisionBBox)
    (nv nw nh nc na : ℚ) :
    IntersectionTest.ray_aabb_sse ray aabb nv nw nh nc na = IntersectionTest.ray_aabb ray aabb ∧
    (IntersectionTest.ray_aabb_sse ray aabb nv nw nh nc na = OverlapResult.disjoint ↔
      scalarSeparated ray aabb) := by
  have h1 := ray_aabb_sse_disjoint_iff ray aabb nv nw nh nc na
  have h2 := ray_aabb_disjoint_iff ray aabb
  refine ⟨?_, h1⟩
  cases hs : IntersectionTest.ray_aabb_sse ray aabb nv nw nh nc na with
  | disjoint => exact (h2.mpr (h1.mp hs)).symm
  | overlap =>
    cases hc : IntersectionTest.ray_aabb ray aabb with
    | disjoint =>
      rw [h1.mpr (h2.mp hc)] at hs
      cases hs
    | overlap => rfl


/-! ## The chunks of the segmented first-hit query -/

/-- The chunk loop is the run over the list of its chunks. -/
theorem find_first_hit_loop_eq_runChunks (mkRay : vec3 → vec3 → RayBBox)
    (shape : TriangleMeshShape) (ray_start ray_dir : vec3) (tracedist segmentlen : ℚ) :
    ∀ (k : Nat) (t : ℚ) (hit : TraceHit) (chunks : List (ℚ × ℚ)),
      chunkList tracedist segmentlen k t = some chunks →
      find_first_hit_loop mkRay shape ray_start ray_dir tracedist segmentlen k t hit
        = runChunks mkRay shape ray_start ray_dir chunks hit := by
  intro k
  induction k with
  | zero =>
    intro t hit chunks h
    simp only [chunkList] at h
    split_ifs at h with ht
    simp only [Option.some.injEq] at h
    subst h
    simp [find_first_hit_loop, ht, runChunks]
  | succ k ih =>
    intro t hit chunks h
    simp only [chunkList] at h
    split_ifs at h with ht
    · cases hrest : chunkList tracedist segmentlen k (t + segmentlen) with
      | none => rw [hrest] at h; cases h
      | some rest =>
        rw [hrest] at h
        simp only [Option.some.injEq] at h
        subst h
        simp only [find_first_hit_loop, if_pos ht, runChunks]
        cases find_first_hit_node shape
            (mkRay (ray_start + ray_dir * (t / tracedist))
              (ray_start + ray_dir * (min (t + segmentlen) tracedist / tracedist)))
            (shape.nodes.length + 1) shape.root hit with
        | error e => rfl
        | ok hit1 =>
          simp only
          split_ifs
          · rfl
          · exact ih (t + segmentlen) hit1 rest hrest
    · simp only [Option.some.injEq] at h
      subst h
      simp [find_first_hit_loop, ht, runChunks]

/-- The chunks of the loop entered at `t`, with enough budget: they tile the
ray from `t / tracedist` to 1 when `t < tracedist`, none is longer than
`segmentlen`, each starts no earlier than `t`, and their number is the least
`n` with `tracedist ≤ t + n * segmentlen`. -/
theorem chunkList_spec (tracedist segmentlen : ℚ) (hd : 0 < tracedist) (hs : 0 < segmentlen) :
    ∀ (k : Nat) (t : ℚ), 0 ≤ t → tracedist ≤ t + k * segmentlen →
      ∃ chunks, chunkList tracedist segmentlen k t = some chunks ∧
        (t < tracedist → Tiles (t / tracedist) chunks 1) ∧
        (¬ t < tracedist → chunks = []) ∧
        (∀ c ∈ chunks, t / tracedist ≤ c.1 ∧ c.1 ≤ c.2 ∧ c.2 ≤ 1 ∧
          (c.2 - c.1) * tracedist ≤ segmentlen) ∧
        tracedist ≤ t + chunks.length * segmentlen ∧
        (t < tracedist → (chunks.length : ℚ) * segmentlen < (tracedist - t) + segmentlen) ∧
        chunks.length ≤ k := by
  intro k
  induction k with
  | zero =>
    intro t ht hk
    have hnt : ¬ t < tracedist := by
      simp only [Nat.cast_zero, zero_mul, add_zero] at hk
      exact not_lt.mpr hk
    refine ⟨[], by simp [chunkList, hnt], fun h => absurd h hnt, fun _ => rfl, ?_, ?_, ?_, ?_⟩
    · intro c hc; cases hc
    · simpa using not_lt.mp hnt
    · intro h; exact absurd h hnt
    · exact Nat.le_refl _
  | succ k ih =>
    intro t ht hk
    by_cases htd : t < tracedist
    · have hk2 : tracedist ≤ (t + segmentlen) + k * segmentlen := by
        push_cast at hk
        linarith
      obtain ⟨rest, hrest, htile, hempty, hall, hlen1, hlen2, hlenk⟩ :=
        ih (t + segmentlen) (by linarith) hk2
      refine ⟨(t / tracedist, min (t + segmentlen) tracedist / tracedist) :: rest, ?_, ?_, ?_,
        ?_, ?_, ?_, ?_⟩
      · simp [chunkList, htd, hrest]
      · intro _
        refine ⟨rfl, ?_⟩
        by_cases hnext : t + segmentlen < tracedist
        · have := htile hnext
          rw [min_eq_left (le_of_lt hnext)]
          exact this
        · rw [hempty hnext, min_eq_right (not_lt.mp hnext), div_self (ne_of_gt hd)]
          rfl
      · intro h; exact absurd htd h
      · intro c hc
        rcases List.mem_cons.mp hc with rfl | hc
        · refine ⟨le_refl _, ?_, ?_, ?_⟩
          · apply div_le_div_of_nonneg_right _ (le_of_lt hd)
            exact le_min (by linarith) (le_of_lt htd)
          · rw [div_le_one hd]
            exact min_le_right _ _
          · simp only
            rw [← sub_div, div_mul_cancel₀ _ (ne_of_gt hd)]
            have := min_le_left (t + segmentlen) tracedist
            linarith
        · obtain ⟨c1, c2, c3, c4⟩ := hall c hc
          refine ⟨?_, c2, c3, c4⟩
          refine le_trans ?_ c1
          apply div_le_div_of_nonneg_right _ (le_of_lt hd)
          linarith
      · simp only [List.length_cons]
        push_cast
        linarith
      · intro _
        simp only [List.length_cons]
        push_cast
        by_cases hnext : t + segmentlen < tracedist
        · have := hlen2 hnext
          linarith
        · rw [hempty hnext]
          simp only [List.length_nil, Nat.cast_zero, zero_add, one_mul]
          linarith
      · simp only [List.length_cons]
        omega
    · refine ⟨[], by simp [chunkList, htd], fun h => absurd h htd, fun _ => rfl, ?_, ?_, ?_, ?_⟩
      · intro c hc; cases hc
      · simpa using not_lt.mp htd
      · intro h; exact absurd h htd
      · exact Nat.zero_le _

/-- In a tiling by chunks that run forward, every chunk starts at or after the
start of the tiling. -/
theorem Tiles.start_le : ∀ (chunks : List (ℚ × ℚ)) (a b : ℚ), Tiles a chunks b →
    (∀ c ∈ chunks, c.1 ≤ c.2) → ∀ c ∈ chunks, a ≤ c.1 := by
  intro chunks
  induction chunks with
  | nil => intro a b _ _ c hc; cases hc
  | cons x rest ih =>
    intro a b ht hle c hc
    obtain ⟨hx, hrest⟩ := ht
    rcases List.mem_cons.mp hc with rfl | hc
    · exact le_of_eq hx.symm
    · have h1 := ih c.1 b
      have hx2 := hle x (List.mem_cons_self _ _)
      have := ih x.2 b hrest (fun c hc => hle c (List.mem_cons_of_mem _ hc)) c hc
      rw [← hx]
      exact le_trans hx2 this

/-- In a tiling by chunks that run forward, an earlier chunk ends at or before
the start of every later one. -/
theorem Tiles.pairwise : ∀ (chunks : List (ℚ × ℚ)) (a b : ℚ), Tiles a chunks b →
    (∀ c ∈ chunks, c.1 ≤ c.2) → chunks.Pairwise (fun p q => p.2 ≤ q.1) := by
  intro chunks
  induction chunks with
  | nil => intro a b _ _; exact List.Pairwise.nil
  | cons x rest ih =>
    intro a b ht hle
    obtain ⟨_, hrest⟩ := ht
    have hle2 : ∀ c ∈ rest, c.1 ≤ c.2 := fun c hc => hle c (List.mem_cons_of_mem _ hc)
    exact List.Pairwise.cons (Tiles.start_le rest x.2 b hrest hle2) (ih x.2 b hrest hle2)

/-- The global fraction of a local fraction in `[0, 1]` lies on the chunk. -/
theorem globalFraction_mem (c : ℚ × ℚ) (f : ℚ) (hc : c.1 ≤ c.2) (h0 : 0 ≤ f) (h1 : f ≤ 1) :
    c.1 ≤ globalFraction c f ∧ globalFraction c f ≤ c.2 := by
  unfold globalFraction
  constructor
  · nlinarith
  · nlinarith

/-- The chunks of the public `find_first_hit` for a ray of positive length: the
loop budget of 21 is enough, the loop is the run over these chunks, which tile
the ray from 0 to 1, are each within `[0, 1]` and no longer than the segment
length, and number between 1 and 20. -/
theorem chunks_of_ray (tracedist : ℚ) (hd : 0 < tracedist) :
    ∃ chunks, chunkList tracedist (max 100 (tracedist / 20)) 21 0 = some chunks ∧
      Tiles 0 chunks 1 ∧
      (∀ c ∈ chunks, 0 ≤ c.1 ∧ c.1 ≤ c.2 ∧ c.2 ≤ 1 ∧
        (c.2 - c.1) * tracedist ≤ max 100 (tracedist / 20)) ∧
      chunks ≠ [] ∧ chunks.length ≤ 20 := by
  have hs : (0 : ℚ) < max 100 (tracedist / 20) := lt_of_lt_of_le (by norm_num) (le_max_left _ _)
  have hs2 : tracedist / 20 ≤ max 100 (tracedist / 20) := le_max_right _ _
  obtain ⟨chunks, hrun, htile, _, hall, _, hlen, _⟩ :=
    chunkList_spec tracedist (max 100 (tracedist / 20)) hd hs 21 0 (le_refl _)
      (by push_cast; linarith)
  refine ⟨chunks, hrun, ?_, ?_, ?_, ?_⟩
  · have := htile hd
    rwa [zero_div] at this
  · intro c hc
    obtain ⟨c1, c2, c3, c4⟩ := hall c hc
    rw [zero_div] at c1
    exact ⟨c1, c2, c3, c4⟩
  · intro hnil
    have := htile hd
    rw [hnil, zero_div] at this
    exact absurd this (by norm_num [Tiles])
  · have h := hlen hd
    have h2 : (chunks.length : ℚ) * max 100 (tracedist / 20) < 21 * max 100 (tracedist / 20) := by
      linarith
    have h3 : (chunks.length : ℚ) < 21 := lt_of_mul_lt_mul_right h2 (le_of_lt hs)
    have h4 : chunks.length < 21 := by exact_mod_cast h3
    omega

/-- C28: in the segmented `find_first_hit` on a ray with `tracedist > 0`, for
chunks `k < j` of the loop and local fractions `f_k`, `f_j` in `[0, 1]`, the
global fraction `segstart_k * (1 - f_k) + segend_k * f_k` of chunk `k` is at most
the global fraction of chunk `j`: a hit in a later chunk is never closer than a
hit in an earlier one. -/
theorem C28_earlier_chunk_is_closer (tracedist : ℚ) (hd : 0 < tracedist) :
    ∃ chunks, chunkList tracedist (max 100 (tracedist / 20)) 21 0 = some chunks ∧
      ∀ (k j : Nat) (ck cj : ℚ × ℚ), k < j → chunks.get? k = some ck →
        chunks.get? j = some cj → ∀ fk fj : ℚ, 0 ≤ fk → fk ≤ 1 → 0 ≤ fj → fj ≤ 1 →
          globalFraction ck fk ≤ globalFraction cj fj := by
  obtain ⟨chunks, hrun, htile, hall, _, _⟩ := chunks_of_ray tracedist hd
  refine ⟨chunks, hrun, ?_⟩
  intro k j ck cj hkj hk hj fk fj hfk0 hfk1 hfj0 hfj1
  have hpw := Tiles.pairwise chunks 0 1 htile (fun c hc => (hall c hc).2.1)
  have hkm : ck ∈ chunks := List.get?_mem hk
  have hjm : cj ∈ chunks := List.get?_mem hj
  have hord : ck.2 ≤ cj.1 := by
    rw [List.pairwise_iff_get] at hpw
    obtain ⟨hk1, hk2⟩ := List.get?_eq_some.mp hk
    obtain ⟨hj1, hj2⟩ := List.get?_eq_some.mp hj
    have := hpw ⟨k, hk1⟩ ⟨j, hj1⟩ hkj
    rw [hk2, hj2] at this
    exact this
  have h1 := (globalFraction_mem ck fk (hall ck hkm).2.1 hfk0 hfk1).2
  have h2 := (globalFraction_mem cj fj (hall cj hjm).2.1 hfj0 hfj1).1
  linarith

/-- C28 on the ray of length 250: the chunks are `(0, 2/5)`, `(2/5, 4/5)` and
`(4/5, 1)`. -/
theorem C28_witness :
    (0 : ℚ) < 250 ∧
    ∃ chunks, chunkList 250 (max 100 (250 / 20)) 21 0 = some chunks ∧
      ∀ (k j : Nat) (ck cj : ℚ × ℚ), k < j → chunks.get? k = some ck →
        chunks.get? j = some cj → ∀ fk fj : ℚ, 0 ≤ fk → fk ≤ 1 → 0 ≤ fj → fj ≤ 1 →
          globalFraction ck fk ≤ globalFraction cj fj :=
  ⟨by norm_num, C28_earlier_chunk_is_closer 250 (by norm_num)⟩

/-- C29: in the segmented `find_first_hit` on a ray with `tracedist > 0` the
chunk loop ends within its budget and is the run over its chunks; the chunks
tile the ray (the first starts at fraction 0, each ends where the next starts,
the last ends at fraction 1), each has world length at most
`max(100, tracedist / 20)`, and there are between 1 and 20 of them. -/
theorem C29_chunks_tile_the_ray (tracedist : ℚ) (hd : 0 < tracedist) :
    ∃ chunks, chunkList tracedist (max 100 (tracedist / 20)) 21 0 = some chunks ∧
      (∀ (mkRay : vec3 → vec3 → RayBBox) (shape : TriangleMeshShape) (ray_start ray_dir : vec3)
        (hit : TraceHit),
        find_first_hit_loop mkRay shape ray_start ray_dir tracedist (max 100 (tracedist / 20))
          21 0 hit = runChunks mkRay shape ray_start ray_dir chunks hit) ∧
      Tiles 0 chunks 1 ∧
      (∀ c ∈ chunks, (c.2 - c.1) * tracedist ≤ max 100 (tracedist / 20)) ∧
      1 ≤ chunks.length ∧ chunks.length ≤ 20 := by
  obtain ⟨chunks, hrun, htile, hall, hne, hlen⟩ := chunks_of_ray tracedist hd
  refine ⟨chunks, hrun, ?_, htile, fun c hc => (hall c hc).2.2.2, ?_, hlen⟩
  · intro mkRay shape ray_start ray_dir hit
    exact find_first_hit_loop_eq_runChunks mkRay shape ray_start ray_dir tracedist _ 21 0 hit
      chunks hrun
  · exact List.length_pos.mpr hne

/-- C29 on the ray of length 250, cut into three chunks of length at most
100. -/
theorem C29_witness :
    (0 : ℚ) < 250 ∧
    ∃ chunks, chunkList 250 (max 100 (250 / 20)) 21 0 = some chunks ∧
      (∀ (mkRay : vec3 → vec3 → RayBBox) (shape : TriangleMeshShape) (ray_start ray_dir : vec3)
        (hit : TraceHit),
        find_first_hit_loop mkRay shape ray_start ray_dir 250 (max 100 (250 / 20))
          21 0 hit = runChunks mkRay shape ray_start ray_dir chunks hit) ∧
      Tiles 0 chunks 1 ∧
      (∀ c ∈ chunks, (c.2 - c.1) * 250 ≤ max 100 (250 / 20)) ∧
      1 ≤ chunks.length ∧ chunks.length ≤ 20 :=
  ⟨by norm_num, C29_chunks_tile_the_ray 250 (by norm_num)⟩


/-! ## TArray -/

/-- A store inside the allocation succeeds and changes that cell only. -/
theorem TArray.store_spec {T : Type} (a : TArray T) (i : Nat) (cell : Option T)
    (h : i < a.Array.length) :
    ∃ a1, a.store i cell = .ok a1 ∧ a1.Array.length = a.Array.length ∧ a1.Most = a.Most ∧
      a1.Count = a.Count ∧ ∀ j, a1.at j = if j = i then cell else a.at j := by
  refine ⟨{ a with Array := a.Array.set i cell }, by simp [TArray.store, h], by simp, rfl, rfl, ?_⟩
  intro j
  simp only [TArray.at, List.getD_eq_getElem?_getD, List.getElem?_set]
  by_cases hji : j = i
  · subst hji
    simp [h]
  · simp [hji, Ne.symm hji]

/-- The construction loop inside the allocation succeeds and fills its cells
with the default value. -/
theorem TArray.constructFrom_spec {T : Type} (dflt : T) :
    ∀ (n i : Nat) (a : TArray T), i + n ≤ a.Array.length →
      ∃ a1, TArray.constructFrom dflt n i a = .ok a1 ∧ a1.Array.length = a.Array.length ∧
        a1.Most = a.Most ∧ a1.Count = a.Count ∧
        ∀ j, a1.at j = if i ≤ j ∧ j < i + n then some dflt else a.at j := by
  intro n
  induction n with
  | zero =>
    intro i a _
    refine ⟨a, rfl, rfl, rfl, rfl, ?_⟩
    intro j
    rw [if_neg (by omega)]
  | succ n ih =>
    intro i a h
    obtain ⟨a1, h1, l1, m1, c1, g1⟩ := a.store_spec i (some dflt) (by omega)
    obtain ⟨a2, h2, l2, m2, c2, g2⟩ := ih (i + 1) a1 (by omega)
    refine ⟨a2, ?_, by rw [l2, l1], by rw [m2, m1], by rw [c2, c1], ?_⟩
    · simp only [TArray.constructFrom, h1]
      exact h2
    · intro j
      rw [g2 j, g1 j]
      by_cases hj : j = i
      · subst hj
        rw [if_neg (by omega), if_pos rfl, if_pos (by omega)]
      · by_cases hj2 : i + 1 ≤ j ∧ j < i + 1 + n
        · rw [if_pos hj2, if_pos (by omega)]
        · rw [if_neg hj2, if_neg hj, if_neg (by omega)]

/-- `Grow` leaves room for `amount` more entries and keeps the cells of the old
allocation. -/
theorem TArray.Grow_spec {T : Type} (a : TArray T) (amount : Nat) (hv : a.Valid)
    (hfit : a.Count + amount < 2 ^ 32) :
    (a.Grow amount).Array.length = (a.Grow amount).Most ∧
    a.Count + amount ≤ (a.Grow amount).Most ∧ (a.Grow amount).Most < 2 ^ 32 ∧
    (a.Grow amount).Count = a.Count ∧ ∀ j, j < a.Most → (a.Grow amount).at j = a.at j := by
  obtain ⟨hlen, hcm, hm, _⟩ := hv
  have key : ∀ M, a.Most < M →
      (TArray.DoResize { a with Most := M }).Array.length = M ∧
      ∀ j, j < a.Most → (TArray.DoResize { a with Most := M }).at j = a.at j := by
    intro M hM
    have htake : a.Array.take M = a.Array := List.take_of_length_le (by omega)
    simp only [TArray.DoResize, htake]
    refine ⟨?_, ?_⟩
    · simp only [List.length_append, List.length_replicate]
      omega
    · intro j hj
      simp only [TArray.at, List.getD_eq_getElem?_getD]
      rw [List.getElem?_append_left (by omega)]
  simp only [TArray.Grow]
  rw [Nat.mod_eq_of_lt hfit]
  by_cases hg : a.Count + amount > a.Most
  · rw [if_pos hg]
    obtain ⟨M, hM⟩ : ∃ M, M = (if a.Count + amount > (if a.Most ≥ 16 then
        (a.Most + a.Most / 2) % 2 ^ 32 else 16) then a.Count + amount
        else (if a.Most ≥ 16 then (a.Most + a.Most / 2) % 2 ^ 32 else 16)) := ⟨_, rfl⟩
    rw [← hM]
    have hM1 : a.Count + amount ≤ M := by
      rw [hM]
      split_ifs <;> omega
    have hM2 : M < 2 ^ 32 := by
      rw [hM]
      have := Nat.mod_lt (a.Most + a.Most / 2) (by norm_num : 2 ^ 32 > 0)
      split_ifs <;> omega
    obtain ⟨k1, k2⟩ := key M (by omega)
    exact ⟨k1, hM1, hM2, rfl, k2⟩
  · rw [if_neg hg]
    exact ⟨hlen, by omega, hm, rfl, fun _ _ => rfl⟩

/-- `Resize` to a larger size succeeds: the old entries stay and the new ones
are default-constructed. -/
theorem TArray.Resize_grow_spec {T : Type} (dflt : T) (a : TArray T) (amount : Nat)
    (hv : a.Valid) (hlt : a.Count < amount) (hfit : amount < 2 ^ 32) :
    ∃ a1, TArray.Resize dflt a amount = .ok a1 ∧ a1.Valid ∧ a1.Count = amount ∧
      ∀ j, j < amount → a1.at j = if j < a.Count then a.at j else some dflt := by
  have hsub : (amount + 2 ^ 32 - a.Count) % 2 ^ 32 = amount - a.Count := by
    have h1 : amount + 2 ^ 32 - a.Count = (amount - a.Count) + 2 ^ 32 := by omega
    rw [h1, Nat.add_mod_right, Nat.mod_eq_of_lt (by omega)]
  obtain ⟨g1, g2, g3, g4, g5⟩ := a.Grow_spec (amount - a.Count) hv (by omega)
  obtain ⟨a2, h2, l2, m2, c2, e2⟩ := TArray.constructFrom_spec dflt (amount - a.Count) a.Count
    (a.Grow (amount - a.Count)) (by omega)
  refine ⟨{ a2 with Count := amount }, ?_, ?_, rfl, ?_⟩
  · simp only [TArray.Resize]
    rw [if_pos hlt, hsub, g4]
    simp only [h2]
  · refine ⟨by show a2.Array.length = a2.Most; rw [l2, m2]; exact g1,
      by show amount ≤ a2.Most; rw [m2]; omega, by show a2.Most < 2 ^ 32; rw [m2]; exact g3, ?_⟩
    intro j hj
    show (a2.at j).isSome = true
    rw [e2 j]
    by_cases hjc : j < a.Count
    · rw [if_neg (by omega), g5 j (by have := hv.2.1; omega)]
      exact hv.2.2.2 j hjc
    · rw [if_pos (by have : j < amount := hj; omega)]
      rfl
  · intro j hj
    show a2.at j = _
    rw [e2 j]
    by_cases hjc : j < a.Count
    · rw [if_neg (by omega), if_pos hjc, g5 j (by have := hv.2.1; omega)]
    · rw [if_pos (by omega), if_neg hjc]

/-- A `memmove` inside the allocation succeeds and copies the source range. -/
theorem TArray.memmove_spec {T : Type} (a : TArray T) (dst src n : Nat)
    (hs : src + n ≤ a.Array.length) (hd : dst + n ≤ a.Array.length) :
    ∃ a1, a.memmove dst src n = .ok a1 ∧ a1.Array.length = a.Array.length ∧ a1.Most = a.Most ∧
      a1.Count = a.Count ∧
      ∀ j, a1.at j = if dst ≤ j ∧ j < dst + n then a.at (src + (j - dst)) else a.at j := by
  refine ⟨{ a with Array := a.Array.take dst ++ (a.Array.drop src).take n
    ++ a.Array.drop (dst + n) }, by simp [TArray.memmove, hs, hd], ?_, rfl, rfl, ?_⟩
  · simp only [List.length_append, List.length_take, List.length_drop]
    omega
  · intro j
    have hl1 : (a.Array.take dst).length = dst := by
      rw [List.length_take]; omega
    have hl2 : ((a.Array.drop src).take n).length = n := by
      rw [List.length_take, List.length_drop]; omega
    simp only [TArray.at, List.getD_eq_getElem?_getD]
    by_cases h1 : j < dst
    · rw [if_neg (by omega), List.append_assoc, List.getElem?_append_left (by omega),
        List.getElem?_take_of_lt h1]
    · by_cases h2 : j < dst + n
      · rw [if_pos ⟨by omega, h2⟩, List.getElem?_append_left
          (by rw [List.length_append, hl1, hl2]; exact h2),
          List.getElem?_append_right (by omega), hl1,
          List.getElem?_take_of_lt (by omega), List.getElem?_drop]
      · rw [if_neg (by omega), List.getElem?_append_right
          (by rw [List.length_append, hl1, hl2]; omega), List.length_append, hl1, hl2,
          List.getElem?_drop]
        congr 2
        omega

/-- C22, as worded, fails in two ways.  At the top of the index range: on the
empty array, `Insert(4294967295, 7)` calls `Resize(index + 1)` with `index + 1`
wrapped to 0, which leaves the array empty, and then constructs the item in
`Array[index]`, outside the allocation; no array of size `index + 1` results.
For an item that is an element of the array: on `[10, 20, 30]` with room for
four, `a.Insert(1, a[2])` is called with the item `30`; `memmove` shifts `20`
into `Array[2]` before the reference is read, and the result is
`[10, 20, 20, 30]`, whose element at index 1 is not `30`.  On `[10, 20, 30]`
without spare room `Resize` reallocates and the reference is read after the old
allocation has ended. -/
theorem C22_counterexample :
    TArray.Insert 0 (⟨[], 0, 0⟩ : TArray Nat) 4294967295 (.outside 7)
      = .error (Fault.nodeIndex 4294967295) ∧
    (⟨[some 10, some 20, some 30, none], 4, 3⟩ : TArray Nat).Valid ∧
    (⟨[some 10, some 20, some 30, none], 4, 3⟩ : TArray Nat).at 2 = some 30 ∧
    TArray.Insert 0 (⟨[some 10, some 20, some 30, none], 4, 3⟩ : TArray Nat) 1 (.element 2)
      = .ok ⟨[some 10, some 20, some 20, some 30], 4, 4⟩ ∧
    (⟨[some 10, some 20, some 20, some 30], 4, 4⟩ : TArray Nat).at 1 ≠ some 30 ∧
    (⟨[some 10, some 20, some 30], 3, 3⟩ : TArray Nat).Valid ∧
    TArray.Insert 0 (⟨[some 10, some 20, some 30], 3, 3⟩ : TArray Nat) 1 (.element 2)
      = .error (Fault.nodeIndex 2) := by
  refine ⟨?_, ?_, ?_, ?_, ?_, ?_, ?_⟩ <;> decide!

/-- C22, amended: for every consistent `TArray` of size `n` and every item `x`
that is an object outside the array, with `n` and `index` below `2^32 - 1`,
`Insert(index, x)` returns a consistent array; for `index < n` it has size `n + 1`, `x` at `index`, the elements before
`index` unchanged and the elements formerly at `j >= index` at `j + 1`; for
`index >= n` it has size `index + 1`, its first `n` elements unchanged and `x`
at `index`. -/
theorem C22_insert_postconditions {T : Type} (dflt : T) (a : TArray T) (index : Nat) (x : T)
    (hv : a.Valid) (hidx : index + 1 < 2 ^ 32) (hcnt : a.Size + 1 < 2 ^ 32) :
    ∃ a1, TArray.Insert dflt a index (.outside x) = .ok a1 ∧ a1.Valid ∧
      (index < a.Size →
        a1.Size = a.Size + 1 ∧ a1.at index = some x ∧
        (∀ j, j < index → a1.at j = a.at j) ∧
        (∀ j, index ≤ j → j < a.Size → a1.at (j + 1) = a.at j)) ∧
      (index ≥ a.Size →
        a1.Size = index + 1 ∧ (∀ j, j < a.Size → a1.at j = a.at j) ∧ a1.at index = some x) := by
  simp only [TArray.Size] at hcnt ⊢
  by_cases hi : index < a.Count
  · -- in the middle: make room, move the tail, put the item in
    obtain ⟨a1, h1, v1, c1, e1⟩ := TArray.Resize_grow_spec dflt a (a.Count + 1) hv (by omega) hcnt
    obtain ⟨vl, vc, vm, vs⟩ := v1
    have hn : (a1.Count + 2 ^ 32 - index - 1) % 2 ^ 32 = a.Count - index := by
      have : a1.Count + 2 ^ 32 - index - 1 = (a.Count - index) + 2 ^ 32 := by omega
      rw [this, Nat.add_mod_right, Nat.mod_eq_of_lt (by omega)]
    obtain ⟨a2, h2, l2, m2, c2, e2⟩ := a1.memmove_spec (index + 1) index (a.Count - index)
      (by omega) (by omega)
    obtain ⟨a3, h3, l3, m3, c3, e3⟩ := a2.store_spec index (some x) (by omega)
    have hat : ∀ j, a3.at j = if j = index then some x
        else if index + 1 ≤ j ∧ j < a.Count + 1 then a.at (j - 1) else a1.at j := by
      intro j
      rw [e3 j, e2 j]
      by_cases hj : j = index
      · rw [if_pos hj, if_pos hj]
      · rw [if_neg hj, if_neg hj]
        by_cases hj2 : index + 1 ≤ j ∧ j < a.Count + 1
        · rw [if_pos (by omega), if_pos hj2, e1 _ (by omega), if_pos (by omega)]
          congr 1
          omega
        · rw [if_neg (by omega), if_neg hj2]
    refine ⟨a3, ?_, ?_, ?_, fun h => absurd hi (by omega)⟩
    · simp only [TArray.Insert]
      rw [if_neg (by omega), Nat.mod_eq_of_lt hcnt]
      simp only [h1, hn, h2, TArray.readItem]
      exact h3
    · refine ⟨by rw [l3, l2, m3, m2]; exact vl, by rw [c3, c2, m3, m2]; exact vc,
        by rw [m3, m2]; exact vm, ?_⟩
      intro j hj
      rw [c3, c2, c1] at hj
      rw [hat j]
      by_cases hj1 : j = index
      · rw [if_pos hj1]; rfl
      · rw [if_neg hj1]
        by_cases hj2 : index + 1 ≤ j ∧ j < a.Count + 1
        · rw [if_pos hj2]
          exact hv.2.2.2 _ (by omega)
        · rw [if_neg hj2, e1 j (by omega), if_pos (by omega)]
          exact hv.2.2.2 _ (by omega)
    · intro _
      refine ⟨by rw [c3, c2, c1], ?_, ?_, ?_⟩
      · rw [hat index, if_pos rfl]
      · intro j hj
        rw [hat j, if_neg (by omega), if_neg (by omega), e1 j (by omega), if_pos (by omega)]
      · intro j hj1 hj2
        rw [hat (j + 1), if_neg (by omega), if_pos (by omega)]
        rfl
  · -- past the end: resize, then construct the item in place
    obtain ⟨a1, h1, v1, c1, e1⟩ := TArray.Resize_grow_spec dflt a (index + 1) hv (by omega) hidx
    obtain ⟨vl, vc, vm, vs⟩ := v1
    obtain ⟨a3, h3, l3, m3, c3, e3⟩ := a1.store_spec index (some x) (by omega)
    refine ⟨a3, ?_, ?_, fun h => absurd h hi, ?_⟩
    · simp only [TArray.Insert]
      rw [if_pos (by omega), Nat.mod_eq_of_lt hidx]
      simp only [h1, TArray.readItem]
      exact h3
    · refine ⟨by rw [l3, m3]; exact vl, by rw [c3, m3]; exact vc, by rw [m3]; exact vm, ?_⟩
      intro j hj
      rw [c3] at hj
      rw [e3 j]
      by_cases hj1 : j = index
      · rw [if_pos hj1]; rfl
      · rw [if_neg hj1]
        exact vs j hj
    · intro _
      refine ⟨by rw [c3, c1], ?_, ?_⟩
      · intro j hj
        rw [e3 j, if_neg (by omega), e1 j (by omega), if_pos hj]
      · rw [e3 index, if_pos rfl]

/-- C22 on the array `[1, 2]` with room for four: `Insert(1, 9)` gives
`[1, 9, 2]`. -/
theorem C22_witness :
    (⟨[some 1, some 2, none, none], 4, 2⟩ : TArray Nat).Valid ∧
    TArray.Insert 0 (⟨[some 1, some 2, none, none], 4, 2⟩ : TArray Nat) 1 (.outside 9)
      = .ok ⟨[some 1, some 9, some 2, none], 4, 3⟩ ∧
    ∃ a1, TArray.Insert 0 (⟨[some 1, some 2, none, none], 4, 2⟩ : TArray Nat) 1 (.outside 9)
        = .ok a1 ∧
      a1.Valid ∧
      (1 < (⟨[some 1, some 2, none, none], 4, 2⟩ : TArray Nat).Size →
        a1.Size = (⟨[some 1, some 2, none, none], 4, 2⟩ : TArray Nat).Size + 1 ∧
        a1.at 1 = some 9 ∧
        (∀ j, j < 1 → a1.at j = (⟨[some 1, some 2, none, none], 4, 2⟩ : TArray Nat).at j) ∧
        (∀ j, 1 ≤ j → j < (⟨[some 1, some 2, none, none], 4, 2⟩ : TArray Nat).Size →
          a1.at (j + 1) = (⟨[some 1, some 2, none, none], 4, 2⟩ : TArray Nat).at j)) ∧
      (1 ≥ (⟨[some 1, some 2, none, none], 4, 2⟩ : TArray Nat).Size →
        a1.Size = 1 + 1 ∧
        (∀ j, j < (⟨[some 1, some 2, none, none], 4, 2⟩ : TArray Nat).Size →
          a1.at j = (⟨[some 1, some 2, none, none], 4, 2⟩ : TArray Nat).at j) ∧
        a1.at 1 = some 9) :=
  ⟨by decide, by decide!,
    C22_insert_postconditions 0 ⟨[some 1, some 2, none, none], 4, 2⟩ 1 9 (by decide)
      (by norm_num) (by norm_num [TArray.Size])⟩


/-! ## Child and element indices of the built tree -/

/-- In the flattened form of a tree placed at offset `off`, the children of the
internal node at position `a` lie at indices from `off` up to, but not
including, its own index `off + a`. -/
theorem BVH.flatten_children (T : BVH) :
    ∀ (off a : Nat) (n : Node), (T.flatten off).get? a = some n → n.element_index = -1 →
      (off : Int) ≤ n.left ∧ n.left < ((off + a : Nat) : Int) ∧
      (off : Int) ≤ n.right ∧ n.right < ((off + a : Nat) : Int) := by
  induction T with
  | leaf mn mx t =>
    intro off a n hget hinner
    cases a with
    | zero =>
      simp only [BVH.flatten, List.get?_cons_zero, Option.some.injEq] at hget
      subst hget
      simp only [Node.leaf] at hinner
      omega
    | succ a => simp [BVH.flatten] at hget
  | inner mn mx l r ihl ihr =>
    intro off a n hget hinner
    have hl := l.flatten_length off
    have hr := r.flatten_length (off + l.size)
    have hlp := l.size_pos
    have hrp := r.size_pos
    simp only [BVH.flatten, List.get?_eq_getElem?] at hget
    by_cases h1 : a < l.size
    · rw [List.append_assoc, List.getElem?_append_left (by omega)] at hget
      exact ihl off a n (by rw [List.get?_eq_getElem?]; exact hget) hinner
    · by_cases h2 : a < l.size + r.size
      · rw [List.append_assoc, List.getElem?_append_right (by omega),
          List.getElem?_append_left (by omega), hl] at hget
        obtain ⟨c1, c2, c3, c4⟩ := ihr (off + l.size) (a - l.size) n
          (by rw [List.get?_eq_getElem?]; exact hget) hinner
        push_cast at c1 c2 c3 c4 ⊢
        omega
      · rw [List.getElem?_append_right (by rw [List.length_append]; omega),
          List.length_append, hl, hr] at hget
        have ha : a - (l.size + r.size) = 0 := by
          by_contra hne
          rw [List.getElem?_eq_none (by simp; omega)] at hget
          cases hget
        rw [ha] at hget
        simp only [List.getElem?_cons_zero, Option.some.injEq] at hget
        subst hget
        simp only [Node.inner]
        push_cast
        omega

/-- A node read at a non-negative index below the array length succeeds. -/
theorem node_ok_of_lt (shape : TriangleMeshShape) (i : Int) (h0 : 0 ≤ i)
    (hlt : i.toNat < shape.nodes.length) : ∃ m, shape.node i = .ok m :=
  ⟨shape.nodes[i.toNat], by
    simp only [TriangleMeshShape.node, if_pos h0, List.get?_eq_getElem?,
      List.getElem?_eq_getElem hlt]⟩

/-- C23: for every mesh with at least one triangle the build succeeds, and every
internal node of the node array has both child indices valid: `0 <= left`,
`left` below the node's own index, and the same for `right`; so both children
are nodes of the array that were appended before their parent. -/
theorem C23_children_precede_parent (vertices : List vec3) (num_vertices : Int)
    (elements : List Nat) (num_elements : Int) (h : 1 ≤ numTriangles num_elements) :
    ∃ shape, TriangleMeshShape.create vertices num_vertices elements num_elements = .ok shape ∧
      ∀ (a : Nat) (n : Node), shape.nodes.get? a = some n → n.element_index = -1 →
        (0 ≤ n.left ∧ n.left < (a : Int)) ∧ (0 ≤ n.right ∧ n.right < (a : Int)) ∧
        (∃ nl, shape.node n.left = .ok nl) ∧ (∃ nr, shape.node n.right = .ok nr) := by
  obtain ⟨T, hT, -, -⟩ := create_nonempty vertices num_vertices elements num_elements h
  refine ⟨_, hT, ?_⟩
  intro a n hget hinner
  simp only at hget
  obtain ⟨c1, c2, c3, c4⟩ := T.flatten_children 0 a n hget hinner
  have halen : a < (T.flatten 0).length := by
    rw [List.get?_eq_getElem?] at hget
    exact (List.getElem?_eq_some.mp hget).1
  simp only [Nat.zero_add, Nat.cast_zero] at c1 c2 c3 c4
  exact ⟨⟨c1, c2⟩, ⟨c3, c4⟩, node_ok_of_lt _ _ c1 (by simp only; omega),
    node_ok_of_lt _ _ c3 (by simp only; omega)⟩

/-- C23 at the sample mesh of four triangles. -/
theorem C23_witness :
    1 ≤ numTriangles 12 ∧
    ∃ shape, TriangleMeshShape.create sampleVertices 7 sampleElements 12 = .ok shape ∧
      ∀ (a : Nat) (n : Node), shape.nodes.get? a = some n → n.element_index = -1 →
        (0 ≤ n.left ∧ n.left < (a : Int)) ∧ (0 ≤ n.right ∧ n.right < (a : Int)) ∧
        (∃ nl, shape.node n.left = .ok nl) ∧ (∃ nr, shape.node n.right = .ok nr) :=
  ⟨by decide, C23_children_precede_parent sampleVertices 7 sampleElements 12 (by decide)⟩

/-- C24: for every well-formed mesh with at least one triangle the build
succeeds, and every leaf of the node array has an `element_index` that is a
multiple of 3 with `0 <= element_index` and `element_index + 2 < num_elements`,
so the reads `elements[element_index + j]`, `j < 3`, of the leaf kernels stay
inside the element buffer. -/
theorem C24_leaf_element_reads_in_bounds (vertices : List vec3) (num_vertices : Int)
    (elements : List Nat) (num_elements : Int)
    (hvalid : ValidMesh vertices elements num_elements) (h : 1 ≤ numTriangles num_elements) :
    ∃ shape, TriangleMeshShape.create vertices num_vertices elements num_elements = .ok shape ∧
      ∀ n ∈ shape.nodes, n.element_index ≠ -1 →
        (3 : Int) ∣ n.element_index ∧ 0 ≤ n.element_index ∧
        n.element_index + 2 < num_elements ∧
        ∀ j : Nat, j < 3 → (n.element_index + (j : Int)).toNat < elements.length := by
  obtain ⟨T, hT, hperm, -⟩ := create_nonempty vertices num_vertices elements num_elements h
  refine ⟨_, hT, ?_⟩
  intro n hn hleaf
  simp only at hn
  obtain ⟨t, ht, he⟩ := T.flatten_leaf_mem 0 n hn hleaf
  have htlt : t < numTriangles num_elements := List.mem_range.mp (hperm.mem_iff.mp ht)
  obtain ⟨h0, hlen, _⟩ := hvalid
  have hdiv : 3 * (Int.tdiv num_elements 3) ≤ num_elements := by
    rw [Int.tdiv_eq_ediv h0 (by norm_num)]
    omega
  have hbound : n.element_index + 2 < num_elements := by
    simp only [numTriangles] at htlt
    omega
  refine ⟨⟨t, he⟩, by omega, hbound, ?_⟩
  intro j hj
  omega

/-- C24 at the sample mesh of four triangles. -/
theorem C24_witness :
    ValidMesh sampleVertices sampleElements 12 ∧ 1 ≤ numTriangles 12 ∧
    ∃ shape, TriangleMeshShape.create sampleVertices 7 sampleElements 12 = .ok shape ∧
      ∀ n ∈ shape.nodes, n.element_index ≠ -1 →
        (3 : Int) ∣ n.element_index ∧ 0 ≤ n.element_index ∧
        n.element_index + 2 < 12 ∧
        ∀ j : Nat, j < 3 → (n.element_index + (j : Int)).toNat < sampleElements.length :=
  ⟨by decide!, by decide,
    C24_leaf_element_reads_in_bounds sampleVertices 7 sampleElements 12 (by decide!) (by decide)⟩


/-! ## The builder on its buffers -/

/-- A store inside the scratch array succeeds. -/
theorem WorkBuffer.write_spec (wb : WorkBuffer) (i v : Nat) (h : i < wb.cells.length) :
    wb.write i v = .ok { cells := wb.cells.set i v, log := i :: wb.log } := by
  simp [WorkBuffer.write, h]

/-- A read inside the scratch array succeeds. -/
theorem WorkBuffer.read_spec (wb : WorkBuffer) (i : Nat) (h : i < wb.cells.length) :
    wb.read i = .ok (wb.cells[i], { wb with log := i :: wb.log }) := by
  simp [WorkBuffer.read, List.get?_eq_getElem?, List.getElem?_eq_getElem h]

/-- The partition loop on a scratch array of at least `2 * num_triangles` cells:
it succeeds, accesses indices below `2 * num_triangles` only, packs the
triangles of the upper side from `left_count` on and those of the lower side
from `num_triangles + right_count` on, and keeps what was packed before. -/
theorem splitLoopRaw_spec (centroids : List vec3) (plane : vec4) (n : Nat) :
    ∀ (ts : List Nat) (wb : WorkBuffer) (l r : Nat), l + r + ts.length ≤ n →
      2 * n ≤ wb.cells.length →
      ∃ cells acc,
        splitLoopRaw centroids plane n ts wb l r
          = .ok (⟨cells, acc ++ wb.log⟩,
            l + (ts.filter (fun t => decide (splitSide centroids plane t ≥ 0))).length,
            r + (ts.filter (fun t => !decide (splitSide centroids plane t ≥ 0))).length) ∧
        cells.length = wb.cells.length ∧ (∀ i ∈ acc, i < 2 * n) ∧
        (∀ j, j < l → cells[j]? = wb.cells[j]?) ∧
        (∀ i, i < (ts.filter (fun t => decide (splitSide centroids plane t ≥ 0))).length →
          cells[l + i]? = (ts.filter (fun t => decide (splitSide centroids plane t ≥ 0)))[i]?) ∧
        (∀ j, n ≤ j → j < n + r → cells[j]? = wb.cells[j]?) ∧
        (∀ i, i < (ts.filter (fun t => !decide (splitSide centroids plane t ≥ 0))).length →
          cells[n + r + i]?
            = (ts.filter (fun t => !decide (splitSide centroids plane t ≥ 0)))[i]?) := by
  intro ts
  induction ts with
  | nil =>
    intro wb l r _ _
    refine ⟨wb.cells, [], by simp [splitLoopRaw], rfl, by simp, fun _ _ => rfl, ?_,
      fun _ _ _ => rfl, ?_⟩
    · intro i hi; simp at hi
    · intro i hi; simp at hi
  | cons t rest ih =>
    intro wb l r hlen hbuf
    simp only [List.length_cons] at hlen
    by_cases hside : splitSide centroids plane t ≥ 0
    · have hw := wb.write_spec l t (by omega)
      obtain ⟨cells, acc, hrun, hcl, hacc, hkeepL, hnewL, hkeepR, hnewR⟩ :=
        ih { cells := wb.cells.set l t, log := l :: wb.log } (l + 1) r (by omega)
          (by simpa using hbuf)
      have hf1 : (t :: rest).filter (fun t => decide (splitSide centroids plane t ≥ 0))
          = t :: rest.filter (fun t => decide (splitSide centroids plane t ≥ 0)) :=
        List.filter_cons_of_pos (by simpa using hside)
      have hf2 : (t :: rest).filter (fun t => !decide (splitSide centroids plane t ≥ 0))
          = rest.filter (fun t => !decide (splitSide centroids plane t ≥ 0)) :=
        List.filter_cons_of_neg (by simpa using hside)
      rw [hf1, hf2]
      refine ⟨cells, acc ++ [l], ?_, by simpa using hcl, ?_, ?_, ?_, ?_, hnewR⟩
      · simp only [splitLoopRaw, if_pos hside, hw, hrun, List.length_cons, List.append_assoc,
          List.singleton_append]
        congr 3
        omega
      · intro i hi
        rcases List.mem_append.mp hi with h | h
        · exact hacc i h
        · simp only [List.mem_singleton] at h
          omega
      · intro j hj
        rw [hkeepL j (by omega)]
        simp only
        rw [List.getElem?_set_ne (by omega)]
      · intro i hi
        simp only [List.length_cons] at hi
        cases i with
        | zero =>
          rw [Nat.add_zero, hkeepL l (by omega)]
          simp only [List.getElem?_cons_zero]
          rw [List.getElem?_set_self (by omega)]
        | succ i =>
          have := hnewL i (by omega)
          rw [List.getElem?_cons_succ, ← this]
          congr 1
          omega
      · intro j hj1 hj2
        rw [hkeepR j hj1 hj2]
        simp only
        rw [List.getElem?_set_ne (by omega)]
    · have hw := wb.write_spec (n + r) t (by omega)
      obtain ⟨cells, acc, hrun, hcl, hacc, hkeepL, hnewL, hkeepR, hnewR⟩ :=
        ih { cells := wb.cells.set (n + r) t, log := (n + r) :: wb.log } l (r + 1) (by omega)
          (by simpa using hbuf)
      have hf1 : (t :: rest).filter (fun t => decide (splitSide centroids plane t ≥ 0))
          = rest.filter (fun t => decide (splitSide centroids plane t ≥ 0)) :=
        List.filter_cons_of_neg (by simpa using hside)
      have hf2 : (t :: rest).filter (fun t => !decide (splitSide centroids plane t ≥ 0))
          = t :: rest.filter (fun t => !decide (splitSide centroids plane t ≥ 0)) :=
        List.filter_cons_of_pos (by simpa using hside)
      rw [hf1, hf2]
      refine ⟨cells, acc ++ [n + r], ?_, by simpa using hcl, ?_, ?_, hnewL, ?_, ?_⟩
      · simp only [splitLoopRaw, if_neg hside, hw, hrun, List.length_cons, List.append_assoc,
          List.singleton_append]
        congr 3
        omega
      · intro i hi
        rcases List.mem_append.mp hi with h | h
        · exact hacc i h
        · simp only [List.mem_singleton] at h
          omega
      · intro j hj
        rw [hkeepL j hj]
        simp only
        rw [List.getElem?_set_ne (by omega)]
      · intro j hj1 hj2
        rw [hkeepR j hj1 (by omega)]
        simp only
        rw [List.getElem?_set_ne (by omega)]
      · intro i hi
        simp only [List.length_cons] at hi
        cases i with
        | zero =>
          rw [Nat.add_zero, hkeepR (n + r) (by omega) (by omega)]
          simp only [List.getElem?_cons_zero]
          rw [List.getElem?_set_self (by omega)]
        | succ i =>
          have := hnewR i (by omega)
          rw [List.getElem?_cons_succ, ← this]
          congr 1
          omega

/-- A copy loop whose ranges lie inside the scratch array and the triangle
array: it succeeds, reads the indices `src .. src + count - 1` only, leaves the
scratch array as it was, and copies that range to `dst .. dst + count - 1`. -/
theorem copyBackLoop_spec : ∀ (count src dst : Nat) (triangles : List Nat) (wb : WorkBuffer),
    src + count ≤ wb.cells.length → dst + count ≤ triangles.length →
    ∃ triangles1 acc,
      copyBackLoop count src dst triangles wb = .ok (triangles1, ⟨wb.cells, acc ++ wb.log⟩) ∧
      triangles1.length = triangles.length ∧ (∀ i ∈ acc, src ≤ i ∧ i < src + count) ∧
      ∀ j, triangles1[j]? = if dst ≤ j ∧ j < dst + count then wb.cells[src + (j - dst)]?
        else triangles[j]? := by
  intro count
  induction count with
  | zero =>
    intro src dst triangles wb _ _
    refine ⟨triangles, [], by simp [copyBackLoop], rfl, by simp, ?_⟩
    intro j
    rw [if_neg (by omega)]
  | succ count ih =>
    intro src dst triangles wb hs hd
    have hr := wb.read_spec src (by omega)
    obtain ⟨tr1, acc, hrun, hlen, hacc, hget⟩ := ih (src + 1) (dst + 1)
      (triangles.set dst wb.cells[src]) { wb with log := src :: wb.log } (by simpa using by omega)
      (by simpa using by omega)
    refine ⟨tr1, acc ++ [src], ?_, by simpa using hlen, ?_, ?_⟩
    · simp only [copyBackLoop, hr, writeTriangle, if_pos (show dst < triangles.length by omega),
        hrun, List.append_assoc, List.singleton_append]
    · intro i hi
      rcases List.mem_append.mp hi with h | h
      · have := hacc i h
        omega
      · simp only [List.mem_singleton] at h
        omega
    · intro j
      rw [hget j]
      by_cases hj : dst + 1 ≤ j ∧ j < dst + 1 + count
      · rw [if_pos hj, if_pos (by omega)]
        simp only
        congr 1
        omega
      · rw [if_neg hj]
        by_cases hjd : j = dst
        · subst hjd
          rw [if_pos (by omega), List.getElem?_set_self (by omega), Nat.sub_self]
          simp only [Nat.add_zero]
          rw [List.getElem?_eq_getElem (by omega)]
        · rw [if_neg (by omega), List.getElem?_set_ne (by omega)]

/-- The two sides of a partition pass together have as many triangles as the
list. -/
theorem splitPass_length (centroids : List vec3) (median : vec3) (triangles : List Nat) (a : Nat) :
    (splitPass centroids median triangles a).1.length
      + (splitPass centroids median triangles a).2.length = triangles.length := by
  simp only [splitPass]
  induction triangles with
  | nil => rfl
  | cons t rest ih =>
    by_cases h : splitSide centroids (vec4.ofVec3 (axisVector a) (-dot median (axisVector a))) t ≥ 0
    · rw [List.filter_cons_of_pos (by simpa using h), List.filter_cons_of_neg (by simpa using h)]
      simp only [List.length_cons]
      omega
    · rw [List.filter_cons_of_neg (by simpa using h), List.filter_cons_of_pos (by simpa using h)]
      simp only [List.length_cons]
      omega

/-- The attempt loop on the buffers follows the attempt loop on lists: it
succeeds, accesses indices below `2 * num_triangles` only, and leaves the two
sides of the last pass packed at `0` and at `num_triangles`. -/
theorem splitAttemptsRaw_spec (centroids : List vec3) (median : vec3) (triangles : List Nat) :
    ∀ (axes : List Nat) (wb : WorkBuffer) (l r : Nat) (last : List Nat × List Nat),
      l = last.1.length → r = last.2.length →
      (∀ i, i < last.1.length → wb.cells[i]? = last.1[i]?) →
      (∀ i, i < last.2.length → wb.cells[triangles.length + i]? = last.2[i]?) →
      2 * triangles.length ≤ wb.cells.length →
      ∃ cells acc,
        splitAttemptsRaw centroids median triangles axes (wb, l, r)
          = .ok (⟨cells, acc ++ wb.log⟩,
            (splitAttempts centroids median triangles axes last).1.length,
            (splitAttempts centroids median triangles axes last).2.length) ∧
        cells.length = wb.cells.length ∧ (∀ i ∈ acc, i < 2 * triangles.length) ∧
        (∀ i, i < (splitAttempts centroids median triangles axes last).1.length →
          cells[i]? = (splitAttempts centroids median triangles axes last).1[i]?) ∧
        (∀ i, i < (splitAttempts centroids median triangles axes last).2.length →
          cells[triangles.length + i]?
            = (splitAttempts centroids median triangles axes last).2[i]?) := by
  intro axes
  induction axes with
  | nil =>
    intro wb l r last hl hr h1 h2 _
    refine ⟨wb.cells, [], ?_, rfl, by simp, h1, h2⟩
    simp [splitAttemptsRaw, splitAttempts, hl, hr]
  | cons a rest ih =>
    intro wb l r last _ _ _ _ hbuf
    obtain ⟨cells1, acc1, hrun1, hlen1, hacc1, _, hL, _, hR⟩ :=
      splitLoopRaw_spec centroids (vec4.ofVec3 (axisVector a) (-dot median (axisVector a)))
        triangles.length triangles wb 0 0 (by omega) hbuf
    simp only [Nat.zero_add, Nat.add_zero] at hrun1 hL hR
    have hpass : splitPass centroids median triangles a
        = (triangles.filter (fun t => decide (splitSide centroids
            (vec4.ofVec3 (axisVector a) (-dot median (axisVector a))) t ≥ 0)),
          triangles.filter (fun t => !decide (splitSide centroids
            (vec4.ofVec3 (axisVector a) (-dot median (axisVector a))) t ≥ 0))) := rfl
    by_cases hacc : (splitPass centroids median triangles a).1.length ≠ 0 ∧
        (splitPass centroids median triangles a).2.length ≠ 0
    · have hs : splitAttempts centroids median triangles (a :: rest) last
          = splitPass centroids median triangles a := by
        simp only [splitAttempts]
        rw [if_pos hacc]
      rw [hs]
      refine ⟨cells1, acc1, ?_, hlen1, hacc1, ?_, ?_⟩
      · simp only [splitAttemptsRaw, hrun1]
        rw [if_pos (by rw [hpass] at hacc; exact hacc), hpass]
      · rw [hpass]; exact hL
      · rw [hpass]; exact hR
    · have hs : splitAttempts centroids median triangles (a :: rest) last
          = splitAttempts centroids median triangles rest
              (splitPass centroids median triangles a) := by
        simp only [splitAttempts]
        rw [if_neg hacc]
      rw [hs]
      obtain ⟨cells2, acc2, hrun2, hlen2, hacc2, hL2, hR2⟩ :=
        ih ⟨cells1, acc1 ++ wb.log⟩ (splitPass centroids median triangles a).1.length
          (splitPass centroids median triangles a).2.length
          (splitPass centroids median triangles a) rfl rfl
          (by rw [hpass]; exact hL) (by rw [hpass]; exact hR) (by simpa [hlen1] using hbuf)
      refine ⟨cells2, acc2 ++ acc1, ?_, by rw [hlen2]; exact hlen1, ?_, hL2, hR2⟩
      · simp only [splitAttemptsRaw, hrun1]
        rw [if_neg (by rw [hpass] at hacc; exact hacc)]
        rw [hpass] at hrun2
        rw [hrun2, List.append_assoc]
        rfl
      · intro i hi
        rcases List.mem_append.mp hi with h | h
        · exact hacc2 i h
        · exact hacc1 i h

/-- The split on the buffers follows the split on lists: it succeeds, accesses
scratch indices below `2 * num_triangles` only, and leaves the triangle array
holding the left part followed by the right part. -/
theorem subdivide_split_raw_spec (centroids : List vec3) (mn mx median : vec3)
    (triangles : List Nat) (wb : WorkBuffer) (hbuf : 2 * triangles.length ≤ wb.cells.length) :
    ∃ cells acc,
      subdivide_split_raw centroids mn mx median triangles wb
        = .ok ((subdivide_split centroids mn mx median triangles).1
            ++ (subdivide_split centroids mn mx median triangles).2,
          (subdivide_split centroids mn mx median triangles).1.length,
          (subdivide_split centroids mn mx median triangles).2.length,
          ⟨cells, acc ++ wb.log⟩) ∧
      cells.length = wb.cells.length ∧ ∀ i ∈ acc, i < 2 * triangles.length := by
  obtain ⟨axes, haxes⟩ : ∃ axes, axes = sortAxes (fun a => match a with
      | 0 => mx.x - mn.x
      | 1 => mx.y - mn.y
      | _ => mx.z - mn.z) [0, 1, 2] := ⟨_, rfl⟩
  obtain ⟨cells1, acc1, hrun1, hlen1, hacc1, hL, hR⟩ :=
    splitAttemptsRaw_spec centroids median triangles axes wb 0 0 ([], []) rfl rfl
      (by intro i hi; simp at hi) (by intro i hi; simp at hi) hbuf
  obtain ⟨s, hs⟩ : ∃ s, s = splitAttempts centroids median triangles axes ([], []) := ⟨_, rfl⟩
  rw [← hs] at hrun1 hL hR
  have habs : subdivide_split centroids mn mx median triangles
      = if s.1.length = 0 ∨ s.2.length = 0 then
          (triangles.take (triangles.length / 2), triangles.drop (triangles.length / 2))
        else s := by
    simp only [subdivide_split]
    rw [← haxes, ← hs]
  have hraw : subdivide_split_raw centroids mn mx median triangles wb
      = if s.1.length = 0 ∨ s.2.length = 0 then
          .ok (triangles, triangles.length / 2, triangles.length - triangles.length / 2,
            ⟨cells1, acc1 ++ wb.log⟩)
        else
          match copyBackLoop s.1.length 0 0 triangles ⟨cells1, acc1 ++ wb.log⟩ with
          | .error e => .error e
          | .ok (triangles1, wb2) =>
            match copyBackLoop s.2.length triangles.length s.1.length triangles1 wb2 with
            | .error e => .error e
            | .ok (triangles2, wb3) => .ok (triangles2, s.1.length, s.2.length, wb3) := by
    simp only [subdivide_split_raw]
    rw [← haxes, hrun1]
  rw [habs, hraw]
  by_cases hfall : s.1.length = 0 ∨ s.2.length = 0
  · rw [if_pos hfall, if_pos hfall]
    refine ⟨cells1, acc1, ?_, hlen1, hacc1⟩
    simp only [List.take_append_drop, List.length_take, List.length_drop]
    congr 3
    omega
  · rw [if_neg hfall, if_neg hfall]
    have hsum : s.1.length + s.2.length = triangles.length := by
      rcases splitAttempts_cases centroids median triangles axes ([], []) with h | ⟨a, h⟩
      · rw [← hs] at h
        rw [h] at hfall
        simp at hfall
      · rw [← hs] at h
        rw [h]
        exact splitPass_length centroids median triangles a
    obtain ⟨tr1, acc2, hrun2, hlen2, hacc2, hget2⟩ :=
      copyBackLoop_spec s.1.length 0 0 triangles ⟨cells1, acc1 ++ wb.log⟩
        (by simp only; omega) (by omega)
    obtain ⟨tr2, acc3, hrun3, hlen3, hacc3, hget3⟩ :=
      copyBackLoop_spec s.2.length triangles.length s.1.length tr1
        ⟨cells1, acc2 ++ (acc1 ++ wb.log)⟩ (by simp only; omega) (by omega)
    have htr : tr2 = s.1 ++ s.2 := by
      apply List.ext_getElem?
      intro j
      rw [hget3 j]
      by_cases hj : s.1.length ≤ j ∧ j < s.1.length + s.2.length
      · rw [if_pos hj, List.getElem?_append_right hj.1]
        simp only
        exact hR (j - s.1.length) (by omega)
      · rw [if_neg hj, hget2 j]
        by_cases hj1 : j < s.1.length
        · rw [if_pos (by omega), List.getElem?_append_left hj1]
          simp only [Nat.zero_add, Nat.sub_zero]
          exact hL j hj1
        · rw [if_neg (by omega), List.getElem?_eq_none (by omega),
            List.getElem?_eq_none (by rw [List.length_append]; omega)]
    refine ⟨cells1, acc3 ++ acc2 ++ acc1, ?_, hlen1, ?_⟩
    · simp only at hrun2 hrun3
      simp only [hrun2, hrun3, htr, List.append_assoc]
    · intro i hi
      rcases List.mem_append.mp hi with h | h
      · rcases List.mem_append.mp h with h | h
        · have := hacc3 i h
          omega
        · have := hacc2 i h
          omega
      · exact hacc1 i h

/-- `subdivide` on the buffers follows `subdivide` on lists: on a scratch array
of at least `2 * num_triangles` cells it fails only where the recursion budget
fails, appends the same nodes, returns the same index, keeps the length of the
scratch array and accesses indices below `2 * num_triangles` only. -/
theorem subdivideRaw_spec (vertices : List vec3) (elements : List Nat) (centroids : List vec3) :
    ∀ (fuel : Nat) (nodes : List Node) (triangles : List Nat) (wb : WorkBuffer),
      2 * triangles.length ≤ wb.cells.length →
      ∃ cells acc, cells.length = wb.cells.length ∧ (∀ i ∈ acc, i < 2 * triangles.length) ∧
        subdivideRaw vertices elements centroids fuel nodes triangles wb
          = match subdivide vertices elements centroids fuel nodes triangles with
            | .error e => .error e
            | .ok r => .ok (r.1, r.2, ⟨cells, acc ++ wb.log⟩) := by
  intro fuel
  induction fuel with
  | zero =>
    intro nodes triangles wb _
    refine ⟨wb.cells, [], rfl, by simp, ?_⟩
    cases triangles with
    | nil => simp [subdivideRaw, subdivide]
    | cons t0 ts => simp [subdivideRaw, subdivide]
  | succ fuel ih =>
    intro nodes triangles wb hbuf
    cases triangles with
    | nil => exact ⟨wb.cells, [], rfl, by simp, by simp [subdivideRaw, subdivide]⟩
    | cons t0 ts =>
      by_cases hleaf : (t0 :: ts).length = 1
      · refine ⟨wb.cells, [], rfl, by simp, ?_⟩
        simp only [subdivideRaw, subdivide, if_pos hleaf, List.nil_append]
      · have h2 : 2 ≤ (t0 :: ts).length := by
          simp only [List.length_cons] at hleaf ⊢
          omega
        obtain ⟨mn, hmn⟩ : ∃ mn, mn = (subdivide_bounds vertices elements centroids
          (t0 :: ts)).1.1 := ⟨_, rfl⟩
        obtain ⟨mx, hmx⟩ : ∃ mx, mx = (subdivide_bounds vertices elements centroids
          (t0 :: ts)).1.2 := ⟨_, rfl⟩
        obtain ⟨median, hmed⟩ : ∃ median, median = (subdivide_bounds vertices elements centroids
          (t0 :: ts)).2 := ⟨_, rfl⟩
        obtain ⟨s, hs⟩ : ∃ s, s = subdivide_split centroids mn mx median (t0 :: ts) := ⟨_, rfl⟩
        obtain ⟨cells1, acc1, hsplit, hlen1, hacc1⟩ :=
          subdivide_split_raw_spec centroids mn mx median (t0 :: ts) wb hbuf
        rw [← hs] at hsplit
        obtain ⟨_, _, hperm⟩ := subdivide_split_spec centroids mn mx median (t0 :: ts) h2
        rw [← hs] at hperm
        have hsum : s.1.length + s.2.length = (t0 :: ts).length := by
          rw [← List.length_append]
          exact hperm.length_eq
        have htake : (s.1 ++ s.2).take s.1.length = s.1 := List.take_left' rfl
        have hdrop : ((s.1 ++ s.2).drop s.1.length).take s.2.length = s.2 := by
          rw [List.drop_left' rfl, List.take_length]
        -- the left child
        obtain ⟨cellsL, accL, hlenL, haccL, hrunL⟩ :=
          ih nodes s.1 ⟨cells1, acc1 ++ wb.log⟩ (by simp only; omega)
        -- the two runs, stated on the same split
        have habs : subdivide vertices elements centroids (fuel + 1) nodes (t0 :: ts)
            = match (if s.1.length > 0 then subdivide vertices elements centroids fuel nodes s.1
                     else .ok (nodes, -1)) with
              | .error e => .error e
              | .ok (nodesL, left_index) =>
                match (if s.2.length > 0 then
                         subdivide vertices elements centroids fuel nodesL s.2
                       else .ok (nodesL, -1)) with
                | .error e => .error e
                | .ok (nodesR, right_index) =>
                  .ok (nodesR ++ [Node.inner mn mx left_index right_index],
                    ((nodesR ++ [Node.inner mn mx left_index right_index]).length : Int) - 1) := by
          simp only [subdivide, if_neg hleaf]
          rw [← hmn, ← hmx, ← hmed, ← hs]
        have hraw : subdivideRaw vertices elements centroids (fuel + 1) nodes (t0 :: ts) wb
            = match (if s.1.length > 0 then
                       subdivideRaw vertices elements centroids fuel nodes s.1
                         ⟨cells1, acc1 ++ wb.log⟩
                     else .ok (nodes, -1, ⟨cells1, acc1 ++ wb.log⟩)) with
              | .error e => .error e
              | .ok (nodesL, left_index, wbL) =>
                match (if s.2.length > 0 then
                         subdivideRaw vertices elements centroids fuel nodesL s.2 wbL
                       else .ok (nodesL, -1, wbL)) with
                | .error e => .error e
                | .ok (nodesR, right_index, wbR) =>
                  .ok (nodesR ++ [Node.inner mn mx left_index right_index],
                    ((nodesR ++ [Node.inner mn mx left_index right_index]).length : Int) - 1,
                    wbR) := by
          simp only [subdivideRaw, if_neg hleaf, subdivide_partition]
          rw [← hmn, ← hmx, ← hmed, hsplit]
          simp only [htake, hdrop]
        rw [habs, hraw]
        have hL0 : s.1.length > 0 := by
          have := (subdivide_split_spec centroids mn mx median (t0 :: ts) h2).1
          rw [← hs] at this
          exact List.length_pos.mpr this
        have hR0 : s.2.length > 0 := by
          have := (subdivide_split_spec centroids mn mx median (t0 :: ts) h2).2.1
          rw [← hs] at this
          exact List.length_pos.mpr this
        rw [if_pos hL0, if_pos hL0, hrunL]
        cases hl : subdivide vertices elements centroids fuel nodes s.1 with
        | error e => exact ⟨wb.cells, [], rfl, by simp, rfl⟩
        | ok rl =>
          obtain ⟨nodesL, left_index⟩ := rl
          simp only [if_pos hR0]
          have hlenL2 : cellsL.length = cells1.length := hlenL
          obtain ⟨cellsR, accR, hlenR, haccR, hrunR⟩ :=
            ih nodesL s.2 ⟨cellsL, accL ++ (acc1 ++ wb.log)⟩ (by simp only; omega)
          rw [hrunR]
          cases hr : subdivide vertices elements centroids fuel nodesL s.2 with
          | error e => exact ⟨wb.cells, [], rfl, by simp, rfl⟩
          | ok rr =>
            obtain ⟨nodesR, right_index⟩ := rr
            refine ⟨cellsR, accR ++ accL ++ acc1, ?_, ?_, ?_⟩
            · have hlenR2 : cellsR.length = cellsL.length := hlenR
              omega
            · intro i hi
              rcases List.mem_append.mp hi with h | h
              · rcases List.mem_append.mp h with h | h
                · have := haccR i h
                  omega
                · have := haccL i h
                  omega
              · exact hacc1 i h
            · simp only [List.append_assoc]

/-- The coordinate of a sum is the sum of the coordinates. -/
theorem vec3.component_add (u v : vec3) (a : Nat) :
    (u + v).component a = u.component a + v.component a := by
  unfold vec3.component
  split <;> simp only [vec3.add_x, vec3.add_y, vec3.add_z]

/-- The centroid sum of the bounds pass, one coordinate at a time. -/
theorem boundsStep_fold_component (vertices : List vec3) (elements : List Nat)
    (centroids : List vec3) (a : Nat) :
    ∀ (triangles : List Nat) (acc : (vec3 × vec3) × vec3),
      ((triangles.foldl (boundsStep vertices elements centroids) acc).2).component a
        = acc.2.component a
          + (triangles.map (fun t => (centroids.getD t vec3.zero).component a)).sum := by
  intro triangles
  induction triangles with
  | nil => intro acc; simp
  | cons t rest ih =>
    intro acc
    rw [List.foldl_cons, ih]
    simp only [boundsStep, vec3.component_add, List.map_cons, List.sum_cons]
    ring

/-- The `median` of the bounds pass is the mean of the centroids, coordinate by
coordinate. -/
theorem subdivide_bounds_median (vertices : List vec3) (elements : List Nat)
    (centroids : List vec3) (triangles : List Nat) (a : Nat) :
    ((subdivide_bounds vertices elements centroids triangles).2).component a
      = meanCentroid centroids triangles a := by
  simp only [subdivide_bounds, meanCentroid]
  have h := boundsStep_fold_component vertices elements centroids a triangles
    ((vertexAt vertices elements (triangles.headD 0 * 3),
      vertexAt vertices elements (triangles.headD 0 * 3)), vec3.zero)
  have hdiv : ∀ (v : vec3) (f : ℚ), (v.divide f).component a = v.component a / f := by
    intro v f
    unfold vec3.component vec3.divide
    split <;> rfl
  have hz : vec3.zero.component a = 0 := by
    unfold vec3.component vec3.zero
    split <;> rfl
  rw [hdiv, h]
  simp only
  rw [hz, zero_add]

/-- The value `side` of a triangle for the plane of axis `a` through `median` is
the difference of the centroid and median coordinates on that axis. -/
theorem splitSide_axis (centroids : List vec3) (median : vec3) (a t : Nat) :
    splitSide centroids (vec4.ofVec3 (axisVector a) (-(dot median (axisVector a)))) t
      = (centroids.getD t vec3.zero).component a - median.component a := by
  unfold splitSide dot4 vec4.ofVec3 axisVector vec3.component dot
  split <;> simp <;> ring

/-- A partition pass with the median of the bounds pass puts the triangles at or
above the mean centroid coordinate on one side and those below on the other. -/
theorem splitPass_sides (vertices : List vec3) (elements : List Nat) (centroids : List vec3)
    (triangles : List Nat) (a : Nat) :
    splitPass centroids (subdivide_bounds vertices elements centroids triangles).2 triangles a
      = (upperSide centroids triangles a, lowerSide centroids triangles a) := by
  simp only [splitPass, upperSide, lowerSide]
  congr 1
  · apply List.filter_congr
    intro t _
    rw [splitSide_axis, subdivide_bounds_median]
    simp
  · apply List.filter_congr
    intro t _
    rw [splitSide_axis, subdivide_bounds_median]
    generalize (centroids.getD t vec3.zero).component a = c
    generalize meanCentroid centroids triangles a = m
    by_cases hc : c < m
    · simp [hc, not_le.mpr hc]
    · simp [hc, not_lt.mp hc]

/-- Insertion keeps the elements. -/
theorem insertAxis_perm (f : Nat → ℚ) (a : Nat) : ∀ l : List Nat, (insertAxis f a l).Perm (a :: l) := by
  intro l
  induction l with
  | nil => exact List.Perm.refl _
  | cons b rest ih =>
    simp only [insertAxis]
    split_ifs
    · exact (List.Perm.cons b ih).trans (List.Perm.swap a b rest)
    · exact List.Perm.refl _

/-- Insertion into a list in non-increasing order gives a list in
non-increasing order. -/
theorem insertAxis_sorted (f : Nat → ℚ) (a : Nat) : ∀ l : List Nat,
    l.Pairwise (fun x y => f x ≥ f y) → (insertAxis f a l).Pairwise (fun x y => f x ≥ f y) := by
  intro l
  induction l with
  | nil => intro _; simp [insertAxis]
  | cons b rest ih =>
    intro hs
    rw [List.pairwise_cons] at hs
    simp only [insertAxis]
    split_ifs with hba
    · rw [List.pairwise_cons]
      refine ⟨?_, ih hs.2⟩
      intro y hy
      rcases List.mem_cons.mp ((insertAxis_perm f a rest).mem_iff.mp hy) with rfl | hy
      · exact le_of_lt hba
      · exact hs.1 y hy
    · rw [List.pairwise_cons]
      refine ⟨?_, List.pairwise_cons.mpr hs⟩
      intro y hy
      have hab : f a ≥ f b := not_lt.mp hba
      rcases List.mem_cons.mp hy with rfl | hy
      · exact hab
      · exact le_trans (hs.1 y hy) hab

/-- The sorted axis order holds the same axes, in non-increasing order of
length. -/
theorem sortAxes_spec (f : Nat → ℚ) : ∀ l : List Nat,
    (sortAxes f l).Perm l ∧ (sortAxes f l).Pairwise (fun x y => f x ≥ f y) := by
  intro l
  induction l with
  | nil => exact ⟨List.Perm.refl _, List.Pairwise.nil⟩
  | cons a rest ih =>
    have : sortAxes f (a :: rest) = insertAxis f a (sortAxes f rest) := rfl
    rw [this]
    exact ⟨(insertAxis_perm f a _).trans (List.Perm.cons a ih.1), insertAxis_sorted f a _ ih.2⟩

/-- The attempt loop stops at the first axis whose pass leaves both sides
non-empty. -/
theorem splitAttempts_first (centroids : List vec3) (median : vec3) (triangles : List Nat) :
    ∀ (pre : List Nat) (a : Nat) (post : List Nat) (last : List Nat × List Nat),
      (∀ b ∈ pre, ¬ ((splitPass centroids median triangles b).1.length ≠ 0 ∧
        (splitPass centroids median triangles b).2.length ≠ 0)) →
      ((splitPass centroids median triangles a).1.length ≠ 0 ∧
        (splitPass centroids median triangles a).2.length ≠ 0) →
      splitAttempts centroids median triangles (pre ++ a :: post) last
        = splitPass centroids median triangles a := by
  intro pre
  induction pre with
  | nil =>
    intro a post last _ ha
    simp only [List.nil_append, splitAttempts]
    rw [if_pos ha]
  | cons b rest ih =>
    intro a post last hpre ha
    simp only [List.cons_append, splitAttempts]
    rw [if_neg (hpre b (List.mem_cons_self _ _))]
    exact ih a post _ (fun c hc => hpre c (List.mem_cons_of_mem _ hc)) ha

/-- When no axis leaves both sides non-empty, the attempt loop ends with one
side empty. -/
theorem splitAttempts_none (centroids : List vec3) (median : vec3) (triangles : List Nat) :
    ∀ (axes : List Nat) (last : List Nat × List Nat),
      (∀ b ∈ axes, ¬ ((splitPass centroids median triangles b).1.length ≠ 0 ∧
        (splitPass centroids median triangles b).2.length ≠ 0)) →
      (last.1.length = 0 ∨ last.2.length = 0) →
      (splitAttempts centroids median triangles axes last).1.length = 0 ∨
        (splitAttempts centroids median triangles axes last).2.length = 0 := by
  intro axes
  induction axes with
  | nil => intro last _ hl; exact hl
  | cons b rest ih =>
    intro last hall _
    have hb := hall b (List.mem_cons_self _ _)
    simp only [splitAttempts]
    rw [if_neg hb]
    apply ih _ (fun c hc => hall c (List.mem_cons_of_mem _ hc))
    by_contra hcon
    push_neg at hcon
    exact hb hcon

/-- The axis lengths of `subdivide` are the extents of the box. -/
theorem axis_lengths_eq (mn mx : vec3) :
    (fun a : Nat => match a with
      | 0 => mx.x - mn.x
      | 1 => mx.y - mn.y
      | _ => mx.z - mn.z) = axisExtent mn mx := by
  funext a
  rcases a with _ | _ | _ <;> rfl

/-- A partition pass from any scratch contents, followed by the two copy loops:
all three succeed, and the triangle array then holds the two sides the pass
itself packed, whatever the scratch array held before the pass. -/
theorem pass_copy_back (centroids : List vec3) (median : vec3) (triangles : List Nat) (a : Nat)
    (wb0 : WorkBuffer) (hbuf : 2 * triangles.length ≤ wb0.cells.length) :
    ∃ wb1 triangles1 wb2 wb3,
      splitLoopRaw centroids (vec4.ofVec3 (axisVector a) (-(dot median (axisVector a))))
          triangles.length triangles wb0 0 0
        = .ok (wb1, (splitPass centroids median triangles a).1.length,
            (splitPass centroids median triangles a).2.length) ∧
      copyBackLoop (splitPass centroids median triangles a).1.length 0 0 triangles wb1
        = .ok (triangles1, wb2) ∧
      copyBackLoop (splitPass centroids median triangles a).2.length triangles.length
          (splitPass centroids median triangles a).1.length triangles1 wb2
        = .ok ((splitPass centroids median triangles a).1
            ++ (splitPass centroids median triangles a).2, wb3) := by
  obtain ⟨cells1, acc1, hrun1, hlen1, _, _, hL, _, hR⟩ :=
    splitLoopRaw_spec centroids (vec4.ofVec3 (axisVector a) (-dot median (axisVector a)))
      triangles.length triangles wb0 0 0 (by omega) hbuf
  simp only [Nat.zero_add, Nat.add_zero] at hrun1 hL hR
  obtain ⟨s, hs⟩ : ∃ s, s = splitPass centroids median triangles a := ⟨_, rfl⟩
  have hs1 : triangles.filter (fun t => decide (splitSide centroids
      (vec4.ofVec3 (axisVector a) (-dot median (axisVector a))) t ≥ 0)) = s.1 := by rw [hs]; rfl
  have hs2 : triangles.filter (fun t => !decide (splitSide centroids
      (vec4.ofVec3 (axisVector a) (-dot median (axisVector a))) t ≥ 0)) = s.2 := by rw [hs]; rfl
  simp only [hs1, hs2] at hrun1 hL hR
  rw [← hs]
  have hsum : s.1.length + s.2.length = triangles.length := by
    rw [hs]; exact splitPass_length centroids median triangles a
  obtain ⟨tr1, acc2, hrun2, hlen2, _, hget2⟩ :=
    copyBackLoop_spec s.1.length 0 0 triangles ⟨cells1, acc1 ++ wb0.log⟩
      (by simp only; omega) (by omega)
  obtain ⟨tr2, acc3, hrun3, hlen3, _, hget3⟩ :=
    copyBackLoop_spec s.2.length triangles.length s.1.length tr1
      ⟨cells1, acc2 ++ (acc1 ++ wb0.log)⟩ (by simp only; omega) (by omega)
  have htr : tr2 = s.1 ++ s.2 := by
    apply List.ext_getElem?
    intro j
    rw [hget3 j]
    by_cases hj : s.1.length ≤ j ∧ j < s.1.length + s.2.length
    · rw [if_pos hj, List.getElem?_append_right hj.1]
      simp only
      exact hR (j - s.1.length) (by omega)
    · rw [if_neg hj, hget2 j]
      by_cases hj1 : j < s.1.length
      · rw [if_pos (by omega), List.getElem?_append_left hj1]
        simp only [Nat.zero_add, Nat.sub_zero]
        exact hL j hj1
      · rw [if_neg (by omega), List.getElem?_eq_none (by omega),
          List.getElem?_eq_none (by rw [List.length_append]; omega)]
  rw [htr] at hrun3
  exact ⟨_, _, _, _, hrun1, hrun2, hrun3⟩

/-- An axis splits the triangles exactly when its pass, run with the median of
the bounds pass, leaves both sides non-empty. -/
theorem splitsOn_iff (vertices : List vec3) (elements : List Nat) (centroids : List vec3)
    (triangles : List Nat) (a : Nat) :
    SplitsOn centroids triangles a ↔
      ((splitPass centroids (subdivide_bounds vertices elements centroids triangles).2
          triangles a).1.length ≠ 0 ∧
        (splitPass centroids (subdivide_bounds vertices elements centroids triangles).2
          triangles a).2.length ≠ 0) := by
  rw [splitPass_sides]
  simp only [SplitsOn, ne_eq, List.length_eq_zero]

/-- The split of a call whose sorted axis order has a first splitting axis `a`
is the pass of `a`. -/
theorem subdivide_split_first (vertices : List vec3) (elements : List Nat)
    (centroids : List vec3) (triangles : List Nat) (pre : List Nat) (a : Nat) (post : List Nat)
    (haxes : sortAxes (axisExtent (subdivide_bounds vertices elements centroids triangles).1.1
      (subdivide_bounds vertices elements centroids triangles).1.2) [0, 1, 2] = pre ++ a :: post)
    (hpre : ∀ b ∈ pre, ¬ SplitsOn centroids triangles b) (ha : SplitsOn centroids triangles a) :
    subdivide_split centroids (subdivide_bounds vertices elements centroids triangles).1.1
        (subdivide_bounds vertices elements centroids triangles).1.2
        (subdivide_bounds vertices elements centroids triangles).2 triangles
      = (upperSide centroids triangles a, lowerSide centroids triangles a) := by
  have hfirst := splitAttempts_first centroids
    (subdivide_bounds vertices elements centroids triangles).2 triangles pre a post ([], [])
    (fun b hb => by rw [← splitsOn_iff]; exact hpre b hb)
    (by rw [← splitsOn_iff]; exact ha)
  simp only [subdivide_split]
  rw [axis_lengths_eq, haxes, hfirst, splitPass_sides]
  rw [if_neg]
  simp only [List.length_eq_zero, not_or]
  exact ha

/-- The split of a call in which no axis splits the triangles is the blind
halving. -/
theorem subdivide_split_fallback (vertices : List vec3) (elements : List Nat)
    (centroids : List vec3) (triangles : List Nat)
    (hnone : ∀ a, a < 3 → ¬ SplitsOn centroids triangles a) :
    subdivide_split centroids (subdivide_bounds vertices elements centroids triangles).1.1
        (subdivide_bounds vertices elements centroids triangles).1.2
        (subdivide_bounds vertices elements centroids triangles).2 triangles
      = (triangles.take (triangles.length / 2), triangles.drop (triangles.length / 2)) := by
  have hperm := (sortAxes_spec (axisExtent
    (subdivide_bounds vertices elements centroids triangles).1.1
    (subdivide_bounds vertices elements centroids triangles).1.2) [0, 1, 2]).1
  have hlast := splitAttempts_none centroids
    (subdivide_bounds vertices elements centroids triangles).2 triangles
    (sortAxes (axisExtent (subdivide_bounds vertices elements centroids triangles).1.1
      (subdivide_bounds vertices elements centroids triangles).1.2) [0, 1, 2]) ([], [])
    (fun b hb => by
      rw [← splitsOn_iff]
      apply hnone b
      have := hperm.mem_iff.mp hb
      simp only [List.mem_cons, List.mem_singleton, List.not_mem_nil, or_false] at this
      omega)
    (Or.inl rfl)
  simp only [subdivide_split]
  rw [axis_lengths_eq, if_pos hlast]

/-- C25: in a `subdivide` call on at least two triangles the axes are tried in
non-increasing order of the AABB extent, and when `a` is the first tried axis
that leaves both sides non-empty, the triangle array afterwards holds in
`[0, L)` the triangles whose centroid coordinate on `a` is at least the mean
centroid coordinate and in `[L, L + R)` those with a smaller one, each side in
its previous relative order, where `L` and `R` are the sizes of the two
sides. -/
theorem C25_split_on_first_splitting_axis (vertices : List vec3) (elements : List Nat)
    (centroids : List vec3) (triangles : List Nat) (wb : WorkBuffer)
    (h2 : 2 ≤ triangles.length) (hbuf : 2 * triangles.length ≤ wb.cells.length) :
    (sortAxes (axisExtent (subdivide_bounds vertices elements centroids triangles).1.1
      (subdivide_bounds vertices elements centroids triangles).1.2) [0, 1, 2]).Perm [0, 1, 2] ∧
    (sortAxes (axisExtent (subdivide_bounds vertices elements centroids triangles).1.1
      (subdivide_bounds vertices elements centroids triangles).1.2) [0, 1, 2]).Pairwise
      (fun a b =>
        axisExtent (subdivide_bounds vertices elements centroids triangles).1.1
          (subdivide_bounds vertices elements centroids triangles).1.2 a
        ≥ axisExtent (subdivide_bounds vertices elements centroids triangles).1.1
          (subdivide_bounds vertices elements centroids triangles).1.2 b) ∧
    ∀ (pre : List Nat) (a : Nat) (post : List Nat),
      sortAxes (axisExtent (subdivide_bounds vertices elements centroids triangles).1.1
        (subdivide_bounds vertices elements centroids triangles).1.2) [0, 1, 2]
        = pre ++ a :: post →
      (∀ b ∈ pre, ¬ SplitsOn centroids triangles b) → SplitsOn centroids triangles a →
      ∃ wb1, subdivide_partition vertices elements centroids triangles wb
        = .ok (upperSide centroids triangles a ++ lowerSide centroids triangles a,
            (upperSide centroids triangles a).length, (lowerSide centroids triangles a).length,
            wb1) := by
  have _ := h2
  obtain ⟨hperm, hsorted⟩ := sortAxes_spec (axisExtent
    (subdivide_bounds vertices elements centroids triangles).1.1
    (subdivide_bounds vertices elements centroids triangles).1.2) [0, 1, 2]
  refine ⟨hperm, hsorted, ?_⟩
  intro pre a post haxes hpre ha
  obtain ⟨cells, acc, hrun, _, _⟩ := subdivide_split_raw_spec centroids
    (subdivide_bounds vertices elements centroids triangles).1.1
    (subdivide_bounds vertices elements centroids triangles).1.2
    (subdivide_bounds vertices elements centroids triangles).2 triangles wb hbuf
  rw [subdivide_split_first vertices elements centroids triangles pre a post haxes hpre ha] at hrun
  exact ⟨_, hrun⟩

/-- C26: in a `subdivide` call on at least two triangles in which every axis
leaves one side of the partition empty, the fallback takes
`L = num_triangles / 2` and `R = num_triangles - L`, and the triangle array is
unchanged when the children are built. -/
theorem C26_blind_halving_keeps_order (vertices : List vec3) (elements : List Nat)
    (centroids : List vec3) (triangles : List Nat) (wb : WorkBuffer)
    (h2 : 2 ≤ triangles.length) (hbuf : 2 * triangles.length ≤ wb.cells.length)
    (hnone : ∀ a, a < 3 → ¬ SplitsOn centroids triangles a) :
    ∃ wb1, subdivide_partition vertices elements centroids triangles wb
      = .ok (triangles, triangles.length / 2, triangles.length - triangles.length / 2, wb1) := by
  have _ := h2
  obtain ⟨cells, acc, hrun, _, _⟩ := subdivide_split_raw_spec centroids
    (subdivide_bounds vertices elements centroids triangles).1.1
    (subdivide_bounds vertices elements centroids triangles).1.2
    (subdivide_bounds vertices elements centroids triangles).2 triangles wb hbuf
  rw [subdivide_split_fallback vertices elements centroids triangles hnone] at hrun
  refine ⟨⟨cells, acc ++ wb.log⟩, ?_⟩
  rw [subdivide_partition, hrun]
  simp only [List.take_append_drop, List.length_take, List.length_drop]
  congr 3
  omega

/-- C27: a `subdivide` call, at any depth, on `n >= 1` triangles with a scratch
array of at least `2 n` cells (as the `2 N_t` cells of the constructor are for
every call) succeeds within the budget `n`; every scratch index it or its
children read or write lies in `[0, 2 n)`; and the nodes and index it produces
are those of the run without scratch array, so they do not depend on what the
scratch array held at the call.  Moreover a partition pass followed by the copy
loops hands back exactly the two sides that pass packed, whatever the scratch
array held before the pass. -/
theorem C27_work_buffer_accesses (vertices : List vec3) (elements : List Nat)
    (centroids : List vec3) (fuel : Nat) (nodes : List Node) (triangles : List Nat)
    (wb : WorkBuffer) (hne : triangles ≠ []) (hfuel : triangles.length ≤ fuel)
    (hbuf : 2 * triangles.length ≤ wb.cells.length) :
    (∃ nodes1 index cells accessed,
      subdivideRaw vertices elements centroids fuel nodes triangles wb
        = .ok (nodes1, index, ⟨cells, accessed ++ wb.log⟩) ∧
      subdivide vertices elements centroids fuel nodes triangles = .ok (nodes1, index) ∧
      cells.length = wb.cells.length ∧ ∀ i ∈ accessed, i < 2 * triangles.length) ∧
    ∀ (median : vec3) (a : Nat) (wb0 : WorkBuffer), 2 * triangles.length ≤ wb0.cells.length →
      ∃ wb1 triangles1 wb2 wb3,
        splitLoopRaw centroids (vec4.ofVec3 (axisVector a) (-(dot median (axisVector a))))
            triangles.length triangles wb0 0 0
          = .ok (wb1, (splitPass centroids median triangles a).1.length,
              (splitPass centroids median triangles a).2.length) ∧
        copyBackLoop (splitPass centroids median triangles a).1.length 0 0 triangles wb1
          = .ok (triangles1, wb2) ∧
        copyBackLoop (splitPass centroids median triangles a).2.length triangles.length
            (splitPass centroids median triangles a).1.length triangles1 wb2
          = .ok ((splitPass centroids median triangles a).1
              ++ (splitPass centroids median triangles a).2, wb3) := by
  refine ⟨?_, fun median a wb0 h => pass_copy_back centroids median triangles a wb0 h⟩
  obtain ⟨T, hT, _, _⟩ := subdivide_spec vertices elements centroids fuel nodes triangles hne hfuel
  obtain ⟨cells, acc, hlen, hacc, hrun⟩ :=
    subdivideRaw_spec vertices elements centroids fuel nodes triangles wb hbuf
  rw [hT] at hrun
  exact ⟨_, _, cells, acc, hrun, hT, hlen, hacc⟩

/-- C25 at the root call of the sample mesh of four triangles: the axes are
tried in the order `z, x, y`, and `z` splits the triangles into `[0, 3]` and
`[1, 2]`. -/
theorem C25_witness :
    2 ≤ (List.range 4).length ∧ 2 * (List.range 4).length ≤ sampleScratch.cells.length ∧
    subdivide_partition sampleVertices sampleElements sampleCentroids (List.range 4) sampleScratch
      = .ok ([0, 3, 1, 2], 2, 2, ⟨[0, 3, 0, 0, 1, 2, 0, 0], [5, 4, 1, 0, 1, 5, 4, 0]⟩) ∧
    ((sortAxes (axisExtent
        (subdivide_bounds sampleVertices sampleElements sampleCentroids (List.range 4)).1.1
        (subdivide_bounds sampleVertices sampleElements sampleCentroids (List.range 4)).1.2)
        [0, 1, 2]).Perm [0, 1, 2] ∧
      (sortAxes (axisExtent
        (subdivide_bounds sampleVertices sampleElements sampleCentroids (List.range 4)).1.1
        (subdivide_bounds sampleVertices sampleElements sampleCentroids (List.range 4)).1.2)
        [0, 1, 2]).Pairwise
        (fun a b =>
          axisExtent
            (subdivide_bounds sampleVertices sampleElements sampleCentroids (List.range 4)).1.1
            (subdivide_bounds sampleVertices sampleElements sampleCentroids (List.range 4)).1.2 a
          ≥ axisExtent
            (subdivide_bounds sampleVertices sampleElements sampleCentroids (List.range 4)).1.1
            (subdivide_bounds sampleVertices sampleElements sampleCentroids (List.range 4)).1.2
            b) ∧
      ∀ (pre : List Nat) (a : Nat) (post : List Nat),
        sortAxes (axisExtent
          (subdivide_bounds sampleVertices sampleElements sampleCentroids (List.range 4)).1.1
          (subdivide_bounds sampleVertices sampleElements sampleCentroids (List.range 4)).1.2)
          [0, 1, 2] = pre ++ a :: post →
        (∀ b ∈ pre, ¬ SplitsOn sampleCentroids (List.range 4) b) →
        SplitsOn sampleCentroids (List.range 4) a →
        ∃ wb1, subdivide_partition sampleVertices sampleElements sampleCentroids (List.range 4)
            sampleScratch
          = .ok (upperSide sampleCentroids (List.range 4) a
              ++ lowerSide sampleCentroids (List.range 4) a,
              (upperSide sampleCentroids (List.range 4) a).length,
              (lowerSide sampleCentroids (List.range 4) a).length, wb1)) :=
  ⟨by decide, by decide, by decide!,
    C25_split_on_first_splitting_axis sampleVertices sampleElements sampleCentroids (List.range 4)
      sampleScratch (by decide) (by decide)⟩

/-- C26 at the mesh that holds the unit triangle twice: both centroids coincide
with their mean, no axis splits them, and the call halves the list `[0, 1]` as
it stands. -/
theorem C26_witness :
    2 ≤ (List.range 2).length ∧ 2 * (List.range 2).length ≤ twinScratch.cells.length ∧
    (∀ a, a < 3 → ¬ SplitsOn twinCentroids (List.range 2) a) ∧
    ∃ wb1, subdivide_partition unitVertices twinElements twinCentroids (List.range 2) twinScratch
      = .ok (List.range 2, (List.range 2).length / 2,
          (List.range 2).length - (List.range 2).length / 2, wb1) :=
  ⟨by decide, by decide, by decide!,
    C26_blind_halving_keeps_order unitVertices twinElements twinCentroids (List.range 2)
      twinScratch (by decide) (by decide) (by decide!)⟩

/-- C27 at the root call of the sample mesh of four triangles with the scratch
array of eight cells. -/
theorem C27_witness :
    List.range 4 ≠ [] ∧ (List.range 4).length ≤ 4 ∧
    2 * (List.range 4).length ≤ sampleScratch.cells.length ∧
    (∃ nodes1 index cells accessed,
      subdivideRaw sampleVertices sampleElements sampleCentroids 4 [] (List.range 4) sampleScratch
        = .ok (nodes1, index, ⟨cells, accessed ++ sampleScratch.log⟩) ∧
      subdivide sampleVertices sampleElements sampleCentroids 4 [] (List.range 4)
        = .ok (nodes1, index) ∧
      cells.length = sampleScratch.cells.length ∧
      ∀ i ∈ accessed, i < 2 * (List.range 4).length) ∧
    ∀ (median : vec3) (a : Nat) (wb0 : WorkBuffer),
      2 * (List.range 4).length ≤ wb0.cells.length →
      ∃ wb1 triangles1 wb2 wb3,
        splitLoopRaw sampleCentroids (vec4.ofVec3 (axisVector a) (-(dot median (axisVector a))))
            (List.range 4).length (List.range 4) wb0 0 0
          = .ok (wb1, (splitPass sampleCentroids median (List.range 4) a).1.length,
              (splitPass sampleCentroids median (List.range 4) a).2.length) ∧
        copyBackLoop (splitPass sampleCentroids median (List.range 4) a).1.length 0 0
            (List.range 4) wb1
          = .ok (triangles1, wb2) ∧
        copyBackLoop (splitPass sampleCentroids median (List.range 4) a).2.length
            (List.range 4).length
            (splitPass sampleCentroids median (List.range 4) a).1.length triangles1 wb2
          = .ok ((splitPass sampleCentroids median (List.range 4) a).1
              ++ (splitPass sampleCentroids median (List.range 4) a).2, wb3) :=
  ⟨by decide, by decide, by decide,
    C27_work_buffer_accesses sampleVertices sampleElements sampleCentroids 4 [] (List.range 4)
      sampleScratch (by decide) (by decide) (by decide)⟩

/-! ## The hit point of the ray/triangle kernel -/

/-- C38. Whenever `intersect_triangle_ray` returns a value other than the miss
sentinel `1.0` it has written the barycentrics `u`, `v`; and whenever it has
written them, the point of the ray at the returned `t` is the point of the
triangle with weights `1 - u - v`, `u`, `v`, all three non-negative:
`start + t (end - start) = (1 - u - v) p0 + u p1 + v p2`, a point of the closed
triangle. -/
theorem C38_hit_point_in_triangle (shape : TriangleMeshShape) (ray : RayBBox) (a : Int)
    (n : Node) (hn : shape.node a = .ok n) :
    ∃ r, intersect_triangle_ray shape ray a = .ok r ∧
      (r.t ≠ 1 → ∃ u v, r.bary = some (u, v)) ∧
      ∀ u v, r.bary = some (u, v) →
        ray.start + (ray.end_ - ray.start) * r.t
          = (nodeTriangle shape n).1 * (1 - u - v) + (nodeTriangle shape n).2.1 * u
            + (nodeTriangle shape n).2.2 * v ∧
        0 ≤ u ∧ 0 ≤ v ∧ 0 ≤ 1 - u - v := by
  refine ⟨_, by simp only [intersect_triangle_ray, hn]; rfl, ?_, ?_⟩
  · intro ht
    by_cases hm : mtMiss (nodeTriangle shape n).1 (nodeTriangle shape n).2.1
        (nodeTriangle shape n).2.2 ray.start ray.end_
    · exfalso
      apply ht
      show (ray_triangle (nodeTriangle shape n).1 (nodeTriangle shape n).2.1
        (nodeTriangle shape n).2.2 ray.start ray.end_).t = 1
      rw [ray_triangle_miss _ _ _ _ _ hm]
    · refine ⟨mtU (nodeTriangle shape n).1 (nodeTriangle shape n).2.1
        (nodeTriangle shape n).2.2 ray.start ray.end_, mtV (nodeTriangle shape n).1
        (nodeTriangle shape n).2.1 (nodeTriangle shape n).2.2 ray.start ray.end_, ?_⟩
      show (ray_triangle (nodeTriangle shape n).1 (nodeTriangle shape n).2.1
        (nodeTriangle shape n).2.2 ray.start ray.end_).bary = _
      rw [ray_triangle_hit _ _ _ _ _ hm]
  · intro u v hb
    change (ray_triangle (nodeTriangle shape n).1 (nodeTriangle shape n).2.1
        (nodeTriangle shape n).2.2 ray.start ray.end_).bary = _ at hb
    show ray.start + (ray.end_ - ray.start) * (ray_triangle (nodeTriangle shape n).1
        (nodeTriangle shape n).2.1 (nodeTriangle shape n).2.2 ray.start ray.end_).t = _ ∧ _
    by_cases hm : mtMiss (nodeTriangle shape n).1 (nodeTriangle shape n).2.1
        (nodeTriangle shape n).2.2 ray.start ray.end_
    · rw [ray_triangle_miss _ _ _ _ _ hm] at hb
      cases hb
    · rw [ray_triangle_hit _ _ _ _ _ hm] at hb ⊢
      simp only [Option.some.injEq, Prod.mk.injEq] at hb
      obtain ⟨rfl, rfl⟩ := hb
      unfold mtMiss at hm
      push_neg at hm
      obtain ⟨hdet, hu0, _, hv0, huv, _⟩ := hm
      have heps : (0 : ℚ) < FLT_EPSILON := by norm_num [FLT_EPSILON]
      have hdet0 : mtDet (nodeTriangle shape n).1 (nodeTriangle shape n).2.1
          (nodeTriangle shape n).2.2 ray.start ray.end_ ≠ 0 := by
        intro h
        rw [h, abs_zero] at hdet
        exact absurd heps (not_lt.mpr hdet)
      refine ⟨?_, hu0, hv0, by linarith⟩
      simp only []
      rw [mt_hit_point _ _ _ _ _ hdet0]
      apply vec3.eq_of_components <;>
        simp only [vec3.add_x, vec3.add_y, vec3.add_z, vec3.mul_x, vec3.mul_y, vec3.mul_z,
          vec3.sub_x, vec3.sub_y, vec3.sub_z] <;> ring

/-- C38 at the unit triangle: the ray through `(1/4, 1/4, 0)` hits at `t = 1/2`
with `u = v = 1/4`. -/
theorem C38_witness :
    unitShape.node 0 = .ok (Node.leaf ⟨0, 0, 0⟩ ⟨1, 1, 0⟩ 0) ∧
    ∃ r, intersect_triangle_ray unitShape (RayBBox.ofSpec ⟨1 / 4, 1 / 4, 1⟩ ⟨1 / 4, 1 / 4, -1⟩) 0
        = .ok r ∧
      (r.t ≠ 1 → ∃ u v, r.bary = some (u, v)) ∧
      ∀ u v, r.bary = some (u, v) →
        (RayBBox.ofSpec ⟨1 / 4, 1 / 4, 1⟩ ⟨1 / 4, 1 / 4, -1⟩).start
          + ((RayBBox.ofSpec ⟨1 / 4, 1 / 4, 1⟩ ⟨1 / 4, 1 / 4, -1⟩).end_
            - (RayBBox.ofSpec ⟨1 / 4, 1 / 4, 1⟩ ⟨1 / 4, 1 / 4, -1⟩).start) * r.t
          = (nodeTriangle unitShape (Node.leaf ⟨0, 0, 0⟩ ⟨1, 1, 0⟩ 0)).1 * (1 - u - v)
            + (nodeTriangle unitShape (Node.leaf ⟨0, 0, 0⟩ ⟨1, 1, 0⟩ 0)).2.1 * u
            + (nodeTriangle unitShape (Node.leaf ⟨0, 0, 0⟩ ⟨1, 1, 0⟩ 0)).2.2 * v ∧
        0 ≤ u ∧ 0 ≤ v ∧ 0 ≤ 1 - u - v :=
  ⟨by decide!, C38_hit_point_in_triangle unitShape
    (RayBBox.ofSpec ⟨1 / 4, 1 / 4, 1⟩ ⟨1 / 4, 1 / 4, -1⟩) 0 _ (by decide!)⟩

/-! ## Node counts and depth of the built tree -/

theorem BVH.leaves_length_pos (T : BVH) : 0 < T.leaves.length := by
  induction T with
  | leaf mn mx t => simp [BVH.leaves]
  | inner mn mx l r ihl _ => simp only [BVH.leaves, List.length_append]; omega

theorem BVH.size_eq_leaves (T : BVH) : T.size + 1 = 2 * T.leaves.length := by
  induction T with
  | leaf mn mx t => simp [BVH.size, BVH.leaves]
  | inner mn mx l r ihl ihr =>
    simp only [BVH.size, BVH.leaves, List.length_append]
    omega

theorem BVH.flatten_count_leaf (T : BVH) (off : Nat) :
    (T.flatten off).countP (fun n => decide (n.element_index ≠ -1)) = T.leaves.length := by
  induction T generalizing off with
  | leaf mn mx t =>
    have hne : ¬ ((t : Int) * 3 = -1) := by omega
    simp [BVH.flatten, BVH.leaves, Node.leaf, hne]
  | inner mn mx l r ihl ihr =>
    have hl := ihl off
    have hr := ihr (off + l.size)
    simp only [BVH.flatten, BVH.leaves, List.countP_append, List.length_append, hl, hr]
    simp [Node.inner]

theorem BVH.flatten_count_inner (T : BVH) (off : Nat) :
    (T.flatten off).countP (fun n => decide (n.element_index = -1)) + 1 = T.leaves.length := by
  induction T generalizing off with
  | leaf mn mx t =>
    have hne : ¬ ((t : Int) * 3 = -1) := by omega
    simp [BVH.flatten, BVH.leaves, Node.leaf, hne]
  | inner mn mx l r ihl ihr =>
    have hl := ihl off
    have hr := ihr (off + l.size)
    simp only [BVH.flatten, BVH.leaves, List.countP_append, List.length_append]
    simp only [Node.inner, List.countP_cons, List.countP_nil, decide_True, if_true]
    omega

/-- C36. The node array built for a mesh with `N_t ≥ 1` triangles has
`2 N_t - 1` nodes, of which `N_t` are leaves (`element_index ≠ -1`) and
`N_t - 1` are internal (`element_index = -1`). -/
theorem C36_node_count (vertices : List vec3) (num_vertices : Int) (elements : List Nat)
    (num_elements : Int) (hpos : 1 ≤ numTriangles num_elements) :
    ∃ shape, TriangleMeshShape.create vertices num_vertices elements num_elements = .ok shape ∧
      shape.nodes.length = 2 * numTriangles num_elements - 1 ∧
      shape.nodes.countP (fun n => decide (n.element_index ≠ -1)) = numTriangles num_elements ∧
      shape.nodes.countP (fun n => decide (n.element_index = -1))
        = numTriangles num_elements - 1 := by
  obtain ⟨T, hT, hperm, _⟩ := create_nonempty vertices num_vertices elements num_elements hpos
  have hlen : T.leaves.length = numTriangles num_elements := by
    rw [hperm.length_eq, List.length_range]
  refine ⟨_, hT, ?_, ?_, ?_⟩
  · have := BVH.size_eq_leaves T
    simp only [BVH.flatten_length]
    omega
  · simp only []
    rw [BVH.flatten_count_leaf, hlen]
  · have := BVH.flatten_count_inner T 0
    simp only []
    omega

/-- C36 on the sample mesh of four triangles: seven nodes, four leaves, three
internal nodes. -/
theorem C36_witness :
    1 ≤ numTriangles 12 ∧
    ∃ shape, TriangleMeshShape.create sampleVertices 7 sampleElements 12 = .ok shape ∧
      shape.nodes.length = 2 * numTriangles 12 - 1 ∧
      shape.nodes.countP (fun n => decide (n.element_index ≠ -1)) = numTriangles 12 ∧
      shape.nodes.countP (fun n => decide (n.element_index = -1)) = numTriangles 12 - 1 :=
  ⟨by decide, C36_node_count sampleVertices 7 sampleElements 12 (by decide)⟩

theorem depth_visit_eq (pick : Int → Int → Int) (shape : TriangleMeshShape) (T : BVH) :
    ∀ (a : Int) (fuel : Nat) (level : Int), Represents shape.nodes a T → T.size ≤ fuel →
      depth_visit pick shape fuel level a = .ok (T.depth pick level) := by
  induction T with
  | leaf mn mx t =>
    intro a fuel level hrep hfuel
    cases hrep with
    | leaf _ _ _ _ h0 hget =>
      have hn := node_of_get shape a _ h0 hget
      cases fuel with
      | zero => simp [BVH.size] at hfuel
      | succ fuel =>
        have hne : ¬ ((t : Int) * 3 = -1) := by omega
        simp [depth_visit, hn, Node.leaf, hne, BVH.depth]
  | inner mn mx l r ihl ihr =>
    intro a fuel level hrep hfuel
    cases hrep with
    | inner _ li ri _ _ _ _ h0 hget hli hri hl hr =>
      have hn := node_of_get shape a _ h0 hget
      cases fuel with
      | zero => simp [BVH.size] at hfuel
      | succ fuel =>
        simp only [BVH.size] at hfuel
        have hL := ihl li fuel (level + 1) hl (by omega)
        have hR := ihr ri fuel (level + 1) hr (by omega)
        simp only [depth_visit, hn, Node.inner, if_true, hL, hR, BVH.depth]

theorem BVH.depth_bounds (T : BVH) : ∀ level : Int,
    level ≤ T.depth min level ∧ T.depth min level ≤ T.depth max level ∧
      T.depth max level + 1 ≤ level + T.leaves.length := by
  induction T with
  | leaf mn mx t =>
    intro level
    simp [BVH.depth, BVH.leaves]
  | inner mn mx l r ihl ihr =>
    intro level
    obtain ⟨l1, l2, l3⟩ := ihl (level + 1)
    obtain ⟨r1, r2, r3⟩ := ihr (level + 1)
    have hl := BVH.leaves_length_pos l
    have hr := BVH.leaves_length_pos r
    simp only [BVH.depth, BVH.leaves, List.length_append, Nat.cast_add]
    refine ⟨?_, ?_, ?_⟩
    · exact le_min (by omega) (by omega)
    · exact le_trans (min_le_left _ _) (le_trans l2 (le_max_left _ _))
    · have : max (l.depth max (level + 1)) (r.depth max (level + 1))
          ≤ level + (l.leaves.length : Int) + r.leaves.length - 1 :=
        max_le (by omega) (by omega)
      omega

/-- C33. On the tree built for a mesh with `N_t ≥ 1` triangles both depth walks
return (the recursion budget of one more than the number of nodes is enough),
and with the root counted as level 1,
`1 ≤ get_min_depth() ≤ get_max_depth() ≤ N_t`. -/
theorem C33_depth_bounds (vertices : List vec3) (num_vertices : Int) (elements : List Nat)
    (num_elements : Int) (hpos : 1 ≤ numTriangles num_elements) :
    ∃ shape dmin dmax,
      TriangleMeshShape.create vertices num_vertices elements num_elements = .ok shape ∧
      shape.get_min_depth = .ok dmin ∧ shape.get_max_depth = .ok dmax ∧
      1 ≤ dmin ∧ dmin ≤ dmax ∧ dmax ≤ (numTriangles num_elements : Int) := by
  obtain ⟨T, shape, hcreate, _, _, hnodes, _, hrep, hperm, _⟩ :=
    create_represents vertices num_vertices elements num_elements hpos
  have hsize : T.size ≤ shape.nodes.length + 1 := by
    rw [hnodes, BVH.flatten_length]
    omega
  have hlen : T.leaves.length = numTriangles num_elements := by
    rw [hperm.length_eq, List.length_range]
  obtain ⟨b1, b2, b3⟩ := BVH.depth_bounds T 1
  refine ⟨shape, _, _, hcreate, depth_visit_eq min shape T _ _ 1 hrep hsize,
    depth_visit_eq max shape T _ _ 1 hrep hsize, b1, b2, ?_⟩
  rw [hlen] at b3
  omega

/-- C33 on the sample mesh of four triangles. -/
theorem C33_witness :
    1 ≤ numTriangles 12 ∧
    ∃ shape dmin dmax,
      TriangleMeshShape.create sampleVertices 7 sampleElements 12 = .ok shape ∧
      shape.get_min_depth = .ok dmin ∧ shape.get_max_depth = .ok dmax ∧
      1 ≤ dmin ∧ dmin ≤ dmax ∧ dmax ≤ (numTriangles 12 : Int) :=
  ⟨by decide, C33_depth_bounds sampleVertices 7 sampleElements 12 (by decide)⟩
/-! ## Any-hit against the scan of all triangles -/

/-- With sound boxes and a half-vector `RayBBox` the any-hit traversal of a tree
answers for the plain scan of its leaves. -/
theorem BVH.anyHit_iff_exists (vertices : List vec3) (elements : List Nat) (ray : RayBBox)
    (hray : ray.Halved) (T : BVH) (hb : T.Bounded vertices elements) :
    T.anyHit vertices elements ray = true ↔
      ∃ t ∈ T.leaves, (triangleHit vertices elements ray t).t < 1 := by
  induction T with
  | leaf mn mx t =>
    simp only [BVH.anyHit, BVH.leaves, List.mem_singleton, exists_eq_left, Bool.and_eq_true,
      decide_eq_true_eq]
    constructor
    · intro h
      exact h.2
    · intro h
      refine ⟨kernel_hit_overlap ray hray mn mx _ _ _ ?_ ?_ ?_ h, h⟩
      · simpa using hb 0 (by norm_num)
      · exact hb 1 (by norm_num)
      · exact hb 2 (by norm_num)
  | inner mn mx l r ihl ihr =>
    simp only [BVH.anyHit, BVH.leaves, Bool.and_eq_true, Bool.or_eq_true, ihl hb.2.1, ihr hb.2.2,
      List.mem_append]
    constructor
    · rintro ⟨_, ⟨t, ht, hlt⟩ | ⟨t, ht, hlt⟩⟩
      · exact ⟨t, Or.inl ht, hlt⟩
      · exact ⟨t, Or.inr ht, hlt⟩
    · rintro ⟨t, ht, hlt⟩
      refine ⟨kernel_hit_overlap ray hray mn mx _ _ _ ?_ ?_ ?_ hlt, ?_⟩
      · simpa using hb.1 t (List.mem_append.mpr ht) 0 (by norm_num)
      · exact hb.1 t (List.mem_append.mpr ht) 1 (by norm_num)
      · exact hb.1 t (List.mem_append.mpr ht) 2 (by norm_num)
      · rcases ht with ht | ht
        · exact Or.inl ⟨t, ht, hlt⟩
        · exact Or.inr ⟨t, ht, hlt⟩

/-- C37, as worded for every ray, fails for the `RayBBox` that the spec
describes (`w = end - start`, `v = |w| / 2`).  On the mesh of the single triangle
`(1,-1,-1), (1,-1,1), (-1,1,0)` and the ray from `(-1,-3,0)` to `(3,1,0)` the
ray/triangle kernel returns `t = 1/2 < 1` (the ray meets the edge `p0 p1` in
`(1,-1,0)`), but the ray/box test at the root reports the box `[-1, 1]^3`
disjoint and `find_any_hit` returns `false`.  With the half-vector form it
returns `true`. -/
theorem C37_counterexample :
    ValidMesh slantVertices [0, 1, 2] 3 ∧
    TriangleMeshShape.create slantVertices 3 [0, 1, 2] 3 = .ok slantShape ∧
    intersect_triangle_ray slantShape (RayBBox.ofSpec ⟨-1, -3, 0⟩ ⟨3, 1, 0⟩) slantShape.root
      = .ok ⟨1 / 2, some (1 / 2, 0)⟩ ∧
    (1 / 2 : ℚ) < 1 ∧
    overlap_bv_ray slantShape (RayBBox.ofSpec ⟨-1, -3, 0⟩ ⟨3, 1, 0⟩) slantShape.root
      = .ok false ∧
    find_any_hit RayBBox.ofSpec slantShape ⟨-1, -3, 0⟩ ⟨3, 1, 0⟩ = .ok false ∧
    find_any_hit RayBBox.ofHalf slantShape ⟨-1, -3, 0⟩ ⟨3, 1, 0⟩ = .ok true := by
  refine ⟨?_, ?_, ?_, ?_, ?_, ?_, ?_⟩ <;> decide!

/-- C37, amended. On the shape built from a well-formed mesh with at least one
triangle, for a ray whose `RayBBox` keeps the end points and stores the
midpoint, the half vector and its absolute value, the any-hit ray query answers
as the scan of all triangles does: `find_any_hit(shape, start, end)` returns
`true` if and only if the ray/triangle kernel returns a value below `1` for some
triangle `i < N_t` and the whole ray.  The box test never discards a triangle
the kernel would report.  The `RayBBox` constructor of `collision.h` is the
parameter `mkRay`. -/
theorem C37_any_hit_iff_some_triangle_hit (mkRay : vec3 → vec3 → RayBBox)
    (vertices : List vec3) (num_vertices : Int) (elements : List Nat) (num_elements : Int)
    (hvalid : ValidMesh vertices elements num_elements)
    (hpos : 1 ≤ numTriangles num_elements) (ray_start ray_end : vec3)
    (hmk : (mkRay ray_start ray_end).start = ray_start ∧
      (mkRay ray_start ray_end).end_ = ray_end ∧ (mkRay ray_start ray_end).Halved) :
    ∃ shape b,
      TriangleMeshShape.create vertices num_vertices elements num_elements = .ok shape ∧
      find_any_hit mkRay shape ray_start ray_end = .ok b ∧
      (b = true ↔ ∃ i, i < numTriangles num_elements ∧
        (ray_triangle (vertexAt vertices elements (i * 3)) (vertexAt vertices elements (i * 3 + 1))
          (vertexAt vertices elements (i * 3 + 2)) ray_start ray_end).t < 1) := by
  have _ := hvalid
  obtain ⟨T, shape, hcreate, hV, hE, hnodes, _, hrep, hperm, hb⟩ :=
    create_represents vertices num_vertices elements num_elements hpos
  have hsize : T.size ≤ shape.nodes.length + 1 := by
    rw [hnodes, BVH.flatten_length]
    omega
  refine ⟨shape, _, hcreate, find_any_hit_eq mkRay shape T hrep hsize ray_start ray_end, ?_⟩
  rw [hV, hE, BVH.anyHit_iff_exists vertices elements _ hmk.2.2 T hb]
  constructor
  · rintro ⟨t, ht, hlt⟩
    refine ⟨t, List.mem_range.mp ((hperm.mem_iff).mp ht), ?_⟩
    simp only [triangleHit, hmk.1, hmk.2.1] at hlt
    exact hlt
  · rintro ⟨i, hi, hlt⟩
    refine ⟨i, (hperm.mem_iff).mpr (List.mem_range.mpr hi), ?_⟩
    simp only [triangleHit, hmk.1, hmk.2.1]
    exact hlt

/-- C37 on the sample mesh of four triangles and a ray along the `z` axis that
meets two of them. -/
theorem C37_witness :
    ValidMesh sampleVertices sampleElements 12 ∧ 1 ≤ numTriangles 12 ∧
    ((RayBBox.ofHalf ⟨1 / 4, 1 / 4, 0⟩ ⟨1 / 4, 1 / 4, 200⟩).start = ⟨1 / 4, 1 / 4, 0⟩ ∧
      (RayBBox.ofHalf ⟨1 / 4, 1 / 4, 0⟩ ⟨1 / 4, 1 / 4, 200⟩).end_ = ⟨1 / 4, 1 / 4, 200⟩ ∧
      (RayBBox.ofHalf ⟨1 / 4, 1 / 4, 0⟩ ⟨1 / 4, 1 / 4, 200⟩).Halved) ∧
    ∃ shape b,
      TriangleMeshShape.create sampleVertices 7 sampleElements 12 = .ok shape ∧
      find_any_hit RayBBox.ofHalf shape ⟨1 / 4, 1 / 4, 0⟩ ⟨1 / 4, 1 / 4, 200⟩ = .ok b ∧
      (b = true ↔ ∃ i, i < numTriangles 12 ∧
        (ray_triangle (vertexAt sampleVertices sampleElements (i * 3))
          (vertexAt sampleVertices sampleElements (i * 3 + 1))
          (vertexAt sampleVertices sampleElements (i * 3 + 2))
          ⟨1 / 4, 1 / 4, 0⟩ ⟨1 / 4, 1 / 4, 200⟩).t < 1) :=
  ⟨by decide!, by decide!, by decide!,
    C37_any_hit_iff_some_triangle_hit RayBBox.ofHalf sampleVertices 7 sampleElements 12
      (by decide!) (by decide!) ⟨1 / 4, 1 / 4, 0⟩ ⟨1 / 4, 1 / 4, 200⟩ (by decide!)⟩

/-! ## The seven separation tests -/

/-- The test of `overlap_triangle_sphere` answers false exactly when one of its
seven tests separates. -/
theorem kernel_false_iff (p0 p1 p2 P : vec3) (r : ℚ) :
    triangle_sphere_kernel p0 p1 p2 P r = false ↔ SeparationFires p0 p1 p2 P r := by
  rw [← Bool.not_eq_true, kernel_true_iff]
  unfold SeparationFires
  tauto

/-- C39. For a leaf whose triangle has positive area and a sphere of radius
`r ≥ 0`, `overlap_triangle_sphere` returns false exactly when one of its seven
separation tests (plane, three vertices, three edges) fires; none fires when
some point of the closed triangle is within distance `r` of the centre, and at
least one fires when every point of the closed triangle is farther than `r`
from it.  Distances are compared as squares. -/
theorem C39_separation_tests_exact (shape1 : TriangleMeshShape) (shape2 : SphereShape)
    (a : Int) (n : Node) (hn : shape1.node a = .ok n)
    (hnd : ¬ Degenerate (nodeTriangle shape1 n).1 (nodeTriangle shape1 n).2.1
      (nodeTriangle shape1 n).2.2)
    (hr : 0 ≤ shape2.radius) :
    ∃ b, overlap_triangle_sphere shape1 shape2 a = .ok b ∧
      (b = false ↔ SeparationFires (nodeTriangle shape1 n).1 (nodeTriangle shape1 n).2.1
        (nodeTriangle shape1 n).2.2 shape2.center shape2.radius) ∧
      (TriangleWithin (nodeTriangle shape1 n).1 (nodeTriangle shape1 n).2.1
          (nodeTriangle shape1 n).2.2 shape2.center shape2.radius →
        ¬ SeparationFires (nodeTriangle shape1 n).1 (nodeTriangle shape1 n).2.1
          (nodeTriangle shape1 n).2.2 shape2.center shape2.radius) ∧
      ((∀ α β γ : ℚ, 0 ≤ α → 0 ≤ β → 0 ≤ γ → α + β + γ = 1 →
          shape2.radius * shape2.radius
            < dot (((nodeTriangle shape1 n).1 * α + (nodeTriangle shape1 n).2.1 * β
                + (nodeTriangle shape1 n).2.2 * γ) - shape2.center)
              (((nodeTriangle shape1 n).1 * α + (nodeTriangle shape1 n).2.1 * β
                + (nodeTriangle shape1 n).2.2 * γ) - shape2.center)) →
        SeparationFires (nodeTriangle shape1 n).1 (nodeTriangle shape1 n).2.1
          (nodeTriangle shape1 n).2.2 shape2.center shape2.radius) := by
  have _ := hr
  refine ⟨triangle_sphere_kernel (nodeTriangle shape1 n).1 (nodeTriangle shape1 n).2.1
    (nodeTriangle shape1 n).2.2 shape2.center shape2.radius,
    by simp only [overlap_triangle_sphere, hn], kernel_false_iff _ _ _ _ _, ?_, ?_⟩
  · rintro ⟨_, α, β, γ, hα, hβ, hγ, hsum, h⟩ hfire
    have ht := kernel_sound _ _ _ _ _ α β γ hα hβ hγ hsum h
    rw [(kernel_false_iff _ _ _ _ _).mpr hfire] at ht
    cases ht
  · intro hfar
    rw [← kernel_false_iff]
    by_contra hne
    have ht : triangle_sphere_kernel (nodeTriangle shape1 n).1 (nodeTriangle shape1 n).2.1
        (nodeTriangle shape1 n).2.2 shape2.center shape2.radius = true := by
      simpa using hne
    obtain ⟨α, β, γ, hα, hβ, hγ, hsum, h⟩ := kernel_complete _ _ _ _ _ hnd ht
    exact absurd (hfar α β γ hα hβ hγ hsum) (not_lt.mpr h)

/-- C39 at the unit triangle and the unit sphere centred at `(1/4, 1/4, 1/2)`. -/
theorem C39_witness :
    unitShape.node 0 = .ok (Node.leaf ⟨0, 0, 0⟩ ⟨1, 1, 0⟩ 0) ∧
    ¬ Degenerate (nodeTriangle unitShape (Node.leaf ⟨0, 0, 0⟩ ⟨1, 1, 0⟩ 0)).1
      (nodeTriangle unitShape (Node.leaf ⟨0, 0, 0⟩ ⟨1, 1, 0⟩ 0)).2.1
      (nodeTriangle unitShape (Node.leaf ⟨0, 0, 0⟩ ⟨1, 1, 0⟩ 0)).2.2 ∧
    (0 : ℚ) ≤ (⟨⟨1 / 4, 1 / 4, 1 / 2⟩, 1⟩ : SphereShape).radius ∧
    ∃ b, overlap_triangle_sphere unitShape ⟨⟨1 / 4, 1 / 4, 1 / 2⟩, 1⟩ 0 = .ok b ∧
      (b = false ↔ SeparationFires (nodeTriangle unitShape (Node.leaf ⟨0, 0, 0⟩ ⟨1, 1, 0⟩ 0)).1
        (nodeTriangle unitShape (Node.leaf ⟨0, 0, 0⟩ ⟨1, 1, 0⟩ 0)).2.1
        (nodeTriangle unitShape (Node.leaf ⟨0, 0, 0⟩ ⟨1, 1, 0⟩ 0)).2.2
        (⟨⟨1 / 4, 1 / 4, 1 / 2⟩, 1⟩ : SphereShape).center
        (⟨⟨1 / 4, 1 / 4, 1 / 2⟩, 1⟩ : SphereShape).radius) ∧
      (TriangleWithin (nodeTriangle unitShape (Node.leaf ⟨0, 0, 0⟩ ⟨1, 1, 0⟩ 0)).1
          (nodeTriangle unitShape (Node.leaf ⟨0, 0, 0⟩ ⟨1, 1, 0⟩ 0)).2.1
          (nodeTriangle unitShape (Node.leaf ⟨0, 0, 0⟩ ⟨1, 1, 0⟩ 0)).2.2
          (⟨⟨1 / 4, 1 / 4, 1 / 2⟩, 1⟩ : SphereShape).center
          (⟨⟨1 / 4, 1 / 4, 1 / 2⟩, 1⟩ : SphereShape).radius →
        ¬ SeparationFires (nodeTriangle unitShape (Node.leaf ⟨0, 0, 0⟩ ⟨1, 1, 0⟩ 0)).1
          (nodeTriangle unitShape (Node.leaf ⟨0, 0, 0⟩ ⟨1, 1, 0⟩ 0)).2.1
          (nodeTriangle unitShape (Node.leaf ⟨0, 0, 0⟩ ⟨1, 1, 0⟩ 0)).2.2
          (⟨⟨1 / 4, 1 / 4, 1 / 2⟩, 1⟩ : SphereShape).center
          (⟨⟨1 / 4, 1 / 4, 1 / 2⟩, 1⟩ : SphereShape).radius) ∧
      ((∀ α β γ : ℚ, 0 ≤ α → 0 ≤ β → 0 ≤ γ → α + β + γ = 1 →
          (⟨⟨1 / 4, 1 / 4, 1 / 2⟩, 1⟩ : SphereShape).radius
              * (⟨⟨1 / 4, 1 / 4, 1 / 2⟩, 1⟩ : SphereShape).radius
            < dot (((nodeTriangle unitShape (Node.leaf ⟨0, 0, 0⟩ ⟨1, 1, 0⟩ 0)).1 * α
                + (nodeTriangle unitShape (Node.leaf ⟨0, 0, 0⟩ ⟨1, 1, 0⟩ 0)).2.1 * β
                + (nodeTriangle unitShape (Node.leaf ⟨0, 0, 0⟩ ⟨1, 1, 0⟩ 0)).2.2 * γ)
                - (⟨⟨1 / 4, 1 / 4, 1 / 2⟩, 1⟩ : SphereShape).center)
              (((nodeTriangle unitShape (Node.leaf ⟨0, 0, 0⟩ ⟨1, 1, 0⟩ 0)).1 * α
                + (nodeTriangle unitShape (Node.leaf ⟨0, 0, 0⟩ ⟨1, 1, 0⟩ 0)).2.1 * β
                + (nodeTriangle unitShape (Node.leaf ⟨0, 0, 0⟩ ⟨1, 1, 0⟩ 0)).2.2 * γ)
                - (⟨⟨1 / 4, 1 / 4, 1 / 2⟩, 1⟩ : SphereShape).center)) →
        SeparationFires (nodeTriangle unitShape (Node.leaf ⟨0, 0, 0⟩ ⟨1, 1, 0⟩ 0)).1
          (nodeTriangle unitShape (Node.leaf ⟨0, 0, 0⟩ ⟨1, 1, 0⟩ 0)).2.1
          (nodeTriangle unitShape (Node.leaf ⟨0, 0, 0⟩ ⟨1, 1, 0⟩ 0)).2.2
          (⟨⟨1 / 4, 1 / 4, 1 / 2⟩, 1⟩ : SphereShape).center
          (⟨⟨1 / 4, 1 / 4, 1 / 2⟩, 1⟩ : SphereShape).radius) :=
  ⟨by decide!, by decide!, by decide!,
    C39_separation_tests_exact unitShape ⟨⟨1 / 4, 1 / 4, 1 / 2⟩, 1⟩ 0 _ (by decide!)
      (by decide!) (by decide!)⟩
/-! ## The swept sphere read on trees -/

theorem sweep_leaf (sqrt : ℚ → ℚ) (shape1 : TriangleMeshShape) (shape2 : SphereShape)
    (target : vec3) (a : Int) (mn mx : vec3) (t : Nat)
    (hn : shape1.node a = .ok (Node.leaf mn mx ((t * 3 : Nat) : Int))) :
    sweep_intersect_triangle_sphere sqrt shape1 shape2 a target
      = .ok (sweptTriangle sqrt shape1.vertices shape1.elements shape2 target t) := by
  have h0 : (((t * 3 : Nat) : Int)).toNat = t * 3 := by omega
  have h1 : (((t * 3 : Nat) : Int) + 1).toNat = t * 3 + 1 := by omega
  have h2 : (((t * 3 : Nat) : Int) + 2).toNat = t * 3 + 2 := by omega
  simp only [sweep_intersect_triangle_sphere, hn, Node.leaf, nodeTriangle, elementAt,
    sweptTriangle, vertexAt, h0, h1, h2]

/-- On a represented tree the recursive sweep, given a budget of at least the
tree size, returns what the tree reading computes. -/
theorem sweep_node_eq (mkRay : vec3 → vec3 → RayBBox) (sqrt : ℚ → ℚ)
    (shape : TriangleMeshShape) (shape2 : SphereShape) (target : vec3) (T : BVH) :
    ∀ (a : Int) (fuel : Nat), Represents shape.nodes a T → T.size ≤ fuel →
      sweep_node mkRay sqrt shape shape2 target fuel a
        = .ok (T.sweep mkRay sqrt shape.vertices shape.elements shape2 target) := by
  induction T with
  | leaf mn mx t =>
    intro a fuel hrep hfuel
    cases hrep with
    | leaf _ _ _ _ h0 hget =>
      have hn := node_of_get shape a _ h0 hget
      cases fuel with
      | zero => simp [BVH.size] at hfuel
      | succ fuel =>
        have hne : ¬ ((t : Int) * 3 = -1) := by omega
        have hov : sweep_overlap_bv_sphere mkRay shape shape2 a target
            = .ok (sweptBoxOverlap mkRay shape2 target mn mx) := by
          simp only [sweep_overlap_bv_sphere, hn, sweptBoxOverlap, Node.leaf]
        have hleaf : is_leaf shape a = .ok true := by
          simp [is_leaf, hn, Node.leaf, hne]
        rw [sweep_node, hov]
        cases hb : sweptBoxOverlap mkRay shape2 target mn mx with
        | false => simp [BVH.sweep, hb]
        | true =>
          simp only [hleaf, sweep_leaf sqrt shape shape2 target a mn mx t hn, BVH.sweep, hb,
            if_true]
  | inner mn mx l r ihl ihr =>
    intro a fuel hrep hfuel
    cases hrep with
    | inner _ li ri _ _ _ _ h0 hget hli hri hl hr =>
      have hn := node_of_get shape a _ h0 hget
      cases fuel with
      | zero => simp [BVH.size] at hfuel
      | succ fuel =>
        simp only [BVH.size] at hfuel
        have hL := ihl li fuel hl (by omega)
        have hR := ihr ri fuel hr (by omega)
        have hov : sweep_overlap_bv_sphere mkRay shape shape2 a target
            = .ok (sweptBoxOverlap mkRay shape2 target mn mx) := by
          simp only [sweep_overlap_bv_sphere, hn, sweptBoxOverlap, Node.inner]
        have hleaf : is_leaf shape a = .ok false := by
          simp [is_leaf, hn, Node.inner]
        rw [sweep_node, hov]
        cases hb : sweptBoxOverlap mkRay shape2 target mn mx with
        | false => simp [BVH.sweep, hb]
        | true =>
          simp only [hleaf, hn, BVH.sweep, hb, if_true]
          simp only [Node.inner, hL, hR]

theorem foldr_min_append (L R : List ℚ) :
    (L ++ R).foldr min 1 = min (L.foldr min 1) (R.foldr min 1) := by
  induction L with
  | nil =>
    have h : R.foldr min 1 ≤ 1 := by
      induction R with
      | nil => simp
      | cons a rest ih => exact le_trans (min_le_right _ _) ih
    simp [h]
  | cons a rest ih =>
    simp only [List.cons_append, List.foldr_cons, ih, min_assoc]

theorem foldr_min_le_one (L : List ℚ) : L.foldr min 1 ≤ 1 := by
  induction L with
  | nil => simp
  | cons a rest ih => exact le_trans (min_le_right _ _) ih

/-- The tree reading of the sweep is the minimum of `1` and the kernel results
of the leaves it reaches. -/
theorem BVH.sweep_eq_fold (mkRay : vec3 → vec3 → RayBBox) (sqrt : ℚ → ℚ) (vertices : List vec3)
    (elements : List Nat) (shape2 : SphereShape) (target : vec3) (T : BVH) :
    min 1 (T.sweep mkRay sqrt vertices elements shape2 target)
      = ((T.sweptLeaves mkRay shape2 target).map
          (sweptTriangle sqrt vertices elements shape2 target)).foldr min 1 := by
  induction T with
  | leaf mn mx t =>
    cases hb : sweptBoxOverlap mkRay shape2 target mn mx with
    | false => simp [BVH.sweep, BVH.sweptLeaves, hb]
    | true => simp [BVH.sweep, BVH.sweptLeaves, hb, min_comm]
  | inner mn mx l r ihl ihr =>
    cases hb : sweptBoxOverlap mkRay shape2 target mn mx with
    | false => simp [BVH.sweep, BVH.sweptLeaves, hb]
    | true =>
      simp only [BVH.sweep, BVH.sweptLeaves, hb, if_true, List.map_append, foldr_min_append,
        ← ihl, ← ihr]
      rw [min_min_min_comm, min_self]

theorem ray_aabb_congr (ray : RayBBox) (b1 b2 : CollisionBBox) (hC : b1.Center = b2.Center)
    (hE : b1.Extents = b2.Extents) :
    IntersectionTest.ray_aabb ray b1 = IntersectionTest.ray_aabb ray b2 := by
  unfold IntersectionTest.ray_aabb
  rw [hC, hE]

/-- With a half-vector `RayBBox` and a radius `r ≥ 0` the test of
`sweep_overlap_bv_sphere` decides whether the segment from the centre to the
target meets the box grown by `r` on every side. -/
theorem sweptBoxOverlap_iff (mkRay : vec3 → vec3 → RayBBox) (shape2 : SphereShape)
    (target : vec3)
    (hmk : (mkRay shape2.center target).start = shape2.center ∧
      (mkRay shape2.center target).end_ = target ∧ (mkRay shape2.center target).Halved)
    (hr : 0 ≤ shape2.radius) (mn mx : vec3)
    (hbox : mn.x ≤ mx.x ∧ mn.y ≤ mx.y ∧ mn.z ≤ mx.z) :
    sweptBoxOverlap mkRay shape2 target mn mx = true ↔
      SegmentMeetsBox shape2.center target (mn.addScalar (-shape2.radius))
        (mx.addScalar shape2.radius) := by
  have hcons : (CollisionBBox.ofMinMax (mn.addScalar (-shape2.radius))
      (mx.addScalar shape2.radius)).Consistent := by
    refine ⟨⟨?_, ?_, ?_⟩, rfl, rfl⟩ <;> simp only [CollisionBBox.ofMinMax, vec3.addScalar] <;>
      linarith [hbox.1, hbox.2.1, hbox.2.2]
  have h := ray_aabb_overlap_iff (mkRay shape2.center target) _ hmk.2.2 hcons
  rw [hmk.1, hmk.2.1] at h
  have hmin : (CollisionBBox.ofMinMax (mn.addScalar (-shape2.radius))
      (mx.addScalar shape2.radius)).min = mn.addScalar (-shape2.radius) := rfl
  have hmax : (CollisionBBox.ofMinMax (mn.addScalar (-shape2.radius))
      (mx.addScalar shape2.radius)).max = mx.addScalar shape2.radius := rfl
  rw [hmin, hmax] at h
  rw [← h]
  unfold sweptBoxOverlap
  rw [decide_eq_true_eq, ray_aabb_congr (mkRay shape2.center target) _
    (CollisionBBox.ofMinMax (mn.addScalar (-shape2.radius)) (mx.addScalar shape2.radius))]
  · apply vec3.eq_of_components <;>
      simp only [CollisionBBox.ofMinMax, vec3.addScalar, vec3.add_x, vec3.add_y, vec3.add_z,
        vec3.mul_x, vec3.mul_y, vec3.mul_z] <;> ring
  · apply vec3.eq_of_components <;>
      simp only [CollisionBBox.ofMinMax, vec3.addScalar, vec3.sub_x, vec3.sub_y, vec3.sub_z,
        vec3.mul_x, vec3.mul_y, vec3.mul_z] <;> ring

/-- On the shape built from a well-formed mesh with at least one triangle
the recursive sweep from any node returns what the tree reading gives: `1` where
the ray test against the node box with extents enlarged by `r` fails, the
swept-sphere/triangle result at a leaf, and `min(sweep(left), sweep(right))` at
an inner node, both children being visited.  The top-level result, capped at
`1`, is the minimum of `1` and the kernel results over exactly the leaves whose
own box and all boxes above them pass the test.  When the `RayBBox` stores the
half vector and `r ≥ 0`, the test passes exactly when the segment from the
centre to the target meets the box grown by `r`. -/
theorem sweep_min_over_reached_leaves (mkRay : vec3 → vec3 → RayBBox) (sqrt : ℚ → ℚ)
    (vertices : List vec3) (num_vertices : Int) (elements : List Nat) (num_elements : Int)
    (hpos : 1 ≤ numTriangles num_elements) (shape2 : SphereShape) (target : vec3) :
    ∃ shape T res,
      TriangleMeshShape.create vertices num_vertices elements num_elements = .ok shape ∧
      Represents shape.nodes shape.root T ∧
      T.leaves.Perm (List.range (numTriangles num_elements)) ∧
      (∀ (a : Int) (S : BVH) (fuel : Nat), Represents shape.nodes a S → S.size ≤ fuel →
        sweep_node mkRay sqrt shape shape2 target fuel a
          = .ok (S.sweep mkRay sqrt vertices elements shape2 target)) ∧
      sweep mkRay sqrt shape shape2 target = .ok res ∧
      res = T.sweep mkRay sqrt vertices elements shape2 target ∧
      min 1 res = ((T.sweptLeaves mkRay shape2 target).map
        (sweptTriangle sqrt vertices elements shape2 target)).foldr min 1 ∧
      (((mkRay shape2.center target).start = shape2.center ∧
          (mkRay shape2.center target).end_ = target ∧ (mkRay shape2.center target).Halved) →
        0 ≤ shape2.radius → ∀ mn mx : vec3, (mn.x ≤ mx.x ∧ mn.y ≤ mx.y ∧ mn.z ≤ mx.z) →
          (sweptBoxOverlap mkRay shape2 target mn mx = true ↔
            SegmentMeetsBox shape2.center target (mn.addScalar (-shape2.radius))
              (mx.addScalar shape2.radius))) := by
  obtain ⟨T, shape, hcreate, hV, hE, hnodes, _, hrep, hperm, _⟩ :=
    create_represents vertices num_vertices elements num_elements hpos
  have hsize : T.size ≤ shape.nodes.length + 1 := by
    rw [hnodes, BVH.flatten_length]
    omega
  refine ⟨shape, T, _, hcreate, hrep, hperm, ?_, ?_, rfl, ?_, ?_⟩
  · intro a S fuel hS hfuel
    rw [← hV, ← hE]
    exact sweep_node_eq mkRay sqrt shape shape2 target S a fuel hS hfuel
  · rw [← hV, ← hE]
    exact sweep_node_eq mkRay sqrt shape shape2 target T _ _ hrep hsize
  · exact BVH.sweep_eq_fold mkRay sqrt vertices elements shape2 target T
  · intro hmk hr mn mx hbox
    exact sweptBoxOverlap_iff mkRay shape2 target hmk hr mn mx hbox
/-! ## The candidates of the swept-sphere kernel -/

/-- C31 (fails on the code): `sweep_intersect_triangle_sphere` returns the first
candidate it finds, not the smallest, and returns the plane time without a range
check.  For the right triangle `(0,0,0), (4,0,0), (0,4,0)` and the unit sphere
moving from `(-4,-4,-1)` to `(2,6,1)` the plane step finds its point outside the
polygon, the edge `p0 p1` gives no candidate, the edge `p1 p2` gives `2/3` and the
edge `p2 p0` gives `1/2`, at which time the sphere touches the point `(0,1,0)` of
that edge; the function returns `2/3`.  For the unit sphere moving from
`(1,1,1/2)` to `(1,1,-2)` it returns the plane time `-1/5`, which is outside
`[0,1]`.  The square roots taken on these runs are those of `256`, `102400`,
`409600` and `36864`, on which `squareRoot` is exact. -/
theorem C31_sweep_kernel_returns_first_candidate :
    squareRoot 256 = 16 ∧ squareRoot 102400 = 320 ∧ squareRoot 409600 = 640 ∧
    squareRoot 36864 = 192 ∧
    (sweepPlaneTest ⟨0, 0, 0⟩ ⟨4, 0, 0⟩ ⟨0, 4, 0⟩ ⟨-4, -4, -1⟩ ⟨2, 6, 1⟩ 1 (-1) 1).2 = false ∧
    sweepEdgeTest squareRoot ⟨0, 0, 0⟩ ((⟨4, 0, 0⟩ : vec3) - ⟨0, 0, 0⟩) ⟨-4, -4, -1⟩ ⟨2, 6, 1⟩ 1
      = none ∧
    sweepEdgeTest squareRoot ⟨4, 0, 0⟩ ((⟨0, 4, 0⟩ : vec3) - ⟨4, 0, 0⟩) ⟨-4, -4, -1⟩ ⟨2, 6, 1⟩ 1
      = some (2 / 3) ∧
    sweepEdgeTest squareRoot ⟨0, 4, 0⟩ ((⟨0, 0, 0⟩ : vec3) - ⟨0, 4, 0⟩) ⟨-4, -4, -1⟩ ⟨2, 6, 1⟩ 1
      = some (1 / 2) ∧
    sphereTouchesAt ⟨0, 0, 0⟩ ⟨4, 0, 0⟩ ⟨0, 4, 0⟩ ⟨-4, -4, -1⟩ ⟨2, 6, 1⟩ 1 (1 / 2) 0 (1 / 4) ∧
    sweep_intersect_triangle_sphere squareRoot cornerShape ⟨⟨-4, -4, -1⟩, 1⟩ 0 ⟨2, 6, 1⟩
      = .ok (2 / 3) ∧
    sweep_intersect_triangle_sphere squareRoot cornerShape ⟨⟨1, 1, 1 / 2⟩, 1⟩ 0 ⟨1, 1, -2⟩
      = .ok (-1 / 5) ∧
    ¬ ((0 : ℚ) ≤ -1 / 5) := by
  refine ⟨?_, ?_, ?_, ?_, ?_, ?_, ?_, ?_, ?_, ?_, ?_, ?_⟩ <;> decide!

/-- C32 (fails on the code): the sweep is not the minimum of `1` and the kernel
results of the leaves it reaches when such a result exceeds `1`.  On the mesh of
the single right triangle `(0,0,0), (4,0,0), (0,4,0)`, for the unit sphere moving
from `(1,1,-2)` to `(1,1,0)`, the root is a leaf whose enlarged box passes the
test and whose kernel returns the plane time `3/2`; `sweep` returns `3/2`, not
`min(1, 3/2) = 1`.  The result is the same for both scalings of the ray box. -/
theorem C32_sweep_exceeds_one_at_reached_leaf :
    TriangleMeshShape.create cornerVertices 3 [0, 1, 2] 3 = .ok cornerShape ∧
    sweep_overlap_bv_sphere RayBBox.ofHalf cornerShape ⟨⟨1, 1, -2⟩, 1⟩ cornerShape.root ⟨1, 1, 0⟩
      = .ok true ∧
    sweep_overlap_bv_sphere RayBBox.ofSpec cornerShape ⟨⟨1, 1, -2⟩, 1⟩ cornerShape.root ⟨1, 1, 0⟩
      = .ok true ∧
    is_leaf cornerShape cornerShape.root = .ok true ∧
    sweep_intersect_triangle_sphere squareRoot cornerShape ⟨⟨1, 1, -2⟩, 1⟩ cornerShape.root
      ⟨1, 1, 0⟩ = .ok (3 / 2) ∧
    sweep RayBBox.ofHalf squareRoot cornerShape ⟨⟨1, 1, -2⟩, 1⟩ ⟨1, 1, 0⟩ = .ok (3 / 2) ∧
    sweep RayBBox.ofSpec squareRoot cornerShape ⟨⟨1, 1, -2⟩, 1⟩ ⟨1, 1, 0⟩ = .ok (3 / 2) ∧
    ¬ ((3 / 2 : ℚ) = min 1 (3 / 2)) := by
  refine ⟨?_, ?_, ?_, ?_, ?_, ?_, ?_, ?_⟩ <;> decide!
/-! ## Polygon groups of the UE1 model loader -/

theorem findGroupLoop_spec (groups : List UE1Group) (poly : d3dpoly) :
    ∀ (n j : Nat), j + n = groups.length →
      (∀ j' g, j' < j → groups.get? j' = some g → ¬ g.Matches poly) →
      ∃ found, findGroupLoop groups poly n j = .ok found ∧
        ((found = -1 ∧ ∀ g ∈ groups, ¬ g.Matches poly) ∨
          (0 ≤ found ∧ ∃ g, groups.get? found.toNat = some g ∧ g.Matches poly)) := by
  intro n
  induction n with
  | zero =>
    intro j hj hpre
    refine ⟨-1, rfl, Or.inl ⟨rfl, ?_⟩⟩
    intro g hg
    obtain ⟨k, hk⟩ := List.get?_of_mem hg
    have hlt : k < groups.length := by
      by_contra hge
      rw [List.get?_eq_none.mpr (by omega)] at hk
      cases hk
    exact hpre k g (by omega) hk
  | succ n ih =>
    intro j hj hpre
    have hlt : j < groups.length := by omega
    obtain ⟨g, hg⟩ : ∃ g, groups.get? j = some g := ⟨groups.get ⟨j, hlt⟩, List.get?_eq_get hlt⟩
    by_cases hm : g.Matches poly
    · refine ⟨(j : Int), ?_, Or.inr ⟨by omega, g, by simpa using hg, hm⟩⟩
      rw [findGroupLoop]
      simp only [hg]
      rw [if_neg (by push_neg; exact hm)]
    · obtain ⟨found, hf, hspec⟩ := ih (j + 1) (by omega) (by
        intro j' g' hj' hg'
        rcases Nat.lt_succ_iff_lt_or_eq.mp hj' with h | h
        · exact hpre j' g' h hg'
        · subst h
          rw [hg] at hg'
          cases hg'
          exact hm)
      refine ⟨found, ?_, hspec⟩
      have hc : g.texNum ≠ poly.texnum ∨ g.type ≠ poly.type := by
        unfold UE1Group.Matches at hm
        by_contra hcon
        push_neg at hcon
        exact hm hcon
      rw [findGroupLoop]
      simp only [hg, hc, if_true]
      exact hf

theorem flatten_set_perm (i : Nat) : ∀ (groups : List UE1Group) (j : Nat) (g g1 : UE1Group),
    groups.get? j = some g → g1.P = g.P ++ [i] →
      (((groups.set j g1).map (fun g => g.P)).flatten).Perm
        (((groups.map (fun g => g.P)).flatten) ++ [i]) := by
  intro groups
  induction groups with
  | nil =>
    intro j g g1 h
    simp at h
  | cons a rest ih =>
    intro j g g1 h hP
    cases j with
    | zero =>
      simp only [List.get?_cons_zero, Option.some.injEq] at h
      subst h
      simp only [List.set_cons_zero, List.map_cons, List.flatten_cons, hP, List.append_assoc]
      exact List.Perm.append_left _ List.perm_append_comm
    | succ j =>
      simp only [List.get?_cons_succ] at h
      simp only [List.set_cons_succ, List.map_cons, List.flatten_cons, List.append_assoc]
      exact List.Perm.append_left _ (ih j g g1 h hP)

theorem map_key_set : ∀ (groups : List UE1Group) (j : Nat) (g g1 : UE1Group),
    groups.get? j = some g → g1.texNum = g.texNum → g1.type = g.type →
      (groups.set j g1).map (fun g => (g.texNum, g.type))
        = groups.map (fun g => (g.texNum, g.type)) := by
  intro groups
  induction groups with
  | nil =>
    intro j g g1 h
    simp at h
  | cons a rest ih =>
    intro j g g1 h h1 h2
    cases j with
    | zero =>
      simp only [List.get?_cons_zero, Option.some.injEq] at h
      subst h
      simp [h1, h2]
    | succ j =>
      simp only [List.get?_cons_succ] at h
      simp only [List.set_cons_succ, List.map_cons, ih j g g1 h h1 h2]

theorem GroupsOK.congr_groups {dpolys : List d3dpoly} {i : Nat} {m m1 : FUE1Model}
    (h : GroupsOK dpolys i m) (hg : m1.groups = m.groups) (hn : m1.numGroups = m.numGroups) :
    GroupsOK dpolys i m1 := by
  unfold GroupsOK at *
  rw [hg, hn]
  exact h

/-- Pushing polygon `i` on a group that carries its attributes keeps the groups
in order and places `i`. -/
theorem pushPoly_spec (dpolys : List d3dpoly) (i : Nat) (m : FUE1Model) (cg : Int)
    (g : UE1Group) (poly : d3dpoly) (hget : dpolys.get? i = some poly)
    (hok : GroupsOK dpolys i m) (h0 : 0 ≤ cg) (hg : m.groups.get? cg.toNat = some g)
    (hm : g.Matches poly) :
    ∃ m3, pushPoly m cg i = .ok m3 ∧ GroupsOK dpolys (i + 1) m3 ∧
      m3.specialPolys = m.specialPolys ∧
      ∃ g1, m3.groups.get? cg.toNat = some g1 ∧ g1.Matches poly := by
  obtain ⟨hnum, hnodup, hall, hperm⟩ := hok
  have hlt : cg.toNat < m.groups.length := by
    by_contra hge
    rw [List.get?_eq_none.mpr (by omega)] at hg
    cases hg
  obtain ⟨g1, hg1⟩ : ∃ g1 : UE1Group, g1 = ⟨g.P ++ [i], g.numPolys + 1, g.texNum, g.type⟩ :=
    ⟨_, rfl⟩
  have hrun : pushPoly m cg i = .ok ⟨m.specialPolys, m.groups.set cg.toNat g1, m.numGroups⟩ := by
    simp only [pushPoly, h0, if_true, hg, hg1]
  have hm1 : g1.Matches poly := by
    rw [hg1]
    exact hm
  refine ⟨_, hrun, ⟨?_, ?_, ?_, ?_⟩, rfl, g1, ?_, hm1⟩
  · simp only [List.length_set]
    exact hnum
  · simp only []
    rw [map_key_set m.groups cg.toNat g g1 hg (by rw [hg1]) (by rw [hg1])]
    exact hnodup
  · intro x hx
    simp only [] at hx
    rcases List.mem_or_eq_of_mem_set hx with hx | hx
    · exact hall x hx
    · subst hx
      have hgm : g ∈ m.groups := List.get?_mem hg
      obtain ⟨h1, h2⟩ := hall g hgm
      refine ⟨by rw [hg1]; simp [h1], ?_⟩
      intro k hk
      rw [hg1] at hk
      simp only [List.mem_append, List.mem_singleton] at hk
      rcases hk with hk | hk
      · obtain ⟨q, hq1, hq2⟩ := h2 k hk
        exact ⟨q, hq1, by rw [hg1]; exact hq2⟩
      · subst hk
        exact ⟨poly, hget, hm1⟩
  · simp only []
    refine (flatten_set_perm i m.groups cg.toNat g g1 hg (by rw [hg1])).trans ?_
    rw [List.range_succ]
    exact List.Perm.append_right _ hperm
  · simp only []
    rw [List.get?_eq_getElem?, List.getElem?_set_self hlt]

/-- Opening a group for the attributes of polygon `i`, which no group carries
yet, and pushing `i` on it. -/
theorem createGroup_spec (dpolys : List d3dpoly) (i : Nat) (m : FUE1Model) (poly : d3dpoly)
    (hget : dpolys.get? i = some poly) (hok : GroupsOK dpolys i m)
    (hnone : ∀ g ∈ m.groups, ¬ g.Matches poly) :
    ∃ m3, pushPoly (m.addGroup poly) (m.numGroups : Int) i = .ok m3 ∧
      GroupsOK dpolys (i + 1) m3 ∧ m3.specialPolys = m.specialPolys ∧
      ∃ g1, m3.groups.get? ((m.numGroups : Int)).toNat = some g1 ∧ g1.Matches poly := by
  have hok2 : GroupsOK dpolys i (m.addGroup poly) := by
    obtain ⟨hnum, hnodup, hall, hperm⟩ := hok
    refine ⟨by simp [FUE1Model.addGroup, hnum], ?_, ?_, ?_⟩
    · simp only [FUE1Model.addGroup, List.map_append, List.map_cons, List.map_nil]
      rw [List.nodup_append]
      refine ⟨hnodup, by simp, ?_⟩
      intro a ha hb
      simp only [List.mem_singleton] at hb
      obtain ⟨g, hg, hk⟩ := List.mem_map.mp ha
      apply hnone g hg
      rw [hb] at hk
      simp only [Prod.mk.injEq] at hk
      exact hk
    · intro g hg
      simp only [FUE1Model.addGroup, List.mem_append, List.mem_singleton] at hg
      rcases hg with hg | hg
      · exact hall g hg
      · subst hg
        simp
    · simpa [FUE1Model.addGroup] using hperm
  have hg : (m.addGroup poly).groups.get? ((m.numGroups : Int)).toNat
        = some ⟨[], 0, poly.texnum, poly.type⟩ := by
    simp only [FUE1Model.addGroup, Int.toNat_ofNat, hok.1, List.get?_eq_getElem?]
    simp
  obtain ⟨m3, h1, h2, h3, h4⟩ := pushPoly_spec dpolys i _ (m.numGroups : Int) _ poly hget hok2
    (by omega) hg ⟨rfl, rfl⟩
  exact ⟨m3, h1, h2, h3, h4⟩

theorem attributesChange_succ (dpolys : List d3dpoly) (i : Nat) (p q : d3dpoly)
    (hp : dpolys.get? (i + 1) = some p) (hq : dpolys.get? i = some q) :
    attributesChange dpolys (i + 1) = decide (p.texnum ≠ q.texnum ∨ p.type ≠ q.type) := by
  simp only [attributesChange, hp, Nat.add_sub_cancel, hq]

theorem specialOf_succ (mask : Nat) (dpolys : List d3dpoly) (i : Nat) (p : d3dpoly)
    (hp : dpolys.get? i = some p) :
    specialOf mask dpolys (i + 1) = specialOf mask dpolys i ++
      (if p.type &&& mask ≠ 0 then (if attributesChange dpolys i then [i, i] else [i])
        else []) := by
  simp only [specialOf, specialStep, hp]

/-- From the head of any pass the group loop runs to its end within two passes
per remaining polygon, and leaves the groups in order with every polygon
placed. -/
theorem groupLoop_spec (mask : Nat) (dpolys : List d3dpoly) (n : Nat) (hn : n ≤ dpolys.length) :
    ∀ (fuel i : Nat) (curgroup : Int) (m : FUE1Model) (redo : Bool), i ≤ n →
      GroupsOK dpolys i m → CurOK dpolys n i curgroup m redo →
      m.specialPolys = specialOf mask dpolys i ++ pendingSpecial mask dpolys i redo →
      2 * (n - i) + (if redo = true then 0 else 1) ≤ fuel →
      ∃ m', groupLoop mask dpolys n fuel i curgroup m = .ok m' ∧ GroupsOK dpolys n m' ∧
        m'.specialPolys = specialOf mask dpolys n := by
  intro fuel
  induction fuel with
  | zero =>
    intro i cg m redo hin hok hcur hsp hf
    cases redo with
    | false => simp at hf
    | true =>
      simp only [CurOK, if_true] at hcur
      have := hcur.1
      simp only [if_true] at hf
      omega
  | succ fuel ih =>
    intro i cg m redo hin hok hcur hsp hf
    by_cases hi : i < n
    · obtain ⟨poly, hget⟩ : ∃ poly, dpolys.get? i = some poly :=
        ⟨dpolys.get ⟨i, by omega⟩, List.get?_eq_get _⟩
      obtain ⟨m1, hm1, hg1, hn1, hs1⟩ : ∃ m1 : FUE1Model,
          m1 = (if poly.type &&& mask ≠ 0 then
              { m with specialPolys := m.specialPolys ++ [i] } else m) ∧
          m1.groups = m.groups ∧ m1.numGroups = m.numGroups ∧
          m1.specialPolys = m.specialPolys ++ (if poly.type &&& mask ≠ 0 then [i] else []) := by
        refine ⟨_, rfl, ?_, ?_, ?_⟩ <;> split_ifs <;> simp
      have hok1 : GroupsOK dpolys i m1 := hok.congr_groups hg1 hn1
      rw [groupLoop]
      simp only [hi, if_true, hget, ← hm1]
      cases redo with
      | false =>
        simp only [CurOK, Bool.false_eq_true, if_false] at hcur
        simp only [Bool.false_eq_true, if_false] at hf
        simp only [pendingSpecial, Bool.false_eq_true, if_false, List.append_nil] at hsp
        rcases hcur with ⟨hi0, hcg, hnil⟩ | ⟨hipos, hcg0, g, q, hgq, hq, hmq⟩
        · subst hi0
          have hnone : ∀ g ∈ m1.groups, ¬ g.Matches poly := by
            rw [hg1, hnil]
            simp
          obtain ⟨m3, h1, h2, h3, g1, h4, h5⟩ :=
            createGroup_spec dpolys 0 m1 poly hget hok1 hnone
          simp only [hcg, if_true, h1]
          apply ih 1 _ m3 false (by omega) h2 ?_ ?_ (by simp only [Bool.false_eq_true, if_false]; omega)
          · simp only [CurOK, Bool.false_eq_true, if_false]
            right
            exact ⟨by omega, by omega, g1, poly, h4, by simpa using hget, h5⟩
          · rw [h3, hs1, hsp, specialOf_succ mask dpolys 0 poly hget]
            simp [pendingSpecial, attributesChange]
        · have hcgne : ¬ cg = -1 := by omega
          have hread : (if 0 ≤ cg then m1.groups.get? cg.toNat else none) = some g := by
            rw [if_pos hcg0, hg1, hgq]
          obtain ⟨k, rfl⟩ : ∃ k, i = k + 1 := ⟨i - 1, by omega⟩
          simp only [Nat.add_sub_cancel] at hq
          have hch := attributesChange_succ dpolys k poly q hget hq
          simp only [hcgne, if_false, hread]
          by_cases hdiff : poly.texnum ≠ g.texNum ∨ poly.type ≠ g.type
          · simp only [hdiff, if_true]
            obtain ⟨found, hf1, hf2⟩ := findGroupLoop_spec m1.groups poly m1.numGroups 0
              (by rw [hn1, hok.1, hg1]; simp) (by intro j' g' hj'; omega)
            simp only [hf1]
            have hchange : attributesChange dpolys (k + 1) = true := by
              rw [hch, decide_eq_true_eq, ← hmq.1, ← hmq.2]
              exact hdiff
            apply ih (k + 1) found m1 true hin hok1 ?_ ?_ (by simp only [if_true]; omega)
            · simp only [CurOK, if_true]
              refine ⟨hi, hchange, ?_⟩
              rcases hf2 with ⟨hfm, hnone⟩ | ⟨hf0, g2, hg2, hm2⟩
              · left
                refine ⟨hfm, ?_⟩
                intro g2 hg2 p hp
                rw [hget] at hp
                cases hp
                exact hnone g2 hg2
              · right
                exact ⟨hf0, g2, poly, hg2, hget, hm2⟩
            · rw [hs1, hsp]
              simp only [pendingSpecial, if_true, hget]
          · simp only [hdiff, if_false]
            have hmatch : g.Matches poly := by
              push_neg at hdiff
              exact ⟨hdiff.1.symm, hdiff.2.symm⟩
            obtain ⟨m3, h1, h2, h3, g1, h4, h5⟩ := pushPoly_spec dpolys (k + 1) m1 cg g poly hget
              hok1 hcg0 (by rw [hg1]; exact hgq) hmatch
            simp only [h1]
            have hchange : attributesChange dpolys (k + 1) = false := by
              rw [hch, decide_eq_false_iff_not, ← hmq.1, ← hmq.2]
              exact hdiff
            apply ih (k + 1 + 1) cg m3 false (by omega) h2 ?_ ?_
              (by simp only [Bool.false_eq_true, if_false]; omega)
            · simp only [CurOK, Bool.false_eq_true, if_false]
              right
              exact ⟨by omega, hcg0, g1, poly, h4, by simpa using hget, h5⟩
            · rw [h3, hs1, hsp, specialOf_succ mask dpolys (k + 1) poly hget, hchange]
              simp [pendingSpecial]
      | true =>
        simp only [CurOK, if_true] at hcur
        simp only [if_true] at hf
        simp only [pendingSpecial, if_true, hget] at hsp
        obtain ⟨_, hchange, hcases⟩ := hcur
        have hsp3 : m1.specialPolys = specialOf mask dpolys (i + 1) := by
          rw [hs1, hsp, specialOf_succ mask dpolys i poly hget, hchange]
          by_cases hw : poly.type &&& mask ≠ 0
          · rw [if_pos hw, if_pos hw]
            simp
          · rw [if_neg hw, if_neg hw]
            simp
        rcases hcases with ⟨hcg, hnone⟩ | ⟨hcg0, g, p, hg, hp, hmatch⟩
        · have hnone1 : ∀ g ∈ m1.groups, ¬ g.Matches poly := by
            intro g hg
            exact hnone g (by rw [← hg1]; exact hg) poly hget
          obtain ⟨m3, h1, h2, h3, g1, h4, h5⟩ :=
            createGroup_spec dpolys i m1 poly hget hok1 hnone1
          simp only [hcg, if_true, h1]
          apply ih (i + 1) _ m3 false (by omega) h2 ?_ ?_
            (by simp only [Bool.false_eq_true, if_false]; omega)
          · simp only [CurOK, Bool.false_eq_true, if_false]
            right
            exact ⟨by omega, by omega, g1, poly, h4, by simpa using hget, h5⟩
          · rw [h3, hsp3]
            simp [pendingSpecial]
        · rw [hget] at hp
          cases hp
          have hcgne : ¬ cg = -1 := by omega
          have hread : (if 0 ≤ cg then m1.groups.get? cg.toNat else none) = some g := by
            rw [if_pos hcg0, hg1, hg]
          have hdiff : ¬ (poly.texnum ≠ g.texNum ∨ poly.type ≠ g.type) := by
            push_neg
            exact ⟨hmatch.1.symm, hmatch.2.symm⟩
          obtain ⟨m3, h1, h2, h3, g1, h4, h5⟩ := pushPoly_spec dpolys i m1 cg g poly hget
            hok1 hcg0 (by rw [hg1]; exact hg) hmatch
          simp only [hcgne, if_false, hread, hdiff, h1]
          apply ih (i + 1) cg m3 false (by omega) h2 ?_ ?_
            (by simp only [Bool.false_eq_true, if_false]; omega)
          · simp only [CurOK, Bool.false_eq_true, if_false]
            right
            exact ⟨by omega, hcg0, g1, poly, h4, by simpa using hget, h5⟩
          · rw [h3, hsp3]
            simp [pendingSpecial]
    · have hin2 : i = n := by omega
      subst hin2
      rw [groupLoop]
      simp only [lt_irrefl, if_false]
      refine ⟨m, rfl, hok, ?_⟩
      cases redo with
      | false => simpa [pendingSpecial] using hsp
      | true =>
        simp only [CurOK, if_true] at hcur
        exact absurd hcur.1 (lt_irrefl _)

/-- The run of the group loop from the state at entry: it ends, with the groups
in order and `specialPolys` as `specialOf` lists it. -/
theorem populateGroups_spec (mask : Nat) (dpolys : List d3dpoly) (n : Nat)
    (hn : n ≤ dpolys.length) :
    ∃ m, populateGroups mask dpolys n = .ok m ∧ GroupsOK dpolys n m ∧
      m.specialPolys = specialOf mask dpolys n := by
  apply groupLoop_spec mask dpolys n hn (2 * n + 1) 0 (-1) ⟨[], [], 0⟩ false (Nat.zero_le _)
  · exact ⟨rfl, by simp, by simp, by simp⟩
  · simp [CurOK]
  · simp [specialOf, pendingSpecial]
  · simp

theorem specialStep_mem (mask : Nat) (dpolys : List d3dpoly) (k x : Nat)
    (h : x ∈ specialStep mask dpolys k) : x = k := by
  unfold specialStep at h
  cases hq : dpolys.get? k with
  | none =>
    simp only [hq] at h
    cases h
  | some q =>
    simp only [hq] at h
    split_ifs at h <;> simp at h <;> exact h

theorem specialOf_count (mask : Nat) (dpolys : List d3dpoly) (i : Nat) (p : d3dpoly)
    (hp : dpolys.get? i = some p) : ∀ n, i < n →
      (specialOf mask dpolys n).count i
        = if p.type &&& mask ≠ 0 then (if attributesChange dpolys i then 2 else 1) else 0 := by
  have hstep : ∀ k, ¬ k = i → (specialStep mask dpolys k).count i = 0 := by
    intro k hne
    rw [List.count_eq_zero]
    intro hmem
    exact hne (specialStep_mem mask dpolys k i hmem).symm
  have hbelow : ∀ n, n ≤ i → (specialOf mask dpolys n).count i = 0 := by
    intro n
    induction n with
    | zero => intro _; simp [specialOf]
    | succ k ih =>
      intro hk
      rw [specialOf, List.count_append, ih (by omega), hstep k (by omega)]
  intro n
  induction n with
  | zero => intro h; omega
  | succ k ih =>
    intro hk
    rw [specialOf, List.count_append]
    by_cases hik : i = k
    · subst hik
      rw [hbelow i (le_refl _)]
      simp only [specialStep, hp]
      split_ifs <;> simp
    · rw [ih (by omega), hstep k (fun h => hik h.symm), Nat.add_zero]

/-- What the loop leaves in `specialPolys`: a polygon without the flag never,
a polygon with the flag once, and twice when its attribute pair differs from
that of the polygon before it. -/
theorem specialPolys_count (mask : Nat) (dpolys : List d3dpoly) (n : Nat)
    (hn : n ≤ dpolys.length) :
    ∃ m, populateGroups mask dpolys n = .ok m ∧
      ∀ i p, i < n → dpolys.get? i = some p →
        m.specialPolys.count i
          = if p.type &&& mask ≠ 0 then (if attributesChange dpolys i then 2 else 1) else 0 := by
  obtain ⟨m, hrun, _, hsp⟩ := populateGroups_spec mask dpolys n hn
  refine ⟨m, hrun, ?_⟩
  intro i p hi hp
  rw [hsp]
  exact specialOf_count mask dpolys i p hp n hi

/-- C35. For a lump of `numPolys` polygons the group loop of
`FUE1Model::LoadGeometry`, entered with no groups, ends (within two passes per
polygon).  Afterwards the `P` lists of the groups, put end to end, are a
rearrangement of `0 .. numPolys - 1`, so every polygon index is in exactly one
list, once; a group lists only polygons with its own `texNum` and `type`; no two
groups carry the same `(texNum, type)` pair; `numPolys` of a group is the length
of its list; and `numGroups` is the number of groups. -/
theorem C35_groups_partition_polygons (PT_WeaponTriangle : Nat) (dpolys : List d3dpoly)
    (numPolys : Nat) (hn : numPolys ≤ dpolys.length) :
    ∃ m, populateGroups PT_WeaponTriangle dpolys numPolys = .ok m ∧
      ((m.groups.map (fun g => g.P)).flatten).Perm (List.range numPolys) ∧
      (∀ i, i < numPolys → ∃ g ∈ m.groups, i ∈ g.P) ∧
      (∀ g ∈ m.groups, ∀ k ∈ g.P, ∃ poly, dpolys.get? k = some poly ∧
        g.texNum = poly.texnum ∧ g.type = poly.type) ∧
      (m.groups.map (fun g => (g.texNum, g.type))).Nodup ∧
      (∀ g ∈ m.groups, g.numPolys = g.P.length) ∧
      m.numGroups = m.groups.length := by
  obtain ⟨m, hrun, ⟨hnum, hnodup, hall, hperm⟩, _⟩ :=
    populateGroups_spec PT_WeaponTriangle dpolys numPolys hn
  refine ⟨m, hrun, hperm, ?_, ?_, hnodup, ?_, hnum⟩
  · intro i hi
    have hmem : i ∈ (m.groups.map (fun g => g.P)).flatten :=
      (hperm.mem_iff).mpr (List.mem_range.mpr hi)
    obtain ⟨l, hl, hil⟩ := List.mem_flatten.mp hmem
    obtain ⟨g, hg, rfl⟩ := List.mem_map.mp hl
    exact ⟨g, hg, hil⟩
  · intro g hg k hk
    exact (hall g hg).2 k hk
  · intro g hg
    exact (hall g hg).1

/-- C35 on six polygons with three attribute pairs, two of which come back after
a change. -/
theorem C35_witness :
    6 ≤ ([⟨0, 0⟩, ⟨8, 0⟩, ⟨0, 0⟩, ⟨8, 1⟩, ⟨8, 1⟩, ⟨8, 0⟩] : List d3dpoly).length ∧
    ∃ m, populateGroups 8 [⟨0, 0⟩, ⟨8, 0⟩, ⟨0, 0⟩, ⟨8, 1⟩, ⟨8, 1⟩, ⟨8, 0⟩] 6 = .ok m ∧
      ((m.groups.map (fun g => g.P)).flatten).Perm (List.range 6) ∧
      (∀ i, i < 6 → ∃ g ∈ m.groups, i ∈ g.P) ∧
      (∀ g ∈ m.groups, ∀ k ∈ g.P, ∃ poly,
        ([⟨0, 0⟩, ⟨8, 0⟩, ⟨0, 0⟩, ⟨8, 1⟩, ⟨8, 1⟩, ⟨8, 0⟩] : List d3dpoly).get? k = some poly ∧
        g.texNum = poly.texnum ∧ g.type = poly.type) ∧
      (m.groups.map (fun g => (g.texNum, g.type))).Nodup ∧
      (∀ g ∈ m.groups, g.numPolys = g.P.length) ∧
      m.numGroups = m.groups.length :=
  ⟨by decide, C35_groups_partition_polygons 8 _ 6 (by decide)⟩

/-- C40 (fails on the code): a polygon with the `PT_WeaponTriangle` flag is
pushed on `specialPolys` twice when its attribute pair differs from that of the
polygon before it.  With the flag value `8` and the two polygons
`(type 0, texnum 0)`, `(type 8, texnum 0)` the loop leaves
`specialPolys = [1, 1]`: the push of line 166 runs on the pass that searches the
groups and again on the pass that `i--; continue;` repeats for the same `i`. -/
theorem C40_weapon_triangle_listed_twice :
    populateGroups 8 [⟨0, 0⟩, ⟨8, 0⟩] 2
      = .ok ⟨[1, 1], [⟨[0], 1, 0, 0⟩, ⟨[1], 1, 0, 8⟩], 2⟩ ∧
    (8 : Nat) &&& 8 ≠ 0 ∧ List.count 1 [1, 1] = 2 := by
  decide
/-! ## TMap: the main invariant -/

theorem TMap.WF.toSound {K V : Type} {traits : THashTraits K} {m : TMap K V}
    (h : m.WF traits) : m.Sound traits :=
  ⟨h.size, h.length, h.lastFree, h.keys, h.chains⟩

/-- The structural invariant depends on the `Next` pointers, the keys and `Size`
only. -/
theorem TMap.Sound.sound_congr {K V : Type} {traits : THashTraits K} {m m1 : TMap K V}
    (h : m.Sound traits) (hN : m1.nextAt = m.nextAt) (hK : m1.keyAt = m.keyAt)
    (hS : m1.Size = m.Size) (hLen : m1.Nodes.length = m.Nodes.length)
    (hLF : m1.LastFree ≤ m.Size) : m1.Sound traits := by
  have hU := TMap.usedB_congr m m1 hN
  have hMP : ∀ k1, m1.MainPosition traits k1 = m.MainPosition traits k1 :=
    fun k1 => TMap.mainPosition_congr traits m m1 k1 hS
  obtain ⟨chain, hc⟩ := h.chains
  refine ⟨by rw [hS]; exact h.size, by rw [hLen, hS]; exact h.length, by rw [hS]; exact hLF,
    by rw [hU, hK]; exact h.keys, chain, hc.1, ?_, hc.2.2.1, ?_, ?_⟩
  · intro p
    exact TMap.Linked.linked_congr (fun i _ => by rw [hN]) (hc.2.1 p)
  · intro p i hi
    obtain ⟨k1, h1, h2⟩ := hc.2.2.2.1 p i hi
    exact ⟨k1, by rw [hK]; exact h1, by rw [hMP]; exact h2⟩
  · intro i k1 hi hki
    rw [hMP]
    rw [hU] at hi
    rw [hK] at hki
    exact hc.2.2.2.2 i k1 hi hki

theorem TMap.Sound.withFree {K V : Type} {traits : THashTraits K} {m : TMap K V}
    (h : m.Sound traits) (lf : Int) (hlf : lf ≤ m.Size) :
    TMap.Sound traits { m with LastFree := lf } :=
  h.sound_congr rfl rfl rfl rfl hlf

/-- `NewKey` when the main position of the key is free: the key starts a chain
there. -/
theorem TMap.Sound.free_case {K V : Type} {traits : THashTraits K} {m m1 : TMap K V} (k : K)
    (h : m.Sound traits) (hfree : m.usedB (m.MainPosition traits k) = false)
    (hS : m1.Size = m.Size) (hLen : m1.Nodes.length = m.Nodes.length)
    (hLF : m1.LastFree = m.LastFree)
    (hN : m1.nextAt = Function.update m.nextAt (m.MainPosition traits k) (some NodePtr.null))
    (hK : m1.keyAt = Function.update m.keyAt (m.MainPosition traits k) (some k)) :
    m1.Sound traits := by
  have hMP : ∀ k1, m1.MainPosition traits k1 = m.MainPosition traits k1 :=
    fun k1 => TMap.mainPosition_congr traits m m1 k1 hS
  generalize hpdef : m.MainPosition traits k = p at *
  have hU : ∀ j, m1.usedB j = if j = p then true else m.usedB j := by
    intro j
    rw [TMap.usedB_update m m1 p _ hN j]
    simp
  obtain ⟨j, hj, hsz⟩ := h.size
  obtain ⟨chain, hc⟩ := h.chains
  have hpchain : chain p = [] := by
    rcases hc.1 p with h0 | ⟨t, ht⟩
    · exact h0
    · have := hc.chain_used p p (by rw [ht]; exact List.mem_cons_self p t)
      rw [this] at hfree
      cases hfree
  refine ⟨⟨j, hj, by rw [hS]; exact hsz⟩, by rw [hLen, hS]; exact h.length,
    by rw [hLF, hS]; exact h.lastFree, ?_, ?_⟩
  · intro i hi
    rw [hU i] at hi
    rw [hK]
    by_cases hip : i = p
    · subst hip
      simp
    · rw [if_neg hip] at hi
      rw [Function.update_noteq hip]
      exact h.keys i hi
  · refine ⟨Function.update chain p [p], ?_, ?_, ?_, ?_, ?_⟩
    · intro q
      by_cases hq : q = p
      · subst hq
        right
        exact ⟨[], by simp⟩
      · rw [Function.update_noteq hq]
        exact hc.1 q
    · intro q
      by_cases hq : q = p
      · subst hq
        rw [Function.update_same]
        refine ⟨?_, trivial⟩
        rw [hN, Function.update_same]
        rfl
      · rw [Function.update_noteq hq]
        apply TMap.Linked.linked_congr _ (hc.2.1 q)
        intro i hi
        have hne : i ≠ p := by
          intro hip
          have := hc.chain_used q i hi
          rw [hip, hfree] at this
          cases this
        rw [hN, Function.update_noteq hne]
    · intro q
      by_cases hq : q = p
      · subst hq
        simp
      · rw [Function.update_noteq hq]
        exact hc.2.2.1 q
    · intro q i hi
      by_cases hq : q = p
      · subst hq
        rw [Function.update_same] at hi
        simp only [List.mem_singleton] at hi
        subst hi
        exact ⟨k, by rw [hK, Function.update_same], by rw [hMP, hpdef]⟩
      · rw [Function.update_noteq hq] at hi
        have hne : i ≠ p := by
          intro hip
          have := hc.chain_used q i hi
          rw [hip, hfree] at this
          cases this
        obtain ⟨k1, hk1, hk1p⟩ := hc.2.2.2.1 q i hi
        exact ⟨k1, by rw [hK, Function.update_noteq hne]; exact hk1, by rw [hMP]; exact hk1p⟩
    · intro i k1 hi hki
      rw [hU] at hi
      rw [hK] at hki
      rw [hMP]
      by_cases hip : i = p
      · subst hip
        rw [Function.update_same] at hki
        cases hki
        rw [hpdef, Function.update_same]
        exact List.mem_singleton_self i
      · rw [if_neg hip] at hi
        rw [Function.update_noteq hip] at hki
        have hmem := hc.2.2.2.2 i k1 hi hki
        have hq : m.MainPosition traits k1 ≠ p := by
          intro hq
          rw [hq, hpchain] at hmem
          cases hmem
        rw [Function.update_noteq hq]
        exact hmem

/-- `NewKey` when the colliding node is in its main position: the new node is
chained right after it. -/
theorem TMap.Sound.chain_case {K V : Type} {traits : THashTraits K} {m m1 : TMap K V} (k k0 : K)
    (n : Nat) (h : m.Sound traits) (hused : m.usedB (m.MainPosition traits k) = true)
    (hk0 : m.keyAt (m.MainPosition traits k) = some k0)
    (hhome : m.MainPosition traits k0 = m.MainPosition traits k)
    (hnfree : m.usedB n = false)
    (hS : m1.Size = m.Size) (hLen : m1.Nodes.length = m.Nodes.length)
    (hLF : m1.LastFree ≤ m.Size)
    (hN : m1.nextAt = Function.update (Function.update m.nextAt n
      (m.nextAt (m.MainPosition traits k))) (m.MainPosition traits k) (some (NodePtr.node n)))
    (hK : m1.keyAt = Function.update m.keyAt n (some k)) :
    m1.Sound traits := by
  have hMP : ∀ k1, m1.MainPosition traits k1 = m.MainPosition traits k1 :=
    fun k1 => TMap.mainPosition_congr traits m m1 k1 hS
  generalize hpdef : m.MainPosition traits k = p at *
  have hnp : n ≠ p := by
    intro hnp
    rw [hnp, hused] at hnfree
    cases hnfree
  have hU : ∀ j, m1.usedB j = if j = n then true else m.usedB j := by
    intro j
    unfold TMap.usedB
    rw [hN]
    by_cases hjp : j = p
    · subst hjp
      rw [Function.update_same, if_neg (Ne.symm hnp)]
      unfold TMap.usedB at hused
      rw [hused]
      simp
    · rw [Function.update_noteq hjp]
      by_cases hjn : j = n
      · subst hjn
        rw [Function.update_same, if_pos rfl]
        exact hused
      · rw [Function.update_noteq hjn, if_neg hjn]
  obtain ⟨j, hj, hsz⟩ := h.size
  obtain ⟨chain, hc⟩ := h.chains
  have hpmem : p ∈ chain p := by
    have := hc.2.2.2.2 p k0 hused hk0
    rw [hhome] at this
    exact this
  obtain ⟨t, ht⟩ : ∃ t, chain p = p :: t := by
    rcases hc.1 p with h0 | h1
    · rw [h0] at hpmem
      cases hpmem
    · exact h1
  have hlinkp : m.Linked (p :: t) := by rw [← ht]; exact hc.2.1 p
  have hnodp : (p :: t).Nodup := by rw [← ht]; exact hc.2.2.1 p
  have hnotn : ∀ q i, i ∈ chain q → i ≠ n := by
    intro q i hi hin
    have := hc.chain_used q i hi
    rw [hin, hnfree] at this
    cases this
  refine ⟨⟨j, hj, by rw [hS]; exact hsz⟩, by rw [hLen, hS]; exact h.length,
    by rw [hS]; exact hLF, ?_, ?_⟩
  · intro i hi
    rw [hU i] at hi
    rw [hK]
    by_cases hin : i = n
    · subst hin
      simp
    · rw [if_neg hin] at hi
      rw [Function.update_noteq hin]
      exact h.keys i hi
  · refine ⟨Function.update chain p (p :: n :: t), ?_, ?_, ?_, ?_, ?_⟩
    · intro q
      by_cases hq : q = p
      · subst hq
        right
        exact ⟨n :: t, by simp⟩
      · rw [Function.update_noteq hq]
        exact hc.1 q
    · intro q
      by_cases hq : q = p
      · subst hq
        rw [Function.update_same]
        refine ⟨?_, ?_, ?_⟩
        · rw [hN, Function.update_same]
          rfl
        · rw [hN, Function.update_noteq hnp, Function.update_same]
          exact hlinkp.1
        · apply TMap.Linked.linked_congr _ hlinkp.2
          intro i hi
          have hip : i ≠ q := by
            intro hip
            subst hip
            exact (List.nodup_cons.mp hnodp).1 hi
          have hin : i ≠ n := hnotn q i (by rw [ht]; exact List.mem_cons_of_mem q hi)
          rw [hN, Function.update_noteq hip, Function.update_noteq hin]
      · rw [Function.update_noteq hq]
        apply TMap.Linked.linked_congr _ (hc.2.1 q)
        intro i hi
        have hip : i ≠ p := by
          intro hip
          subst hip
          exact hq (hc.unique q i i hi hpmem)
        rw [hN, Function.update_noteq hip, Function.update_noteq (hnotn q i hi)]
    · intro q
      by_cases hq : q = p
      · subst hq
        rw [Function.update_same]
        have hnt : n ∉ q :: t := by
          intro hmem
          exact hnotn q n (by rw [ht]; exact hmem) rfl
        rw [List.nodup_cons] at hnodp ⊢
        refine ⟨?_, List.nodup_cons.mpr ⟨fun hm => hnt (List.mem_cons_of_mem q hm), hnodp.2⟩⟩
        intro hm
        rcases List.mem_cons.mp hm with hm | hm
        · exact hnp hm.symm
        · exact hnodp.1 hm
      · rw [Function.update_noteq hq]
        exact hc.2.2.1 q
    · intro q i hi
      by_cases hq : q = p
      · subst hq
        rw [Function.update_same] at hi
        by_cases hin : i = n
        · subst hin
          exact ⟨k, by rw [hK, Function.update_same], by rw [hMP, hpdef]⟩
        · have hi' : i ∈ chain q := by
            rw [ht]
            rcases List.mem_cons.mp hi with hi | hi
            · rw [hi]; exact List.mem_cons_self q t
            · rcases List.mem_cons.mp hi with hi | hi
              · exact absurd hi hin
              · exact List.mem_cons_of_mem q hi
          obtain ⟨k1, hk1, hk1p⟩ := hc.2.2.2.1 q i hi'
          exact ⟨k1, by rw [hK, Function.update_noteq hin]; exact hk1, by rw [hMP]; exact hk1p⟩
      · rw [Function.update_noteq hq] at hi
        obtain ⟨k1, hk1, hk1p⟩ := hc.2.2.2.1 q i hi
        exact ⟨k1, by rw [hK, Function.update_noteq (hnotn q i hi)]; exact hk1,
          by rw [hMP]; exact hk1p⟩
    · intro i k1 hi hki
      rw [hU] at hi
      rw [hK] at hki
      rw [hMP]
      by_cases hin : i = n
      · subst hin
        rw [Function.update_same] at hki
        cases hki
        rw [hpdef, Function.update_same]
        exact List.mem_cons_of_mem p (List.mem_cons_self i t)
      · rw [if_neg hin] at hi
        rw [Function.update_noteq hin] at hki
        have hmem := hc.2.2.2.2 i k1 hi hki
        by_cases hq : m.MainPosition traits k1 = p
        · rw [hq, Function.update_same]
          rw [hq, ht] at hmem
          rcases List.mem_cons.mp hmem with hm | hm
          · rw [hm]; exact List.mem_cons_self p _
          · exact List.mem_cons_of_mem p (List.mem_cons_of_mem n hm)
        · rw [Function.update_noteq hq]
          exact hmem

/-- `NewKey` when the colliding node is out of its main position: it moves to the
free node and the key starts a chain at its main position. -/
theorem TMap.Sound.move_case {K V : Type} {traits : THashTraits K} {m m1 : TMap K V} (k k0 : K)
    (n prev : Nat) (h : m.Sound traits) (hused : m.usedB (m.MainPosition traits k) = true)
    (hk0 : m.keyAt (m.MainPosition traits k) = some k0)
    (haway : m.MainPosition traits k0 ≠ m.MainPosition traits k)
    (hnfree : m.usedB n = false)
    (hprev : m.nextAt prev = some (NodePtr.node (m.MainPosition traits k)))
    (hS : m1.Size = m.Size) (hLen : m1.Nodes.length = m.Nodes.length)
    (hLF : m1.LastFree ≤ m.Size)
    (hN : m1.nextAt = Function.update (Function.update (Function.update m.nextAt prev
      (some (NodePtr.node n))) n (m.nextAt (m.MainPosition traits k)))
      (m.MainPosition traits k) (some NodePtr.null))
    (hK : m1.keyAt = Function.update (Function.update m.keyAt n (some k0))
      (m.MainPosition traits k) (some k)) :
    m1.Sound traits := by
  have hMP : ∀ k1, m1.MainPosition traits k1 = m.MainPosition traits k1 :=
    fun k1 => TMap.mainPosition_congr traits m m1 k1 hS
  generalize hpdef : m.MainPosition traits k = p at *
  generalize hqdef : m.MainPosition traits k0 = q at *
  have hnp : n ≠ p := by
    intro hnp
    rw [hnp, hused] at hnfree
    cases hnfree
  have hprevused : m.usedB prev = true := (m.usedB_iff prev).mpr ⟨_, hprev, by simp⟩
  have hnprev : n ≠ prev := by
    intro hnp
    rw [hnp, hprevused] at hnfree
    cases hnfree
  obtain ⟨chain, hc⟩ := h.chains
  have hpq : p ∈ chain q := by
    have := hc.2.2.2.2 p k0 hused hk0
    rw [hqdef] at this
    exact this
  -- the chain of `q` around `prev` and `p`
  obtain ⟨l, suf, hsplit⟩ : ∃ l suf, chain q = l ++ prev :: p :: suf := by
    obtain ⟨kp, hkp⟩ := h.keys prev hprevused
    have hmem := hc.2.2.2.2 prev kp hprevused hkp
    obtain ⟨l, rest, hsp⟩ := List.append_of_mem hmem
    have hlink := hc.2.1 (m.MainPosition traits kp)
    rw [hsp] at hlink
    have hnx := hlink.of_append.1
    rw [hprev] at hnx
    cases rest with
    | nil => simp [headPtr] at hnx
    | cons b suf =>
      simp only [headPtr, Option.some.injEq, NodePtr.node.injEq] at hnx
      subst hnx
      have hpr : p ∈ chain (m.MainPosition traits kp) := by
        rw [hsp]
        simp
      have := hc.unique _ _ _ hpr hpq
      rw [this] at hsp
      exact ⟨l, suf, hsp⟩
  have hlinkq : m.Linked (l ++ prev :: p :: suf) := by rw [← hsplit]; exact hc.2.1 q
  have hnodq : (l ++ prev :: p :: suf).Nodup := by rw [← hsplit]; exact hc.2.2.1 q
  have hprevp : prev ≠ p := by
    intro hpp
    have := (List.nodup_append.mp hnodq).2.1
    rw [hpp] at this
    simp at this
  have hpchain : chain p = [] := by
    rcases hc.1 p with h0 | ⟨t, ht⟩
    · exact h0
    · exfalso
      obtain ⟨k1, hk1, hk1p⟩ := hc.2.2.2.1 p p (by rw [ht]; exact List.mem_cons_self p t)
      rw [hk0] at hk1
      cases hk1
      rw [hqdef] at hk1p
      exact haway hk1p
  have hnotn : ∀ r i, i ∈ chain r → i ≠ n := by
    intro r i hi hin
    have := hc.chain_used r i hi
    rw [hin, hnfree] at this
    cases this
  have hpnext : ∃ x, m.nextAt p = some x ∧ x ≠ NodePtr.one := (m.usedB_iff p).mp hused
  have hU : ∀ j, m1.usedB j = if j = n then true else m.usedB j := by
    intro j
    unfold TMap.usedB
    rw [hN]
    by_cases hjp : j = p
    · subst hjp
      rw [Function.update_same, if_neg (Ne.symm hnp)]
      unfold TMap.usedB at hused
      rw [hused]
      simp
    · rw [Function.update_noteq hjp]
      by_cases hjn : j = n
      · subst hjn
        rw [Function.update_same, if_pos rfl]
        exact hused
      · rw [Function.update_noteq hjn, if_neg hjn]
        by_cases hjprev : j = prev
        · subst hjprev
          rw [Function.update_same]
          unfold TMap.usedB at hprevused
          rw [hprevused]
          simp
        · rw [Function.update_noteq hjprev]
  obtain ⟨j, hj, hsz⟩ := h.size
  have hKn : m1.keyAt n = some k0 := by
    rw [hK, Function.update_noteq hnp, Function.update_same]
  have hKp : m1.keyAt p = some k := by rw [hK, Function.update_same]
  have hKo : ∀ i, i ≠ n → i ≠ p → m1.keyAt i = m.keyAt i := by
    intro i hin hip
    rw [hK, Function.update_noteq hip, Function.update_noteq hin]
  refine ⟨⟨j, hj, by rw [hS]; exact hsz⟩, by rw [hLen, hS]; exact h.length,
    by rw [hS]; exact hLF, ?_, ?_⟩
  · intro i hi
    rw [hU i] at hi
    by_cases hin : i = n
    · exact ⟨k0, by rw [hin]; exact hKn⟩
    · by_cases hip : i = p
      · exact ⟨k, by rw [hip]; exact hKp⟩
      · rw [if_neg hin] at hi
        rw [hKo i hin hip]
        exact h.keys i hi
  · -- the chains
    have hqp : q ≠ p := haway
    have hmemnew : ∀ i, i ∈ l ++ prev :: n :: suf ↔ i = n ∨ (i ∈ chain q ∧ i ≠ p) := by
      intro i
      rw [hsplit]
      have hpl : p ∉ l := by
        intro hpl
        rw [List.nodup_append] at hnodq
        exact hnodq.2.2 hpl (by simp)
      have hps : p ∉ suf := by
        intro hps
        have := (List.nodup_append.mp hnodq).2.1
        simp only [List.nodup_cons, List.mem_cons] at this
        exact this.2.1 hps
      simp only [List.mem_append, List.mem_cons]
      constructor
      · rintro (h1 | h1 | h1 | h1)
        · exact Or.inr ⟨Or.inl h1, fun hip => hpl (hip ▸ h1)⟩
        · exact Or.inr ⟨Or.inr (Or.inl h1), fun hip => hprevp (h1 ▸ hip)⟩
        · exact Or.inl h1
        · exact Or.inr ⟨Or.inr (Or.inr (Or.inr h1)), fun hip => hps (hip ▸ h1)⟩
      · rintro (h1 | ⟨h1 | h1 | h1 | h1, h2⟩)
        · exact Or.inr (Or.inr (Or.inl h1))
        · exact Or.inl h1
        · exact Or.inr (Or.inl h1)
        · exact absurd h1 h2
        · exact Or.inr (Or.inr (Or.inr h1))
    refine ⟨Function.update (Function.update chain q (l ++ prev :: n :: suf)) p [p],
      ?_, ?_, ?_, ?_, ?_⟩
    · intro r
      by_cases hr : r = p
      · subst hr
        right
        exact ⟨[], by simp⟩
      · rw [Function.update_noteq hr]
        by_cases hrq : r = q
        · subst hrq
          rw [Function.update_same]
          right
          rcases hc.1 r with h0 | ⟨t, ht⟩
          · rw [h0] at hpq
            cases hpq
          · rw [hsplit] at ht
            cases l with
            | nil =>
              simp only [List.nil_append, List.cons.injEq] at ht
              exact ⟨n :: suf, by simp [ht.1]⟩
            | cons a l1 =>
              simp only [List.cons_append, List.cons.injEq] at ht
              exact ⟨l1 ++ prev :: n :: suf, by simp [ht.1]⟩
        · rw [Function.update_noteq hrq]
          exact hc.1 r
    · intro r
      by_cases hr : r = p
      · subst hr
        rw [Function.update_same]
        refine ⟨?_, trivial⟩
        rw [hN, Function.update_same]
        rfl
      · rw [Function.update_noteq hr]
        by_cases hrq : r = q
        · subst hrq
          rw [Function.update_same]
          have hsufsame : ∀ i ∈ suf, m1.nextAt i = m.nextAt i := by
            intro i hi
            have hiq : i ∈ chain r := by rw [hsplit]; simp [hi]
            have hip : i ≠ p := by
              intro hip
              subst hip
              have := (List.nodup_append.mp hnodq).2.1
              simp only [List.nodup_cons, List.mem_cons] at this
              exact this.2.1 hi
            have hiprev : i ≠ prev := by
              intro hip
              subst hip
              have := (List.nodup_append.mp hnodq).2.1
              simp only [List.nodup_cons, List.mem_cons] at this
              exact this.1 (Or.inr hi)
            rw [hN, Function.update_noteq hip, Function.update_noteq (hnotn r i hiq),
              Function.update_noteq hiprev]
          have hlsame : ∀ i ∈ l, m1.nextAt i = m.nextAt i := by
            intro i hi
            have hiq : i ∈ chain r := by rw [hsplit]; simp [hi]
            have hdis := (List.nodup_append.mp hnodq).2.2
            have hip : i ≠ p := fun hip => hdis hi (by simp [hip])
            have hiprev : i ≠ prev := fun hip => hdis hi (by simp [hip])
            rw [hN, Function.update_noteq hip, Function.update_noteq (hnotn r i hiq),
              Function.update_noteq hiprev]
          have hps : m.Linked (p :: suf) := by
            have := hlinkq.of_append
            exact this.2
          refine @TMap.Linked.replace_tail _ _ _ _ _ _ (prev :: n :: suf) hlsame hlinkq ?_ rfl
          refine ⟨?_, ?_, ?_⟩
          · rw [hN, Function.update_noteq hprevp, Function.update_noteq (Ne.symm hnprev),
              Function.update_same]
            rfl
          · rw [hN, Function.update_noteq hnp, Function.update_same]
            exact hps.1
          · exact TMap.Linked.linked_congr hsufsame hps.2
        · rw [Function.update_noteq hrq]
          apply TMap.Linked.linked_congr _ (hc.2.1 r)
          intro i hi
          have hip : i ≠ p := by
            intro hip
            subst hip
            exact hrq (hc.unique r q i hi hpq)
          have hiprev : i ≠ prev := by
            intro hip
            subst hip
            exact hrq (hc.unique r q i hi (by rw [hsplit]; simp))
          rw [hN, Function.update_noteq hip, Function.update_noteq (hnotn r i hi),
            Function.update_noteq hiprev]
    · intro r
      by_cases hr : r = p
      · subst hr
        simp
      · rw [Function.update_noteq hr]
        by_cases hrq : r = q
        · subst hrq
          rw [Function.update_same]
          have hnq : n ∉ l ++ prev :: p :: suf := by
            intro hmem
            exact hnotn r n (by rw [hsplit]; exact hmem) rfl
          simp only [List.nodup_append, List.nodup_cons, List.mem_cons, List.mem_append,
            not_or, List.Disjoint] at hnodq hnq ⊢
          obtain ⟨hl, ⟨hprevn, hpn, hsufn⟩, hdis⟩ := hnodq
          refine ⟨hl, ⟨⟨fun hh => hnq.2.1 hh.symm, hprevn.2⟩, hnq.2.2.2, hsufn⟩, ?_⟩
          intro a ha hb
          rcases hb with hb | hb | hb
          · exact hdis ha (Or.inl hb)
          · exact hnq.1 (hb ▸ ha)
          · exact hdis ha (Or.inr (Or.inr hb))
        · rw [Function.update_noteq hrq]
          exact hc.2.2.1 r
    · intro r i hi
      by_cases hr : r = p
      · subst hr
        rw [Function.update_same] at hi
        simp only [List.mem_singleton] at hi
        subst hi
        exact ⟨k, hKp, by rw [hMP, hpdef]⟩
      · rw [Function.update_noteq hr] at hi
        by_cases hrq : r = q
        · subst hrq
          rw [Function.update_same] at hi
          rcases (hmemnew i).mp hi with hin | ⟨hiq, hip⟩
          · subst hin
            exact ⟨k0, hKn, by rw [hMP, hqdef]⟩
          · obtain ⟨k1, hk1, hk1p⟩ := hc.2.2.2.1 r i hiq
            exact ⟨k1, by rw [hKo i (hnotn r i hiq) hip]; exact hk1, by rw [hMP]; exact hk1p⟩
        · rw [Function.update_noteq hrq] at hi
          have hip : i ≠ p := by
            intro hip
            subst hip
            exact hrq (hc.unique r q i hi hpq)
          obtain ⟨k1, hk1, hk1p⟩ := hc.2.2.2.1 r i hi
          exact ⟨k1, by rw [hKo i (hnotn r i hi) hip]; exact hk1, by rw [hMP]; exact hk1p⟩
    · intro i k1 hi hki
      rw [hMP]
      by_cases hin : i = n
      · subst hin
        rw [hKn] at hki
        cases hki
        rw [hqdef, Function.update_noteq hqp, Function.update_same]
        exact (hmemnew i).mpr (Or.inl rfl)
      · by_cases hip : i = p
        · subst hip
          rw [hKp] at hki
          cases hki
          rw [hpdef, Function.update_same]
          exact List.mem_singleton_self i
        · rw [hU, if_neg hin] at hi
          rw [hKo i hin hip] at hki
          have hmem := hc.2.2.2.2 i k1 hi hki
          have hr : m.MainPosition traits k1 ≠ p := by
            intro hr
            rw [hr, hpchain] at hmem
            cases hmem
          rw [Function.update_noteq hr]
          by_cases hrq : m.MainPosition traits k1 = q
          · rw [hrq, Function.update_same]
            rw [hrq] at hmem
            exact (hmemnew i).mpr (Or.inr ⟨hmem, hip⟩)
          · rw [Function.update_noteq hrq]
            exact hmem

theorem TMap.Sound.position_lt {K V : Type} {traits : THashTraits K} {m : TMap K V}
    (h : m.Sound traits) (k : K) : m.MainPosition traits k < m.Size := by
  obtain ⟨j, hj, hs⟩ := h.size
  rw [TMap.mainPosition_eq_mod traits m k j hj hs, hs]
  exact Nat.mod_lt _ (Nat.pow_pos (by norm_num))

/-- No node of a well-formed table points to itself. -/
theorem TMap.Sound.next_not_self {K V : Type} {traits : THashTraits K} {m : TMap K V}
    (h : m.Sound traits) (i : Nat) : m.nextAt i ≠ some (NodePtr.node i) := by
  intro hnx
  have hused : m.usedB i = true := (m.usedB_iff i).mpr ⟨_, hnx, by simp⟩
  obtain ⟨k, hk⟩ := h.keys i hused
  obtain ⟨chain, hc⟩ := h.chains
  have hmem := hc.2.2.2.2 i k hused hk
  obtain ⟨l, rest, hsp⟩ := List.append_of_mem hmem
  have hlink := hc.2.1 (m.MainPosition traits k)
  have hnod := hc.2.2.1 (m.MainPosition traits k)
  rw [hsp] at hlink hnod
  have h1 := hlink.of_append.1
  rw [hnx] at h1
  cases rest with
  | nil => simp [headPtr] at h1
  | cons b t =>
    simp only [headPtr, Option.some.injEq, NodePtr.node.injEq] at h1
    subst h1
    have := (List.nodup_append.mp hnod).2.1
    simp at this

/-- In a well-formed table the node before a node that is out of its main
position is found. -/
theorem TMap.Sound.previous_found {K V : Type} {traits : THashTraits K} {m : TMap K V}
    (h : m.Sound traits) (p : Nat) (k0 : K) (hused : m.usedB p = true)
    (hk0 : m.keyAt p = some k0) (haway : m.MainPosition traits k0 ≠ p) :
    ∃ prev, ZDRay.findPrevious m p (m.Size + 1) (m.MainPosition traits k0) = .ok prev ∧
      m.nextAt prev = some (NodePtr.node p) := by
  obtain ⟨chain, hc⟩ := h.chains
  have hmem := hc.2.2.2.2 p k0 hused hk0
  obtain ⟨pre, suf, hsplit⟩ := List.append_of_mem hmem
  have hnod := hc.2.2.1 (m.MainPosition traits k0)
  have hlink := hc.2.1 (m.MainPosition traits k0)
  have hlen := hc.length_le (m.MainPosition traits k0)
  rw [hsplit] at hnod hlink hlen
  rcases hc.1 (m.MainPosition traits k0) with h0 | ⟨t, ht⟩
  · rw [h0] at hmem
    cases hmem
  · rw [hsplit] at ht
    -- `pre` is not empty and ends in the node before `p`
    rcases List.eq_nil_or_concat pre with hpre | ⟨l, a, hpre⟩
    · subst hpre
      simp only [List.nil_append, List.cons.injEq] at ht
      exact absurd ht.1.symm haway
    · rw [List.concat_eq_append] at hpre
      subst hpre
      have hpl : p ∉ l ++ [a] := by
        intro hm
        exact (List.nodup_append.mp hnod).2.2 hm (List.mem_cons_self p suf)
      have hlink2 : m.Linked (l ++ a :: p :: suf) := by
        simpa using hlink
      have hhead : (l ++ [a]).headD 0 = m.MainPosition traits k0 := by
        cases l with
        | nil =>
          simp only [List.nil_append, List.cons_append, List.cons.injEq] at ht
          simp [ht.1]
        | cons b l2 =>
          simp only [List.cons_append, List.cons.injEq] at ht
          simp [ht.1]
      refine ⟨a, ?_, hlink2.pred⟩
      rw [← hhead]
      apply findPrevious_linked m p a suf l (m.Size + 1) hlink2
      · exact fun hm => hpl (List.mem_append_left _ hm)
      · exact fun hh => hpl (by rw [hh]; simp)
      · rw [h.length] at hlen
        simp at hlen
        omega

theorem TMap.Sound.position_eq {K V : Type} {traits : THashTraits K} {m : TMap K V}
    (h : m.Sound traits) (hcons : traits.Consistent) (a b : K)
    (hc : traits.Compare a b = false) :
    m.MainPosition traits a = m.MainPosition traits b := by
  obtain ⟨j, hj, hs⟩ := h.size
  rw [TMap.mainPosition_eq_mod traits m a j hj hs, TMap.mainPosition_eq_mod traits m b j hj hs]
  have hab := hcons a b hc
  have hd32 : 2 ^ j ∣ 2 ^ 32 := pow_dvd_pow 2 (by omega)
  have hd31 : 2 ^ j ∣ 2 ^ 31 := pow_dvd_pow 2 hj
  rw [Nat.mod_mod_of_dvd _ hd32, Nat.mod_mod_of_dvd _ hd32,
    ← Nat.mod_mod_of_dvd (traits.Hash a) hd31, ← Nat.mod_mod_of_dvd (traits.Hash b) hd31, hab]

/-- The run of `NewKey` when the main position of the key is free. -/
theorem TMap.Sound.free_run {K V : Type} {traits : THashTraits K} {m : TMap K V}
    (h : m.Sound traits) (k : K)
    (nd : TMap.Node K V) (hnd : m.nodeAt (m.MainPosition traits k) = .ok nd)
    (hnil : nd.IsNil = true) :
    ∃ m1, (m.setNode (m.MainPosition traits k) { nd with Next := NodePtr.null }).finishKey
        (m.MainPosition traits k) k = .ok (m1, m.MainPosition traits k) ∧
      m1.Sound traits ∧ m1.Size = m.Size := by
  have hp := m.nodeAt_lt _ nd hnd
  have hfree : m.usedB (m.MainPosition traits k) = false := by
    rw [m.usedB_of_nodeAt _ nd hnd, hnil]
    rfl
  obtain ⟨s1, s2, s3⟩ := m.setNext_spec _ nd NodePtr.null hnd
  obtain ⟨m1, hrun, f1, f2, f3, f4, f5, f6, f7⟩ :=
    (m.setNode (m.MainPosition traits k) { nd with Next := NodePtr.null }).finishKey_ok
      (m.MainPosition traits k) k (by simpa using hp)
  rw [s1] at f5
  rw [s2] at f6
  rw [s3] at f7
  have f3' : m1.Nodes.length = m.Nodes.length := by rw [f3]; simp
  have hwf := h.free_case k hfree f1 f3' (by rw [f2]; rfl) f5 f6
  exact ⟨m1, hrun, hwf, f1⟩

/-- The run of `NewKey` when the colliding node is in its main position. -/
theorem TMap.Sound.chain_run {K V : Type} {traits : THashTraits K} {m : TMap K V}
    (h : m.Sound traits) (k k0 : K)
    (mpNode free : TMap.Node K V) (n : Nat)
    (hnd : m.nodeAt (m.MainPosition traits k) = .ok mpNode) (hnil : mpNode.IsNil = false)
    (hkey : mpNode.Key = some k0)
    (hhome : m.MainPosition traits k0 = m.MainPosition traits k)
    (hfree : m.nodeAt n = .ok free) (hnfree : m.usedB n = false) :
    ∃ m1, ((m.setNode n { free with Next := mpNode.Next }).setNode (m.MainPosition traits k)
        { mpNode with Next := NodePtr.node n }).finishKey n k = .ok (m1, n) ∧
      m1.Sound traits ∧ m1.Size = m.Size := by
  generalize hpdef : m.MainPosition traits k = p at *
  have hp := m.nodeAt_lt _ mpNode hnd
  have hn := m.nodeAt_lt _ free hfree
  have hused : m.usedB p = true := by
    rw [m.usedB_of_nodeAt _ mpNode hnd, hnil]
    rfl
  have hnp : n ≠ p := by
    intro hh
    rw [hh, hused] at hnfree
    cases hnfree
  have hk0 : m.keyAt p = some k0 := by rw [m.keyAt_of_nodeAt p mpNode hnd]; exact hkey
  obtain ⟨m1, hrun, f1, f2, f3, f4, f5, f6, f7⟩ :=
    ((m.setNode n { free with Next := mpNode.Next }).setNode p
      { mpNode with Next := NodePtr.node n }).finishKey_ok n k (by simpa using hn)
  have hN : m1.nextAt = Function.update (Function.update m.nextAt n (m.nextAt p)) p
      (some (NodePtr.node n)) := by
    rw [f5, TMap.nextAt_setNode _ p _ (by simpa using hp), TMap.nextAt_setNode m n _ hn,
      m.nextAt_of_nodeAt p mpNode hnd]
  have hK : m1.keyAt = Function.update m.keyAt n (some k) := by
    rw [f6, TMap.keyAt_setNode _ p _ (by simpa using hp), TMap.keyAt_setNode m n _ hn]
    funext j
    by_cases hjn : j = n
    · rw [hjn, Function.update_same, Function.update_same]
    · by_cases hjp : j = p
      · subst hjp
        simp [Function.update_apply, hjn, hk0, hkey]
      · simp [Function.update_apply, hjn, hjp]
  have f3' : m1.Nodes.length = m.Nodes.length := by rw [f3]; simp
  have hwf := h.chain_case k k0 n (by rw [hpdef]; exact hused) (by rw [hpdef]; exact hk0)
    (by rw [hpdef]; exact hhome) hnfree f1 f3'
    (by rw [f2]; exact h.lastFree) (by rw [hpdef]; exact hN) hK
  exact ⟨m1, hrun, hwf, f1⟩

/-- The run of `NewKey` when the colliding node is out of its main position. -/
theorem TMap.Sound.move_run {K V : Type} {traits : THashTraits K} {m : TMap K V}
    (h : m.Sound traits) (k k0 : K)
    (mpNode prevNode : TMap.Node K V) (n prev : Nat)
    (hnd : m.nodeAt (m.MainPosition traits k) = .ok mpNode) (hnil : mpNode.IsNil = false)
    (hkey : mpNode.Key = some k0)
    (haway : m.MainPosition traits k0 ≠ m.MainPosition traits k)
    (hn : n < m.Nodes.length) (hnfree : m.usedB n = false)
    (hprev : m.nodeAt prev = .ok prevNode)
    (hprevnx : prevNode.Next = NodePtr.node (m.MainPosition traits k)) :
    (m.setNode prev { prevNode with Next := NodePtr.node n }).nodeAt (m.MainPosition traits k)
      = .ok mpNode ∧
    ∃ m1, (((m.setNode prev { prevNode with Next := NodePtr.node n }).setNode n mpNode).setNode
        (m.MainPosition traits k) { mpNode with Next := NodePtr.null }).finishKey
        (m.MainPosition traits k) k = .ok (m1, m.MainPosition traits k) ∧
      m1.Sound traits ∧ m1.Size = m.Size := by
  generalize hpdef : m.MainPosition traits k = p at *
  have hp := m.nodeAt_lt _ mpNode hnd
  have hprevlt := m.nodeAt_lt _ prevNode hprev
  have hused : m.usedB p = true := by
    rw [m.usedB_of_nodeAt _ mpNode hnd, hnil]
    rfl
  have hnp : n ≠ p := by
    intro hh
    rw [hh, hused] at hnfree
    cases hnfree
  have hprevN : m.nextAt prev = some (NodePtr.node p) := by
    rw [m.nextAt_of_nodeAt prev prevNode hprev, hprevnx]
  have hprevused : m.usedB prev = true := (m.usedB_iff prev).mpr ⟨_, hprevN, by simp⟩
  have hprevp : prev ≠ p := by
    intro hh
    rw [hh] at hprevN
    exact h.next_not_self p hprevN
  have hnprev : n ≠ prev := by
    intro hh
    rw [hh, hprevused] at hnfree
    cases hnfree
  have hk0 : m.keyAt p = some k0 := by rw [m.keyAt_of_nodeAt p mpNode hnd]; exact hkey
  have hmoved : (m.setNode prev { prevNode with Next := NodePtr.node n }).nodeAt p
      = .ok mpNode := by
    rw [TMap.nodeAt_setNode_ne m prev p _ hprevp]
    exact hnd
  refine ⟨hmoved, ?_⟩
  obtain ⟨s1, s2, s3⟩ := m.setNext_spec prev prevNode (NodePtr.node n) hprev
  obtain ⟨m1, hrun, f1, f2, f3, f4, f5, f6, f7⟩ :=
    (((m.setNode prev { prevNode with Next := NodePtr.node n }).setNode n mpNode).setNode p
      { mpNode with Next := NodePtr.null }).finishKey_ok p k (by simpa using hp)
  have hN : m1.nextAt = Function.update (Function.update (Function.update m.nextAt prev
      (some (NodePtr.node n))) n (m.nextAt p)) p (some NodePtr.null) := by
    rw [f5, TMap.nextAt_setNode _ p _ (by simpa using hp),
      TMap.nextAt_setNode _ n _ (by simpa using hn), s1, m.nextAt_of_nodeAt p mpNode hnd]
  have hK : m1.keyAt = Function.update (Function.update m.keyAt n (some k0)) p (some k) := by
    rw [f6, TMap.keyAt_setNode _ p _ (by simpa using hp),
      TMap.keyAt_setNode _ n _ (by simpa using hn), s2, hkey]
    simp
  have f3' : m1.Nodes.length = m.Nodes.length := by rw [f3]; simp
  have hwf := h.move_case k k0 n prev (by rw [hpdef]; exact hused) (by rw [hpdef]; exact hk0)
    (by rw [hpdef]; exact haway) hnfree (by rw [hpdef]; exact hprevN) f1 f3'
    (by rw [f2]; exact h.lastFree) (by rw [hpdef]; exact hN) (by rw [hpdef]; exact hK)
  exact ⟨m1, hrun, hwf, f1⟩

/-- Freeing a node in use keeps the invariant, given the chains of the new table. -/
theorem TMap.Sound.node_freed {K V : Type} {traits : THashTraits K} {m m1 : TMap K V} (i : Nat)
    (h : m.Sound traits)
    (hU : ∀ j, m1.usedB j = if j = i then false else m.usedB j)
    (hK : ∀ j, j ≠ i → m1.keyAt j = m.keyAt j)
    (hS : m1.Size = m.Size) (hLen : m1.Nodes.length = m.Nodes.length)
    (hLF : m1.LastFree ≤ m.Size)
    (hch : ∃ chain, m1.Chains traits chain) : m1.Sound traits := by
  refine ⟨by rw [hS]; exact h.size, by rw [hLen, hS]; exact h.length, by rw [hS]; exact hLF,
    ?_, hch⟩
  · intro j hj
    rw [hU j] at hj
    by_cases hji : j = i
    · rw [if_pos hji] at hj
      cases hj
    · rw [if_neg hji] at hj
      rw [hK j hji]
      exact h.keys j hj

/-- Replacing the key of a node in use by a key of the same main position that no
other node holds keeps the invariant. -/
theorem TMap.Sound.rekeyed {K V : Type} {traits : THashTraits K} {m m1 : TMap K V} (p : Nat)
    (k0 kn : K) (h : m.Sound traits) (hused : m.usedB p = true) (hk0 : m.keyAt p = some k0)
    (hmp : m.MainPosition traits kn = m.MainPosition traits k0)
    (hN : m1.nextAt = m.nextAt) (hK : m1.keyAt = Function.update m.keyAt p (some kn))
    (hS : m1.Size = m.Size) (hLen : m1.Nodes.length = m.Nodes.length)
    (hLF : m1.LastFree ≤ m.Size) : m1.Sound traits := by
  have hU := TMap.usedB_congr m m1 hN
  have hMP : ∀ k1, m1.MainPosition traits k1 = m.MainPosition traits k1 :=
    fun k1 => TMap.mainPosition_congr traits m m1 k1 hS
  obtain ⟨chain, hc⟩ := h.chains
  refine ⟨by rw [hS]; exact h.size, by rw [hLen, hS]; exact h.length, by rw [hS]; exact hLF,
    ?_, chain, hc.1, ?_, hc.2.2.1, ?_, ?_⟩
  · intro j hj
    rw [hU] at hj
    rw [hK]
    by_cases hjp : j = p
    · subst hjp
      simp
    · rw [Function.update_noteq hjp]
      exact h.keys j hj
  · intro q
    exact TMap.Linked.linked_congr (fun i _ => by rw [hN]) (hc.2.1 q)
  · intro q i hi
    obtain ⟨k1, h1, h2⟩ := hc.2.2.2.1 q i hi
    by_cases hip : i = p
    · subst hip
      rw [hk0] at h1
      cases h1
      exact ⟨kn, by rw [hK, Function.update_same], by rw [hMP, hmp]; exact h2⟩
    · exact ⟨k1, by rw [hK, Function.update_noteq hip]; exact h1, by rw [hMP]; exact h2⟩
  · intro i k1 hi hki
    rw [hU] at hi
    rw [hK] at hki
    rw [hMP]
    by_cases hip : i = p
    · subst hip
      rw [Function.update_same] at hki
      cases hki
      rw [hmp]
      exact hc.2.2.2.2 i k0 hi hk0
    · rw [Function.update_noteq hip] at hki
      exact hc.2.2.2.2 i k1 hi hki

/-- Whatever `DelKey` returns on a well-formed table is well formed. -/
theorem TMap.Sound.delKey_sound {K V : Type} {traits : THashTraits K} {m m1 : TMap K V}
    (h : m.Sound traits) (hcons : traits.Consistent) (k : K)
    (hrun : m.DelKey traits k = .ok m1) : m1.Sound traits := by
  have hp := h.position_lt k
  have hsame2 : ∀ a, traits.Compare a k = false →
      m.MainPosition traits a = m.MainPosition traits k :=
    fun a ha => h.position_eq hcons a k ha
  obtain ⟨mpNode, hnd, _⟩ := m.nodeAt_of_lt _ (by rw [h.length]; exact hp)
  obtain ⟨chain, hc⟩ := h.chains
  rw [TMap.DelKey] at hrun
  simp only [hnd] at hrun
  cases hnil : mpNode.IsNil
  · rw [hnil] at hrun
    simp only [Bool.false_eq_true, if_false] at hrun
    have hused : m.usedB (m.MainPosition traits k) = true := by
      rw [m.usedB_of_nodeAt _ mpNode hnd, hnil]
      rfl
    obtain ⟨k0, hk0⟩ := h.keys _ hused
    have hkey : mpNode.Key = some k0 := by rw [← m.keyAt_of_nodeAt _ mpNode hnd]; exact hk0
    have hnext := m.nextAt_of_nodeAt _ mpNode hnd
    generalize hpdef : m.MainPosition traits k = p at *
    have hplen : p < m.Nodes.length := by rw [h.length]; exact hp
    obtain ⟨nx, ky, vl⟩ := mpNode
    simp only at hkey hnext
    subst hkey
    simp only at hrun
    cases hcmp : traits.Compare k0 k
    · -- the key is in its main position
      rw [hcmp] at hrun
      simp only [Bool.not_false, if_true] at hrun
      have hkk : m.MainPosition traits k0 = p := hsame2 k0 hcmp
      cases nx with
      | node n =>
        simp only at hrun
        cases hndn : m.nodeAt n with
        | error e => rw [hndn] at hrun; cases hrun
        | ok nd =>
          rw [hndn] at hrun
          simp only at hrun
          have hnp : p ≠ n := by
            intro hh
            rw [← hh] at hnext
            exact h.next_not_self p hnext
          have hnd1 : (m.setNode p nd).nodeAt n = .ok nd := by
            rw [TMap.nodeAt_setNode_ne m p n nd hnp]
            exact hndn
          rw [hnd1] at hrun
          simp only [Except.ok.injEq] at hrun
          have hnn := m.nextAt_of_nodeAt n nd hndn
          have hkn := m.keyAt_of_nodeAt n nd hndn
          obtain ⟨hN, hK, hS, hLen, hLF, hNU⟩ :=
            TMap.unlink_run m p n nd nd _ hplen hndn hnp m1 hrun.symm
          -- the table with `n` unlinked and the key of `p` kept
          obtain ⟨A, hAdef⟩ : ∃ A : TMap K V, A = { TMap.setNode
              (m.setNode p ⟨nd.Next, some k0, vl⟩) n { nd with Next := NodePtr.one } with
              NumUsed := (m.NumUsed + 2 ^ 32 - 1) % 2 ^ 32 } := ⟨_, rfl⟩
          obtain ⟨aN, aK, aS, aLen, aLF, aNU⟩ :=
            TMap.unlink_run m p n ⟨nd.Next, some k0, vl⟩ nd
              ((m.NumUsed + 2 ^ 32 - 1) % 2 ^ 32) hplen hndn hnp A hAdef
          clear hAdef
          simp only at aN aK
          rw [← hnn] at aN
          have aK2 := aK.trans (Function.update_eq_self_iff.mpr hk0.symm)
          obtain ⟨hnused, _, hU, hsame, hch⟩ :=
            hc.unlink h.keys p n hnext aN (fun j _ => by rw [aK2]) aS
          have hA := h.node_freed n hU (fun j _ => by rw [aK2]) aS aLen
            (by rw [aLF]; exact h.lastFree) hch
          obtain ⟨kn, hknn⟩ := h.keys n hnused
          have hndk : nd.Key = some kn := by rw [← hkn]; exact hknn
          apply hA.rekeyed p k0 kn
          · rw [hU p, if_neg hnp]
            exact hused
          · rw [aK2]
            exact hk0
          · rw [TMap.mainPosition_congr traits m A kn aS,
              TMap.mainPosition_congr traits m A k0 aS]
            exact hsame kn k0 hknn hk0
          · rw [hN, aN, hnn]
          · rw [hK, aK2, hndk]
          · rw [hS, aS]
          · rw [hLen, aLen]
          · rw [hLF, aS]
            exact h.lastFree
      | null =>
        simp only [Except.ok.injEq] at hrun
        have hpmem : p ∈ chain p := by
          have := hc.2.2.2.2 p k0 hused hk0
          rw [hkk] at this
          exact this
        have hsingle : chain p = [p] := by
          rcases hc.1 p with h0 | ⟨t, ht⟩
          · rw [h0] at hpmem
            cases hpmem
          · have hl := hc.2.1 p
            rw [ht] at hl
            have := hl.1
            rw [hnext] at this
            cases t with
            | nil => exact ht
            | cons b t2 => simp [headPtr] at this
        obtain ⟨hN, hK, hS, hLen, hLF, hNU⟩ :=
          TMap.clear_run m p ⟨NodePtr.null, some k0, vl⟩ _ hnd m1 hrun.symm
        have hU : ∀ j, m1.usedB j = if j = p then false else m.usedB j := by
          intro j
          rw [TMap.usedB_update m _ p _ hN j]
          simp
        exact h.node_freed p hU (fun j _ => by rw [hK]) hS hLen
          (by rw [hLF]; exact h.lastFree)
          ⟨_, hc.remove_single p hsingle hN (fun j _ => by rw [hK]) hS⟩
      | one =>
        exfalso
        simp [TMap.Node.IsNil] at hnil
    · -- the key is not in its main position
      rw [hcmp] at hrun
      simp only [Bool.not_true, Bool.false_eq_true, if_false] at hrun
      cases hloop : delKeyLoop traits m k (m.Size + 1) p nx with
      | error e => rw [hloop] at hrun; cases hrun
      | ok r =>
        rw [hloop] at hrun
        cases r with
        | none =>
          simp only [Except.ok.injEq] at hrun
          subst hrun
          exact h
        | some pi =>
          obtain ⟨prev, i⟩ := pi
          simp only at hrun
          have hpred := delKeyLoop_pred traits m k (m.Size + 1) p nx prev i hnext hloop
          cases hndi : m.nodeAt i with
          | error e => rw [hndi] at hrun; cases hrun
          | ok nd =>
            rw [hndi] at hrun
            simp only at hrun
            obtain ⟨prevNode, hprev, hprevnx⟩ := (m.nextAt_eq_some prev _).mp hpred
            rw [hprev] at hrun
            simp only at hrun
            have hpi : prev ≠ i := by
              intro hh
              rw [hh] at hpred
              exact h.next_not_self i hpred
            have hnd1 : (m.setNode prev { prevNode with Next := nd.Next }).nodeAt i
                = .ok nd := by
              rw [TMap.nodeAt_setNode_ne m prev i _ hpi]
              exact hndi
            rw [hnd1] at hrun
            simp only [Except.ok.injEq] at hrun
            have hni := m.nextAt_of_nodeAt i nd hndi
            obtain ⟨hN, hK, hS, hLen, hLF, hNU⟩ :=
              TMap.unlink_run m prev i { prevNode with Next := nd.Next } nd _
                (m.nodeAt_lt prev prevNode hprev) hndi hpi m1 hrun.symm
            simp only at hN hK
            rw [← hni] at hN
            have hK2 := hK.trans (Function.update_eq_self_iff.mpr
              (m.keyAt_of_nodeAt prev prevNode hprev).symm)
            obtain ⟨hiused, _, hU, _, hch⟩ :=
              hc.unlink h.keys prev i hpred hN (fun j _ => by rw [hK2]) hS
            exact h.node_freed i hU (fun j _ => by rw [hK2]) hS hLen
              (by rw [hLF]; exact h.lastFree) hch
  · rw [hnil] at hrun
    simp only [if_true, Except.ok.injEq] at hrun
    subst hrun
    exact h

/-- One call of `NewKey`: either it places the key without a rehash and keeps
the invariant, or it rehashes and calls itself on the grown table. -/
theorem TMap.Sound.step {K V : Type} {traits : THashTraits K} {m : TMap K V}
    (h : m.Sound traits) (k : K) (fuel : Nat) :
    (∃ m1 idx, TMap.NewKey traits (fuel + 1) m k = .ok (m1, idx) ∧ m1.Sound traits) ∨
    (∃ lf : Int, lf ≤ m.LastFree ∧
      TMap.NewKey traits (fuel + 1) m k =
        match TMap.ResizeWith (TMap.NewKey traits fuel) { m with LastFree := lf }
          ((m.Size <<< 1) % 2 ^ 32) with
        | .error e => .error e
        | .ok m2 => TMap.NewKey traits fuel m2 k) := by
  have hp := h.position_lt k
  obtain ⟨mpNode, hnd, _⟩ := m.nodeAt_of_lt _ (by rw [h.length]; exact hp)
  cases hnil : mpNode.IsNil
  · have hused : m.usedB (m.MainPosition traits k) = true := by
      rw [m.usedB_of_nodeAt _ mpNode hnd, hnil]
      rfl
    rcases m.getFreePos_spec (by rw [h.length]; exact h.lastFree) with
      ⟨n, hg, hlt, hnfree, _⟩ | ⟨lf, hg, hlf, _⟩
    · left
      have hnS : (n : Int) ≤ m.Size := le_trans (le_of_lt hlt) h.lastFree
      have h1 : TMap.Sound traits { m with LastFree := n } := h.withFree n hnS
      have hnlen : n < m.Nodes.length := by
        rw [h.length]
        have := h.lastFree
        omega
      obtain ⟨k0, hk0⟩ := h.keys _ hused
      have hkey : mpNode.Key = some k0 := by rw [← m.keyAt_of_nodeAt _ mpNode hnd]; exact hk0
      by_cases haway : m.MainPosition traits k0 = m.MainPosition traits k
      · obtain ⟨free, hfree, _⟩ := m.nodeAt_of_lt n hnlen
        obtain ⟨m1, hrun, hsound, _⟩ :=
          h1.chain_run k k0 mpNode free n hnd hnil hkey haway hfree hnfree
        refine ⟨m1, n, ?_, hsound⟩
        rw [TMap.NewKey]
        simp only [hnd, hnil, hg, hkey]
        have hoth : TMap.MainPosition traits { m with LastFree := n } k0
            = m.MainPosition traits k := haway
        simp only [hoth, ne_eq, not_true_eq_false, if_false, Bool.false_eq_true]
        have hfree' : TMap.nodeAt { m with LastFree := n } n = .ok free := hfree
        simp only [hfree']
        simp only [hkey] at hrun
        exact hrun
      · obtain ⟨prev, hfp, hprevN⟩ :=
          h1.previous_found (m.MainPosition traits k) k0 hused hk0 haway
        obtain ⟨prevNode, hprev, hprevnx⟩ := (TMap.nextAt_eq_some _ prev _).mp hprevN
        obtain ⟨hmoved, m1, hrun, hsound, _⟩ :=
          h1.move_run k k0 mpNode prevNode n prev hnd hnil hkey haway hnlen hnfree hprev hprevnx
        refine ⟨m1, m.MainPosition traits k, ?_, hsound⟩
        rw [TMap.NewKey]
        simp only [hnd, hnil, hg, hkey]
        have hoth : TMap.MainPosition traits { m with LastFree := n } k0
            ≠ m.MainPosition traits k := haway
        simp only [ne_eq, hoth, not_false_eq_true, if_true, Bool.false_eq_true, if_false]
        have hfp' : ZDRay.findPrevious { m with LastFree := n } (m.MainPosition traits k)
            (m.Size + 1) (TMap.MainPosition traits { m with LastFree := n } k0)
            = .ok prev := hfp
        have hprev' : TMap.nodeAt { m with LastFree := n } prev = .ok prevNode := hprev
        have hmoved' : (TMap.setNode { m with LastFree := n } prev
            { prevNode with Next := NodePtr.node n }).nodeAt (m.MainPosition traits k)
            = .ok mpNode := hmoved
        simp only [hfp', hprev', hmoved']
        exact hrun
    · right
      refine ⟨lf, hlf, ?_⟩
      rw [TMap.NewKey]
      simp only [hnd, hnil, hg]
      rfl
  · left
    obtain ⟨m1, hrun, hsound, _⟩ := h.free_run k mpNode hnd hnil
    refine ⟨m1, m.MainPosition traits k, ?_, hsound⟩
    rw [TMap.NewKey]
    simp only [hnd, hnil, if_true]
    exact hrun

/-- Constructing or assigning a value keeps the invariant. -/
theorem TMap.Sound.value_set {K V : Type} {traits : THashTraits K} {m m1 : TMap K V}
    (h : m.Sound traits) (n : Nat) (v : Option V) (hrun : m.setValue n v = .ok m1) :
    m1.Sound traits := by
  have hn : n < m.Nodes.length := by
    by_contra hcon
    unfold TMap.setValue TMap.nodeAt at hrun
    rw [List.get?_eq_none.mpr (not_lt.mp hcon)] at hrun
    cases hrun
  obtain ⟨m2, hrun2, f1, f2, f3, _, f5, f6, _⟩ := m.setValue_ok n v hn
  rw [hrun2] at hrun
  cases hrun
  exact h.sound_congr f5 f6 f1 f3 (by rw [f2]; exact h.lastFree)

/-- The loop of `Resize` keeps the invariant of the new table when `NewKey`
does. -/
theorem resizeLoop_sound {K V : Type} {traits : THashTraits K}
    (newKey : TMap K V → K → Except Fault (TMap K V × Nat)) (nold : List (TMap.Node K V))
    (hNK : ∀ (m : TMap K V) (k : K) (m1 : TMap K V) (idx : Nat), m.Sound traits →
      newKey m k = .ok (m1, idx) → m1.Sound traits) :
    ∀ (is : List Nat) (m m2 : TMap K V), m.Sound traits →
      resizeLoop newKey nold is m = .ok m2 → m2.Sound traits := by
  intro is
  induction is with
  | nil =>
    intro m m2 h hrun
    simp only [resizeLoop, Except.ok.injEq] at hrun
    subst hrun
    exact h
  | cons i rest ih =>
    intro m m2 h hrun
    rw [resizeLoop] at hrun
    cases hget : nold.get? i with
    | none => rw [hget] at hrun; cases hrun
    | some nd =>
      rw [hget] at hrun
      simp only at hrun
      cases hnil : nd.IsNil
      · rw [hnil] at hrun
        simp only [Bool.false_eq_true, if_false] at hrun
        cases hk : nd.Key with
        | none => rw [hk] at hrun; cases hrun
        | some k =>
          rw [hk] at hrun
          simp only at hrun
          cases hnew : newKey m k with
          | error e => rw [hnew] at hrun; cases hrun
          | ok r =>
            obtain ⟨m1, n⟩ := r
            rw [hnew] at hrun
            simp only at hrun
            cases hset : m1.setValue n nd.Value with
            | error e => rw [hset] at hrun; cases hrun
            | ok m3 =>
              rw [hset] at hrun
              simp only at hrun
              exact ih m3 m2 ((hNK m k m1 n h hnew).value_set n nd.Value hset) hrun
      · rw [hnil] at hrun
        simp only [if_true] at hrun
        exact ih m m2 h hrun

/-- `Resize` builds a table with the invariant when `NewKey` keeps it. -/
theorem resizeWith_sound {K V : Type} {traits : THashTraits K}
    (newKey : TMap K V → K → Except Fault (TMap K V × Nat))
    (hNK : ∀ (m : TMap K V) (k : K) (m1 : TMap K V) (idx : Nat), m.Sound traits →
      newKey m k = .ok (m1, idx) → m1.Sound traits)
    (m m2 : TMap K V) (nhsize : Nat) (hrun : TMap.ResizeWith newKey m nhsize = .ok m2) :
    m2.Sound traits := by
  unfold TMap.ResizeWith TMap.SetNodeVector at hrun
  cases hr : roundUpSize nhsize 33 1 with
  | error e => rw [hr] at hrun; cases hrun
  | ok s =>
    rw [hr] at hrun
    obtain ⟨j, hj, hs⟩ := roundUpSize_pow nhsize 33 0 s (by norm_num) hr
    subst hs
    have hfresh := (TMap.WF.fresh_vector traits j hj
      ({ Nodes := List.replicate (2 ^ j) ⟨NodePtr.one, none, none⟩,
         LastFree := (2 ^ j : Nat), Size := 2 ^ j, NumUsed := 0 } : TMap K V)
      rfl rfl rfl rfl).1.toSound
    exact resizeLoop_sound newKey m.Nodes hNK (List.range m.Size) _ m2 hfresh hrun

/-- Whatever `NewKey` returns on a table with the invariant has the invariant. -/
theorem TMap.Sound.newKey_sound {K V : Type} {traits : THashTraits K} (fuel : Nat) :
    ∀ (m : TMap K V) (k : K) (m1 : TMap K V) (idx : Nat), m.Sound traits →
      TMap.NewKey traits fuel m k = .ok (m1, idx) → m1.Sound traits := by
  induction fuel with
  | zero =>
    intro m k m1 idx _ hrun
    cases hrun
  | succ fuel ih =>
    intro m k m1 idx h hrun
    rcases h.step k fuel with ⟨m2, idx2, hrun2, hs⟩ | ⟨lf, _, heq⟩
    · rw [hrun2] at hrun
      cases hrun
      exact hs
    · rw [heq] at hrun
      cases hres : TMap.ResizeWith (TMap.NewKey traits fuel) { m with LastFree := lf }
          ((m.Size <<< 1) % 2 ^ 32) with
      | error e => rw [hres] at hrun; cases hrun
      | ok m2 =>
        rw [hres] at hrun
        simp only at hrun
        exact ih m2 k m1 idx (resizeWith_sound _ ih _ m2 _ hres) hrun

theorem TMap.Sound.insert_sound {K V : Type} {traits : THashTraits K} {m m1 : TMap K V}
    (h : m.Sound traits) (fuel : Nat) (key : K) (value : V)
    (hrun : TMap.Insert traits fuel m key value = .ok m1) : m1.Sound traits := by
  unfold TMap.Insert at hrun
  cases hfind : m.FindKey traits key with
  | error e => rw [hfind] at hrun; cases hrun
  | ok r =>
    rw [hfind] at hrun
    cases r with
    | some n => exact h.value_set n _ hrun
    | none =>
      simp only at hrun
      cases hnew : TMap.NewKey traits fuel m key with
      | error e => rw [hnew] at hrun; cases hrun
      | ok r2 =>
        obtain ⟨m2, n⟩ := r2
        rw [hnew] at hrun
        exact (TMap.Sound.newKey_sound fuel m key m2 n h hnew).value_set n _ hrun

theorem TMap.Sound.getNode_sound {K V : Type} {traits : THashTraits K} {m m1 : TMap K V}
    (h : m.Sound traits) (init : V) (fuel : Nat) (key : K) (n : Nat)
    (hrun : TMap.GetNode traits init fuel m key = .ok (m1, n)) : m1.Sound traits := by
  unfold TMap.GetNode at hrun
  cases hfind : m.FindKey traits key with
  | error e => rw [hfind] at hrun; cases hrun
  | ok r =>
    rw [hfind] at hrun
    cases r with
    | some n1 =>
      simp only [Except.ok.injEq, Prod.mk.injEq] at hrun
      rw [← hrun.1]
      exact h
    | none =>
      simp only at hrun
      cases hnew : TMap.NewKey traits fuel m key with
      | error e => rw [hnew] at hrun; cases hrun
      | ok r2 =>
        obtain ⟨m2, n2⟩ := r2
        rw [hnew] at hrun
        simp only at hrun
        cases hset : m2.setValue n2 (some init) with
        | error e => rw [hset] at hrun; cases hrun
        | ok m3 =>
          rw [hset] at hrun
          simp only [Except.ok.injEq, Prod.mk.injEq] at hrun
          rw [← hrun.1]
          exact (TMap.Sound.newKey_sound fuel m key m2 n2 h hnew).value_set n2 _ hset

/-- Every table built from `TMap()` by `Insert`, `operator[]`, `Remove` and
`Rehash` has the structural invariant, when keys that compare equal have the
same main position. -/
theorem TMap.Built.sound {K V : Type} {traits : THashTraits K} (hcons : traits.Consistent)
    {init : V} {m : TMap K V} (h : TMap.Built traits init m) : m.Sound traits := by
  induction h with
  | create m hm => exact (TMap.WF.create traits m hm).toSound
  | insert m m1 fuel key value _ hrun ih => exact ih.insert_sound fuel key value hrun
  | index m m1 fuel key n _ hrun ih => exact ih.getNode_sound _ fuel key n hrun
  | remove m m1 key _ hrun ih => exact ih.delKey_sound hcons key hrun
  | rehash m m1 fuel _ hrun ih =>
    exact resizeWith_sound _ (TMap.Sound.newKey_sound fuel) m m1 _ hrun

theorem intTraits_consistent : intTraits.Consistent := by
  intro a b h
  simp only [intTraits, decide_eq_false_iff_not, ne_eq, not_not] at h
  rw [h]

theorem floatTraits_consistent : floatTraits.Consistent := by
  intro a b h
  simp only [floatTraits, Bool.or_eq_false_iff, Bool.not_eq_false', Bool.or_eq_true,
    Bool.and_eq_true, decide_eq_true_eq] at h
  rcases h.2 with h1 | ⟨ha, hb⟩
  · rw [h1]
  · have e : (0x7FFFFFFF : Nat) = 2 ^ 31 - 1 := by norm_num
    rw [e, Nat.and_pow_two_sub_one_eq_mod] at ha hb
    show a % 2 ^ 31 = b % 2 ^ 31
    rw [ha, hb]

theorem doubleTraits_consistent : doubleTraits.Consistent := by
  intro a b h
  simp only [doubleTraits, Bool.or_eq_false_iff, Bool.not_eq_false', Bool.or_eq_true,
    Bool.and_eq_true, decide_eq_true_eq] at h
  rcases h.2 with h1 | ⟨ha, hb⟩
  · rw [h1]
  · have e : (0x7FFFFFFFFFFFFFFF : Nat) = 2 ^ 63 - 1 := by norm_num
    rw [e, Nat.and_pow_two_sub_one_eq_mod] at ha hb
    have key : ∀ x : Nat, x % 2 ^ 63 = 0 →
        ((x % 2 ^ 32) ^^^ (x / 2 ^ 32 % 2 ^ 32)) % 2 ^ 31 = 0 := by
      intro x hx
      have h0 : x % 2 ^ 32 = 0 := by omega
      have h1 : (x / 2 ^ 32 % 2 ^ 32) % 2 ^ 31 = 0 := by omega
      rw [h0, Nat.zero_xor, h1]
    show ((a % 2 ^ 32) ^^^ (a / 2 ^ 32 % 2 ^ 32)) % 2 ^ 31
      = ((b % 2 ^ 32) ^^^ (b / 2 ^ 32 % 2 ^ 32)) % 2 ^ 31
    rw [key a ha, key b hb]

/-- C34, as worded for every chain followed from a main position, fails: a
position that is the main position of no stored key can hold a node of another
chain.  In the table built by `TMap()`, `Insert(0, 10)`, `Insert(4, 20)` and
`Insert(1, 30)` with integer keys, position 3 (the main position of the key `3`)
holds the key `4`, whose main position is 0; the chain followed from position 3
is that one node, which is not nil and ends the chain with `NULL`. -/
theorem C34_counterexample :
    intTraits.Consistent ∧ TMap.Built intTraits (0 : Nat) intTable ∧
    intTable.MainPosition intTraits 3 = 3 ∧ intTable.usedB 3 = true ∧
    intTable.nextAt 3 = some NodePtr.null ∧ intTable.keyAt 3 = some 4 ∧
    intTable.MainPosition intTraits 4 = 0 := by
  have b0 : TMap.Built intTraits (0 : Nat)
      (⟨[⟨NodePtr.one, none, none⟩], 1, 1, 0⟩ : TMap Nat Nat) :=
    TMap.Built.create _ (by decide!)
  have b1 : TMap.Built intTraits (0 : Nat)
      (⟨[⟨NodePtr.null, some 0, some 10⟩], 1, 1, 1⟩ : TMap Nat Nat) :=
    TMap.Built.insert _ _ 2 0 10 b0 (by decide!)
  have b2 : TMap.Built intTraits (0 : Nat)
      (⟨[⟨NodePtr.node 1, some 0, some 10⟩, ⟨NodePtr.null, some 4, some 20⟩],
        1, 2, 2⟩ : TMap Nat Nat) :=
    TMap.Built.insert _ _ 2 4 20 b1 (by decide!)
  have b3 : TMap.Built intTraits (0 : Nat) intTable :=
    TMap.Built.insert _ _ 2 1 30 b2 (by decide!)
  exact ⟨intTraits_consistent, b3, by decide!, by decide!, by decide!, by decide!, by decide!⟩

/-- C34, amended: for a key type whose `Compare`-equal keys agree in the low 31
bits of their hashes (every `THashTraits` of the source), every table built from
`TMap()` by `Insert`, `operator[]`, `Remove` and `Rehash` has a `Size` that is a power of
two; every node in use holds a key; and for every stored key the chain followed
from its main position via `Next` is a list of distinct nodes that ends at
`NULL`, consists of nodes in use whose keys hash to that main position, and
contains the node of the key.  In particular the node in the main position of a
stored key holds a key that is in its own main position. -/
theorem C34_main_invariant {K V : Type} (traits : THashTraits K) (hcons : traits.Consistent)
    (init : V) (m : TMap K V) (hreach : TMap.Built traits init m) :
    (∃ j, j ≤ 31 ∧ m.Size = 2 ^ j) ∧
    (∀ i, m.usedB i = true → ∃ k, m.keyAt i = some k) ∧
    ∀ i k, m.usedB i = true → m.keyAt i = some k →
      (∃ t, m.Linked (m.MainPosition traits k :: t) ∧
        (m.MainPosition traits k :: t).Nodup ∧
        i ∈ m.MainPosition traits k :: t ∧
        ∀ n ∈ m.MainPosition traits k :: t, m.usedB n = true ∧
          ∃ k1, m.keyAt n = some k1 ∧ m.MainPosition traits k1 = m.MainPosition traits k) ∧
      (i ≠ m.MainPosition traits k →
        m.usedB (m.MainPosition traits k) = true ∧
        ∃ k1, m.keyAt (m.MainPosition traits k) = some k1 ∧
          m.MainPosition traits k1 = m.MainPosition traits k) := by
  have hs := hreach.sound hcons
  obtain ⟨chain, hc⟩ := hs.chains
  refine ⟨hs.size, hs.keys, ?_⟩
  intro i k hu hk
  have hmem : i ∈ chain (m.MainPosition traits k) := hc.2.2.2.2 i k hu hk
  have hhead := hc.head_mem _ i hmem
  refine ⟨?_, fun _ => ⟨hc.chain_used _ _ hhead, hc.2.2.2.1 _ _ hhead⟩⟩
  rcases hc.1 (m.MainPosition traits k) with h0 | ⟨t, ht⟩
  · rw [h0] at hmem
    cases hmem
  · refine ⟨t, ?_, ?_, ?_, ?_⟩
    · rw [← ht]
      exact hc.2.1 _
    · rw [← ht]
      exact hc.2.2.1 _
    · rw [← ht]
      exact hmem
    · intro n hn
      rw [← ht] at hn
      exact ⟨hc.chain_used _ _ hn, hc.2.2.2.1 _ _ hn⟩

theorem floatTable_built : TMap.Built floatTraits (0 : Nat) floatTable := by
  have b0 : TMap.Built floatTraits (0 : Nat)
      (⟨[⟨NodePtr.one, none, none⟩], 1, 1, 0⟩ : TMap Nat Nat) :=
    TMap.Built.create _ (by decide!)
  have b1 : TMap.Built floatTraits (0 : Nat)
      (⟨[⟨NodePtr.null, some 0, some 10⟩], 1, 1, 1⟩ : TMap Nat Nat) :=
    TMap.Built.insert _ _ 2 0 10 b0 (by decide!)
  have b2 : TMap.Built floatTraits (0 : Nat)
      (⟨[⟨NodePtr.node 1, some 0, some 10⟩, ⟨NodePtr.null, some 2143289344, some 0⟩],
        1, 2, 2⟩ : TMap Nat Nat) :=
    TMap.Built.index _ _ 2 0x7FC00000 1 b1 (by decide!)
  have b3 : TMap.Built floatTraits (0 : Nat)
      (⟨[⟨NodePtr.node 2, some 0, some 10⟩, ⟨NodePtr.one, none, none⟩,
        ⟨NodePtr.node 3, some 2143289344, some 0⟩, ⟨NodePtr.null, some 2143289344, some 0⟩],
        2, 4, 3⟩ : TMap Nat Nat) :=
    TMap.Built.index _ _ 2 0x7FC00000 2 b2 (by decide!)
  have b4 : TMap.Built floatTraits (0 : Nat)
      (⟨[⟨NodePtr.node 2, some 0, some 20⟩, ⟨NodePtr.one, none, none⟩,
        ⟨NodePtr.node 3, some 2143289344, some 0⟩, ⟨NodePtr.null, some 2143289344, some 0⟩],
        2, 4, 3⟩ : TMap Nat Nat) :=
    TMap.Built.insert _ _ 2 0x80000000 20 b3 (by decide!)
  have b5 : TMap.Built floatTraits (0 : Nat)
      (⟨[⟨NodePtr.node 2, some 0, some 20⟩, ⟨NodePtr.null, some 1065353217, some 30⟩,
        ⟨NodePtr.node 3, some 2143289344, some 0⟩, ⟨NodePtr.null, some 2143289344, some 0⟩],
        2, 4, 4⟩ : TMap Nat Nat) :=
    TMap.Built.insert _ _ 2 0x3F800001 30 b4 (by decide!)
  have b6 : TMap.Built floatTraits (0 : Nat)
      (⟨[⟨NodePtr.node 3, some 2143289344, some 0⟩, ⟨NodePtr.null, some 1065353217, some 30⟩,
        ⟨NodePtr.one, some 2143289344, some 0⟩, ⟨NodePtr.null, some 2143289344, some 0⟩],
        2, 4, 3⟩ : TMap Nat Nat) :=
    TMap.Built.remove _ _ 0x80000000 b5 (by decide!)
  exact TMap.Built.rehash _ _ 2 b6 (by decide!)

/-- C34 at a concrete table of `float` keys, built with every one of the five
operations and holding two NaN keys in one chain. -/
theorem C34_witness :
    floatTraits.Consistent ∧ TMap.Built floatTraits (0 : Nat) floatTable ∧
    (∃ j, j ≤ 31 ∧ floatTable.Size = 2 ^ j) ∧
    (∀ i, floatTable.usedB i = true → ∃ k, floatTable.keyAt i = some k) ∧
    ∀ i k, floatTable.usedB i = true → floatTable.keyAt i = some k →
      (∃ t, floatTable.Linked (floatTable.MainPosition floatTraits k :: t) ∧
        (floatTable.MainPosition floatTraits k :: t).Nodup ∧
        i ∈ floatTable.MainPosition floatTraits k :: t ∧
        ∀ n ∈ floatTable.MainPosition floatTraits k :: t, floatTable.usedB n = true ∧
          ∃ k1, floatTable.keyAt n = some k1 ∧
            floatTable.MainPosition floatTraits k1 = floatTable.MainPosition floatTraits k) ∧
      (i ≠ floatTable.MainPosition floatTraits k →
        floatTable.usedB (floatTable.MainPosition floatTraits k) = true ∧
        ∃ k1, floatTable.keyAt (floatTable.MainPosition floatTraits k) = some k1 ∧
          floatTable.MainPosition floatTraits k1 = floatTable.MainPosition floatTraits k) :=
  ⟨floatTraits_consistent, floatTable_built,
    C34_main_invariant floatTraits floatTraits_consistent 0 floatTable floatTable_built⟩

end ZDRay
